import Mathlib

/-!
# selfdiff: mean squared displacement, velocity autocorrelation, LAMMPS frame store, PBC unwrap

A shallow embedding of the Go packages `pkg/msd`, `pkg/vac`, `pkg/msd/lammpstrj`
and `pkg/cfg`.

Modelling conventions
* `float64` is idealised as `ℚ`: rounding, NaN and the infinities are outside the
  model (so `x / 0` is Lean's `0`, where Go gives `±Inf` or `NaN`). The MSD path
  (`MSD.Perform`, `MSD.Write`, the lammpstrj frame store) is embedded a second time in
  namespace `ieee`, with NaN and the infinities, for the statements that depend on them.
* Go `int` is `Int` (64-bit overflow is not modelled); the one explicit narrowing
  conversion of the code, `uint32(bTot)`, is modelled with `% 2 ^ 32`. In `Cfg.Check`
  the difference `End - Start` is wrapped to 64 bits, to show that the tests before it keep
  it from overflowing.
* A file is its list of bytes, one `Char` per byte (the trajectories are ASCII text);
  a `bufio.Reader` is the list of bytes not yet consumed.
* A function that returns a Go `error` returns `Except Err _`; a run-time panic
  (index out of range, `make` with a negative length) is an `Err` of its own.
* `strconv.ParseFloat` and `strconv.AppendFloat` are library code: they are the
  parameters `pf` and `ff` of the functions that call them.
-/

namespace SelfDiff

/-- Errors returned by the code, and the run-time panics it can raise. -/
inductive Err where
  | notEnoughColumns
  | missingColumns
  | columnsMismatch
  | boxSize
  | createFailed
  | header (e : Err)
  | firstCfg (e : Err)
  | method (n : Nat)
  | panicIndex
  | panicMakeLen
  | fuel
  deriving DecidableEq

/-- Go `[3]float64`. -/
abbrev Vec3 := Fin 3 → ℚ

/-- Go `[][3]float64`: one point per molecule. -/
abbrev Frame := List Vec3

/-- The `Method` interface of packages `msd` and `vac` (`End` only closes the file).
`μ` is the struct the method holds a pointer to, `σ` the method's own state after `Read`. -/
structure Method (μ σ : Type) where
  Read : μ → Except Err σ
  GetCfg : σ → Int → Except Err Frame

/-- The two innermost loops shared by `MSD.Perform` and `VAC.Perform`:
`for mol := 0; mol < Mol; mol++ { for k := 0; k < 3; k++ { Res[idx] += contrib(icfg[mol][k], tcfg[mol][k]) } }`. -/
def pairLoop (contrib : ℚ → ℚ → ℚ) (Mol : Int) (icfg tcfg : Frame) (idx : Nat)
    (res : List ℚ) : Except Err (List ℚ) :=
  (List.range Mol.toNat).foldlM (fun res mol =>
    (List.finRange 3).foldlM (fun res k =>
      match icfg[mol]?, tcfg[mol]?, res[idx]? with
      | some a, some b, some r => Except.ok (res.set idx (r + contrib (a k) (b k)))
      | _, _, _ => Except.error Err.panicIndex) res) res

namespace msd

/-- Go `msd.MSD` (without the file names and the `Method` field, which is passed apart). -/
structure MSD where
  Start : Int
  End : Int
  Mem : Int
  Tot : Int
  MemPos : Int
  AtTot : Int
  At : Int
  Mol : Int
  Masses : List ℚ
  Dt : ℚ
  Res : List ℚ

/-- The first four assignments of `MSD.Perform`. -/
def MSD.setup (m : MSD) : MSD :=
  { m with
    Tot := m.End - m.Start
    Res := List.replicate (m.End - m.Start - 1).toNat 0
    AtTot := m.At * m.Mol
    MemPos := m.End - m.Start - m.Mem }

/-- The contribution of one coordinate pair: `pow := a - b; Res[...] += pow * pow`. -/
def sq (a b : ℚ) : ℚ := (a - b) * (a - b)

/-- Go `(*MSD).Perform`. -/
def MSD.Perform {σ : Type} (meth : Method MSD σ) (m0 : MSD) : Except Err MSD :=
  if m0.End - m0.Start - 1 < 0 then Except.error Err.panicMakeLen else
  let m := m0.setup
  match meth.Read m with
  | Except.error e => Except.error e
  | Except.ok s =>
    match (List.range (m.Tot - 1).toNat).foldlM (fun (res : List ℚ) (i : Nat) =>
        match meth.GetCfg s (i : Int) with
        | Except.error e => Except.error e
        | Except.ok icfg =>
          (List.range' (i + 1) (m.Tot.toNat - (i + 1))).foldlM (fun (res : List ℚ) (j : Nat) =>
            match meth.GetCfg s (j : Int) with
            | Except.error e => Except.error e
            | Except.ok tcfg => pairLoop sq m.Mol icfg tcfg (j - i - 1) res) res) m.Res with
    | Except.error e => Except.error e
    | Except.ok res => Except.ok { m with Res := res }

/-- Go `(*MSD).Write`: normalises `Res` in place and prints one line per lag.
`created` says whether `os.Create` succeeded; the lines are returned as pairs. -/
def MSD.Write (created : Bool) (m : MSD) : Except Err (MSD × List (ℚ × ℚ)) :=
  if created = false then Except.error Err.createFailed else
  match (List.range (m.Tot - 1).toNat).foldlM (fun (st : List ℚ × List (ℚ × ℚ)) (i : Nat) =>
      match st.1[i]? with
      | none => Except.error Err.panicIndex
      | some r =>
        let v := r / (((m.Tot - 1 - (i : Int)) * m.Mol * 3 : Int) : ℚ)
        Except.ok (st.1.set i v, st.2 ++ [((((i : Int) + 1 : Int) : ℚ) * m.Dt, v)]))
      (m.Res, []) with
  | Except.error e => Except.error e
  | Except.ok st => Except.ok ({ m with Res := st.1 }, st.2)

end msd

namespace vac

/-- Go `vac.VAC` (without the file names and the `Method` field, which is passed apart). -/
structure VAC where
  Start : ℤ
  End : ℤ
  Mem : ℤ
  Tot : ℤ
  MemPos : ℤ
  AtTot : ℤ
  At : ℤ
  Mol : ℤ
  Masses : List ℚ
  Dt : ℚ
  Res : List ℚ
  ResDiv : ℚ
  Int : ℚ

/-- The first four assignments of `VAC.Perform`. -/
def VAC.setup (m : VAC) : VAC :=
  { m with
    Tot := m.End - m.Start
    Res := List.replicate (m.End - m.Start - 1).toNat 0
    AtTot := m.At * m.Mol
    MemPos := m.End - m.Start - m.Mem }

/-- The zero-lag loop of `VAC.Perform`:
`for mol ... { for k ... { ResDiv += icfg[mol][k] * icfg[mol][k] } }`. -/
def selfLoop (Mol : ℤ) (icfg : Frame) (resDiv : ℚ) : Except Err ℚ :=
  (List.range Mol.toNat).foldlM (fun rd mol =>
    (List.finRange 3).foldlM (fun rd k =>
      match icfg[mol]? with
      | some a => Except.ok (rd + a k * a k)
      | none => Except.error Err.panicIndex) rd) resDiv

/-- The contribution of one coordinate pair to `Res`: `icfg[mol][k] * tcfg[mol][k]`. -/
def dot (a b : ℚ) : ℚ := a * b

/-- Go `(*VAC).Perform`. -/
def VAC.Perform {σ : Type} (meth : Method VAC σ) (m0 : VAC) : Except Err VAC :=
  if m0.End - m0.Start - 1 < 0 then Except.error Err.panicMakeLen else
  let m := m0.setup
  match meth.Read m with
  | Except.error e => Except.error e
  | Except.ok s =>
    match (List.range (m.Tot - 1).toNat).foldlM (fun (st : List ℚ × ℚ) (i : Nat) =>
        match meth.GetCfg s (i : ℤ) with
        | Except.error e => Except.error e
        | Except.ok icfg =>
          match selfLoop m.Mol icfg st.2 with
          | Except.error e => Except.error e
          | Except.ok rd =>
            match (List.range' (i + 1) (m.Tot.toNat - (i + 1))).foldlM
                (fun (res : List ℚ) (j : Nat) =>
                  match meth.GetCfg s (j : ℤ) with
                  | Except.error e => Except.error e
                  | Except.ok tcfg => pairLoop dot m.Mol icfg tcfg (j - i - 1) res) st.1 with
            | Except.error e => Except.error e
            | Except.ok res => Except.ok (res, rd)) (m.Res, m.ResDiv) with
    | Except.error e => Except.error e
    | Except.ok st =>
      let resDiv := st.2 / ((((m.Tot - 1) * m.Mol * 3 : ℤ) : ℚ) / 2)
      match (List.range (m.Tot - 1).toNat).foldlM (fun (st : List ℚ × ℚ) (i : Nat) =>
          match st.1[i]? with
          | none => Except.error Err.panicIndex
          | some r =>
            let v := r / ((((m.Tot - 1 - (i : ℤ)) * m.Mol * 3 : ℤ) : ℚ) / 2)
            Except.ok (st.1.set i v, st.2 + v)) (st.1, m.Int) with
      | Except.error e => Except.error e
      | Except.ok st2 => Except.ok { m with Res := st2.1, ResDiv := resDiv, Int := st2.2 }

/-- Go `(*VAC).Write`: the `Integral` line, then one line `(i+1)*Dt  Res[i]  ResDiv` per lag.
`created` says whether `os.Create` succeeded. -/
def VAC.Write (created : Bool) (m : VAC) : Except Err (ℚ × List (ℚ × ℚ × ℚ)) :=
  if created = false then Except.error Err.createFailed else
  match (List.range (m.Tot - 1).toNat).foldlM (fun (out : List (ℚ × ℚ × ℚ)) (i : Nat) =>
      match m.Res[i]? with
      | none => Except.error Err.panicIndex
      | some r => Except.ok (out ++ [((((i : ℤ) + 1 : ℤ) : ℚ) * m.Dt, r, m.ResDiv)])) [] with
  | Except.error e => Except.error e
  | Except.ok out => Except.ok (m.Int, out)

end vac

/-! ## Byte-level readers and `strings.Fields` -/

/-- A Go `string` or `[]byte`, one `Char` per byte. -/
abbrev Str := List Char

/-- Reads up to and including the first newline, at most `n` bytes. -/
def readSliceAux : Nat → Str → Str × Str
  | 0, bs => ([], bs)
  | _ + 1, [] => ([], [])
  | n + 1, c :: bs =>
    if c = '\n' then ([c], bs) else (c :: (readSliceAux n bs).1, (readSliceAux n bs).2)

/-- Go `(*bufio.Reader).ReadSlice('\n')` on a reader of the default size (4096 bytes), its
error dropped as every caller does: the bytes up to and including the next newline; all
the remaining bytes when there is no newline left; the 4096 buffered bytes when the line is
longer than the buffer. Returns the slice and the reader after it. -/
def ReadSlice (r : Str) : Str × Str := readSliceAux 4096 r

/-- Go `readLine(r, b)`: the next line and `b + len(line)`, with the reader after it. -/
def readLine (r : Str) (b : Nat) : Str × Nat × Str :=
  ((ReadSlice r).1, b + (ReadSlice r).1.length, (ReadSlice r).2)

/-- The statement `_, bTot = readLine(r, bTot)` repeated `n` times. -/
def skipLines : Nat → Str → Nat → Str × Nat
  | 0, r, b => (r, b)
  | n + 1, r, b => skipLines n (readLine r b).2.2 (readLine r b).2.1

/-- The ASCII white space of `strings.Fields`: tab, newline, vertical tab, form feed,
carriage return and space. -/
def isSpace (c : Char) : Bool :=
  c = ' ' || c = '\t' || c = '\n' || c = Char.ofNat 11 || c = Char.ofNat 12 || c = '\r'

/-- The scan of `strings.Fields` with the field being read in `cur`. -/
def fieldsAux : Str → Str → List Str
  | [], cur => if cur = [] then [] else [cur]
  | c :: cs, cur =>
    if isSpace c then (if cur = [] then fieldsAux cs [] else cur :: fieldsAux cs [])
    else fieldsAux cs (cur ++ [c])

/-- Go `strings.Fields` on ASCII text: the maximal runs of bytes that are not white space. -/
def Fields (s : Str) : List Str := fieldsAux s []

/-- The statements shared by `MSD.Read` (lines 132-137) and `MSD.GetCfg` (lines 176-181):
`for k := 0; k < 3; k++ { pos, _ := strconv.ParseFloat(fields[m.cols[k]], 64);
tmpXYZ[k] += pos * m.Masses[a] }; mTot += m.Masses[a]`. -/
def accumAtom (pf : Str → ℚ) (cols : Fin 3 → Nat) (Masses : List ℚ) (fields : List Str)
    (a : Nat) (tmpXYZ : Vec3) (mTot : ℚ) : Except Err (Vec3 × ℚ) :=
  match (List.finRange 3).foldlM (fun (tmp : Vec3) (k : Fin 3) =>
      match fields[cols k]?, Masses[a]? with
      | some f, some ma => Except.ok (Function.update tmp k (tmp k + pf f * ma))
      | _, _ => Except.error Err.panicIndex) tmpXYZ with
  | Except.error e => Except.error e
  | Except.ok tmp =>
    match Masses[a]? with
    | some ma => Except.ok (tmp, mTot + ma)
    | none => Except.error Err.panicIndex

namespace lammpstrj

/-- Go `lammpstrj.MSD`: the fields of its own (the embedded `*msd.MSD` and the open file
are passed apart). `xyzB` holds `uint32` values. -/
structure MSD where
  cols : Fin 3 → Nat
  colsTot : Nat
  xyz : List Frame
  xyzB : List Nat

/-- Go `lammpstrj.New`. -/
def New : MSD := { cols := fun _ => 0, colsTot := 0, xyz := [], xyzB := [] }

/-- The column detection of `MSD.Read`: `for k, v := range fields { switch v { case "xu":
m.cols[0] = k; case "yu": m.cols[1] = k; case "zu": m.cols[2] = k; default: continue };
found++ }`, from index `k` on. -/
def detectU : List Str → Nat → (Fin 3 → Nat) × Nat → (Fin 3 → Nat) × Nat
  | [], _, st => st
  | v :: vs, k, st =>
    if v = ['x', 'u'] then detectU vs (k + 1) (Function.update st.1 0 k, st.2 + 1)
    else if v = ['y', 'u'] then detectU vs (k + 1) (Function.update st.1 1 k, st.2 + 1)
    else if v = ['z', 'u'] then detectU vs (k + 1) (Function.update st.1 2 k, st.2 + 1)
    else detectU vs (k + 1) st

/-- One pass of the atom loop of `MSD.Read` (lines 123-138); the state is the reader, `bTot`,
`tmpXYZ` and `mTot`. -/
def readAtom (pf : Str → ℚ) (cols : Fin 3 → Nat) (colsTot : Nat) (Masses : List ℚ)
    (st : Str × Nat × Vec3 × ℚ) (a : Nat) : Except Err (Str × Nat × Vec3 × ℚ) :=
  let l := readLine st.1 st.2.1
  let fields := Fields l.1
  if fields.length ≠ colsTot then Except.error Err.columnsMismatch else
  match accumAtom pf cols Masses fields a st.2.2.1 st.2.2.2 with
  | Except.error e => Except.error e
  | Except.ok t => Except.ok (l.2.2, l.2.1, t.1, t.2)

/-- One pass of the molecule loop of `MSD.Read` (lines 119-145); the state is the reader,
`bTot` and the frame `xyz` built so far. -/
def readMol (pf : Str → ℚ) (cols : Fin 3 → Nat) (colsTot : Nat) (At : ℤ) (Masses : List ℚ)
    (st : Str × Nat × Frame) (_mol : Nat) : Except Err (Str × Nat × Frame) :=
  match (List.range At.toNat).foldlM (readAtom pf cols colsTot Masses)
      (st.1, st.2.1, (fun _ => 0), 0) with
  | Except.error e => Except.error e
  | Except.ok t => Except.ok (t.1, t.2.1, st.2.2 ++ [fun k => t.2.2.1 k / t.2.2.2])

/-- The state of the loop over the resident frames in `MSD.Read`. -/
structure ReadState where
  r : Str
  bTot : Nat
  notFirst : Bool
  cols : Fin 3 → Nat
  colsTot : Nat
  xyz : List Frame

/-- One pass of the loop over the resident frames of `MSD.Read` (lines 71-147). -/
def readResident (pf : Str → ℚ) (m : msd.MSD) (st : ReadState) (_c : Nat) :
    Except Err ReadState :=
  let s8 := skipLines 8 st.r st.bTot
  let hdr : Except Err (Str × Nat × (Fin 3 → Nat) × Nat) :=
    if st.notFirst = false then
      let l := readLine s8.1 s8.2
      let fields := Fields l.1
      if fields.length ≤ 2 then Except.error Err.notEnoughColumns else
      let fields := fields.drop 2
      let det := detectU fields 0 (st.cols, 0)
      if det.2 < 3 then Except.error Err.missingColumns else
      Except.ok (l.2.2, l.2.1, det.1, fields.length)
    else
      let l := readLine s8.1 s8.2
      Except.ok (l.2.2, l.2.1, st.cols, st.colsTot)
  match hdr with
  | Except.error e => Except.error e
  | Except.ok h =>
    match (List.range m.Mol.toNat).foldlM (readMol pf h.2.2.1 h.2.2.2 m.At m.Masses)
        (h.1, h.2.1, []) with
    | Except.error e => Except.error e
    | Except.ok t =>
      Except.ok { r := t.1, bTot := t.2.1, notFirst := true, cols := h.2.2.1,
                  colsTot := h.2.2.2, xyz := st.xyz ++ [t.2.2] }

/-- One pass of the loop over the frames that are not kept in memory in `MSD.Read`
(lines 58-68); the state is the reader, `bTot` and `xyzB`. -/
def readOffset (AtTot : ℤ) (st : Str × Nat × List Nat) (_c : Nat) : Str × Nat × List Nat :=
  let s9 := skipLines 9 st.1 st.2.1
  let sA := skipLines AtTot.toNat s9.1 s9.2
  (sA.1, sA.2, st.2.2 ++ [s9.2 % 2 ^ 32])

/-- `MSD.Read` from the first frame of the window on: `r` is the reader and `bTot` the number
of bytes consumed once the frames before `Start` have been discarded. -/
def readWindow (pf : Str → ℚ) (m : msd.MSD) (l0 : MSD) (r : Str) (bTot : Nat) :
    Except Err MSD :=
  let off := (List.range (m.Tot - m.Mem).toNat).foldl (readOffset m.AtTot) (r, bTot, l0.xyzB)
  match (List.range m.Mem.toNat).foldlM (readResident pf m)
      { r := off.1, bTot := off.2.1, notFirst := false, cols := l0.cols,
        colsTot := l0.colsTot, xyz := l0.xyz } with
  | Except.error e => Except.error e
  | Except.ok st => Except.ok { cols := st.cols, colsTot := st.colsTot, xyz := st.xyz,
                                xyzB := off.2.2 }

/-- Go `(*lammpstrj.MSD).Read` on the trajectory `file` (which `os.Open` opens), for the
`msd.MSD` it points to and its own fields `l0` before the call. -/
def MSD.Read (pf : Str → ℚ) (m : msd.MSD) (l0 : MSD) (file : Str) : Except Err MSD :=
  let s := skipLines (m.Start * (m.AtTot + 9)).toNat file 0
  readWindow pf m l0 s.1 s.2

/-- One pass of the atom loop of `MSD.GetCfg` (lines 168-182); the state is the reader,
`tmpXYZ` and `mTot`. -/
def getAtom (pf : Str → ℚ) (cols : Fin 3 → Nat) (colsTot : Nat) (Masses : List ℚ)
    (st : Str × Vec3 × ℚ) (a : Nat) : Except Err (Str × Vec3 × ℚ) :=
  let b := ReadSlice st.1
  let fields := Fields b.1
  if fields.length ≠ colsTot then Except.error Err.columnsMismatch else
  match accumAtom pf cols Masses fields a st.2.1 st.2.2 with
  | Except.error e => Except.error e
  | Except.ok t => Except.ok (b.2, t.1, t.2)

/-- One pass of the molecule loop of `MSD.GetCfg` (lines 164-189); the state is the reader
and the frame `xyz` built so far. -/
def getMol (pf : Str → ℚ) (cols : Fin 3 → Nat) (colsTot : Nat) (At : ℤ) (Masses : List ℚ)
    (st : Str × Frame) (_mol : Nat) : Except Err (Str × Frame) :=
  match (List.range At.toNat).foldlM (getAtom pf cols colsTot Masses)
      (st.1, (fun _ => 0), 0) with
  | Except.error e => Except.error e
  | Except.ok t => Except.ok (t.1, st.2 ++ [fun k => t.2.1 k / t.2.2])

/-- Go `(*lammpstrj.MSD).GetCfg`: a resident frame is returned from `xyz`; any other is
decoded from the file at the stored offset (`Seek` from the start, then a new reader). -/
def MSD.GetCfg (pf : Str → ℚ) (m : msd.MSD) (l : MSD) (file : Str) (c : ℤ) : Except Err Frame :=
  if c ≥ m.MemPos then
    (if c - m.MemPos < 0 then Except.error Err.panicIndex else
      match l.xyz[(c - m.MemPos).toNat]? with
      | some f => Except.ok f
      | none => Except.error Err.panicIndex)
  else if c < 0 then Except.error Err.panicIndex else
    match l.xyzB[c.toNat]? with
    | none => Except.error Err.panicIndex
    | some off =>
      match (List.range m.Mol.toNat).foldlM (getMol pf l.cols l.colsTot m.At m.Masses)
          (file.drop off, []) with
      | Except.error e => Except.error e
      | Except.ok t => Except.ok t.2

/-- The `Method` that `lammpstrj.New` gives to `msd.MSD`, on the trajectory `file`. -/
def method (pf : Str → ℚ) (file : Str) : Method msd.MSD (msd.MSD × MSD) where
  Read := fun m => match MSD.Read pf m New file with
    | Except.error e => Except.error e
    | Except.ok l => Except.ok (m, l)
  GetCfg := fun s c => MSD.GetCfg pf s.1 s.2 file c

end lammpstrj

namespace msd

/-- Go `msd.Conv` (without the file names). -/
structure Conv where
  At : ℤ
  Mol : ℤ
  AtTot : ℤ
  Dist : Vec3

end msd

namespace lammpstrj

/-- Go `readSlice(r, w)` repeated `n` times: the lines read, which are also the chunks
written to `w`, and the reader after them. -/
def copyLines : Nat → Str → List Str × Str
  | 0, r => ([], r)
  | n + 1, r => ((ReadSlice r).1 :: (copyLines n (ReadSlice r).2).1, (copyLines n (ReadSlice r).2).2)

/-- The result of `header`: the box, the half box, the chunks written and the reader. -/
structure Header where
  box : Vec3
  box2 : Vec3
  out : List Str
  r : Str

/-- One pass of the box loop of `header` (lines 152-167). -/
def headerBox (pf : Str → ℚ) (st : Header) (k : Fin 3) : Except Err Header :=
  let b := ReadSlice st.r
  let fields := Fields b.1
  if fields.length ≠ 2 then Except.error Err.boxSize else
  let lmin := pf (fields.getD 0 [])
  let lmax := pf (fields.getD 1 [])
  Except.ok { box := Function.update st.box k (lmax - lmin),
              box2 := Function.update st.box2 k ((lmax - lmin) / 2),
              out := st.out ++ [b.1], r := b.2 }

/-- Go `header`: copies five lines, then reads and copies the three box lines. -/
def header (pf : Str → ℚ) (r : Str) : Except Err Header :=
  (List.finRange 3).foldlM (headerBox pf)
    { box := fun _ => 0, box2 := fun _ => 0, out := (copyLines 5 r).1, r := (copyLines 5 r).2 }

/-- The loop that writes one atom record (lines 106-120 of `Conv`, 257-271 of `firstCfg`):
every field followed by a space, the three coordinate columns replaced by `xyz`. -/
def encodeFields (ff : ℚ → Str) (cols : Fin 3 → Nat) (xyz : Vec3) : List Str → Nat → Str
  | [], _ => []
  | v :: vs, k =>
    (if k = cols 0 then ff (xyz 0)
     else if k = cols 1 then ff (xyz 1)
     else if k = cols 2 then ff (xyz 2)
     else v) ++ ' ' :: encodeFields ff cols xyz vs (k + 1)

/-- The line written for one atom record: the encoded fields and a newline. -/
def encodeRecord (ff : ℚ → Str) (cols : Fin 3 → Nat) (fields : List Str) (xyz : Vec3) : Str :=
  encodeFields ff cols xyz fields 0 ++ ['\n']

/-- The state of the column detection of `firstCfg`. -/
structure Detect where
  cols : Fin 3 → Nat
  found : Nat
  buf : Str

/-- The column detection of `firstCfg` (lines 193-211), from index `k` on: `x`, `y`, `z` are
recorded and renamed `xu`, `yu`, `zu` in the rewritten header. -/
def detectW : List Str → Nat → Detect → Detect
  | [], _, st => st
  | v :: vs, k, st =>
    if v = ['x'] then
      detectW vs (k + 1)
        { cols := Function.update st.cols 0 k, found := st.found + 1,
          buf := st.buf ++ ['x', 'u'] ++ [' '] }
    else if v = ['y'] then
      detectW vs (k + 1)
        { cols := Function.update st.cols 1 k, found := st.found + 1,
          buf := st.buf ++ ['y', 'u'] ++ [' '] }
    else if v = ['z'] then
      detectW vs (k + 1)
        { cols := Function.update st.cols 2 k, found := st.found + 1,
          buf := st.buf ++ ['z', 'u'] ++ [' '] }
    else detectW vs (k + 1) { st with buf := st.buf ++ v ++ [' '] }

/-- The header rewriting of `firstCfg` (lines 188-211) on the fields of the `ITEM: ATOMS`
line: the first two fields are copied, the labels after them go through `detectW`. -/
def detectHeader (fields : List Str) : Detect :=
  detectW (fields.drop 2) 0
    { cols := fun _ => 0, found := 0,
      buf := fields.getD 0 [] ++ [' '] ++ fields.getD 1 [] ++ [' '] }

/-- The intramolecular step of `firstCfg` for one axis (lines 235-249). -/
def firstAxis (Dist box : Vec3) (a : Nat) (raw : ℚ) (lastXYZMol : Vec3) (k : Fin 3) : Vec3 :=
  if a = 0 then Function.update lastXYZMol k raw
  else if lastXYZMol k - raw > Dist k then Function.update lastXYZMol k (raw + box k)
  else if lastXYZMol k - raw < - Dist k then Function.update lastXYZMol k (raw - box k)
  else Function.update lastXYZMol k raw

/-- The state of the atom loops of `firstCfg`. -/
structure FirstState where
  r : Str
  lastXYZMol : Vec3
  lastXYZ : List Vec3
  out : List Str

/-- One pass of the atom loop of `firstCfg` (lines 226-270). -/
def firstAtom (pf : Str → ℚ) (ff : ℚ → Str) (cols : Fin 3 → Nat) (colsTot : Nat)
    (Dist box : Vec3) (st : FirstState) (a : Nat) : Except Err FirstState :=
  let b := ReadSlice st.r
  let fields := Fields b.1
  if fields.length ≠ colsTot then Except.error Err.columnsMismatch else
  match (List.finRange 3).foldlM (fun (mol : Vec3) (k : Fin 3) =>
      match fields[cols k]? with
      | none => Except.error Err.panicIndex
      | some f => Except.ok (firstAxis Dist box a (pf f) mol k)) st.lastXYZMol with
  | Except.error e => Except.error e
  | Except.ok mol =>
    Except.ok { r := b.2, lastXYZMol := mol, lastXYZ := st.lastXYZ ++ [mol],
                out := st.out ++ [encodeRecord ff cols fields mol] }

/-- One pass of the molecule loop of `firstCfg` (lines 222-271). -/
def firstMol (pf : Str → ℚ) (ff : ℚ → Str) (c : msd.Conv) (cols : Fin 3 → Nat) (colsTot : Nat)
    (box : Vec3) (st : FirstState) (_m : Nat) : Except Err FirstState :=
  (List.range c.At.toNat).foldlM (firstAtom pf ff cols colsTot c.Dist box)
    { st with lastXYZMol := fun _ => 0 }

/-- The result of `firstCfg`, with the chunks written and the reader after it. -/
structure First where
  colsB : Str
  cols : Fin 3 → Nat
  colsTot : Nat
  lastXYZ : List Vec3
  out : List Str
  r : Str

/-- Go `firstCfg`: detects the columns in the `ITEM: ATOMS` line, writes the renamed
header, then unwraps the atoms of every molecule of the first frame. -/
def firstCfg (pf : Str → ℚ) (ff : ℚ → Str) (c : msd.Conv) (r : Str) (box : Vec3) :
    Except Err First :=
  let b := ReadSlice r
  let fields := Fields b.1
  if fields.length ≤ 2 then Except.error Err.notEnoughColumns else
  let det := detectHeader fields
  let colsB := det.buf ++ ['\n']
  if det.found < 3 then Except.error Err.missingColumns else
  match (List.range c.Mol.toNat).foldlM (firstMol pf ff c det.cols (fields.drop 2).length box)
      { r := b.2, lastXYZMol := fun _ => 0, lastXYZ := [], out := [colsB] } with
  | Except.error e => Except.error e
  | Except.ok st =>
    Except.ok { colsB := colsB, cols := det.cols, colsTot := (fields.drop 2).length,
                lastXYZ := st.lastXYZ, out := st.out, r := st.r }

/-- The temporal step of `Conv` for one axis (lines 86-99): the new `corr[a]` and
`lastXYZ[a]`. -/
def unwrapAxis (box box2 : Vec3) (raw : ℚ) (cl : Vec3 × Vec3) (k : Fin 3) : Vec3 × Vec3 :=
  if cl.2 k - (raw + cl.1 k) > box2 k then
    (Function.update cl.1 k (cl.1 k + box k), Function.update cl.2 k (raw + cl.1 k + box k))
  else if cl.2 k - (raw + cl.1 k) < - box2 k then
    (Function.update cl.1 k (cl.1 k - box k), Function.update cl.2 k (raw + cl.1 k - box k))
  else (cl.1, Function.update cl.2 k (raw + cl.1 k))

/-- What is known of one frame after the first once `Conv` has gone through it: the reader
at the start of the frame, its box, and `lastXYZ` after the frame (the positions written).
This record is not part of the Go state; the loop keeps it for the statements below. -/
structure FrameLog where
  start : Str
  box : Vec3
  xyz : List Vec3

/-- The state of the frame loop of `Conv`, with the chunks written and the log. -/
structure ConvState where
  r : Str
  corr : List Vec3
  lastXYZ : List Vec3
  out : List Str
  log : List FrameLog

/-- One pass of the atom loop of `Conv` (lines 77-121). -/
def convAtom (pf : Str → ℚ) (ff : ℚ → Str) (cols : Fin 3 → Nat) (colsTot : Nat)
    (box box2 : Vec3) (st : ConvState) (a : Nat) : Except Err ConvState :=
  let l := ReadSlice st.r
  let fields := Fields l.1
  if fields.length ≠ colsTot then Except.error Err.columnsMismatch else
  match st.corr[a]?, st.lastXYZ[a]? with
  | some ca, some la =>
    match (List.finRange 3).foldlM (fun (cl : Vec3 × Vec3) (k : Fin 3) =>
        match fields[cols k]? with
        | none => Except.error Err.panicIndex
        | some f => Except.ok (unwrapAxis box box2 (pf f) cl k)) (ca, la) with
    | Except.error e => Except.error e
    | Except.ok cl =>
      Except.ok { st with r := l.2, corr := st.corr.set a cl.1, lastXYZ := st.lastXYZ.set a cl.2,
                          out := st.out ++ [encodeRecord ff cols fields cl.2] }
  | _, _ => Except.error Err.panicIndex

/-- One pass of the frame loop of `Conv` (lines 67-83 and 106-121): the header, the
`ITEM: ATOMS` line replaced by `colsB`, then the atoms. -/
def convFrame (pf : Str → ℚ) (ff : ℚ → Str) (c : msd.Conv) (f : First) (st : ConvState) :
    Except Err ConvState :=
  match header pf st.r with
  | Except.error e => Except.error (Err.header e)
  | Except.ok h =>
    match (List.range c.AtTot.toNat).foldlM (convAtom pf ff f.cols f.colsTot h.box h.box2)
        { st with r := (ReadSlice h.r).2, out := st.out ++ h.out ++ [f.colsB] } with
    | Except.error e => Except.error e
    | Except.ok st2 =>
      Except.ok { st2 with log := st2.log ++ [{ start := st.r, box := h.box, xyz := st2.lastXYZ }] }

/-- The frame loop of `Conv`, entered with a reader that is not at the end of the file; it
stops when the end is reached after a frame. `fuel` bounds the number of frames. -/
def convLoop (pf : Str → ℚ) (ff : ℚ → Str) (c : msd.Conv) (f : First) :
    Nat → ConvState → Except Err ConvState
  | 0, _ => Except.error Err.fuel
  | fuel + 1, st =>
    match convFrame pf ff c f st with
    | Except.error e => Except.error e
    | Except.ok st2 => if st2.r = [] then Except.ok st2 else convLoop pf ff c f fuel st2

/-- What a run of `Conv` leaves: the chunks written to the output file, the box and the
result of the first frame, and the log of the later frames. -/
structure ConvRun where
  out : List Str
  box : Vec3
  first : First
  log : List FrameLog

/-- Go `Conv` on the trajectory `file` (both files are taken to open). Every frame consumes
at least one byte, so the length of the file is fuel enough for the loop. -/
def Conv (pf : Str → ℚ) (ff : ℚ → Str) (c : msd.Conv) (file : Str) : Except Err ConvRun :=
  if c.AtTot < 0 then Except.error Err.panicMakeLen else
  match header pf file with
  | Except.error e => Except.error (Err.header e)
  | Except.ok h =>
    match firstCfg pf ff c h.r h.box with
    | Except.error e => Except.error (Err.firstCfg e)
    | Except.ok f =>
      if f.r = [] then
        Except.ok { out := h.out ++ f.out, box := h.box, first := f, log := [] }
      else
        match convLoop pf ff c f f.r.length
            { r := f.r, corr := List.replicate c.AtTot.toNat (fun _ => 0),
              lastXYZ := f.lastXYZ, out := h.out ++ f.out, log := [] } with
        | Except.error e => Except.error e
        | Except.ok st =>
          Except.ok { out := st.out, box := h.box, first := f, log := st.log }

end lammpstrj

/-! ## A decimal reader standing for `strconv.ParseFloat` in the examples -/

/-- The value of a string of decimal digits read after `acc`; `none` at another byte. -/
def readDigits : Str → Nat → Option Nat
  | [], acc => some acc
  | c :: cs, acc =>
    if '0' ≤ c ∧ c ≤ '9' then readDigits cs (10 * acc + (c.toNat - 48)) else none

/-- The value of an unsigned decimal `ddd` or `ddd.ddd`, `0` when it is not one (the value
`strconv.ParseFloat` returns along with the error the code drops). -/
def readUnsigned (s : Str) : ℚ :=
  match readDigits (s.takeWhile (fun c => c ≠ '.')) 0,
        readDigits ((s.dropWhile (fun c => c ≠ '.')).drop 1) 0 with
  | some i, some f => (i : ℚ) + (f : ℚ) / 10 ^ ((s.dropWhile (fun c => c ≠ '.')).drop 1).length
  | _, _ => 0

/-- A reader of plain decimals, with an optional sign. -/
def readDec : Str → ℚ
  | '-' :: s => - readUnsigned s
  | s => readUnsigned s

/-! ## Lines of a reader, for the statements -/

/-- The reader after `n` calls of `ReadSlice`. -/
def dropLines : Nat → Str → Str
  | 0, r => r
  | n + 1, r => dropLines n (ReadSlice r).2

/-- The line that the call number `n` (from 0) of `ReadSlice` returns. -/
def nthLine (r : Str) (n : Nat) : Str := (ReadSlice (dropLines n r)).1

/-- The step of `Conv` on one coordinate, as the claim words it: with `p = raw + corr`, the
new correction and position are `(corr + L, p + L)` when `last - p > L2`, else
`(corr - L, p - L)` when `last - p < -L2`, else `(corr, p)`. -/
def axisStep (L L2 raw corr last : ℚ) : ℚ × ℚ :=
  if last - (raw + corr) > L2 then (corr + L, raw + corr + L)
  else if last - (raw + corr) < - L2 then (corr - L, raw + corr - L)
  else (corr, raw + corr)

/-- The intramolecular step of `firstCfg` on one coordinate, as the claim words it: the raw
coordinate for the first atom of a molecule (`a = 0`); otherwise `raw + L` when
`ref - raw > D`, else `raw - L` when `ref - raw < -D`, else `raw`. -/
def firstVal (D L : ℚ) (a : Nat) (raw ref : ℚ) : ℚ :=
  if a = 0 then raw
  else if ref - raw > D then raw + L
  else if ref - raw < - D then raw - L
  else raw

/-- Re-wrapping modulo the box length: `x` reduced by the multiple of `L` below it. -/
def wrap (L x : ℚ) : ℚ := x - L * ⌊x / L⌋

/-- Every correction is an integer multiple of the box length of its axis. -/
def CorrMultiple (L : Vec3) (corr : List Vec3) : Prop :=
  ∀ (a : Nat) (k : Fin 3), ∃ z : ℤ, corr.getD a 0 k = z * L k

/-- Every position written for the frame `e` differs from the coordinate read in record line
`9 + a` of the frame by an integer multiple of the box length. -/
def FrameGood (pf : Str → ℚ) (cols : Fin 3 → Nat) (n : Nat) (L : Vec3)
    (e : lammpstrj.FrameLog) : Prop :=
  ∀ a, a < n → ∀ k : Fin 3, ∃ z : ℤ,
    e.xyz.getD a 0 k = pf ((Fields (nthLine e.start (9 + a))).getD (cols k) []) + z * L k

/-- A token as `strings.Fields` yields them: not empty, without white space. -/
def IsToken (t : Str) : Prop := t ≠ [] ∧ ∀ ch ∈ t, isSpace ch = false

/-- The fields of a record with the three coordinate columns replaced, `k` being the index
of the first field: what `encodeFields` writes, field by field. -/
def replaceCols (ff : ℚ → Str) (cols : Fin 3 → Nat) (xyz : Vec3) : List Str → Nat → List Str
  | [], _ => []
  | v :: vs, k =>
    (if k = cols 0 then ff (xyz 0)
     else if k = cols 1 then ff (xyz 1)
     else if k = cols 2 then ff (xyz 2)
     else v) :: replaceCols ff cols xyz vs (k + 1)

/-- What chunk `i` of the output of `Conv` is, in a trajectory whose frames have `N` lines:
the line read for a header line (the first eight of a frame), `colsB` for the `ITEM: ATOMS`
line, and for a record line the record read with its coordinate columns replaced. -/
def LineOK (ff : ℚ → Str) (cols : Fin 3 → Nat) (colsB : Str) (file : Str) (N i : Nat)
    (w : Str) : Prop :=
  (i % N < 8 → w = nthLine file i) ∧ (i % N = 8 → w = colsB) ∧
  (9 ≤ i % N → (∀ k : Fin 3, cols k < (Fields (nthLine file i)).length) ∧
    ∃ v : Vec3, w = lammpstrj.encodeRecord ff cols (Fields (nthLine file i)) v)

/-- The bytes of the first `n` lines of a reader: the byte offset at which line `n` begins
is the length of this prefix. -/
def linesPrefix : Str → Nat → Str
  | _, 0 => []
  | r, n + 1 => (ReadSlice r).1 ++ linesPrefix (ReadSlice r).2 n

/-- The centres of mass of the `Mol` molecules of `At` atoms whose records are the lines of
the reader `r`, with the coordinate columns `cols`: for molecule `mo` and axis `k`, the sum
over the atoms `a` of `pos[mo * At + a][k] * Masses[a]`, divided by the sum of the masses. -/
def comFrame (pf : Str → ℚ) (cols : Fin 3 → Nat) (Masses : List ℚ) (Mol At : Nat) (r : Str) :
    Frame :=
  (List.range Mol).map (fun mo k =>
    (∑ a in Finset.range At,
        pf ((Fields (nthLine r (mo * At + a))).getD (cols k) []) * Masses.getD a 0)
      / ∑ a in Finset.range At, Masses.getD a 0)

/-- Whether a call returned without error. -/
def isOk {α : Type} : Except Err α → Bool
  | Except.ok _ => true
  | Except.error _ => false

/-! ## Inputs of the examples -/

deriving instance DecidableEq for Except

/-- The points of a frame as triples. -/
def triples (f : Frame) : List (ℚ × ℚ × ℚ) := f.map (fun v => (v 0, v 1, v 2))

/-- A stand-in for `strconv.AppendFloat` on the values of the examples. -/
def fmtSmall (q : ℚ) : Str := if q = 21 / 2 then ['1', '0', '.', '5'] else ['0']

/-- One molecule of one atom, intramolecular distance 2 on every axis. -/
def conv11 : msd.Conv := { At := 1, Mol := 1, AtTot := 1, Dist := fun _ => 2 }

/-- The window `[0, 2)` with `mem` resident frames, one molecule of one atom of mass 1, as
`cfg.MSD` builds it. -/
def window2 (mem : ℤ) : msd.MSD :=
  { Start := 0, End := 2, Mem := mem, Tot := 0, MemPos := 0, AtTot := 0, At := 1, Mol := 1,
    Masses := [1], Dt := 1, Res := [] }

/-- A trajectory of two frames of one atom, with unwrapped coordinates. -/
def trajU : Str :=
  ("ITEM: TIMESTEP\n0\nITEM: NUMBER OF ATOMS\n1\nITEM: BOX BOUNDS pp pp pp\n0 10\n0 10\n0 10\n" ++
   "ITEM: ATOMS id xu yu zu\n1 1.5 2 3\n" ++
   "ITEM: TIMESTEP\n1\nITEM: NUMBER OF ATOMS\n1\nITEM: BOX BOUNDS pp pp pp\n0 10\n0 10\n0 10\n" ++
   "ITEM: ATOMS id xu yu zu\n1 4 5 -6.25\n").toList

/-- A trajectory of two frames of one atom whose `ITEM: ATOMS` line has the labels
`xu xu yu`: `zu` is absent and `xu` is repeated. -/
def trajXXY : Str :=
  ("ITEM: TIMESTEP\n0\nITEM: NUMBER OF ATOMS\n1\nITEM: BOX BOUNDS pp pp pp\n0 10\n0 10\n0 10\n" ++
   "ITEM: ATOMS xu xu yu\n1 2 3\n" ++
   "ITEM: TIMESTEP\n1\nITEM: NUMBER OF ATOMS\n1\nITEM: BOX BOUNDS pp pp pp\n0 10\n0 10\n0 10\n" ++
   "ITEM: ATOMS xu xu yu\n4 5 6\n").toList

/-- The `ITEM: ATOMS` line with the labels `x x y` (`z` is absent, `x` is repeated) and one
atom record. -/
def firstXXY : Str := "ITEM: ATOMS x x y\n1 2 3\n".toList

/-- The point `(x, y, z)`. -/
def v3 (x y z : ℚ) : Vec3 := fun k => if k = 0 then x else if k = 1 then y else z

/-- A second frame in which the atom sits at wrapped `x = 0.5`, in a box of length 10. -/
def frameW : Str :=
  ("ITEM: TIMESTEP\n1\nITEM: NUMBER OF ATOMS\n1\nITEM: BOX BOUNDS pp pp pp\n0 10\n0 10\n0 10\n" ++
   "ITEM: ATOMS id x y z\n1 0.5 5 3\n").toList

/-- The layout of the header `ITEM: ATOMS id x y z`, as `firstCfg` returns it after a first
frame in which the atom sat at `(9, 2, 3)`. -/
def firstW : lammpstrj.First :=
  { colsB := "ITEM: ATOMS id xu yu zu \n".toList, cols := fun k => k.val + 1, colsTot := 4,
    lastXYZ := [v3 9 2 3], out := [], r := frameW }

/-- The state of `Conv` at the start of the second frame: no correction yet, last position
`(9, 2, 3)`. -/
def stateW : lammpstrj.ConvState :=
  { r := frameW, corr := [fun _ => 0], lastXYZ := [v3 9 2 3], out := [], log := [] }

/-- A trajectory of two frames of one atom with wrapped coordinates in a box of length 10:
the atom goes from `x = 9` to `x = 0.5`. -/
def trajW : Str :=
  ("ITEM: TIMESTEP\n0\nITEM: NUMBER OF ATOMS\n1\nITEM: BOX BOUNDS pp pp pp\n0 10\n0 10\n0 10\n" ++
   "ITEM: ATOMS id x y z\n1 9 2 3\n" ++
   "ITEM: TIMESTEP\n1\nITEM: NUMBER OF ATOMS\n1\nITEM: BOX BOUNDS pp pp pp\n0 10\n0 10\n0 10\n" ++
   "ITEM: ATOMS id x y z\n1 0.5 5 3\n").toList

/-- The ten lines of a frame of one atom with unwrapped coordinates, without their
newlines: time step `ts`, atom record `rec`. -/
def frameLinesU (ts rec : Str) : List Str :=
  ["ITEM: TIMESTEP".toList, ts, "ITEM: NUMBER OF ATOMS".toList, ['1'],
   "ITEM: BOX BOUNDS pp pp pp".toList, "0 10".toList, "0 10".toList, "0 10".toList,
   "ITEM: ATOMS xu yu zu".toList, rec]

/-- The bytes of a frame of one atom. -/
def frameU (ts rec : Str) : Str := ((frameLinesU ts rec).map (fun l => l ++ ['\n'])).flatten

/-- A frame of 112 bytes whose atom sits at `(10, 20, 3)`. -/
def frameSkipped : Str := frameU "10".toList "10 20 3".toList

/-- A trajectory of `2 ^ 28 + 2` frames of one atom: `2 ^ 28` frames of 112 bytes each
(`7 * 2 ^ 32` bytes in all), then a frame whose atom sits at `(70, 80, 9)` and a frame whose
atom sits at `(1, 2, 3)`. -/
def bigTraj : Str :=
  (List.replicate (2 ^ 28) frameSkipped).flatten
    ++ (frameU "11".toList "70 80 9".toList ++ frameU "12".toList "1 2 3".toList)

/-- The window of the last two frames of `bigTraj`, the last one resident. -/
def bigWindow : msd.MSD :=
  { Start := 2 ^ 28, End := 2 ^ 28 + 2, Mem := 1, Tot := 0, MemPos := 0, AtTot := 0, At := 1,
    Mol := 1, Masses := [1], Dt := 1, Res := [] }

/-- The layout of the header `ITEM: ATOMS xu yu zu`. -/
def colsXYZ : Fin 3 → Nat := fun k => k.val

/-- A frame source that serves the frames of a list. -/
def listMethod (μ : Type) (frames : List Frame) : Method μ Unit where
  Read := fun _ => Except.ok ()
  GetCfg := fun _ i => match frames[i.toNat]? with
    | some f => Except.ok f
    | none => Except.error (Err.method i.toNat)

/-- The point `(x, 0, 0)`. -/
def onX (x : ℚ) : Vec3 := fun k => if k = 0 then x else 0

/-- The configuration of the scenario `Tot = 3`, `Mol = 1`, `At = 1`, `Masses = [1]`. -/
def msdScenario : msd.MSD :=
  { Start := 0, End := 3, Mem := 3, Tot := 0, MemPos := 0, AtTot := 0, At := 1, Mol := 1,
    Masses := [1], Dt := 1, Res := [] }



/-- A fresh `vac.VAC` for the window `[0, 2)` with one molecule of one atom. -/
def vacScenario : vac.VAC :=
  { Start := 0, End := 2, Mem := 2, Tot := 0, MemPos := 0, AtTot := 0, At := 1, Mol := 1,
    Masses := [1], Dt := 1, Res := [], ResDiv := 0, Int := 0 }

/-- A fresh `vac.VAC` for the window `[0, 3)` with one molecule of one atom. -/
def vacScenario3 : vac.VAC := { vacScenario with End := 3 }

/-- The zero-lag term of one frame: the sum over molecules and axes of the squared
coordinate. -/
def selfSum (Mol : Nat) (icfg : Frame) : ℚ :=
  ∑ mol in Finset.range Mol, ∑ k : Fin 3, icfg.getD mol 0 k * icfg.getD mol 0 k

/-- The list `res` with `v` added to entry `idx`. -/
def bump (res : List ℚ) (idx : Nat) (v : ℚ) : List ℚ := res.set idx (res.getD idx 0 + v)

/-- The contribution of one frame pair: the sum over molecules and axes. -/
def pairSum (contrib : ℚ → ℚ → ℚ) (Mol : Nat) (icfg tcfg : Frame) : ℚ :=
  ∑ mol in Finset.range Mol, ∑ k : Fin 3, contrib (icfg.getD mol 0 k) (tcfg.getD mol 0 k)

/-- The list `res` with `c d` added to every entry `d < n`. -/
def addLags (res : List ℚ) (c : Nat → ℚ) (n : Nat) : List ℚ :=
  res.mapIdx (fun d r => r + if d < n then c d else 0)

/-- The accumulated statistic after the first `n` steps of the outer loop: entry `d` is the
sum of `C i (i + d + 1)` over the reference frames `i < n` that have a partner at lag `d`. -/
def lagSums (C : Nat → Nat → ℚ) (Tot n : Nat) : List ℚ :=
  (List.range (Tot - 1)).map (fun d =>
    ∑ i in Finset.range n, if i + d + 1 < Tot then C i (i + d + 1) else 0)

/-! ## Package `cfg`: the configuration and its check -/

namespace cfg

/-- The errors of `Cfg.Check`, in the order of its tests. -/
inductive CheckErr where
  | startNegative
  | endNotAfterStart
  | singleFrame
  | memOutOfRange
  | molOrAt
  | massesLength
  | dtZero
  deriving DecidableEq

/-- Go `cfg.Cfg` (without the file name, the trajectory type and the method name). -/
structure Cfg where
  PBC : Bool
  Start : ℤ
  End : ℤ
  Mem : ℤ
  Mol : ℤ
  At : ℤ
  Dist : Vec3
  Masses : List ℚ
  Dt : ℚ

/-- The value of a Go `int` expression on a 64-bit platform: `x` wrapped into
`[-2 ^ 63, 2 ^ 63)`. -/
def wrap64 (x : ℤ) : ℤ := (x + 2 ^ 63) % 2 ^ 64 - 2 ^ 63

/-- Go `(*Cfg).Check`: the configuration after the call (the receiver is a pointer) and
the error, `none` for `nil`. -/
def Cfg.Check (c : Cfg) : Cfg × Option CheckErr :=
  if c.Start < 0 then (c, some CheckErr.startNegative)
  else if c.End ≤ c.Start then (c, some CheckErr.endNotAfterStart)
  else if wrap64 (c.End - c.Start) = 1 then (c, some CheckErr.singleFrame)
  else if c.Mem > wrap64 (c.End - c.Start) ∨ c.Mem < 0 then (c, some CheckErr.memOutOfRange)
  else if c.Mol ≤ 0 ∨ c.At ≤ 0 then (c, some CheckErr.molOrAt)
  else if (c.Masses.length : ℤ) ≠ c.At then (c, some CheckErr.massesLength)
  else if c.Dt = 0 then (c, some CheckErr.dtZero)
  else (c, none)

/-- A value that a Go `int` of 64 bits holds. -/
def IsInt64 (x : ℤ) : Prop := - 2 ^ 63 ≤ x ∧ x < 2 ^ 63

/-- A configuration that passes the check: window `[0, 3)`, one resident frame, two
molecules of one atom. -/
def cfgGood : Cfg :=
  { PBC := false, Start := 0, End := 3, Mem := 1, Mol := 2, At := 1, Dist := fun _ => 2,
    Masses := [1], Dt := 1 / 2 }

end cfg

/-- The fresh `vac.VAC` of the window `[0, 3)` with the time step `Dt = 2`. -/
def vacScenarioDt2 : vac.VAC := { vacScenario3 with Dt := 2 }

namespace msd

/-- Go `(*MSD).Perform` with a ghost log: the same statements, and the list of the frame
indices passed to the calls of `GetCfg` that returned without error, in the order of the
calls. The log is not part of the Go state; the statements about the access pattern of
`Perform` are made on it. -/
def MSD.PerformLog {σ : Type} (meth : Method MSD σ) (m0 : MSD) : Except Err (MSD × List Nat) :=
  if m0.End - m0.Start - 1 < 0 then Except.error Err.panicMakeLen else
  let m := m0.setup
  match meth.Read m with
  | Except.error e => Except.error e
  | Except.ok s =>
    match (List.range (m.Tot - 1).toNat).foldlM (fun (st : List ℚ × List Nat) (i : Nat) =>
        match meth.GetCfg s (i : Int) with
        | Except.error e => Except.error e
        | Except.ok icfg =>
          (List.range' (i + 1) (m.Tot.toNat - (i + 1))).foldlM
            (fun (st : List ℚ × List Nat) (j : Nat) =>
              match meth.GetCfg s (j : Int) with
              | Except.error e => Except.error e
              | Except.ok tcfg =>
                match pairLoop sq m.Mol icfg tcfg (j - i - 1) st.1 with
                | Except.error e => Except.error e
                | Except.ok res => Except.ok (res, st.2 ++ [j]))
            (st.1, st.2 ++ [i])) (m.Res, []) with
    | Except.error e => Except.error e
    | Except.ok st => Except.ok ({ m with Res := st.1 }, st.2)

end msd

/-- The calls of `GetCfg` in a run of `Perform` over `Tot` frames, as the loops make them:
for every reference frame `i < Tot - 1`, the call for `i`, then the calls for
`j = i + 1, ..., Tot - 1`. -/
def fetches (Tot : Nat) : List Nat :=
  (List.range (Tot - 1)).flatMap (fun i => i :: List.range' (i + 1) (Tot - (i + 1)))

/-- A trajectory of three frames of one atom, with unwrapped coordinates. -/
def traj3 : Str :=
  trajU ++ ("ITEM: TIMESTEP\n2\nITEM: NUMBER OF ATOMS\n1\nITEM: BOX BOUNDS pp pp pp\n" ++
    "0 10\n0 10\n0 10\nITEM: ATOMS id xu yu zu\n1 7 8 9\n").toList

/-- The window `[0, 3)` with one resident frame (frames 0 and 1 are read again from the
file), one molecule of one atom of mass 1. -/
def window3 : msd.MSD :=
  { Start := 0, End := 3, Mem := 1, Tot := 0, MemPos := 0, AtTot := 0, At := 1, Mol := 1,
    Masses := [1], Dt := 1, Res := [] }

/-- One molecule of two atoms, intramolecular distance 2 on every axis. -/
def conv12 : msd.Conv := { At := 2, Mol := 1, AtTot := 2, Dist := fun _ => 2 }

/-- The `ITEM: ATOMS` line and the two records of a first frame whose molecule is cut by the
boundary of a box of length 10: the atoms sit at wrapped `x = 9` and `x = 0.5`. -/
def firstTwo : Str := "ITEM: ATOMS id x y z\n1 9 2 3\n2 0.5 2 3\n".toList

/-- The wrapped coordinate labels `x`, `y`, `z`, by axis. -/
def wLabel (k : Fin 3) : Str := if k = 0 then ['x'] else if k = 1 then ['y'] else ['z']

/-- The renaming of a label as the claim words it: `x`, `y`, `z` become `xu`, `yu`, `zu`,
any other token is kept. -/
def renameLabel (v : Str) : Str :=
  if v = ['x'] then ['x', 'u'] else if v = ['y'] then ['y', 'u']
  else if v = ['z'] then ['z', 'u'] else v

/-- A trajectory of two frames of one atom whose header is `ITEM: ATOMS id type x y z`. -/
def trajT : Str :=
  ("ITEM: TIMESTEP\n0\nITEM: NUMBER OF ATOMS\n1\nITEM: BOX BOUNDS pp pp pp\n0 10\n0 10\n0 10\n" ++
   "ITEM: ATOMS id type x y z\n1 1 9 2 3\n" ++
   "ITEM: TIMESTEP\n1\nITEM: NUMBER OF ATOMS\n1\nITEM: BOX BOUNDS pp pp pp\n0 10\n0 10\n0 10\n" ++
   "ITEM: ATOMS id type x y z\n1 1 0.5 5 3\n").toList

/-- What the frame loop of `Conv` has checked of a frame after the first that it went
through, `file` being the trajectory and `m` the line at which the frame starts: the frame
was read from line `m` on, its header was accepted, and each of its `n` records has
`colsTot` tokens. -/
def FrameRead (pf : Str → ℚ) (colsTot n : Nat) (file : Str) (m : Nat)
    (e : lammpstrj.FrameLog) : Prop :=
  e.start = dropLines m file ∧ (∃ hd, lammpstrj.header pf e.start = Except.ok hd) ∧
  ∀ a, a < n → (Fields (nthLine e.start (9 + a))).length = colsTot

/-- A trajectory of one frame whose second box line is `0 ten`: two tokens, the second not
a number. -/
def trajBadBox : Str :=
  ("ITEM: TIMESTEP\n0\nITEM: NUMBER OF ATOMS\n1\nITEM: BOX BOUNDS pp pp pp\n0 10\n0 ten\n0 10\n" ++
   "ITEM: ATOMS id x y z\n1 9 2 3\n").toList

/-- A trajectory of one frame whose second box line is `0 10 0`: three tokens. -/
def trajBox3 : Str :=
  ("ITEM: TIMESTEP\n0\nITEM: NUMBER OF ATOMS\n1\nITEM: BOX BOUNDS pp pp pp\n0 10\n0 10 0\n0 10\n" ++
   "ITEM: ATOMS id x y z\n1 9 2 3\n").toList

/-- Whether an `Err` stands for a run-time panic of the Go code, and not for an `error`
that a function returns. -/
def Err.isPanic : Err → Bool
  | Err.panicIndex => true
  | Err.panicMakeLen => true
  | Err.header e => e.isPanic
  | Err.firstCfg e => e.isPanic
  | _ => false

/-- The trajectory `trajW` with the coordinate labels of its second frame in another order:
`ITEM: ATOMS id y x z`. -/
def trajSwapW : Str :=
  ("ITEM: TIMESTEP\n0\nITEM: NUMBER OF ATOMS\n1\nITEM: BOX BOUNDS pp pp pp\n0 10\n0 10\n0 10\n" ++
   "ITEM: ATOMS id x y z\n1 9 2 3\n" ++
   "ITEM: TIMESTEP\n1\nITEM: NUMBER OF ATOMS\n1\nITEM: BOX BOUNDS pp pp pp\n0 10\n0 10\n0 10\n" ++
   "ITEM: ATOMS id y x z\n1 0.5 5 3\n").toList

/-- The trajectory `trajU` with the coordinate labels of its second frame in another order:
`ITEM: ATOMS id yu xu zu`. -/
def trajSwapU : Str :=
  ("ITEM: TIMESTEP\n0\nITEM: NUMBER OF ATOMS\n1\nITEM: BOX BOUNDS pp pp pp\n0 10\n0 10\n0 10\n" ++
   "ITEM: ATOMS id xu yu zu\n1 1.5 2 3\n" ++
   "ITEM: TIMESTEP\n1\nITEM: NUMBER OF ATOMS\n1\nITEM: BOX BOUNDS pp pp pp\n0 10\n0 10\n0 10\n" ++
   "ITEM: ATOMS id yu xu zu\n1 4 5 -6.25\n").toList

/-- The frame `frameW` with the header `ITEM: ATOMS id y x z`. -/
def frameWSwap : Str :=
  ("ITEM: TIMESTEP\n1\nITEM: NUMBER OF ATOMS\n1\nITEM: BOX BOUNDS pp pp pp\n0 10\n0 10\n0 10\n" ++
   "ITEM: ATOMS id y x z\n1 0.5 5 3\n").toList

/-- The second frame of `trajU`. -/
def frameU2 : Str :=
  ("ITEM: TIMESTEP\n1\nITEM: NUMBER OF ATOMS\n1\nITEM: BOX BOUNDS pp pp pp\n0 10\n0 10\n0 10\n" ++
   "ITEM: ATOMS id xu yu zu\n1 4 5 -6.25\n").toList

/-- The second frame of `trajSwapU`. -/
def frameU2Swap : Str :=
  ("ITEM: TIMESTEP\n1\nITEM: NUMBER OF ATOMS\n1\nITEM: BOX BOUNDS pp pp pp\n0 10\n0 10\n0 10\n" ++
   "ITEM: ATOMS id yu xu zu\n1 4 5 -6.25\n").toList

/-- The state of the resident loop of `MSD.Read` at the start of the second frame of `trajU`,
the layout `(1, 2, 3)` of four columns having been parsed in the first. -/
def readStateU2 : lammpstrj.ReadState :=
  { r := frameU2, bTot := 112, notFirst := true, cols := fun k => k.val + 1, colsTot := 4,
    xyz := [[v3 (3 / 2) 2 3]] }

/-- A trajectory cut short after the nine header lines of its first frame: the file ends
before the atom record. -/
def trajCut : Str :=
  ("ITEM: TIMESTEP\n0\nITEM: NUMBER OF ATOMS\n1\nITEM: BOX BOUNDS pp pp pp\n0 10\n0 10\n0 10\n" ++
   "ITEM: ATOMS id xu yu zu\n").toList

/-- The trajectory `trajW` with a second record of three tokens. -/
def trajShortRecord : Str :=
  ("ITEM: TIMESTEP\n0\nITEM: NUMBER OF ATOMS\n1\nITEM: BOX BOUNDS pp pp pp\n0 10\n0 10\n0 10\n" ++
   "ITEM: ATOMS id x y z\n1 9 2 3\n" ++
   "ITEM: TIMESTEP\n1\nITEM: NUMBER OF ATOMS\n1\nITEM: BOX BOUNDS pp pp pp\n0 10\n0 10\n0 10\n" ++
   "ITEM: ATOMS id x y z\n1 0.5 5\n").toList

namespace lammpstrj

/-- The states in which the frame loop of `Conv` enters its passes, from the state `st` on:
the recursion of `convLoop`, keeping the states and not the result. -/
def loopStates (pf : Str → ℚ) (ff : ℚ → Str) (c : msd.Conv) (f : First) :
    Nat → ConvState → List ConvState
  | 0, _ => []
  | fuel + 1, st =>
    st :: (match convFrame pf ff c f st with
      | Except.error _ => []
      | Except.ok st2 => if st2.r = [] then [] else loopStates pf ff c f fuel st2)

/-- The state in which `Conv` enters its frame loop (lines 41-63): no correction yet, the
positions returned by `firstCfg`, the chunks written for the first frame. -/
def convInit (c : msd.Conv) (h : Header) (f : First) : ConvState :=
  { r := f.r, corr := List.replicate c.AtTot.toNat (fun _ => 0), lastXYZ := f.lastXYZ,
    out := h.out ++ f.out, log := [] }

end lammpstrj

/-- The coordinate read in column `col` of record `a` of the frame that begins the
reader `r` (line `9 + a`). -/
def rawAt (pf : Str → ℚ) (col : Nat) (r : Str) (a : Nat) : ℚ :=
  pf ((Fields (nthLine r (9 + a))).getD col [])

/-- The box length `hi - lo` of axis `k` read in the header of the frame that begins the
reader `r` (line `5 + k`). -/
def boxAt (pf : Str → ℚ) (r : Str) (k : Fin 3) : ℚ :=
  pf ((Fields (nthLine r (5 + k))).getD 1 []) - pf ((Fields (nthLine r (5 + k))).getD 0 [])

namespace cfg

/-- The `msd.MSD` that `(*Cfg).MSD` builds from the configuration before it calls `Perform`
(cfg.go line 187): the fields not named there are zero. -/
def Cfg.msdOf (c : Cfg) : msd.MSD :=
  { Start := c.Start, End := c.End, Mem := c.Mem, Tot := 0, MemPos := 0, AtTot := 0,
    At := c.At, Mol := c.Mol, Masses := c.Masses, Dt := c.Dt, Res := [] }

/-- The window `[0, 2)` with no resident frame, one molecule of one atom of mass 1. -/
def cfgMem0 : Cfg :=
  { PBC := false, Start := 0, End := 2, Mem := 0, Mol := 1, At := 1, Dist := fun _ => 2,
    Masses := [1], Dt := 1 }

/-- The window `[0, 2)` with one resident frame, one molecule of one atom of mass 1. -/
def cfgMem1 : Cfg := { cfgMem0 with Mem := 1 }

end cfg

/-- The layout of the resident loop of `MSD.Read` is sound: before the first header the
columns are those of `New`, afterwards they lie below `colsTot`. -/
def layoutOK (st : lammpstrj.ReadState) : Prop :=
  (st.notFirst = false → ∀ k, st.cols k = 0) ∧ (st.notFirst = true → ∀ k, st.cols k < st.colsTot)

/-! ## The MSD path with the special values of `float64`

The functions of `MSD.Perform`, `MSD.Write` and of the lammpstrj frame store once more, with
a `float64` that is a rational, `+Inf`, `-Inf` or NaN, where the embedding above has a
rational only. They show what a rational cannot: the division of a centre of mass by a zero
sum of masses, and the values `NaN` and `Inf` that `strconv.ParseFloat` accepts. Apart from
the arithmetic the definitions are those above, under the same names. -/

namespace ieee

/-- Go `float64` with its special values: a finite value (rounding is idealised away and the
sign of a zero is not kept), `+Inf`, `-Inf` or NaN. -/
inductive F64 where
  | fin (q : ℚ)
  | pinf
  | ninf
  | nan
  deriving DecidableEq

/-- IEEE 754 addition. -/
def F64.add : F64 → F64 → F64
  | F64.fin a, F64.fin b => F64.fin (a + b)
  | F64.fin _, F64.pinf => F64.pinf
  | F64.fin _, F64.ninf => F64.ninf
  | F64.fin _, F64.nan => F64.nan
  | F64.pinf, F64.fin _ => F64.pinf
  | F64.pinf, F64.pinf => F64.pinf
  | F64.pinf, F64.ninf => F64.nan
  | F64.pinf, F64.nan => F64.nan
  | F64.ninf, F64.fin _ => F64.ninf
  | F64.ninf, F64.pinf => F64.nan
  | F64.ninf, F64.ninf => F64.ninf
  | F64.ninf, F64.nan => F64.nan
  | F64.nan, _ => F64.nan

/-- IEEE 754 subtraction. -/
def F64.sub : F64 → F64 → F64
  | F64.fin a, F64.fin b => F64.fin (a - b)
  | F64.fin _, F64.pinf => F64.ninf
  | F64.fin _, F64.ninf => F64.pinf
  | F64.fin _, F64.nan => F64.nan
  | F64.pinf, F64.fin _ => F64.pinf
  | F64.pinf, F64.pinf => F64.nan
  | F64.pinf, F64.ninf => F64.pinf
  | F64.pinf, F64.nan => F64.nan
  | F64.ninf, F64.fin _ => F64.ninf
  | F64.ninf, F64.pinf => F64.ninf
  | F64.ninf, F64.ninf => F64.nan
  | F64.ninf, F64.nan => F64.nan
  | F64.nan, _ => F64.nan

/-- The product of the finite `q` and an infinity, `+Inf` when `pos` and `-Inf` otherwise: NaN
for `q = 0`, else the infinity with the product of the signs. -/
def F64.signed (q : ℚ) (pos : Bool) : F64 :=
  if q = 0 then F64.nan
  else if 0 < q then (if pos then F64.pinf else F64.ninf)
  else (if pos then F64.ninf else F64.pinf)

/-- IEEE 754 multiplication. -/
def F64.mul : F64 → F64 → F64
  | F64.fin a, F64.fin b => F64.fin (a * b)
  | F64.fin a, F64.pinf => F64.signed a true
  | F64.fin a, F64.ninf => F64.signed a false
  | F64.fin _, F64.nan => F64.nan
  | F64.pinf, F64.fin b => F64.signed b true
  | F64.pinf, F64.pinf => F64.pinf
  | F64.pinf, F64.ninf => F64.ninf
  | F64.pinf, F64.nan => F64.nan
  | F64.ninf, F64.fin b => F64.signed b false
  | F64.ninf, F64.pinf => F64.ninf
  | F64.ninf, F64.ninf => F64.pinf
  | F64.ninf, F64.nan => F64.nan
  | F64.nan, _ => F64.nan

/-- IEEE 754 division; a zero divisor is `+0`, as a sum that starts from `+0` and a converted
integer are. -/
def F64.div : F64 → F64 → F64
  | F64.fin a, F64.fin b => if b = 0 then F64.signed a true else F64.fin (a / b)
  | F64.fin _, F64.pinf => F64.fin 0
  | F64.fin _, F64.ninf => F64.fin 0
  | F64.fin _, F64.nan => F64.nan
  | F64.pinf, F64.fin b => if 0 ≤ b then F64.pinf else F64.ninf
  | F64.pinf, F64.pinf => F64.nan
  | F64.pinf, F64.ninf => F64.nan
  | F64.pinf, F64.nan => F64.nan
  | F64.ninf, F64.fin b => if 0 ≤ b then F64.ninf else F64.pinf
  | F64.ninf, F64.pinf => F64.nan
  | F64.ninf, F64.ninf => F64.nan
  | F64.ninf, F64.nan => F64.nan
  | F64.nan, _ => F64.nan

/-- Go `float64(n)` for an `int`. -/
def F64.ofInt (n : ℤ) : F64 := F64.fin (n : ℚ)

/-- Whether the value is neither an infinity nor NaN. -/
def F64.isFinite : F64 → Bool
  | F64.fin _ => true
  | _ => false

/-- Go `x >= 0`: false for NaN. -/
def F64.geZero : F64 → Bool
  | F64.fin q => decide (0 ≤ q)
  | F64.pinf => true
  | F64.ninf => false
  | F64.nan => false

/-- Go `[3]float64`. -/
abbrev Vec3 := Fin 3 → F64

/-- Go `[][3]float64`: one point per molecule. -/
abbrev Frame := List Vec3

/-- The `Method` interface of package `msd`. -/
structure Method (μ σ : Type) where
  Read : μ → Except Err σ
  GetCfg : σ → Int → Except Err Frame

/-- The two innermost loops of `MSD.Perform`:
`for mol := 0; mol < Mol; mol++ { for k := 0; k < 3; k++ { Res[idx] += contrib(icfg[mol][k], tcfg[mol][k]) } }`. -/
def pairLoop (contrib : F64 → F64 → F64) (Mol : Int) (icfg tcfg : Frame) (idx : Nat)
    (res : List F64) : Except Err (List F64) :=
  (List.range Mol.toNat).foldlM (fun res mol =>
    (List.finRange 3).foldlM (fun res k =>
      match icfg[mol]?, tcfg[mol]?, res[idx]? with
      | some a, some b, some r => Except.ok (res.set idx (r.add (contrib (a k) (b k))))
      | _, _, _ => Except.error Err.panicIndex) res) res

namespace msd

/-- Go `msd.MSD` (without the file names and the `Method` field, which is passed apart). -/
structure MSD where
  Start : Int
  End : Int
  Mem : Int
  Tot : Int
  MemPos : Int
  AtTot : Int
  At : Int
  Mol : Int
  Masses : List F64
  Dt : F64
  Res : List F64

/-- The first four assignments of `MSD.Perform`. -/
def MSD.setup (m : MSD) : MSD :=
  { m with
    Tot := m.End - m.Start
    Res := List.replicate (m.End - m.Start - 1).toNat (F64.fin 0)
    AtTot := m.At * m.Mol
    MemPos := m.End - m.Start - m.Mem }

/-- The contribution of one coordinate pair: `pow := a - b; Res[...] += pow * pow`. -/
def sq (a b : F64) : F64 := (a.sub b).mul (a.sub b)

/-- Go `(*MSD).Perform`. -/
def MSD.Perform {σ : Type} (meth : Method MSD σ) (m0 : MSD) : Except Err MSD :=
  if m0.End - m0.Start - 1 < 0 then Except.error Err.panicMakeLen else
  let m := m0.setup
  match meth.Read m with
  | Except.error e => Except.error e
  | Except.ok s =>
    match (List.range (m.Tot - 1).toNat).foldlM (fun (res : List F64) (i : Nat) =>
        match meth.GetCfg s (i : Int) with
        | Except.error e => Except.error e
        | Except.ok icfg =>
          (List.range' (i + 1) (m.Tot.toNat - (i + 1))).foldlM (fun (res : List F64) (j : Nat) =>
            match meth.GetCfg s (j : Int) with
            | Except.error e => Except.error e
            | Except.ok tcfg => pairLoop sq m.Mol icfg tcfg (j - i - 1) res) res) m.Res with
    | Except.error e => Except.error e
    | Except.ok res => Except.ok { m with Res := res }

/-- Go `(*MSD).Write`: normalises `Res` in place and prints one line per lag.
`created` says whether `os.Create` succeeded; the lines are returned as pairs. -/
def MSD.Write (created : Bool) (m : MSD) : Except Err (MSD × List (F64 × F64)) :=
  if created = false then Except.error Err.createFailed else
  match (List.range (m.Tot - 1).toNat).foldlM (fun (st : List F64 × List (F64 × F64)) (i : Nat) =>
      match st.1[i]? with
      | none => Except.error Err.panicIndex
      | some r =>
        let v := r.div (F64.ofInt ((m.Tot - 1 - (i : Int)) * m.Mol * 3))
        Except.ok (st.1.set i v, st.2 ++ [((F64.ofInt ((i : Int) + 1)).mul m.Dt, v)]))
      (m.Res, []) with
  | Except.error e => Except.error e
  | Except.ok st => Except.ok ({ m with Res := st.1 }, st.2)

end msd

/-- The statements shared by `MSD.Read` (lines 132-137) and `MSD.GetCfg` (lines 176-181):
`for k := 0; k < 3; k++ { pos, _ := strconv.ParseFloat(fields[m.cols[k]], 64);
tmpXYZ[k] += pos * m.Masses[a] }; mTot += m.Masses[a]`. -/
def accumAtom (pf : Str → F64) (cols : Fin 3 → Nat) (Masses : List F64) (fields : List Str)
    (a : Nat) (tmpXYZ : Vec3) (mTot : F64) : Except Err (Vec3 × F64) :=
  match (List.finRange 3).foldlM (fun (tmp : Vec3) (k : Fin 3) =>
      match fields[cols k]?, Masses[a]? with
      | some f, some ma => Except.ok (Function.update tmp k ((tmp k).add ((pf f).mul ma)))
      | _, _ => Except.error Err.panicIndex) tmpXYZ with
  | Except.error e => Except.error e
  | Except.ok tmp =>
    match Masses[a]? with
    | some ma => Except.ok (tmp, mTot.add ma)
    | none => Except.error Err.panicIndex

namespace lammpstrj

/-- Go `lammpstrj.MSD`: the fields of its own (the embedded `*msd.MSD` and the open file
are passed apart). `xyzB` holds `uint32` values. -/
structure MSD where
  cols : Fin 3 → Nat
  colsTot : Nat
  xyz : List Frame
  xyzB : List Nat

/-- Go `lammpstrj.New`. -/
def New : MSD := { cols := fun _ => 0, colsTot := 0, xyz := [], xyzB := [] }

/-- One pass of the atom loop of `MSD.Read` (lines 123-138); the state is the reader, `bTot`,
`tmpXYZ` and `mTot`. -/
def readAtom (pf : Str → F64) (cols : Fin 3 → Nat) (colsTot : Nat) (Masses : List F64)
    (st : Str × Nat × Vec3 × F64) (a : Nat) : Except Err (Str × Nat × Vec3 × F64) :=
  let l := readLine st.1 st.2.1
  let fields := Fields l.1
  if fields.length ≠ colsTot then Except.error Err.columnsMismatch else
  match accumAtom pf cols Masses fields a st.2.2.1 st.2.2.2 with
  | Except.error e => Except.error e
  | Except.ok t => Except.ok (l.2.2, l.2.1, t.1, t.2)

/-- One pass of the molecule loop of `MSD.Read` (lines 119-145); the state is the reader,
`bTot` and the frame `xyz` built so far. The centre of mass is `tmpXYZ[k] /= mTot`. -/
def readMol (pf : Str → F64) (cols : Fin 3 → Nat) (colsTot : Nat) (At : ℤ) (Masses : List F64)
    (st : Str × Nat × Frame) (_mol : Nat) : Except Err (Str × Nat × Frame) :=
  match (List.range At.toNat).foldlM (readAtom pf cols colsTot Masses)
      (st.1, st.2.1, (fun _ => F64.fin 0), F64.fin 0) with
  | Except.error e => Except.error e
  | Except.ok t => Except.ok (t.1, t.2.1, st.2.2 ++ [fun k => (t.2.2.1 k).div t.2.2.2])

/-- The state of the loop over the resident frames in `MSD.Read`. -/
structure ReadState where
  r : Str
  bTot : Nat
  notFirst : Bool
  cols : Fin 3 → Nat
  colsTot : Nat
  xyz : List Frame

/-- One pass of the loop over the resident frames of `MSD.Read` (lines 71-147). -/
def readResident (pf : Str → F64) (m : msd.MSD) (st : ReadState) (_c : Nat) :
    Except Err ReadState :=
  let s8 := skipLines 8 st.r st.bTot
  let hdr : Except Err (Str × Nat × (Fin 3 → Nat) × Nat) :=
    if st.notFirst = false then
      let l := readLine s8.1 s8.2
      let fields := Fields l.1
      if fields.length ≤ 2 then Except.error Err.notEnoughColumns else
      let fields := fields.drop 2
      let det := SelfDiff.lammpstrj.detectU fields 0 (st.cols, 0)
      if det.2 < 3 then Except.error Err.missingColumns else
      Except.ok (l.2.2, l.2.1, det.1, fields.length)
    else
      let l := readLine s8.1 s8.2
      Except.ok (l.2.2, l.2.1, st.cols, st.colsTot)
  match hdr with
  | Except.error e => Except.error e
  | Except.ok h =>
    match (List.range m.Mol.toNat).foldlM (readMol pf h.2.2.1 h.2.2.2 m.At m.Masses)
        (h.1, h.2.1, []) with
    | Except.error e => Except.error e
    | Except.ok t =>
      Except.ok { r := t.1, bTot := t.2.1, notFirst := true, cols := h.2.2.1,
                  colsTot := h.2.2.2, xyz := st.xyz ++ [t.2.2] }

/-- `MSD.Read` from the first frame of the window on: `r` is the reader and `bTot` the number
of bytes consumed once the frames before `Start` have been discarded. -/
def readWindow (pf : Str → F64) (m : msd.MSD) (l0 : MSD) (r : Str) (bTot : Nat) :
    Except Err MSD :=
  let off := (List.range (m.Tot - m.Mem).toNat).foldl (SelfDiff.lammpstrj.readOffset m.AtTot)
    (r, bTot, l0.xyzB)
  match (List.range m.Mem.toNat).foldlM (readResident pf m)
      { r := off.1, bTot := off.2.1, notFirst := false, cols := l0.cols,
        colsTot := l0.colsTot, xyz := l0.xyz } with
  | Except.error e => Except.error e
  | Except.ok st => Except.ok { cols := st.cols, colsTot := st.colsTot, xyz := st.xyz,
                                xyzB := off.2.2 }

/-- Go `(*lammpstrj.MSD).Read` on the trajectory `file` (which `os.Open` opens), for the
`msd.MSD` it points to and its own fields `l0` before the call. -/
def MSD.Read (pf : Str → F64) (m : msd.MSD) (l0 : MSD) (file : Str) : Except Err MSD :=
  let s := skipLines (m.Start * (m.AtTot + 9)).toNat file 0
  readWindow pf m l0 s.1 s.2

/-- One pass of the atom loop of `MSD.GetCfg` (lines 168-182); the state is the reader,
`tmpXYZ` and `mTot`. -/
def getAtom (pf : Str → F64) (cols : Fin 3 → Nat) (colsTot : Nat) (Masses : List F64)
    (st : Str × Vec3 × F64) (a : Nat) : Except Err (Str × Vec3 × F64) :=
  let b := ReadSlice st.1
  let fields := Fields b.1
  if fields.length ≠ colsTot then Except.error Err.columnsMismatch else
  match accumAtom pf cols Masses fields a st.2.1 st.2.2 with
  | Except.error e => Except.error e
  | Except.ok t => Except.ok (b.2, t.1, t.2)

/-- One pass of the molecule loop of `MSD.GetCfg` (lines 164-189); the state is the reader
and the frame `xyz` built so far. The centre of mass is `tmpXYZ[k] /= mTot`. -/
def getMol (pf : Str → F64) (cols : Fin 3 → Nat) (colsTot : Nat) (At : ℤ) (Masses : List F64)
    (st : Str × Frame) (_mol : Nat) : Except Err (Str × Frame) :=
  match (List.range At.toNat).foldlM (getAtom pf cols colsTot Masses)
      (st.1, (fun _ => F64.fin 0), F64.fin 0) with
  | Except.error e => Except.error e
  | Except.ok t => Except.ok (t.1, st.2 ++ [fun k => (t.2.1 k).div t.2.2])

/-- Go `(*lammpstrj.MSD).GetCfg`: a resident frame is returned from `xyz`; any other is
decoded from the file at the stored offset (`Seek` from the start, then a new reader). -/
def MSD.GetCfg (pf : Str → F64) (m : msd.MSD) (l : MSD) (file : Str) (c : ℤ) : Except Err Frame :=
  if c ≥ m.MemPos then
    (if c - m.MemPos < 0 then Except.error Err.panicIndex else
      match l.xyz[(c - m.MemPos).toNat]? with
      | some f => Except.ok f
      | none => Except.error Err.panicIndex)
  else if c < 0 then Except.error Err.panicIndex else
    match l.xyzB[c.toNat]? with
    | none => Except.error Err.panicIndex
    | some off =>
      match (List.range m.Mol.toNat).foldlM (getMol pf l.cols l.colsTot m.At m.Masses)
          (file.drop off, []) with
      | Except.error e => Except.error e
      | Except.ok t => Except.ok t.2

/-- The `Method` that `lammpstrj.New` gives to `msd.MSD`, on the trajectory `file`. -/
def method (pf : Str → F64) (file : Str) : Method msd.MSD (msd.MSD × MSD) where
  Read := fun m => match MSD.Read pf m New file with
    | Except.error e => Except.error e
    | Except.ok l => Except.ok (m, l)
  GetCfg := fun s c => MSD.GetCfg pf s.1 s.2 file c

end lammpstrj

/-- The `msd.MSD` that `(*Cfg).MSD` builds from the configuration before it calls `Perform`
(cfg.go line 187): the fields not named there are zero. -/
def msdOf (c : cfg.Cfg) : msd.MSD :=
  { Start := c.Start, End := c.End, Mem := c.Mem, Tot := 0, MemPos := 0, AtTot := 0,
    At := c.At, Mol := c.Mol, Masses := c.Masses.map F64.fin, Dt := F64.fin c.Dt, Res := [] }

/-- The calls `msd.Perform()` and `msd.Write()` of `(*Cfg).MSD` (cfg.go lines 197-203): the
lines that `Write` prints. -/
def runMSD {σ : Type} (meth : Method msd.MSD σ) (m : msd.MSD) : Except Err (List (F64 × F64)) :=
  match msd.MSD.Perform meth m with
  | Except.error e => Except.error e
  | Except.ok m1 =>
    match msd.MSD.Write true m1 with
    | Except.error e => Except.error e
    | Except.ok r => Except.ok r.2

/-- A stand-in for `strconv.ParseFloat` on the values of the examples: `NaN` is NaN, a plain
decimal is its value. -/
def parse (s : Str) : F64 := if s = ['N', 'a', 'N'] then F64.nan else F64.fin (readDec s)

/-- The three coordinates of every point of a frame. -/
def triples (f : Frame) : List (F64 × F64 × F64) := f.map (fun v => (v 0, v 1, v 2))

end ieee

namespace cfg

/-- The window `[0, 2)` with one resident frame, one molecule of one atom of mass 0. -/
def cfgZeroMass : Cfg :=
  { PBC := false, Start := 0, End := 2, Mem := 1, Mol := 1, At := 1, Dist := fun _ => 2,
    Masses := [0], Dt := 1 }

end cfg

/-- A trajectory of two frames of one atom whose second `xu` coordinate is `NaN`. -/
def trajNaN : Str :=
  ("ITEM: TIMESTEP\n0\nITEM: NUMBER OF ATOMS\n1\nITEM: BOX BOUNDS pp pp pp\n0 10\n0 10\n0 10\n" ++
   "ITEM: ATOMS id xu yu zu\n1 1.5 2 3\n" ++
   "ITEM: TIMESTEP\n1\nITEM: NUMBER OF ATOMS\n1\nITEM: BOX BOUNDS pp pp pp\n0 10\n0 10\n0 10\n" ++
   "ITEM: ATOMS id xu yu zu\n1 NaN 5 -6.25\n").toList

/-- Every token of every line that a reader placed anywhere in `file` returns is parsed to a
finite value: none is read as NaN or as an infinity. -/
def parsesFinite (pf : Str → ieee.F64) (file : Str) : Prop :=
  ∀ r : Str, List.IsSuffix r file → ∀ s ∈ Fields (ReadSlice r).1, (pf s).isFinite = true

/-- A stand-in for `strconv.ParseFloat` that reads plain decimals only: every value is
finite. -/
def parseDec (s : Str) : ieee.F64 := ieee.F64.fin (readDec s)
/-! ## Loop lemmas for the correlation sweep -/

/-- A monadic fold whose steps all succeed is the pure fold. -/
theorem foldlM_ok_inv {α β : Type} (P : β → Prop) (f : β → α → Except Err β) (g : β → α → β)
    (l : List α) (b : β) (hb : P b)
    (hf : ∀ b a, a ∈ l → P b → f b a = Except.ok (g b a) ∧ P (g b a)) :
    l.foldlM f b = Except.ok (l.foldl g b) ∧ P (l.foldl g b) := by
  induction l generalizing b with
  | nil => exact ⟨rfl, hb⟩
  | cons a l ih =>
    obtain ⟨h1, h2⟩ := hf b a (List.mem_cons_self a l) hb
    have ih2 := ih (g b a) h2 (fun b2 a2 ha2 hP => hf b2 a2 (List.mem_cons_of_mem a ha2) hP)
    rw [List.foldlM_cons, h1]
    exact ih2

theorem length_bump (res : List ℚ) (idx : Nat) (v : ℚ) : (bump res idx v).length = res.length := by
  simp [bump]

theorem bump_bump (res : List ℚ) (idx : Nat) (v w : ℚ) (h : idx < res.length) :
    bump (bump res idx v) idx w = bump res idx (v + w) := by
  simp [bump, List.getD_eq_getElem?_getD, List.getElem?_set, h, add_assoc]

theorem bump_zero (res : List ℚ) (idx : Nat) (h : idx < res.length) : bump res idx 0 = res := by
  apply List.ext_getElem?
  intro n
  by_cases hn : idx = n
  · subst hn; simp [bump, List.getD_eq_getElem?_getD, List.getElem?_eq_getElem h, List.getElem?_set, h]
  · simp [bump, List.getElem?_set, hn]

theorem getD_bump (res : List ℚ) (idx d : Nat) (v : ℚ) (h : idx < res.length) :
    (bump res idx v).getD d 0 = res.getD d 0 + (if d = idx then v else 0) := by
  by_cases hd : d = idx
  · subst hd; simp [bump, List.getD_eq_getElem?_getD, List.getElem?_set, h]
  · simp [bump, List.getD_eq_getElem?_getD, List.getElem?_set, hd, Ne.symm hd]

theorem pairLoop_inner (contrib : ℚ → ℚ → ℚ) (icfg tcfg : Frame) (idx mol : Nat) (res : List ℚ)
    (a b : Vec3) (ha : icfg[mol]? = some a) (hb : tcfg[mol]? = some b) (h : idx < res.length) :
    (List.finRange 3).foldlM (fun res k =>
      match icfg[mol]?, tcfg[mol]?, res[idx]? with
      | some a, some b, some r => Except.ok (res.set idx (r + contrib (a k) (b k)))
      | _, _, _ => Except.error Err.panicIndex) res
    = Except.ok (bump res idx (∑ k : Fin 3, contrib (a k) (b k))) := by
  have step : ∀ (r : List ℚ) (k : Fin 3), idx < r.length →
      (match icfg[mol]?, tcfg[mol]?, r[idx]? with
        | some a, some b, some x => Except.ok (r.set idx (x + contrib (a k) (b k)))
        | _, _, _ => (Except.error Err.panicIndex : Except Err (List ℚ)))
      = Except.ok (bump r idx (contrib (a k) (b k))) := by
    intro r k hr
    simp [ha, hb, List.getElem?_eq_getElem hr, bump, List.getD_eq_getElem?_getD]
  have h3 : List.finRange 3 = [0, 1, 2] := by decide
  rw [h3]
  simp only [List.foldlM_cons, List.foldlM_nil]
  rw [step res 0 h]
  simp only [bind, Except.bind, pure, Except.pure]
  rw [step _ 1 (by rw [length_bump]; exact h)]
  simp only [bind, Except.bind, pure, Except.pure]
  rw [step _ 2 (by rw [length_bump, length_bump]; exact h)]
  simp only [bind, Except.bind, pure, Except.pure]
  rw [bump_bump _ _ _ _ h, bump_bump _ _ _ _ h, Fin.sum_univ_three]

theorem pairLoop_ok (contrib : ℚ → ℚ → ℚ) (Mol : Nat) (icfg tcfg : Frame) (idx : Nat)
    (res : List ℚ) (hi : icfg.length = Mol) (ht : tcfg.length = Mol) (h : idx < res.length) :
    pairLoop contrib (Mol : Int) icfg tcfg idx res
      = Except.ok (bump res idx (pairSum contrib Mol icfg tcfg)) := by
  have key : ∀ n, n ≤ Mol →
      (List.range n).foldlM (fun res mol =>
        (List.finRange 3).foldlM (fun res k =>
          match icfg[mol]?, tcfg[mol]?, res[idx]? with
          | some a, some b, some r => Except.ok (res.set idx (r + contrib (a k) (b k)))
          | _, _, _ => Except.error Err.panicIndex) res) res
      = Except.ok (bump res idx (pairSum contrib n icfg tcfg)) := by
    intro n
    induction n with
    | zero => intro _; simp [pairSum, bump_zero res idx h]; rfl
    | succ n ih =>
      intro hn
      have hni : n < icfg.length := by omega
      have hnt : n < tcfg.length := by omega
      rw [List.range_succ, List.foldlM_append, ih (by omega)]
      simp only [List.foldlM_cons, List.foldlM_nil, bind, Except.bind]
      rw [pairLoop_inner contrib icfg tcfg idx n _ icfg[n] tcfg[n]
        (List.getElem?_eq_getElem hni) (List.getElem?_eq_getElem hnt)
        (by rw [length_bump]; exact h)]
      simp only [pure, Except.pure]
      rw [bump_bump _ _ _ _ h]
      simp [pairSum, Finset.sum_range_succ, List.getD_eq_getElem?_getD,
        List.getElem?_eq_getElem hni, List.getElem?_eq_getElem hnt]
  simpa [pairLoop] using key Mol le_rfl

theorem addLags_zero (res : List ℚ) (c : Nat → ℚ) : addLags res c 0 = res := by
  apply List.ext_getElem?
  intro d
  simp [addLags]

theorem bump_addLags (res : List ℚ) (c : Nat → ℚ) (n : Nat) (h : n < res.length) :
    bump (addLags res c n) n (c n) = addLags res c (n + 1) := by
  apply List.ext_getElem?
  intro d
  by_cases hd : d < res.length
  · by_cases hdn : n = d
    · subst hdn
      simp [bump, addLags, List.getElem?_set, List.getD_eq_getElem?_getD,
        List.getElem?_eq_getElem hd, hd]
    · have h1 : (d < n + 1) = (d < n) := by
        apply propext; constructor <;> intro h2 <;> omega
      simp [bump, addLags, List.getElem?_set, hdn, List.getElem?_eq_getElem hd, h1]
  · have h1 : ¬ n = d := by omega
    simp [bump, addLags, List.getElem?_set, h1, List.getElem?_eq_none (Nat.le_of_not_lt hd)]

/-- The inner loop over `j` of `Perform` for a fixed `i`: every lag `d < n` receives the
contribution of the pair `(i, i + 1 + d)`. -/
theorem jloop_ok (contrib : ℚ → ℚ → ℚ) (gc : Int → Except Err Frame) (fr : Nat → Frame)
    (Tot Mol i : Nat) (icfg : Frame) (hic : icfg.length = Mol)
    (hgc : ∀ j : Nat, j < Tot → gc (j : Int) = Except.ok (fr j) ∧ (fr j).length = Mol)
    (res : List ℚ) (hres : res.length = Tot - 1) (n : Nat) (hn : i + 1 + n ≤ Tot) :
    (List.range' (i + 1) n).foldlM (fun (res : List ℚ) (j : Nat) =>
        match gc (j : Int) with
        | Except.error e => Except.error e
        | Except.ok tcfg => pairLoop contrib (Mol : Int) icfg tcfg (j - i - 1) res) res
      = Except.ok (addLags res (fun d => pairSum contrib Mol icfg (fr (i + 1 + d))) n) := by
  induction n with
  | zero => simp [addLags_zero]; rfl
  | succ n ih =>
    rw [List.range'_concat, List.foldlM_append, ih (by omega)]
    simp only [List.foldlM_cons, List.foldlM_nil, bind, Except.bind, Nat.one_mul]
    rw [(hgc (i + 1 + n) (by omega)).1]
    simp only []
    have hidx : i + 1 + n - i - 1 = n := by omega
    rw [hidx, pairLoop_ok contrib Mol icfg (fr (i + 1 + n)) n _ hic (hgc (i + 1 + n) (by omega)).2
      (by simp [addLags]; omega)]
    simp only [pure, Except.pure]
    rw [bump_addLags _ _ _ (by omega)]

theorem length_lagSums (C : Nat → Nat → ℚ) (Tot n : Nat) : (lagSums C Tot n).length = Tot - 1 := by
  simp [lagSums]

theorem lagSums_zero (C : Nat → Nat → ℚ) (Tot : Nat) :
    lagSums C Tot 0 = List.replicate (Tot - 1) 0 := by
  apply List.ext_getElem?
  intro d
  by_cases hd : d < Tot - 1
  · simp [lagSums, List.getElem?_replicate, hd, List.getElem?_range hd]
  · simp [lagSums, List.getElem?_replicate, hd, List.getElem?_eq_none]

theorem addLags_lagSums (C : Nat → Nat → ℚ) (Tot n : Nat) :
    addLags (lagSums C Tot n) (fun d => C n (n + 1 + d)) (Tot - (n + 1)) = lagSums C Tot (n + 1) := by
  apply List.ext_getElem?
  intro d
  by_cases hd : d < Tot - 1
  · have h1 : (d < Tot - (n + 1)) = (n + d + 1 < Tot) := by
      apply propext; constructor <;> intro h2 <;> omega
    have h2 : n + 1 + d = n + d + 1 := by omega
    simp [addLags, lagSums, List.getElem?_range hd, Finset.sum_range_succ, h1, h2]
  · simp [addLags, lagSums, List.getElem?_eq_none, Nat.le_of_not_lt hd]

theorem getElem?_lagSums_full (C : Nat → Nat → ℚ) (Tot d : Nat) (hd : d < Tot - 1) :
    (lagSums C Tot (Tot - 1))[d]? = some (∑ i in Finset.range (Tot - 1 - d), C i (i + d + 1)) := by
  have h1 : Finset.filter (fun i => i + d + 1 < Tot) (Finset.range (Tot - 1))
      = Finset.range (Tot - 1 - d) := by
    ext i
    simp only [Finset.mem_filter, Finset.mem_range]
    omega
  simp [lagSums, List.getElem?_range hd, ← Finset.sum_filter, h1]

/-- The outer loop of `MSD.Perform`, run for its first `n` reference frames. -/
theorem msd_iloop_ok (gc : Int → Except Err Frame) (fr : Nat → Frame) (Tot Mol : Nat)
    (hgc : ∀ j : Nat, j < Tot → gc (j : Int) = Except.ok (fr j) ∧ (fr j).length = Mol)
    (n : Nat) (hn : n ≤ Tot - 1) :
    (List.range n).foldlM (fun (res : List ℚ) (i : Nat) =>
        match gc (i : Int) with
        | Except.error e => Except.error e
        | Except.ok icfg =>
          (List.range' (i + 1) (Tot - (i + 1))).foldlM (fun (res : List ℚ) (j : Nat) =>
            match gc (j : Int) with
            | Except.error e => Except.error e
            | Except.ok tcfg => pairLoop msd.sq (Mol : Int) icfg tcfg (j - i - 1) res) res)
        (List.replicate (Tot - 1) 0)
      = Except.ok (lagSums (fun i j => pairSum msd.sq Mol (fr i) (fr j)) Tot n) := by
  induction n with
  | zero => simp [lagSums_zero]; rfl
  | succ n ih =>
    rw [List.range_succ, List.foldlM_append, ih (by omega)]
    simp only [List.foldlM_cons, List.foldlM_nil, bind, Except.bind]
    rw [(hgc n (by omega)).1]
    simp only []
    rw [jloop_ok msd.sq gc fr Tot Mol n (fr n) (hgc n (by omega)).2 hgc _
      (length_lagSums _ _ _) (Tot - (n + 1)) (by omega)]
    simp only [pure, Except.pure]
    rw [addLags_lagSums (fun i j => pairSum msd.sq Mol (fr i) (fr j)) Tot n]

theorem msd_perform_eq {σ : Type} (meth : Method msd.MSD σ) (m : msd.MSD) (s : σ)
    (fr : Nat → Frame) (Tot Mol : Nat) (hTot : m.End - m.Start = Tot) (h2 : 2 ≤ Tot)
    (hMol : m.Mol = Mol) (hRead : meth.Read m.setup = Except.ok s)
    (hCfg : ∀ i : Nat, i < Tot → meth.GetCfg s (i : Int) = Except.ok (fr i) ∧ (fr i).length = Mol) :
    msd.MSD.Perform meth m = Except.ok { m.setup with
      Res := lagSums (fun i j => pairSum msd.sq Mol (fr i) (fr j)) Tot (Tot - 1) } := by
  have hs1 : m.setup.Tot = (Tot : Int) := by simp [msd.MSD.setup, hTot]
  have hs2 : m.setup.Mol = (Mol : Int) := by simp [msd.MSD.setup, hMol]
  have hs3 : m.setup.Res = List.replicate (Tot - 1) 0 := by
    simp [msd.MSD.setup, hTot]
  have hs4 : ((Tot : Int) - 1).toNat = Tot - 1 := by omega
  have hneg : ¬ (m.End - m.Start - 1 < 0) := by omega
  unfold msd.MSD.Perform
  rw [if_neg hneg]
  simp only [hRead, hs1, hs2, hs3, hs4, Int.toNat_ofNat]
  rw [msd_iloop_ok (meth.GetCfg s) fr Tot Mol hCfg (Tot - 1) le_rfl]

/-- The loop of `MSD.Write`, run for its first `n` lags. -/
theorem msd_write_loop (Tot Mol : Int) (Dt : ℚ) (res : List ℚ) (n : Nat) (hn : n ≤ res.length) :
    (List.range n).foldlM (fun (st : List ℚ × List (ℚ × ℚ)) (i : Nat) =>
      match st.1[i]? with
      | none => Except.error Err.panicIndex
      | some r =>
        let v := r / (((Tot - 1 - (i : Int)) * Mol * 3 : Int) : ℚ)
        Except.ok (st.1.set i v, st.2 ++ [((((i : Int) + 1 : Int) : ℚ) * Dt, v)]))
      (res, [])
    = Except.ok
        (res.mapIdx (fun d r => if d < n then r / (((Tot - 1 - (d : Int)) * Mol * 3 : Int) : ℚ) else r),
         (List.range n).map (fun (i : Nat) =>
            ((((i : Int) + 1 : Int) : ℚ) * Dt,
              res.getD i 0 / (((Tot - 1 - (i : Int)) * Mol * 3 : Int) : ℚ)))) := by
  induction n with
  | zero =>
    have h0 : res.mapIdx (fun (d : Nat) (r : ℚ) =>
        if d < 0 then r / (((Tot - 1 - (d : Int)) * Mol * 3 : Int) : ℚ) else r) = res := by
      apply List.ext_getElem?
      intro d
      simp
    simp only [List.range_zero, List.foldlM_nil, List.map_nil, h0]
    rfl
  | succ n ih =>
    have hlt : n < res.length := by omega
    rw [List.range_succ, List.foldlM_append, ih (by omega)]
    simp only [List.foldlM_cons, List.foldlM_nil, bind, Except.bind]
    have hget : (res.mapIdx (fun (d : Nat) (r : ℚ) =>
        if d < n then r / (((Tot - 1 - (d : Int)) * Mol * 3 : Int) : ℚ) else r))[n]?
        = some res[n] := by
      simp [List.getElem?_eq_getElem hlt]
    rw [hget]
    simp only [pure, Except.pure, List.map_append, List.map_cons, List.map_nil]
    congr 2
    · apply List.ext_getElem?
      intro d
      by_cases hd : d < res.length
      · by_cases hdn : n = d
        · subst hdn
          simp [List.getElem?_set, List.getElem?_eq_getElem hd, hd]
        · have h1 : (d < n + 1) = (d < n) := by
            apply propext; constructor <;> intro h2 <;> omega
          simp [List.getElem?_set, hdn, List.getElem?_eq_getElem hd, h1]
      · have h1 : ¬ n = d := by omega
        simp [List.getElem?_set, h1, List.getElem?_eq_none (Nat.le_of_not_lt hd)]
    · simp [List.getD_eq_getElem?_getD, List.getElem?_eq_getElem hlt]

theorem msd_write_eq (m : msd.MSD) :
    msd.MSD.Write true m = Except.ok
      ({ m with Res := m.Res.mapIdx (fun d r =>
            if d < (m.Tot - 1).toNat then
              r / (((m.Tot - 1 - (d : Int)) * m.Mol * 3 : Int) : ℚ) else r) },
        (List.range (m.Tot - 1).toNat).map (fun (i : Nat) =>
            ((((i : Int) + 1 : Int) : ℚ) * m.Dt,
              m.Res.getD i 0 / (((m.Tot - 1 - (i : Int)) * m.Mol * 3 : Int) : ℚ))))
      ∨ ¬ (m.Tot - 1).toNat ≤ m.Res.length := by
  by_cases h : (m.Tot - 1).toNat ≤ m.Res.length
  · left
    unfold msd.MSD.Write
    simp only [Bool.true_eq_false, if_false]
    rw [msd_write_loop m.Tot m.Mol m.Dt m.Res _ h]
  · right; exact h

/-! ## C1 -/

/-- C1: for a window of `Tot ≥ 2` frames and `Mol > 0` molecules served by a frame source
whose `Read` succeeds and whose `GetCfg i` succeeds with `Mol` points for every `i < Tot`,
`MSD.Perform` followed by `MSD.Write` succeeds, `Res` has `Tot - 1` entries, and entry `d` is
the sum over the reference frames `i ≤ Tot - 2 - d`, the molecules and the three axes of
`(frame i - frame (i + d + 1)) ^ 2`, divided by the non-zero `(Tot - 1 - d) * Mol * 3`. -/
theorem msd_perform_write_formula {σ : Type} (meth : Method msd.MSD σ) (m : msd.MSD) (s : σ)
    (fr : Nat → Frame) (Tot Mol : Nat) (hTot : m.End - m.Start = Tot) (h2 : 2 ≤ Tot)
    (hMol : m.Mol = Mol) (hpos : 0 < Mol) (hRead : meth.Read m.setup = Except.ok s)
    (hCfg : ∀ i : Nat, i < Tot →
      meth.GetCfg s (i : Int) = Except.ok (fr i) ∧ (fr i).length = Mol) :
    ∃ m1 m2 out, msd.MSD.Perform meth m = Except.ok m1 ∧
      msd.MSD.Write true m1 = Except.ok (m2, out) ∧ m2.Res.length = Tot - 1 ∧
      ∀ d : Nat, d < Tot - 1 →
        (((Tot - 1 - d) * Mol * 3 : Nat) : ℚ) ≠ 0 ∧
        m2.Res[d]? = some
          ((∑ i in Finset.range (Tot - 1 - d), ∑ mol in Finset.range Mol, ∑ k : Fin 3,
              ((fr i).getD mol 0 k - (fr (i + d + 1)).getD mol 0 k) ^ 2)
            / (((Tot - 1 - d) * Mol * 3 : Nat) : ℚ)) := by
  have hP := msd_perform_eq meth m s fr Tot Mol hTot h2 hMol hRead hCfg
  have hs4 : ((Tot : Int) - 1).toNat = Tot - 1 := by omega
  rcases msd_write_eq { m.setup with
      Res := lagSums (fun i j => pairSum msd.sq Mol (fr i) (fr j)) Tot (Tot - 1) } with hW | hW
  · refine ⟨_, _, _, hP, hW, ?_, ?_⟩
    · simp [length_lagSums]
    · intro d hd
      have hne : (((Tot - 1 - d) * Mol * 3 : Nat) : ℚ) ≠ 0 := by
        have h3 : 0 < (Tot - 1 - d) * Mol * 3 := by
          apply Nat.mul_pos (Nat.mul_pos (by omega) hpos) (by decide)
        exact_mod_cast Nat.pos_iff_ne_zero.mp h3
      refine ⟨hne, ?_⟩
      have hcast : (((Tot : Int) - 1 - (d : Int)) * (Mol : Int) * 3 : Int)
          = (((Tot - 1 - d) * Mol * 3 : Nat) : Int) := by
        have h5 : ((Tot : Int) - 1 - (d : Int)) = ((Tot - 1 - d : Nat) : Int) := by omega
        rw [h5]; push_cast; ring
      simp only [List.getElem?_mapIdx, msd.MSD.setup, hTot, hMol, hs4,
        getElem?_lagSums_full _ Tot d hd, Option.map_some', hd, if_true, hcast]
      simp only [pairSum, msd.sq, Int.cast_natCast, pow_two]
  · exfalso
    apply hW
    simp [length_lagSums, msd.MSD.setup, hTot, hs4]

/-- Witness for C1, the scenario of the specification: `Tot = 3`, `Mol = 1`, positions
`x = 0, 1, 3` give `Res[0] = 5/6` and `Res[1] = 3`. -/
theorem msd_perform_write_formula_witness :
    ∃ m1 m2 out,
      msd.MSD.Perform (listMethod msd.MSD [[onX 0], [onX 1], [onX 3]]) msdScenario = Except.ok m1 ∧
      msd.MSD.Write true m1 = Except.ok (m2, out) ∧
      m2.Res[0]? = some (5 / 6) ∧ m2.Res[1]? = some 3 := by
  obtain ⟨m1, m2, out, h1, h2, _, h4⟩ :=
    msd_perform_write_formula (listMethod msd.MSD [[onX 0], [onX 1], [onX 3]]) msdScenario ()
      (fun i => [[onX 0], [onX 1], [onX 3]].getD i []) 3 1 (by decide) (by decide) rfl
      (by decide) rfl
      (by
        intro i hi
        interval_cases i <;> exact ⟨rfl, rfl⟩)
  refine ⟨m1, m2, out, h1, h2, ?_, ?_⟩
  · rw [(h4 0 (by decide)).2]
    simp [Finset.sum_range_succ, Fin.sum_univ_three, onX]
    norm_num
  · rw [(h4 1 (by decide)).2]
    simp [Finset.sum_range_succ, Fin.sum_univ_three, onX]
    norm_num

/-! ## The sweep of `VAC.Perform` -/

theorem selfLoop_ok (Mol : Nat) (icfg : Frame) (rd : ℚ) (hi : icfg.length = Mol) :
    vac.selfLoop (Mol : ℤ) icfg rd = Except.ok (rd + selfSum Mol icfg) := by
  have key : ∀ n, n ≤ Mol →
      (List.range n).foldlM (fun rd mol =>
        (List.finRange 3).foldlM (fun rd k =>
          match icfg[mol]? with
          | some a => Except.ok (rd + a k * a k)
          | none => (Except.error Err.panicIndex : Except Err ℚ)) rd) rd
      = Except.ok (rd + selfSum n icfg) := by
    intro n
    induction n with
    | zero => intro _; simp [selfSum]; rfl
    | succ n ih =>
      intro hn
      have hni : n < icfg.length := by omega
      have h3 : List.finRange 3 = [0, 1, 2] := by decide
      rw [List.range_succ, List.foldlM_append, ih (by omega)]
      simp only [List.foldlM_cons, List.foldlM_nil, bind, Except.bind, h3,
        List.getElem?_eq_getElem hni, pure, Except.pure]
      simp [selfSum, Finset.sum_range_succ, Fin.sum_univ_three, List.getD_eq_getElem?_getD,
        List.getElem?_eq_getElem hni]
      ring
  simpa [vac.selfLoop] using key Mol le_rfl

/-- The outer loop of `VAC.Perform`, run for its first `n` reference frames. -/
theorem vac_iloop_ok (gc : ℤ → Except Err Frame) (fr : Nat → Frame) (Tot Mol : Nat) (rd0 : ℚ)
    (hgc : ∀ j : Nat, j < Tot → gc (j : ℤ) = Except.ok (fr j) ∧ (fr j).length = Mol)
    (n : Nat) (hn : n ≤ Tot - 1) :
    (List.range n).foldlM (fun (st : List ℚ × ℚ) (i : Nat) =>
        match gc (i : ℤ) with
        | Except.error e => Except.error e
        | Except.ok icfg =>
          match vac.selfLoop (Mol : ℤ) icfg st.2 with
          | Except.error e => Except.error e
          | Except.ok rd =>
            match (List.range' (i + 1) (Tot - (i + 1))).foldlM
                (fun (res : List ℚ) (j : Nat) =>
                  match gc (j : ℤ) with
                  | Except.error e => Except.error e
                  | Except.ok tcfg => pairLoop vac.dot (Mol : ℤ) icfg tcfg (j - i - 1) res)
                st.1 with
            | Except.error e => Except.error e
            | Except.ok res => Except.ok (res, rd))
        (List.replicate (Tot - 1) 0, rd0)
      = Except.ok (lagSums (fun i j => pairSum vac.dot Mol (fr i) (fr j)) Tot n,
          rd0 + ∑ i in Finset.range n, selfSum Mol (fr i)) := by
  induction n with
  | zero => simp [lagSums_zero]; rfl
  | succ n ih =>
    rw [List.range_succ, List.foldlM_append, ih (by omega)]
    simp only [List.foldlM_cons, List.foldlM_nil, bind, Except.bind]
    rw [(hgc n (by omega)).1]
    simp only []
    rw [selfLoop_ok Mol (fr n) _ (hgc n (by omega)).2]
    simp only []
    rw [jloop_ok vac.dot gc fr Tot Mol n (fr n) (hgc n (by omega)).2 hgc _
      (length_lagSums _ _ _) (Tot - (n + 1)) (by omega)]
    simp only [pure, Except.pure]
    rw [addLags_lagSums (fun i j => pairSum vac.dot Mol (fr i) (fr j)) Tot n,
      Finset.sum_range_succ, add_assoc]

/-- The normalisation loop of `VAC.Perform`, run for its first `n` lags. -/
theorem vac_norm_loop (Tot Mol : ℤ) (res : List ℚ) (acc : ℚ) (n : Nat) (hn : n ≤ res.length) :
    (List.range n).foldlM (fun (st : List ℚ × ℚ) (i : Nat) =>
      match st.1[i]? with
      | none => Except.error Err.panicIndex
      | some r =>
        let v := r / ((((Tot - 1 - (i : ℤ)) * Mol * 3 : ℤ) : ℚ) / 2)
        Except.ok (st.1.set i v, st.2 + v))
      (res, acc)
    = Except.ok
        (res.mapIdx (fun d r =>
            if d < n then r / ((((Tot - 1 - (d : ℤ)) * Mol * 3 : ℤ) : ℚ) / 2) else r),
         acc + ∑ i in Finset.range n,
            res.getD i 0 / ((((Tot - 1 - (i : ℤ)) * Mol * 3 : ℤ) : ℚ) / 2)) := by
  induction n with
  | zero =>
    have h0 : res.mapIdx (fun (d : Nat) (r : ℚ) =>
        if d < 0 then r / ((((Tot - 1 - (d : ℤ)) * Mol * 3 : ℤ) : ℚ) / 2) else r) = res := by
      apply List.ext_getElem?
      intro d
      simp
    simp only [List.range_zero, List.foldlM_nil, Finset.range_zero, Finset.sum_empty, h0,
      add_zero]
    rfl
  | succ n ih =>
    have hlt : n < res.length := by omega
    rw [List.range_succ, List.foldlM_append, ih (by omega)]
    simp only [List.foldlM_cons, List.foldlM_nil, bind, Except.bind]
    have hget : (res.mapIdx (fun (d : Nat) (r : ℚ) =>
        if d < n then r / ((((Tot - 1 - (d : ℤ)) * Mol * 3 : ℤ) : ℚ) / 2) else r))[n]?
        = some res[n] := by
      simp [List.getElem?_eq_getElem hlt]
    rw [hget]
    simp only [pure, Except.pure]
    congr 2
    · apply List.ext_getElem?
      intro d
      by_cases hd : d < res.length
      · by_cases hdn : n = d
        · subst hdn
          simp [List.getElem?_set, List.getElem?_eq_getElem hd, hd]
        · have h1 : (d < n + 1) = (d < n) := by
            apply propext; constructor <;> intro h2 <;> omega
          simp [List.getElem?_set, hdn, List.getElem?_eq_getElem hd, h1]
      · have h1 : ¬ n = d := by omega
        simp [List.getElem?_set, h1, List.getElem?_eq_none (Nat.le_of_not_lt hd)]
    · simp [Finset.sum_range_succ, List.getD_eq_getElem?_getD, List.getElem?_eq_getElem hlt,
        add_assoc]

/-- The value returned by `VAC.Perform` on a frame source that serves `Tot ≥ 2` frames of
`Mol` points. -/
theorem vac_perform_eq {σ : Type} (meth : Method vac.VAC σ) (m : vac.VAC) (s : σ)
    (fr : Nat → Frame) (Tot Mol : Nat) (hTot : m.End - m.Start = Tot) (h2 : 2 ≤ Tot)
    (hMol : m.Mol = Mol) (hRead : meth.Read m.setup = Except.ok s)
    (hCfg : ∀ i : Nat, i < Tot → meth.GetCfg s (i : ℤ) = Except.ok (fr i) ∧ (fr i).length = Mol) :
    vac.VAC.Perform meth m = Except.ok { m.setup with
      Res := (lagSums (fun i j => pairSum vac.dot Mol (fr i) (fr j)) Tot (Tot - 1)).mapIdx
        (fun d r => if d < Tot - 1 then
          r / ((((((Tot : ℤ) - 1 - (d : ℤ)) * (Mol : ℤ) * 3 : ℤ)) : ℚ) / 2) else r)
      ResDiv := (m.ResDiv + ∑ i in Finset.range (Tot - 1), selfSum Mol (fr i))
        / ((((((Tot : ℤ) - 1) * (Mol : ℤ) * 3 : ℤ)) : ℚ) / 2)
      Int := m.Int + ∑ i in Finset.range (Tot - 1),
        (lagSums (fun i j => pairSum vac.dot Mol (fr i) (fr j)) Tot (Tot - 1)).getD i 0
          / ((((((Tot : ℤ) - 1 - (i : ℤ)) * (Mol : ℤ) * 3 : ℤ)) : ℚ) / 2) } := by
  have hs1 : m.setup.Tot = (Tot : ℤ) := by simp [vac.VAC.setup, hTot]
  have hs2 : m.setup.Mol = (Mol : ℤ) := by simp [vac.VAC.setup, hMol]
  have hs3 : m.setup.Res = List.replicate (Tot - 1) 0 := by
    simp [vac.VAC.setup, hTot]
  have hs4 : ((Tot : ℤ) - 1).toNat = Tot - 1 := by omega
  have hs5 : m.setup.ResDiv = m.ResDiv := rfl
  have hs6 : m.setup.Int = m.Int := rfl
  have hneg : ¬ (m.End - m.Start - 1 < 0) := by omega
  unfold vac.VAC.Perform
  rw [if_neg hneg]
  simp only [hRead, hs1, hs2, hs3, hs4, hs5, hs6, Int.toNat_ofNat]
  rw [vac_iloop_ok (meth.GetCfg s) fr Tot Mol m.ResDiv hCfg (Tot - 1) le_rfl]
  simp only []
  rw [vac_norm_loop (Tot : ℤ) (Mol : ℤ) _ m.Int (Tot - 1) (by rw [length_lagSums])]

/-! ## C2 -/

/-- C2: for a window of `Tot ≥ 2` frames and `Mol > 0` molecules served by a frame source
whose `Read` succeeds and whose `GetCfg i` succeeds with `Mol` points for every `i < Tot`,
`VAC.Perform` succeeds, `Res` has `Tot - 1` entries, and entry `d` is the sum over the
reference frames `i ≤ Tot - 2 - d`, the molecules and the three axes of
`frame i * frame (i + d + 1)`, divided by the non-zero `(Tot - 1 - d) * Mol * 3 / 2`. -/
theorem vac_perform_res_formula {σ : Type} (meth : Method vac.VAC σ) (m : vac.VAC) (s : σ)
    (fr : Nat → Frame) (Tot Mol : Nat) (hTot : m.End - m.Start = Tot) (h2 : 2 ≤ Tot)
    (hMol : m.Mol = Mol) (hpos : 0 < Mol) (hRead : meth.Read m.setup = Except.ok s)
    (hCfg : ∀ i : Nat, i < Tot →
      meth.GetCfg s (i : ℤ) = Except.ok (fr i) ∧ (fr i).length = Mol) :
    ∃ m1, vac.VAC.Perform meth m = Except.ok m1 ∧ m1.Res.length = Tot - 1 ∧
      ∀ d : Nat, d < Tot - 1 →
        (((Tot - 1 - d) * Mol * 3 : Nat) : ℚ) / 2 ≠ 0 ∧
        m1.Res[d]? = some
          ((∑ i in Finset.range (Tot - 1 - d), ∑ mol in Finset.range Mol, ∑ k : Fin 3,
              (fr i).getD mol 0 k * (fr (i + d + 1)).getD mol 0 k)
            / ((((Tot - 1 - d) * Mol * 3 : Nat) : ℚ) / 2)) := by
  refine ⟨_, vac_perform_eq meth m s fr Tot Mol hTot h2 hMol hRead hCfg, ?_, ?_⟩
  · simp [length_lagSums]
  · intro d hd
    have hne : (((Tot - 1 - d) * Mol * 3 : Nat) : ℚ) / 2 ≠ 0 := by
      have h3 : 0 < (Tot - 1 - d) * Mol * 3 := by
        apply Nat.mul_pos (Nat.mul_pos (by omega) hpos) (by decide)
      have h4 : (((Tot - 1 - d) * Mol * 3 : Nat) : ℚ) ≠ 0 := by
        exact_mod_cast Nat.pos_iff_ne_zero.mp h3
      exact div_ne_zero h4 (by norm_num)
    refine ⟨hne, ?_⟩
    have hcast : (((Tot : ℤ) - 1 - (d : ℤ)) * (Mol : ℤ) * 3 : ℤ)
        = (((Tot - 1 - d) * Mol * 3 : Nat) : ℤ) := by
      have h5 : ((Tot : ℤ) - 1 - (d : ℤ)) = ((Tot - 1 - d : Nat) : ℤ) := by omega
      rw [h5]; push_cast; ring
    simp only [List.getElem?_mapIdx, getElem?_lagSums_full _ Tot d hd, Option.map_some', hd,
      if_true, hcast]
    simp only [pairSum, vac.dot, Int.cast_natCast]

/-- Witness for C2: the frames `x = 2, 1, 3` of one molecule give `Res[0] = 5/3` and
`Res[1] = 4`. -/
theorem vac_perform_res_formula_witness :
    ∃ m1, vac.VAC.Perform (listMethod vac.VAC [[onX 2], [onX 1], [onX 3]]) vacScenario3
        = Except.ok m1 ∧
      m1.Res[0]? = some (5 / 3) ∧ m1.Res[1]? = some 4 := by
  obtain ⟨m1, h1, _, h4⟩ :=
    vac_perform_res_formula (listMethod vac.VAC [[onX 2], [onX 1], [onX 3]]) vacScenario3 ()
      (fun i => [[onX 2], [onX 1], [onX 3]].getD i []) 3 1 (by decide) (by decide) rfl
      (by decide) rfl
      (by
        intro i hi
        interval_cases i <;> exact ⟨rfl, rfl⟩)
  refine ⟨m1, h1, ?_, ?_⟩
  · rw [(h4 0 (by decide)).2]
    simp [Finset.sum_range_succ, Fin.sum_univ_three, onX]
    norm_num
  · rw [(h4 1 (by decide)).2]
    simp [Finset.sum_range_succ, Fin.sum_univ_three, onX]
    norm_num

/-! ## C3 -/

/-- C3 as stated fails: for the window of the two frames `x = 0` and `x = 1` of one molecule,
`VAC.Perform` returns `ResDiv = 0`, while the sum over every frame `i < Tot` divided by
`(Tot - 1) * Mol * 3 / 2` is `2/3`. -/
theorem vac_resdiv_every_frame_counterexample :
    ∃ m1, vac.VAC.Perform (listMethod vac.VAC [[onX 0], [onX 1]]) vacScenario = Except.ok m1 ∧
      m1.ResDiv = 0 ∧
      m1.ResDiv ≠ (∑ i in Finset.range 2, ∑ mol in Finset.range 1, ∑ k : Fin 3,
          ([[onX 0], [onX 1]].getD i []).getD mol 0 k * ([[onX 0], [onX 1]].getD i []).getD mol 0 k)
        / ((((2 - 1) * 1 * 3 : Nat) : ℚ) / 2) := by
  have h := vac_perform_eq (listMethod vac.VAC [[onX 0], [onX 1]]) vacScenario ()
      (fun i => [[onX 0], [onX 1]].getD i []) 2 1 (by decide) (by decide) rfl rfl
      (by
        intro i hi
        interval_cases i <;> exact ⟨rfl, rfl⟩)
  refine ⟨_, h, ?_, ?_⟩
  · simp [Finset.sum_range_succ, Fin.sum_univ_three, onX, selfSum, vacScenario]
  · simp [Finset.sum_range_succ, Fin.sum_univ_three, onX, selfSum, vacScenario]
    norm_num

/-- C3, amended: after `VAC.Perform` on a fresh value (`ResDiv = 0`), `ResDiv` is the sum
over the reference frames of the outer loop, `i < Tot - 1` (the last frame of the window is
left out), the molecules and the three axes of the squared coordinate, divided by the
non-zero `(Tot - 1) * Mol * 3 / 2`. -/
theorem vac_perform_resdiv_formula {σ : Type} (meth : Method vac.VAC σ) (m : vac.VAC) (s : σ)
    (fr : Nat → Frame) (Tot Mol : Nat) (hTot : m.End - m.Start = Tot) (h2 : 2 ≤ Tot)
    (hMol : m.Mol = Mol) (hpos : 0 < Mol) (hfresh : m.ResDiv = 0)
    (hRead : meth.Read m.setup = Except.ok s)
    (hCfg : ∀ i : Nat, i < Tot →
      meth.GetCfg s (i : ℤ) = Except.ok (fr i) ∧ (fr i).length = Mol) :
    ∃ m1, vac.VAC.Perform meth m = Except.ok m1 ∧
      (((Tot - 1) * Mol * 3 : Nat) : ℚ) / 2 ≠ 0 ∧
      m1.ResDiv =
        (∑ i in Finset.range (Tot - 1), ∑ mol in Finset.range Mol, ∑ k : Fin 3,
            (fr i).getD mol 0 k * (fr i).getD mol 0 k)
          / ((((Tot - 1) * Mol * 3 : Nat) : ℚ) / 2) := by
  refine ⟨_, vac_perform_eq meth m s fr Tot Mol hTot h2 hMol hRead hCfg, ?_, ?_⟩
  · have h3 : 0 < (Tot - 1) * Mol * 3 := by
      apply Nat.mul_pos (Nat.mul_pos (by omega) hpos) (by decide)
    have h4 : (((Tot - 1) * Mol * 3 : Nat) : ℚ) ≠ 0 := by
      exact_mod_cast Nat.pos_iff_ne_zero.mp h3
    exact div_ne_zero h4 (by norm_num)
  · have hcast : (((Tot : ℤ) - 1) * (Mol : ℤ) * 3 : ℤ) = (((Tot - 1) * Mol * 3 : Nat) : ℤ) := by
      have h5 : ((Tot : ℤ) - 1) = ((Tot - 1 : Nat) : ℤ) := by omega
      rw [h5]; push_cast; ring
    simp only [hfresh, zero_add, hcast, selfSum, Int.cast_natCast]

/-- Witness for C3 (amended): the frames `x = 2, 1, 3` of one molecule give
`ResDiv = (4 + 1) / 3`. -/
theorem vac_perform_resdiv_formula_witness :
    ∃ m1, vac.VAC.Perform (listMethod vac.VAC [[onX 2], [onX 1], [onX 3]]) vacScenario3
        = Except.ok m1 ∧ m1.ResDiv = 5 / 3 := by
  obtain ⟨m1, h1, _, h4⟩ :=
    vac_perform_resdiv_formula (listMethod vac.VAC [[onX 2], [onX 1], [onX 3]]) vacScenario3 ()
      (fun i => [[onX 2], [onX 1], [onX 3]].getD i []) 3 1 (by decide) (by decide) rfl
      (by decide) rfl rfl
      (by
        intro i hi
        interval_cases i <;> exact ⟨rfl, rfl⟩)
  refine ⟨m1, h1, ?_⟩
  rw [h4]
  simp [Finset.sum_range_succ, Fin.sum_univ_three, onX]
  norm_num

/-! ## C4 -/

/-- C4: after `VAC.Perform` on a fresh value (`Int = 0`), `Int` is the sum over the lag
indices `d < Tot - 1` of the normalised `Res[d]`. -/
theorem vac_perform_int_sum {σ : Type} (meth : Method vac.VAC σ) (m : vac.VAC) (s : σ)
    (fr : Nat → Frame) (Tot Mol : Nat) (hTot : m.End - m.Start = Tot) (h2 : 2 ≤ Tot)
    (hMol : m.Mol = Mol) (hfresh : m.Int = 0) (hRead : meth.Read m.setup = Except.ok s)
    (hCfg : ∀ i : Nat, i < Tot →
      meth.GetCfg s (i : ℤ) = Except.ok (fr i) ∧ (fr i).length = Mol) :
    ∃ m1, vac.VAC.Perform meth m = Except.ok m1 ∧ m1.Res.length = Tot - 1 ∧
      m1.Int = ∑ d in Finset.range (Tot - 1), m1.Res.getD d 0 := by
  refine ⟨_, vac_perform_eq meth m s fr Tot Mol hTot h2 hMol hRead hCfg, ?_, ?_⟩
  · simp [length_lagSums]
  · simp only [hfresh, zero_add]
    apply Finset.sum_congr rfl
    intro d hd
    have hd2 : d < Tot - 1 := Finset.mem_range.mp hd
    have hd3 : d < (lagSums (fun i j => pairSum vac.dot Mol (fr i) (fr j)) Tot (Tot - 1)).length := by
      rw [length_lagSums]; exact hd2
    simp [List.getD_eq_getElem?_getD, List.getElem?_eq_getElem hd3, hd2]

/-- Witness for C4: the frames `x = 2, 1, 3` of one molecule give `Int = 5/3 + 4`. -/
theorem vac_perform_int_sum_witness :
    ∃ m1, vac.VAC.Perform (listMethod vac.VAC [[onX 2], [onX 1], [onX 3]]) vacScenario3
        = Except.ok m1 ∧ m1.Res.length = 2 ∧
      m1.Int = ∑ d in Finset.range 2, m1.Res.getD d 0 :=
  vac_perform_int_sum (listMethod vac.VAC [[onX 2], [onX 1], [onX 3]]) vacScenario3 ()
    (fun i => [[onX 2], [onX 1], [onX 3]].getD i []) 3 1 (by decide) (by decide) rfl rfl rfl
    (by
      intro i hi
      interval_cases i <;> exact ⟨rfl, rfl⟩)

/-! ## C5 -/

/-- C5 (failing input): on the two-frame trajectory `trajU`, `Read` succeeds for `Mem = 0`
and for `Mem = 2`; `GetCfg 0` then fails with the column-count error when `Mem = 0` (no
header was parsed, `colsTot` is still `0`) and returns the point `(1.5, 2, 3)` when
`Mem = 2`. -/
theorem getCfg_differs_between_budgets :
    ((lammpstrj.method readDec trajU).Read (window2 0).setup).map
        (fun s => ((lammpstrj.method readDec trajU).GetCfg s 0).map triples)
      = Except.ok (Except.error Err.columnsMismatch) ∧
    ((lammpstrj.method readDec trajU).Read (window2 2).setup).map
        (fun s => ((lammpstrj.method readDec trajU).GetCfg s 0).map triples)
      = Except.ok (Except.ok [(3 / 2, 2, 3)]) := by
  decide!

/-! ## C7 -/

/-- C7 (failing input): the label list `x x y` lacks `z`, yet `firstCfg` returns no error
and decodes with the columns `(1, 2, 0)`; the label list `xu xu yu` lacks `zu`, yet `Read`
with `Mem = 2` returns no error and decodes with the columns `(1, 2, 0)`: the third
coordinate is read from column 0. -/
theorem repeated_label_hides_missing_column :
    (['z'] ∉ (Fields firstXXY).drop 2 ∧
      (lammpstrj.firstCfg readDec fmtSmall conv11 firstXXY (fun _ => 10)).map
          (fun f => ([f.cols 0, f.cols 1, f.cols 2, f.colsTot], triples f.lastXYZ))
        = Except.ok ([1, 2, 0, 3], [(2, 3, 1)])) ∧
    (['z', 'u'] ∉ (Fields (ReadSlice (skipLines 8 trajXXY 0).1).1).drop 2 ∧
      (lammpstrj.MSD.Read readDec (window2 2).setup lammpstrj.New trajXXY).map
          (fun l => ([l.cols 0, l.cols 1, l.cols 2, l.colsTot], l.xyz.map triples))
        = Except.ok ([1, 2, 0, 3], [[(2, 3, 1)], [(5, 6, 4)]])) := by
  decide!

/-! ## Readers and folds -/

theorem exists_ok_of_isOk {α : Type} {x : Except Err α} (h : isOk x = true) :
    ∃ a, x = Except.ok a := by
  cases x with
  | ok a => exact ⟨a, rfl⟩
  | error e => simp [isOk] at h

theorem foldlM_range_succ_ok {β : Type} (f : β → Nat → Except Err β) (n : Nat) (b st : β) :
    (List.range (n + 1)).foldlM f b = Except.ok st ↔
      ∃ mid, (List.range n).foldlM f b = Except.ok mid ∧ f mid n = Except.ok st := by
  rw [List.range_succ, List.foldlM_append]
  cases h : (List.range n).foldlM f b with
  | error e => simp [bind, Except.bind]
  | ok mid =>
    simp only [bind, Except.bind, List.foldlM_cons, List.foldlM_nil, pure, Except.pure]
    cases hf : f mid n <;> simp [hf]

theorem dropLines_succ (n : Nat) (r : Str) :
    dropLines (n + 1) r = (ReadSlice (dropLines n r)).2 := by
  induction n generalizing r with
  | zero => rfl
  | succ n ih => rw [dropLines, ih]; rfl

theorem dropLines_add (m n : Nat) (r : Str) :
    dropLines (m + n) r = dropLines n (dropLines m r) := by
  induction m generalizing r with
  | zero => simp [dropLines]
  | succ m ih => rw [Nat.succ_add, dropLines, ih]; rfl

theorem nthLine_dropLines (m n : Nat) (r : Str) :
    nthLine (dropLines m r) n = nthLine r (m + n) := by
  simp [nthLine, dropLines_add]

theorem copyLines_snd (n : Nat) (r : Str) : (lammpstrj.copyLines n r).2 = dropLines n r := by
  induction n generalizing r with
  | zero => rfl
  | succ n ih => simp [lammpstrj.copyLines, dropLines, ih]

theorem copyLines_fst (n : Nat) (r : Str) :
    (lammpstrj.copyLines n r).1 = (List.range n).map (nthLine r) := by
  induction n generalizing r with
  | zero => rfl
  | succ n ih =>
    simp only [lammpstrj.copyLines, ih, List.range_succ_eq_map, List.map_cons, List.map_map]
    congr 1

theorem skipLines_fst (n : Nat) (r : Str) (b : Nat) : (skipLines n r b).1 = dropLines n r := by
  induction n generalizing r b with
  | zero => rfl
  | succ n ih => simp [skipLines, dropLines, ih, readLine]

theorem bind_eq_ok {α β : Type} (x : Except Err α) (f : α → Except Err β) (b : β) :
    (x >>= f) = Except.ok b ↔ ∃ a, x = Except.ok a ∧ f a = Except.ok b := by
  cases x with
  | error e => simp [bind, Except.bind]
  | ok a => simp [bind, Except.bind]

theorem exists_of_map_eq_ok {α β : Type} {x : Except Err α} {g : α → β} {v : β}
    (h : x.map g = Except.ok v) : ∃ a, x = Except.ok a ∧ g a = v := by
  cases x with
  | error e => simp [Except.map] at h
  | ok a => exact ⟨a, rfl, by simpa [Except.map] using h⟩


theorem getD_set_eq {α : Type} (l : List α) (a : Nat) (v d : α) (h : a < l.length) :
    (l.set a v).getD a d = v := by
  simp [List.getD_eq_getElem?_getD, List.getElem?_set, h]

theorem getD_set_ne {α : Type} (l : List α) (a b : Nat) (v d : α) (h : a ≠ b) :
    (l.set a v).getD b d = l.getD b d := by
  simp [List.getD_eq_getElem?_getD, List.getElem?_set, h]

theorem lt_length_of_getElem?_eq_some {α : Type} (l : List α) (a : Nat) (v : α)
    (h : l[a]? = some v) : a < l.length ∧ l.getD a v = v ∧ ∀ d, l.getD a d = v := by
  have hlt : a < l.length := by
    by_contra hc
    rw [List.getElem?_eq_none (Nat.le_of_not_lt hc)] at h
    simp at h
  refine ⟨hlt, ?_, ?_⟩ <;> simp [List.getD_eq_getElem?_getD, h]

theorem fieldStep_ok {β : Type} (fields : List Str) (i : Nat) (g : Str → β) (b : β)
    (h : (match fields[i]? with
          | none => Except.error Err.panicIndex
          | some f => Except.ok (g f)) = Except.ok b) :
    i < fields.length ∧ b = g (fields.getD i []) := by
  by_cases hi : i < fields.length
  · rw [List.getElem?_eq_getElem hi] at h
    simp only [Except.ok.injEq] at h
    refine ⟨hi, ?_⟩
    rw [← h, List.getD_eq_getElem?_getD, List.getElem?_eq_getElem hi]
    rfl
  · rw [List.getElem?_eq_none (Nat.le_of_not_lt hi)] at h
    simp at h
theorem headerBox_ok (pf : Str → ℚ) (st st2 : lammpstrj.Header) (k : Fin 3)
    (h : lammpstrj.headerBox pf st k = Except.ok st2) :
    (Fields (ReadSlice st.r).1).length = 2 ∧
    st2.box = Function.update st.box k
      (pf ((Fields (ReadSlice st.r).1).getD 1 []) - pf ((Fields (ReadSlice st.r).1).getD 0 [])) ∧
    st2.box2 = Function.update st.box2 k
      ((pf ((Fields (ReadSlice st.r).1).getD 1 []) - pf ((Fields (ReadSlice st.r).1).getD 0 [])) / 2) ∧
    st2.out = st.out ++ [(ReadSlice st.r).1] ∧ st2.r = (ReadSlice st.r).2 := by
  unfold lammpstrj.headerBox at h
  by_cases hl : (Fields (ReadSlice st.r).1).length = 2
  · simp only [hl, ne_eq, not_true_eq_false, if_false] at h
    injection h with h
    subst h
    exact ⟨hl, rfl, rfl, rfl, rfl⟩
  · simp [hl] at h

/-- What `header` returns: it consumes eight lines and copies them, and the box on axis `k`
is read from the two fields of line `5 + k`. -/
theorem header_spec (pf : Str → ℚ) (r : Str) (hd : lammpstrj.Header)
    (h : lammpstrj.header pf r = Except.ok hd) :
    hd.r = dropLines 8 r ∧ hd.out = (List.range 8).map (nthLine r) ∧
    ∀ k : Fin 3, (Fields (nthLine r (5 + k))).length = 2 ∧
      hd.box k = pf ((Fields (nthLine r (5 + k))).getD 1 [])
        - pf ((Fields (nthLine r (5 + k))).getD 0 []) ∧
      hd.box2 k = hd.box k / 2 := by
  have h3 : List.finRange 3 = [0, 1, 2] := by decide
  unfold lammpstrj.header at h
  rw [h3] at h
  simp only [List.foldlM_cons, List.foldlM_nil, bind_eq_ok] at h
  obtain ⟨s1, h1, s2, h2, s3, h3', h4⟩ := h
  obtain ⟨a1, b1, c1, d1, e1⟩ := headerBox_ok pf _ _ _ h1
  obtain ⟨a2, b2, c2, d2, e2⟩ := headerBox_ok pf _ _ _ h2
  obtain ⟨a3, b3, c3, d3, e3⟩ := headerBox_ok pf _ _ _ h3'
  simp only [pure, Except.pure] at h4
  injection h4 with h4
  subst h4
  simp only [copyLines_snd, copyLines_fst] at a1 b1 c1 d1 e1
  rw [e1] at a2 b2 c2 d2 e2
  rw [e2] at a3 b3 c3 d3 e3
  have n5 : (ReadSlice (dropLines 5 r)).1 = nthLine r 5 := rfl
  have n6 : (ReadSlice (ReadSlice (dropLines 5 r)).2).1 = nthLine r 6 := rfl
  have n7 : (ReadSlice (ReadSlice (ReadSlice (dropLines 5 r)).2).2).1 = nthLine r 7 := rfl
  rw [n5] at a1 b1 c1 d1
  rw [n6] at a2 b2 c2 d2
  rw [n7] at a3 b3 c3 d3
  refine ⟨?_, ?_, ?_⟩
  · rw [e3]; rfl
  · rw [d3, d2, d1]
    simp [List.range_succ]
  · intro k
    rw [b3, b2, b1, c3, c2, c1]
    fin_cases k
    · exact ⟨a1, by simp [Function.update], by simp [Function.update]⟩
    · exact ⟨a2, by simp [Function.update], by simp [Function.update]⟩
    · exact ⟨a3, by simp [Function.update], by simp [Function.update]⟩

theorem unwrapAxis_same (box box2 : Vec3) (raw : ℚ) (cl : Vec3 × Vec3) (k : Fin 3) :
    ((lammpstrj.unwrapAxis box box2 raw cl k).1 k, (lammpstrj.unwrapAxis box box2 raw cl k).2 k)
      = axisStep (box k) (box2 k) raw (cl.1 k) (cl.2 k) := by
  unfold lammpstrj.unwrapAxis axisStep
  split_ifs <;> simp

theorem unwrapAxis_other (box box2 : Vec3) (raw : ℚ) (cl : Vec3 × Vec3) (k j : Fin 3)
    (hj : j ≠ k) :
    (lammpstrj.unwrapAxis box box2 raw cl k).1 j = cl.1 j ∧
    (lammpstrj.unwrapAxis box box2 raw cl k).2 j = cl.2 j := by
  unfold lammpstrj.unwrapAxis
  split_ifs <;> simp [Function.update, hj]

/-- The loop over the three axes in `convAtom`: every coordinate column is in range and each
axis is stepped from its own correction and last position. -/
theorem unwrapFold_spec (pf : Str → ℚ) (cols : Fin 3 → Nat) (box box2 : Vec3)
    (fields : List Str) (ca la : Vec3) (cl : Vec3 × Vec3)
    (h : (List.finRange 3).foldlM (fun (cl : Vec3 × Vec3) (k : Fin 3) =>
        match fields[cols k]? with
        | none => Except.error Err.panicIndex
        | some f => Except.ok (lammpstrj.unwrapAxis box box2 (pf f) cl k)) (ca, la)
      = Except.ok cl) :
    ∀ k : Fin 3, cols k < fields.length ∧
      (cl.1 k, cl.2 k)
        = axisStep (box k) (box2 k) (pf (fields.getD (cols k) [])) (ca k) (la k) := by
  have h3 : List.finRange 3 = [0, 1, 2] := by decide
  rw [h3] at h
  simp only [List.foldlM_cons, List.foldlM_nil, bind_eq_ok] at h
  obtain ⟨s1, h1, s2, h2, s3, h3', h4⟩ := h
  obtain ⟨a1, b1⟩ := fieldStep_ok fields (cols 0) _ _ h1
  obtain ⟨a2, b2⟩ := fieldStep_ok fields (cols 1) _ _ h2
  obtain ⟨a3, b3⟩ := fieldStep_ok fields (cols 2) _ _ h3'
  simp only [pure, Except.pure, Except.ok.injEq] at h4
  subst h4
  intro k
  fin_cases k
  · refine ⟨a1, ?_⟩
    have e1 := unwrapAxis_same box box2 (pf (fields.getD (cols 0) [])) (ca, la) 0
    have e2 := unwrapAxis_other box box2 (pf (fields.getD (cols 1) [])) s1 1 0 (by decide)
    have e3 := unwrapAxis_other box box2 (pf (fields.getD (cols 2) [])) s2 2 0 (by decide)
    rw [b3, b2, b1] at *
    simp only [Fin.zero_eta, Prod.mk.injEq] at *
    rw [e3.1, e3.2, e2.1, e2.2]
    exact e1
  · refine ⟨a2, ?_⟩
    have e1 := unwrapAxis_other box box2 (pf (fields.getD (cols 0) [])) (ca, la) 0 1 (by decide)
    have e2 := unwrapAxis_same box box2 (pf (fields.getD (cols 1) [])) s1 1
    have e3 := unwrapAxis_other box box2 (pf (fields.getD (cols 2) [])) s2 2 1 (by decide)
    rw [b3, b2, b1] at *
    show ((lammpstrj.unwrapAxis box box2 _ _ 2).1 1, (lammpstrj.unwrapAxis box box2 _ _ 2).2 1)
      = _
    rw [e3.1, e3.2, e2, e1.1, e1.2]
    rfl
  · refine ⟨a3, ?_⟩
    have e1 := unwrapAxis_other box box2 (pf (fields.getD (cols 0) [])) (ca, la) 0 2 (by decide)
    have e2 := unwrapAxis_other box box2 (pf (fields.getD (cols 1) [])) s1 1 2 (by decide)
    have e3 := unwrapAxis_same box box2 (pf (fields.getD (cols 2) [])) s2 2
    rw [b3, b2, b1] at *
    show ((lammpstrj.unwrapAxis box box2 _ _ 2).1 2, (lammpstrj.unwrapAxis box box2 _ _ 2).2 2)
      = _
    rw [e3, e2.1, e2.2, e1.1, e1.2]
    rfl

/-- One pass of the atom loop of `Conv` that returns without error. -/
theorem convAtom_ok (pf : Str → ℚ) (ff : ℚ → Str) (cols : Fin 3 → Nat) (colsTot : Nat)
    (box box2 : Vec3) (st st2 : lammpstrj.ConvState) (a : Nat)
    (h : lammpstrj.convAtom pf ff cols colsTot box box2 st a = Except.ok st2) :
    (Fields (ReadSlice st.r).1).length = colsTot ∧ a < st.corr.length ∧
    a < st.lastXYZ.length ∧
    ∃ cl : Vec3 × Vec3,
      (∀ k : Fin 3, cols k < colsTot ∧
        (cl.1 k, cl.2 k) = axisStep (box k) (box2 k)
          (pf ((Fields (ReadSlice st.r).1).getD (cols k) []))
          (st.corr.getD a 0 k) (st.lastXYZ.getD a 0 k)) ∧
      st2 = { st with r := (ReadSlice st.r).2, corr := st.corr.set a cl.1,
                      lastXYZ := st.lastXYZ.set a cl.2,
                      out := st.out ++
                        [lammpstrj.encodeRecord ff cols (Fields (ReadSlice st.r).1) cl.2] } := by
  unfold lammpstrj.convAtom at h
  by_cases hl : (Fields (ReadSlice st.r).1).length = colsTot
  · simp only [hl, ne_eq, not_true_eq_false, if_false] at h
    cases hc : st.corr[a]? with
    | none => simp [hc] at h
    | some ca =>
      cases hx : st.lastXYZ[a]? with
      | none => simp [hc, hx] at h
      | some la =>
        simp only [hc, hx] at h
        cases hf : (List.finRange 3).foldlM (fun (cl : Vec3 × Vec3) (k : Fin 3) =>
            match (Fields (ReadSlice st.r).1)[cols k]? with
            | none => Except.error Err.panicIndex
            | some f => Except.ok (lammpstrj.unwrapAxis box box2 (pf f) cl k)) (ca, la) with
        | error e => simp [hf] at h
        | ok cl =>
          simp only [hf, Except.ok.injEq] at h
          obtain ⟨c1, _, c3⟩ := lt_length_of_getElem?_eq_some _ _ _ hc
          obtain ⟨x1, _, x3⟩ := lt_length_of_getElem?_eq_some _ _ _ hx
          refine ⟨hl, c1, x1, cl, ?_, h.symm⟩
          intro k
          have hs := unwrapFold_spec pf cols box box2 _ ca la cl hf k
          rw [c3 0, x3 0]
          exact ⟨hl ▸ hs.1, hs.2⟩
  · simp [hl] at h

/-- The atom loop of `Conv` over the first `n` atoms of a frame: atom `a` is decoded from
line `a` of the reader, only entry `a` of `corr` and `lastXYZ` is stepped, and the line
written for it carries the new `lastXYZ[a]`. -/
theorem convAtoms_spec (pf : Str → ℚ) (ff : ℚ → Str) (cols : Fin 3 → Nat) (colsTot : Nat)
    (box box2 : Vec3) (n : Nat) (st st2 : lammpstrj.ConvState)
    (h : (List.range n).foldlM (lammpstrj.convAtom pf ff cols colsTot box box2) st
      = Except.ok st2) :
    st2.r = dropLines n st.r ∧ st2.log = st.log ∧ st2.corr.length = st.corr.length ∧
    st2.lastXYZ.length = st.lastXYZ.length ∧
    st2.out = st.out ++ (List.range n).map (fun a =>
      lammpstrj.encodeRecord ff cols (Fields (nthLine st.r a)) (st2.lastXYZ.getD a 0)) ∧
    (∀ a, a < n → (Fields (nthLine st.r a)).length = colsTot ∧ a < st.corr.length ∧
      a < st.lastXYZ.length ∧
      ∀ k : Fin 3, cols k < colsTot ∧
        (st2.corr.getD a 0 k, st2.lastXYZ.getD a 0 k) = axisStep (box k) (box2 k)
          (pf ((Fields (nthLine st.r a)).getD (cols k) []))
          (st.corr.getD a 0 k) (st.lastXYZ.getD a 0 k)) ∧
    (∀ a, n ≤ a → st2.corr.getD a 0 = st.corr.getD a 0 ∧
      st2.lastXYZ.getD a 0 = st.lastXYZ.getD a 0) := by
  induction n generalizing st2 with
  | zero =>
    simp only [List.range_zero, List.foldlM_nil, pure, Except.pure, Except.ok.injEq] at h
    subst h
    simp [dropLines]
  | succ n ih =>
    obtain ⟨mid, hmid, hstep⟩ := (foldlM_range_succ_ok _ n st st2).mp h
    obtain ⟨i1, i2, i3, i4, i5, i6, i7⟩ := ih mid hmid
    obtain ⟨s1, s2, s3, cl, s4, s5⟩ := convAtom_ok pf ff cols colsTot box box2 mid st2 n hstep
    have hline : (ReadSlice mid.r).1 = nthLine st.r n := by rw [i1]; rfl
    rw [hline] at s1 s4 s5
    have hc : st2.corr = mid.corr.set n cl.1 := by rw [s5]
    have hx : st2.lastXYZ = mid.lastXYZ.set n cl.2 := by rw [s5]
    have hr : st2.r = (ReadSlice mid.r).2 := by rw [s5]
    have ho : st2.out = mid.out ++ [lammpstrj.encodeRecord ff cols (Fields (nthLine st.r n)) cl.2] := by
      rw [s5]
    have hlog : st2.log = mid.log := by rw [s5]
    refine ⟨?_, ?_, ?_, ?_, ?_, ?_, ?_⟩
    · rw [hr, i1, dropLines_succ]
    · rw [hlog, i2]
    · rw [hc, List.length_set, i3]
    · rw [hx, List.length_set, i4]
    · rw [ho, i5, List.range_succ, List.map_append, List.append_assoc]
      congr 1
      congr 1
      · apply List.map_congr_left
        intro a ha
        have han : a < n := List.mem_range.mp ha
        rw [hx, getD_set_ne _ _ _ _ _ (by omega)]
      · simp only [List.map_cons, List.map_nil]
        rw [hx, getD_set_eq _ _ _ _ s3]
    · intro a ha
      by_cases han : a < n
      · obtain ⟨j1, j2, j3, j4⟩ := i6 a han
        refine ⟨j1, j2, j3, ?_⟩
        intro k
        rw [hc, hx, getD_set_ne _ _ _ _ _ (by omega), getD_set_ne _ _ _ _ _ (by omega)]
        exact j4 k
      · have hean : a = n := by omega
        subst hean
        refine ⟨s1, i3 ▸ s2, i4 ▸ s3, ?_⟩
        intro k
        rw [hc, hx, getD_set_eq _ _ _ _ s2, getD_set_eq _ _ _ _ s3, ← (i7 a le_rfl).1,
          ← (i7 a le_rfl).2]
        exact s4 k
    · intro a ha
      rw [hc, hx, getD_set_ne _ _ _ _ _ (by omega), getD_set_ne _ _ _ _ _ (by omega)]
      exact i7 a (by omega)

/-! ## The first frame of `Conv` -/

theorem firstAxis_same (Dist box : Vec3) (a : Nat) (raw : ℚ) (mol : Vec3) (k : Fin 3) :
    lammpstrj.firstAxis Dist box a raw mol k k = firstVal (Dist k) (box k) a raw (mol k) := by
  unfold lammpstrj.firstAxis firstVal
  split_ifs <;> simp

theorem firstAxis_other (Dist box : Vec3) (a : Nat) (raw : ℚ) (mol : Vec3) (k j : Fin 3)
    (hj : j ≠ k) : lammpstrj.firstAxis Dist box a raw mol k j = mol j := by
  unfold lammpstrj.firstAxis
  split_ifs <;> simp [Function.update, hj]

/-- The loop over the three axes in `firstAtom`. -/
theorem firstFold_spec (pf : Str → ℚ) (cols : Fin 3 → Nat) (Dist box : Vec3) (a : Nat)
    (fields : List Str) (m0 mol : Vec3)
    (h : (List.finRange 3).foldlM (fun (mol : Vec3) (k : Fin 3) =>
        match fields[cols k]? with
        | none => Except.error Err.panicIndex
        | some f => Except.ok (lammpstrj.firstAxis Dist box a (pf f) mol k)) m0
      = Except.ok mol) :
    ∀ k : Fin 3, cols k < fields.length ∧
      mol k = firstVal (Dist k) (box k) a (pf (fields.getD (cols k) [])) (m0 k) := by
  have h3 : List.finRange 3 = [0, 1, 2] := by decide
  rw [h3] at h
  simp only [List.foldlM_cons, List.foldlM_nil, bind_eq_ok] at h
  obtain ⟨s1, h1, s2, h2, s3, h3', h4⟩ := h
  obtain ⟨a1, b1⟩ := fieldStep_ok fields (cols 0) _ _ h1
  obtain ⟨a2, b2⟩ := fieldStep_ok fields (cols 1) _ _ h2
  obtain ⟨a3, b3⟩ := fieldStep_ok fields (cols 2) _ _ h3'
  simp only [pure, Except.pure, Except.ok.injEq] at h4
  subst h4
  intro k
  fin_cases k
  · refine ⟨a1, ?_⟩
    show s3 0 = _
    rw [b3, firstAxis_other _ _ _ _ _ 2 0 (by decide), b2,
      firstAxis_other _ _ _ _ _ 1 0 (by decide), b1, firstAxis_same]
    rfl
  · refine ⟨a2, ?_⟩
    show s3 1 = _
    rw [b3, firstAxis_other _ _ _ _ _ 2 1 (by decide), b2, firstAxis_same, b1,
      firstAxis_other _ _ _ _ _ 0 1 (by decide)]
    rfl
  · refine ⟨a3, ?_⟩
    show s3 2 = _
    rw [b3, firstAxis_same, b2, firstAxis_other _ _ _ _ _ 1 2 (by decide), b1,
      firstAxis_other _ _ _ _ _ 0 2 (by decide)]
    rfl

/-- One pass of the atom loop of `firstCfg` that returns without error. -/
theorem firstAtom_ok (pf : Str → ℚ) (ff : ℚ → Str) (cols : Fin 3 → Nat) (colsTot : Nat)
    (Dist box : Vec3) (st st2 : lammpstrj.FirstState) (a : Nat)
    (h : lammpstrj.firstAtom pf ff cols colsTot Dist box st a = Except.ok st2) :
    (Fields (ReadSlice st.r).1).length = colsTot ∧
    ∃ mol : Vec3,
      (∀ k : Fin 3, cols k < colsTot ∧
        mol k = firstVal (Dist k) (box k) a
          (pf ((Fields (ReadSlice st.r).1).getD (cols k) [])) (st.lastXYZMol k)) ∧
      st2 = { r := (ReadSlice st.r).2, lastXYZMol := mol, lastXYZ := st.lastXYZ ++ [mol],
              out := st.out ++
                [lammpstrj.encodeRecord ff cols (Fields (ReadSlice st.r).1) mol] } := by
  unfold lammpstrj.firstAtom at h
  by_cases hl : (Fields (ReadSlice st.r).1).length = colsTot
  · simp only [hl, ne_eq, not_true_eq_false, if_false] at h
    cases hf : (List.finRange 3).foldlM (fun (mol : Vec3) (k : Fin 3) =>
        match (Fields (ReadSlice st.r).1)[cols k]? with
        | none => Except.error Err.panicIndex
        | some f => Except.ok (lammpstrj.firstAxis Dist box a (pf f) mol k)) st.lastXYZMol with
    | error e => simp [hf] at h
    | ok mol =>
      simp only [hf, Except.ok.injEq] at h
      refine ⟨hl, mol, ?_, h.symm⟩
      intro k
      have hs := firstFold_spec pf cols Dist box a _ _ mol hf k
      exact ⟨hl ▸ hs.1, hs.2⟩
  · simp [hl] at h

/-- The atom loop of `firstCfg` over the first `n` atoms of one molecule: atom `a` is decoded
from line `a` of the reader and stepped from the atom before it. -/
theorem firstAtoms_spec (pf : Str → ℚ) (ff : ℚ → Str) (cols : Fin 3 → Nat) (colsTot : Nat)
    (Dist box : Vec3) (n : Nat) (st st2 : lammpstrj.FirstState)
    (h : (List.range n).foldlM (lammpstrj.firstAtom pf ff cols colsTot Dist box) st
      = Except.ok st2) :
    ∃ new : List Vec3, new.length = n ∧ st2.lastXYZ = st.lastXYZ ++ new ∧
      st2.r = dropLines n st.r ∧
      st2.out = st.out ++ (List.range n).map (fun a =>
        lammpstrj.encodeRecord ff cols (Fields (nthLine st.r a)) (new.getD a 0)) ∧
      st2.lastXYZMol = (if n = 0 then st.lastXYZMol else new.getD (n - 1) 0) ∧
      ∀ a, a < n → (Fields (nthLine st.r a)).length = colsTot ∧
        ∀ k : Fin 3, cols k < colsTot ∧
          new.getD a 0 k = firstVal (Dist k) (box k) a
            (pf ((Fields (nthLine st.r a)).getD (cols k) []))
            (if a = 0 then st.lastXYZMol k else new.getD (a - 1) 0 k) := by
  induction n generalizing st2 with
  | zero =>
    simp only [List.range_zero, List.foldlM_nil, pure, Except.pure, Except.ok.injEq] at h
    subst h
    exact ⟨[], rfl, by simp, rfl, by simp, by simp, by intro a ha; omega⟩
  | succ n ih =>
    obtain ⟨mid, hmid, hstep⟩ := (foldlM_range_succ_ok _ n st st2).mp h
    obtain ⟨new, i1, i2, i3, i4, i5, i6⟩ := ih mid hmid
    obtain ⟨s1, mol, s4, s5⟩ := firstAtom_ok pf ff cols colsTot Dist box mid st2 n hstep
    have hline : (ReadSlice mid.r).1 = nthLine st.r n := by rw [i3]; rfl
    rw [hline] at s1 s4 s5
    refine ⟨new ++ [mol], by simp [i1], ?_, ?_, ?_, ?_, ?_⟩
    · rw [s5, i2, List.append_assoc]
    · rw [s5, i3, dropLines_succ]
    · rw [s5]
      simp only []
      rw [i4, List.range_succ, List.map_append, List.append_assoc]
      congr 1
      congr 1
      · apply List.map_congr_left
        intro a ha
        have han : a < n := List.mem_range.mp ha
        rw [List.getD_append _ _ _ _ (by omega)]
      · simp only [List.map_cons, List.map_nil]
        rw [List.getD_append_right _ _ _ _ (by omega), i1]
        simp
    · rw [s5]
      simp only [Nat.succ_ne_zero, if_false, Nat.add_sub_cancel]
      rw [List.getD_append_right _ _ _ _ (by omega), i1]
      simp
    · intro a ha
      by_cases han : a < n
      · obtain ⟨j1, j4⟩ := i6 a han
        refine ⟨j1, ?_⟩
        intro k
        rw [List.getD_append _ _ _ _ (by omega)]
        refine ⟨(j4 k).1, ?_⟩
        rw [(j4 k).2]
        by_cases ha0 : a = 0
        · simp [ha0]
        · simp only [ha0, if_false]
          rw [List.getD_append _ _ _ _ (by omega)]
      · have hean : a = n := by omega
        subst hean
        refine ⟨s1, ?_⟩
        intro k
        rw [List.getD_append_right _ _ _ _ (by omega), i1]
        simp only [Nat.sub_self, List.getD_cons_zero]
        refine ⟨(s4 k).1, ?_⟩
        rw [(s4 k).2, i5]
        by_cases ha0 : a = 0
        · simp [ha0]
        · simp only [ha0, if_false]
          rw [List.getD_append _ _ _ _ (by omega)]

theorem firstVal_zero (D L raw ref : ℚ) : firstVal D L 0 raw ref = raw := by
  simp [firstVal]

/-- The molecule loop of `firstCfg` over the first `M` molecules: record `n` (molecule
`n / At`, atom `n % At`) is decoded from line `n` of the reader and stepped from the record
before it, the first atom of a molecule being taken as read. -/
theorem firstMols_spec (pf : Str → ℚ) (ff : ℚ → Str) (c : msd.Conv) (cols : Fin 3 → Nat)
    (colsTot : Nat) (box : Vec3) (M : Nat) (st st2 : lammpstrj.FirstState)
    (h : (List.range M).foldlM (lammpstrj.firstMol pf ff c cols colsTot box) st
      = Except.ok st2) :
    ∃ new : List Vec3, new.length = M * c.At.toNat ∧ st2.lastXYZ = st.lastXYZ ++ new ∧
      st2.r = dropLines (M * c.At.toNat) st.r ∧
      st2.out = st.out ++ (List.range (M * c.At.toNat)).map (fun n =>
        lammpstrj.encodeRecord ff cols (Fields (nthLine st.r n)) (new.getD n 0)) ∧
      ∀ n, n < M * c.At.toNat → (Fields (nthLine st.r n)).length = colsTot ∧
        ∀ k : Fin 3, cols k < colsTot ∧
          new.getD n 0 k = firstVal (c.Dist k) (box k) (n % c.At.toNat)
            (pf ((Fields (nthLine st.r n)).getD (cols k) [])) (new.getD (n - 1) 0 k) := by
  induction M generalizing st2 with
  | zero =>
    simp only [List.range_zero, List.foldlM_nil, pure, Except.pure, Except.ok.injEq] at h
    subst h
    exact ⟨[], by simp, by simp, by simp [dropLines], by simp, by intro n hn; simp at hn⟩
  | succ M ih =>
    obtain ⟨mid, hmid, hstep⟩ := (foldlM_range_succ_ok _ M st st2).mp h
    obtain ⟨new, i1, i2, i3, i4, i6⟩ := ih mid hmid
    unfold lammpstrj.firstMol at hstep
    obtain ⟨new2, j1, j2, j3, j4, _, j6⟩ :=
      firstAtoms_spec pf ff cols colsTot c.Dist box c.At.toNat _ st2 hstep
    simp only [] at j2 j3 j4 j6
    have hlen : (M + 1) * c.At.toNat = M * c.At.toNat + c.At.toNat := by ring
    have hline : ∀ a, nthLine mid.r a = nthLine st.r (M * c.At.toNat + a) := by
      intro a
      rw [i3, nthLine_dropLines]
    refine ⟨new ++ new2, by simp [i1, j1, hlen], ?_, ?_, ?_, ?_⟩
    · rw [j2, i2, List.append_assoc]
    · rw [j3, i3, hlen, dropLines_add]
    · rw [j4, i4, hlen, List.range_add, List.map_append, List.append_assoc, List.map_map]
      congr 1
      congr 1
      · apply List.map_congr_left
        intro n hn
        have hn2 : n < M * c.At.toNat := List.mem_range.mp hn
        rw [List.getD_append _ _ _ _ (by omega)]
      · apply List.map_congr_left
        intro a ha
        simp only [Function.comp]
        rw [hline a, List.getD_append_right _ _ _ _ (by omega), i1]
        simp
    · intro n hn
      by_cases hn2 : n < M * c.At.toNat
      · obtain ⟨k1, k4⟩ := i6 n hn2
        refine ⟨k1, ?_⟩
        intro k
        rw [List.getD_append _ _ _ _ (by omega)]
        refine ⟨(k4 k).1, ?_⟩
        rw [(k4 k).2]
        by_cases hn0 : n = 0
        · subst hn0
          simp [firstVal_zero]
        · rw [List.getD_append _ _ _ _ (by omega)]
      · obtain ⟨a, rfl⟩ : ∃ a, n = M * c.At.toNat + a := ⟨n - M * c.At.toNat, by omega⟩
        have ha : a < c.At.toNat := by omega
        obtain ⟨k1, k4⟩ := j6 a ha
        rw [hline a] at k1 k4
        refine ⟨k1, ?_⟩
        intro k
        have hmod : (M * c.At.toNat + a) % c.At.toNat = a := by
          rw [Nat.add_comm, Nat.add_mul_mod_self_right, Nat.mod_eq_of_lt ha]
        rw [List.getD_append_right _ _ _ _ (by omega), i1, hmod]
        simp only [Nat.add_sub_cancel_left]
        refine ⟨(k4 k).1, ?_⟩
        rw [(k4 k).2]
        by_cases ha0 : a = 0
        · subst ha0
          simp [firstVal_zero]
        · simp only [ha0, if_false]
          have hidx : M * c.At.toNat + a - 1 - M * c.At.toNat = a - 1 := by omega
          rw [List.getD_append_right _ _ _ _ (by omega), i1, hidx]

/-- What `firstCfg` returns: the layout detected in the first line of the reader, and the
records of the first frame decoded from the lines after it. -/
theorem firstCfg_spec (pf : Str → ℚ) (ff : ℚ → Str) (c : msd.Conv) (r : Str) (box : Vec3)
    (f : lammpstrj.First) (h : lammpstrj.firstCfg pf ff c r box = Except.ok f) :
    2 < (Fields (nthLine r 0)).length ∧
    f.cols = (lammpstrj.detectHeader (Fields (nthLine r 0))).cols ∧
    f.colsB = (lammpstrj.detectHeader (Fields (nthLine r 0))).buf ++ ['\n'] ∧
    3 ≤ (lammpstrj.detectHeader (Fields (nthLine r 0))).found ∧
    f.colsTot = ((Fields (nthLine r 0)).drop 2).length ∧
    f.lastXYZ.length = c.Mol.toNat * c.At.toNat ∧
    f.r = dropLines (1 + c.Mol.toNat * c.At.toNat) r ∧
    f.out = f.colsB :: (List.range (c.Mol.toNat * c.At.toNat)).map (fun n =>
      lammpstrj.encodeRecord ff f.cols (Fields (nthLine r (1 + n))) (f.lastXYZ.getD n 0)) ∧
    ∀ n, n < c.Mol.toNat * c.At.toNat → (Fields (nthLine r (1 + n))).length = f.colsTot ∧
      ∀ k : Fin 3, f.cols k < f.colsTot ∧
        f.lastXYZ.getD n 0 k = firstVal (c.Dist k) (box k) (n % c.At.toNat)
          (pf ((Fields (nthLine r (1 + n))).getD (f.cols k) []))
          (f.lastXYZ.getD (n - 1) 0 k) := by
  have hn0 : (ReadSlice r).1 = nthLine r 0 := rfl
  by_cases hl : (Fields (nthLine r 0)).length ≤ 2
  · simp only [lammpstrj.firstCfg, hn0, if_pos hl] at h
    cases h
  · by_cases hfound : (lammpstrj.detectHeader (Fields (nthLine r 0))).found < 3
    · simp only [lammpstrj.firstCfg, hn0, if_neg hl, if_pos hfound] at h
      cases h
    · simp only [lammpstrj.firstCfg, hn0, if_neg hl, if_neg hfound] at h
      cases hm : (List.range c.Mol.toNat).foldlM
          (lammpstrj.firstMol pf ff c (lammpstrj.detectHeader (Fields (nthLine r 0))).cols
            ((Fields (nthLine r 0)).drop 2).length box)
          { r := (ReadSlice r).2, lastXYZMol := fun _ => 0, lastXYZ := [],
            out := [(lammpstrj.detectHeader (Fields (nthLine r 0))).buf ++ ['\n']] } with
      | error e => rw [hm] at h; cases h
      | ok st =>
        rw [hm] at h
        simp only [Except.ok.injEq] at h
        obtain ⟨new, i1, i2, i3, i4, i6⟩ := firstMols_spec pf ff c _ _ box _ _ st hm
        simp only [List.nil_append] at i2
        have hline : ∀ n, nthLine (ReadSlice r).2 n = nthLine r (1 + n) := by
          intro n
          have := nthLine_dropLines 1 n r
          simpa [dropLines] using this
        subst h
        simp only [hline] at i4 i6
        refine ⟨by omega, rfl, rfl, by omega, rfl, ?_, ?_, ?_, ?_⟩
        · simp only []
          rw [i2, i1]
        · simp only []
          rw [i3, dropLines_add]
          rfl
        · simp only []
          rw [i4, i2]
          rfl
        · intro n hn
          simp only []
          rw [i2]
          exact i6 n hn

/-- What one pass of the frame loop of `Conv` does: it reads the header from lines 0-7,
skips line 8, and decodes atom `a` from line `9 + a`; the chunks written are the eight
header lines, `colsB`, and one record per atom carrying the new `lastXYZ[a]`. -/
theorem convFrame_spec (pf : Str → ℚ) (ff : ℚ → Str) (c : msd.Conv) (f : lammpstrj.First)
    (st st2 : lammpstrj.ConvState) (h : lammpstrj.convFrame pf ff c f st = Except.ok st2) :
    ∃ hd, lammpstrj.header pf st.r = Except.ok hd ∧
      st2.r = dropLines (9 + c.AtTot.toNat) st.r ∧
      st2.log = st.log ++ [{ start := st.r, box := hd.box, xyz := st2.lastXYZ }] ∧
      st2.corr.length = st.corr.length ∧ st2.lastXYZ.length = st.lastXYZ.length ∧
      st2.out = st.out ++ ((List.range 8).map (nthLine st.r) ++ f.colsB ::
        (List.range c.AtTot.toNat).map (fun a =>
          lammpstrj.encodeRecord ff f.cols (Fields (nthLine st.r (9 + a)))
            (st2.lastXYZ.getD a 0))) ∧
      (∀ a, a < c.AtTot.toNat → (Fields (nthLine st.r (9 + a))).length = f.colsTot ∧
        a < st.corr.length ∧ a < st.lastXYZ.length ∧
        ∀ k : Fin 3, f.cols k < f.colsTot ∧
          (st2.corr.getD a 0 k, st2.lastXYZ.getD a 0 k) = axisStep (hd.box k) (hd.box2 k)
            (pf ((Fields (nthLine st.r (9 + a))).getD (f.cols k) []))
            (st.corr.getD a 0 k) (st.lastXYZ.getD a 0 k)) ∧
      (∀ a, c.AtTot.toNat ≤ a → st2.corr.getD a 0 = st.corr.getD a 0 ∧
        st2.lastXYZ.getD a 0 = st.lastXYZ.getD a 0) := by
  cases hh : lammpstrj.header pf st.r with
  | error e => simp only [lammpstrj.convFrame, hh] at h; cases h
  | ok hd =>
    simp only [lammpstrj.convFrame, hh] at h
    cases ha : (List.range c.AtTot.toNat).foldlM
        (lammpstrj.convAtom pf ff f.cols f.colsTot hd.box hd.box2)
        { st with r := (ReadSlice hd.r).2, out := st.out ++ hd.out ++ [f.colsB] } with
    | error e => rw [ha] at h; cases h
    | ok st3 =>
      rw [ha] at h
      simp only [Except.ok.injEq] at h
      obtain ⟨g1, g2, _⟩ := header_spec pf st.r hd hh
      obtain ⟨i1, i2, i3, i4, i5, i6, i7⟩ :=
        convAtoms_spec pf ff f.cols f.colsTot hd.box hd.box2 _ _ st3 ha
      simp only [] at i1 i2 i3 i4 i5 i6 i7
      have hr9 : (ReadSlice hd.r).2 = dropLines 9 st.r := by
        rw [g1, ← dropLines_succ]
      rw [hr9] at i1 i5 i6
      simp only [nthLine_dropLines] at i5 i6
      subst h
      refine ⟨hd, rfl, ?_, ?_, i3, i4, ?_, i6, i7⟩
      · simp only []
        rw [i1, ← dropLines_add]
      · simp only []
        rw [i2]
      · simp only []
        rw [i5, g2]
        simp

/-! ## C8 -/

/-- C8: in a frame after the first that `Conv` goes through without error, for every atom
`a` and axis `k`, with `L = hi - lo` read from box line `5 + k` of the frame,
`p = raw + corr[a][k]` (`raw` the coordinate column of record line `9 + a`) and
`last = lastXYZ[a][k]` before the step: the new `(corr[a][k], lastXYZ[a][k])` is
`(corr + L, p + L)` if `last - p > L/2`, else `(corr - L, p - L)` if `last - p < -L/2`, else
`(corr, p)`; and the record written for the atom carries the new `lastXYZ[a]`. -/
theorem conv_temporal_unwrap_step (pf : Str → ℚ) (ff : ℚ → Str) (c : msd.Conv)
    (f : lammpstrj.First) (st st2 : lammpstrj.ConvState)
    (h : lammpstrj.convFrame pf ff c f st = Except.ok st2) :
    ∀ a, a < c.AtTot.toNat → ∀ k : Fin 3,
      (Fields (nthLine st.r (5 + k))).length = 2 ∧
      (Fields (nthLine st.r (9 + a))).length = f.colsTot ∧ f.cols k < f.colsTot ∧
      a < st.corr.length ∧ a < st.lastXYZ.length ∧
      (st2.corr.getD a 0 k, st2.lastXYZ.getD a 0 k) =
        (let L := pf ((Fields (nthLine st.r (5 + k))).getD 1 [])
            - pf ((Fields (nthLine st.r (5 + k))).getD 0 [])
         let p := pf ((Fields (nthLine st.r (9 + a))).getD (f.cols k) []) + st.corr.getD a 0 k
         let last := st.lastXYZ.getD a 0 k
         if last - p > L / 2 then (st.corr.getD a 0 k + L, p + L)
         else if last - p < - (L / 2) then (st.corr.getD a 0 k - L, p - L)
         else (st.corr.getD a 0 k, p)) ∧
      st2.out.getD (st.out.length + 9 + a) [] =
        lammpstrj.encodeRecord ff f.cols (Fields (nthLine st.r (9 + a)))
          (st2.lastXYZ.getD a 0) := by
  intro a ha k
  obtain ⟨hd, hh, _, _, _, _, i5, i6, _⟩ := convFrame_spec pf ff c f st st2 h
  obtain ⟨_, _, g3⟩ := header_spec pf st.r hd hh
  obtain ⟨j1, j2, j3, j4⟩ := i6 a ha
  obtain ⟨b1, b2, b3⟩ := g3 k
  refine ⟨b1, j1, (j4 k).1, j2, j3, ?_, ?_⟩
  · rw [(j4 k).2, b3, b2]
    rfl
  · rw [i5, List.getD_append_right _ _ _ _ (by omega)]
    have hidx : st.out.length + 9 + a - st.out.length = 8 + (a + 1) := by omega
    rw [hidx, List.getD_append_right _ _ _ _ (by simp)]
    simp only [List.length_map, List.length_range, Nat.add_sub_cancel_left]
    rw [List.getD_cons_succ, List.getD_eq_getElem?_getD, List.getElem?_map,
      List.getElem?_range ha]
    rfl

/-- Witness for C8, the scenario of the specification: box length 10, last position 9, raw
coordinate 0.5, no correction yet: the position written is 10.5 and the correction becomes
10. -/
theorem conv_temporal_unwrap_step_witness :
    ∃ st2, lammpstrj.convFrame readDec fmtSmall conv11 firstW stateW = Except.ok st2 ∧
      st2.corr.getD 0 0 0 = 10 ∧ st2.lastXYZ.getD 0 0 0 = 21 / 2 := by
  obtain ⟨st2, h⟩ := exists_ok_of_isOk
    (show isOk (lammpstrj.convFrame readDec fmtSmall conv11 firstW stateW) = true by decide!)
  have T := (conv_temporal_unwrap_step readDec fmtSmall conv11 firstW stateW st2 h 0
    (by decide) 0).2.2.2.2.2.1
  have hv : (let L := readDec ((Fields (nthLine stateW.r (5 + ((0 : Fin 3) : Nat)))).getD 1 [])
            - readDec ((Fields (nthLine stateW.r (5 + ((0 : Fin 3) : Nat)))).getD 0 [])
         let p := readDec ((Fields (nthLine stateW.r (9 + 0))).getD (firstW.cols 0) [])
            + stateW.corr.getD 0 0 0
         let last := stateW.lastXYZ.getD 0 0 0
         if last - p > L / 2 then (stateW.corr.getD 0 0 0 + L, p + L)
         else if last - p < - (L / 2) then (stateW.corr.getD 0 0 0 - L, p - L)
         else (stateW.corr.getD 0 0 0, p)) = ((10 : ℚ), (21 / 2 : ℚ)) := by decide!
  rw [hv] at T
  simp only [Prod.mk.injEq] at T
  exact ⟨st2, h, T.1, T.2⟩

/-! ## C9 -/

theorem axisStep_multiple (L L2 raw corr last : ℚ) :
    ∃ z : ℤ, (axisStep L L2 raw corr last).1 = corr + z * L ∧
      (axisStep L L2 raw corr last).2 = raw + (axisStep L L2 raw corr last).1 := by
  unfold axisStep
  split_ifs
  · exact ⟨1, by simp, by simp; ring⟩
  · exact ⟨-1, by simp; ring, by simp; ring⟩
  · exact ⟨0, by simp, by simp⟩

theorem firstVal_multiple (D L : ℚ) (a : Nat) (raw ref : ℚ) :
    ∃ z : ℤ, firstVal D L a raw ref = raw + z * L := by
  unfold firstVal
  split_ifs
  · exact ⟨0, by simp⟩
  · exact ⟨1, by simp⟩
  · exact ⟨-1, by simp; ring⟩
  · exact ⟨0, by simp⟩

theorem wrap_add_int_mul (L x : ℚ) (z : ℤ) : wrap L (x + z * L) = wrap L x := by
  unfold wrap
  by_cases hL : L = 0
  · subst hL; simp
  · have h1 : (x + z * L) / L = x / L + z := by
      field_simp
    rw [h1, Int.floor_add_int]
    push_cast
    ring

/-- One pass of the frame loop keeps the corrections multiples of the box length, and the
positions it leaves in `lastXYZ` differ from the coordinates read by such multiples. -/
theorem convFrame_multiple (pf : Str → ℚ) (ff : ℚ → Str) (c : msd.Conv)
    (f : lammpstrj.First) (st st2 : lammpstrj.ConvState) (L : Vec3)
    (h : lammpstrj.convFrame pf ff c f st = Except.ok st2)
    (hbox : ∀ e ∈ st2.log, e.box = L) (hcorr : CorrMultiple L st.corr) :
    CorrMultiple L st2.corr ∧
    FrameGood pf f.cols c.AtTot.toNat L { start := st.r, box := L, xyz := st2.lastXYZ } := by
  obtain ⟨hd, hh, _, i2, _, _, _, i6, i7⟩ := convFrame_spec pf ff c f st st2 h
  have hL : hd.box = L := by
    have := hbox { start := st.r, box := hd.box, xyz := st2.lastXYZ } (by rw [i2]; simp)
    exact this
  constructor
  · intro a k
    by_cases ha : a < c.AtTot.toNat
    · obtain ⟨_, _, _, j4⟩ := i6 a ha
      obtain ⟨z, hz1, _⟩ := axisStep_multiple (hd.box k) (hd.box2 k)
        (pf ((Fields (nthLine st.r (9 + a))).getD (f.cols k) []))
        (st.corr.getD a 0 k) (st.lastXYZ.getD a 0 k)
      obtain ⟨z0, hz0⟩ := hcorr a k
      have e1 := congrArg Prod.fst (j4 k).2
      simp only [] at e1
      refine ⟨z0 + z, ?_⟩
      rw [e1, hz1, hz0, hL]
      push_cast
      ring
    · rw [(i7 a (by omega)).1]
      exact hcorr a k
  · intro a ha k
    obtain ⟨_, _, _, j4⟩ := i6 a ha
    obtain ⟨z, hz1, hz2⟩ := axisStep_multiple (hd.box k) (hd.box2 k)
      (pf ((Fields (nthLine st.r (9 + a))).getD (f.cols k) []))
      (st.corr.getD a 0 k) (st.lastXYZ.getD a 0 k)
    obtain ⟨z0, hz0⟩ := hcorr a k
    have e2 := congrArg Prod.snd (j4 k).2
    simp only [] at e2
    refine ⟨z0 + z, ?_⟩
    rw [e2, hz2, hz1, hz0, hL]
    push_cast
    ring

theorem convLoop_log (pf : Str → ℚ) (ff : ℚ → Str) (c : msd.Conv) (f : lammpstrj.First)
    (fuel : Nat) (st st2 : lammpstrj.ConvState)
    (h : lammpstrj.convLoop pf ff c f fuel st = Except.ok st2) :
    ∃ ext, st2.log = st.log ++ ext := by
  induction fuel generalizing st with
  | zero => simp [lammpstrj.convLoop] at h
  | succ fuel ih =>
    unfold lammpstrj.convLoop at h
    cases hf : lammpstrj.convFrame pf ff c f st with
    | error e => rw [hf] at h; cases h
    | ok mid =>
      rw [hf] at h
      simp only [] at h
      obtain ⟨hd, _, _, i2, _⟩ := convFrame_spec pf ff c f st mid hf
      by_cases hr : mid.r = []
      · rw [if_pos hr] at h
        cases h
        exact ⟨_, i2⟩
      · rw [if_neg hr] at h
        obtain ⟨ext, he⟩ := ih mid h
        exact ⟨{ start := st.r, box := hd.box, xyz := mid.lastXYZ } :: ext, by rw [he, i2]; simp⟩

/-- The frame loop of `Conv`, entered at line `F + |log| * (9 + AtTot)` of the file: every
frame it logs starts at such a line, and in a constant box every position it writes differs
from the coordinate read by an integer multiple of the box length. -/
theorem convLoop_spec (pf : Str → ℚ) (ff : ℚ → Str) (c : msd.Conv) (f : lammpstrj.First)
    (file : Str) (F : Nat) (L : Vec3) (fuel : Nat) (st st2 : lammpstrj.ConvState)
    (h : lammpstrj.convLoop pf ff c f fuel st = Except.ok st2)
    (hbox : ∀ e ∈ st2.log, e.box = L) (hcorr : CorrMultiple L st.corr)
    (hr : st.r = dropLines (F + st.log.length * (9 + c.AtTot.toNat)) file)
    (hlog : ∀ j, j < st.log.length → ∀ e, st.log[j]? = some e →
      e.start = dropLines (F + j * (9 + c.AtTot.toNat)) file ∧
      FrameGood pf f.cols c.AtTot.toNat L e) :
    ∀ j, j < st2.log.length → ∀ e, st2.log[j]? = some e →
      e.start = dropLines (F + j * (9 + c.AtTot.toNat)) file ∧
      FrameGood pf f.cols c.AtTot.toNat L e := by
  induction fuel generalizing st with
  | zero => simp [lammpstrj.convLoop] at h
  | succ fuel ih =>
    unfold lammpstrj.convLoop at h
    cases hf : lammpstrj.convFrame pf ff c f st with
    | error e => rw [hf] at h; cases h
    | ok mid =>
      rw [hf] at h
      simp only [] at h
      obtain ⟨hd, _, i1, i2, _⟩ := convFrame_spec pf ff c f st mid hf
      have hmidbox : ∀ e ∈ mid.log, e.box = L := by
        by_cases hre : mid.r = []
        · rw [if_pos hre] at h
          cases h
          exact hbox
        · rw [if_neg hre] at h
          obtain ⟨ext, he⟩ := convLoop_log pf ff c f fuel mid st2 h
          intro e hmem
          exact hbox e (by rw [he]; exact List.mem_append_left _ hmem)
      obtain ⟨m1, m2⟩ := convFrame_multiple pf ff c f st mid L hf hmidbox hcorr
      have hLd : hd.box = L :=
        hmidbox { start := st.r, box := hd.box, xyz := mid.lastXYZ } (by rw [i2]; simp)
      have hmidlog : ∀ j, j < mid.log.length → ∀ e, mid.log[j]? = some e →
          e.start = dropLines (F + j * (9 + c.AtTot.toNat)) file ∧
          FrameGood pf f.cols c.AtTot.toNat L e := by
        intro j hj e he
        rw [i2] at he hj
        by_cases hjl : j < st.log.length
        · rw [List.getElem?_append_left hjl] at he
          exact hlog j hjl e he
        · simp only [List.length_append, List.length_singleton] at hj
          have hje : j = st.log.length := by omega
          subst hje
          rw [List.getElem?_append_right (le_refl _)] at he
          simp only [Nat.sub_self, List.getElem?_cons_zero, Option.some.injEq] at he
          subst he
          refine ⟨hr, ?_⟩
          rw [hLd]
          exact m2
      have hmidr : mid.r = dropLines (F + mid.log.length * (9 + c.AtTot.toNat)) file := by
        rw [i1, hr, ← dropLines_add, i2]
        simp only [List.length_append, List.length_singleton]
        congr 1
        ring
      by_cases hre : mid.r = []
      · rw [if_pos hre] at h
        cases h
        exact hmidlog
      · rw [if_neg hre] at h
        exact ih mid h m1 hmidr hmidlog

/-- What a run of `Conv` that returns without error went through: the header of the first
frame, `firstCfg` on the reader after it, and (when the file goes on) the frame loop from
line `9 + Mol * At` on. -/
theorem Conv_ok (pf : Str → ℚ) (ff : ℚ → Str) (c : msd.Conv) (file : Str)
    (run : lammpstrj.ConvRun) (h : lammpstrj.Conv pf ff c file = Except.ok run) :
    ∃ hd, lammpstrj.header pf file = Except.ok hd ∧ run.box = hd.box ∧
      lammpstrj.firstCfg pf ff c hd.r hd.box = Except.ok run.first ∧
      ((run.first.r = [] ∧ run.log = [] ∧ run.out = hd.out ++ run.first.out) ∨
       (run.first.r ≠ [] ∧ ∃ st, lammpstrj.convLoop pf ff c run.first run.first.r.length
          { r := run.first.r, corr := List.replicate c.AtTot.toNat (fun _ => 0),
            lastXYZ := run.first.lastXYZ, out := hd.out ++ run.first.out, log := [] }
          = Except.ok st ∧ run.log = st.log ∧ run.out = st.out)) := by
  unfold lammpstrj.Conv at h
  by_cases hneg : c.AtTot < 0
  · rw [if_pos hneg] at h; cases h
  · rw [if_neg hneg] at h
    cases hh : lammpstrj.header pf file with
    | error e => rw [hh] at h; cases h
    | ok hd =>
      rw [hh] at h
      simp only [] at h
      cases hf : lammpstrj.firstCfg pf ff c hd.r hd.box with
      | error e => rw [hf] at h; cases h
      | ok f =>
        rw [hf] at h
        simp only [] at h
        by_cases hr : f.r = []
        · rw [if_pos hr] at h
          cases h
          exact ⟨hd, rfl, rfl, hf, Or.inl ⟨hr, rfl, rfl⟩⟩
        · rw [if_neg hr] at h
          cases hl : lammpstrj.convLoop pf ff c f f.r.length
              { r := f.r, corr := List.replicate c.AtTot.toNat (fun _ => 0),
                lastXYZ := f.lastXYZ, out := hd.out ++ f.out, log := [] } with
          | error e => rw [hl] at h; cases h
          | ok st =>
            rw [hl] at h
            cases h
            exact ⟨hd, rfl, rfl, hf, Or.inr ⟨hr, st, hl, rfl, rfl⟩⟩

/-- C9: for a trajectory that `Conv` accepts and whose box is the same in every frame,
every position written (first frame: record `n` at line `9 + n` of the file; frame `j`
after the first: atom `a` at line `9 + Mol*At + j*(9 + AtTot) + 9 + a`) differs from the
coordinate read in that line by an integer multiple of the box length of its axis, so
re-wrapping it modulo the box length gives what re-wrapping the coordinate read gives. -/
theorem conv_output_congruent_mod_box (pf : Str → ℚ) (ff : ℚ → Str) (c : msd.Conv)
    (file : Str) (run : lammpstrj.ConvRun) (h : lammpstrj.Conv pf ff c file = Except.ok run)
    (hconst : ∀ e ∈ run.log, ∀ k : Fin 3, e.box k = run.box k) :
    (∀ n, n < c.Mol.toNat * c.At.toNat → ∀ k : Fin 3,
      (∃ z : ℤ, run.first.lastXYZ.getD n 0 k =
        pf ((Fields (nthLine file (9 + n))).getD (run.first.cols k) []) + z * run.box k) ∧
      wrap (run.box k) (run.first.lastXYZ.getD n 0 k) =
        wrap (run.box k) (pf ((Fields (nthLine file (9 + n))).getD (run.first.cols k) []))) ∧
    (∀ j, j < run.log.length → ∀ e, run.log[j]? = some e →
      ∀ a, a < c.AtTot.toNat → ∀ k : Fin 3,
        (∃ z : ℤ, e.xyz.getD a 0 k =
          pf ((Fields (nthLine file
              (9 + c.Mol.toNat * c.At.toNat + j * (9 + c.AtTot.toNat) + 9 + a))).getD
                (run.first.cols k) []) + z * run.box k) ∧
        wrap (run.box k) (e.xyz.getD a 0 k) =
          wrap (run.box k) (pf ((Fields (nthLine file
              (9 + c.Mol.toNat * c.At.toNat + j * (9 + c.AtTot.toNat) + 9 + a))).getD
                (run.first.cols k) []))) := by
  obtain ⟨hd, hh, hb, hf, hrest⟩ := Conv_ok pf ff c file run h
  obtain ⟨g1, _, _⟩ := header_spec pf file hd hh
  obtain ⟨_, _, _, _, _, _, f7, _, f9⟩ := firstCfg_spec pf ff c hd.r hd.box run.first hf
  have hline : ∀ n, nthLine hd.r n = nthLine file (8 + n) := by
    intro n; rw [g1, nthLine_dropLines]
  constructor
  · intro n hn k
    obtain ⟨_, j2⟩ := f9 n hn
    obtain ⟨z, hz⟩ := firstVal_multiple (c.Dist k) (hd.box k) (n % c.At.toNat)
      (pf ((Fields (nthLine hd.r (1 + n))).getD (run.first.cols k) []))
      (run.first.lastXYZ.getD (n - 1) 0 k)
    have hidx : 8 + (1 + n) = 9 + n := by omega
    have e1 : run.first.lastXYZ.getD n 0 k =
        pf ((Fields (nthLine file (9 + n))).getD (run.first.cols k) []) + z * run.box k := by
      rw [(j2 k).2, hz, hline, hidx, hb]
    exact ⟨⟨z, e1⟩, by rw [e1, wrap_add_int_mul]⟩
  · intro j hj e he a ha k
    rcases hrest with ⟨_, hlog, _⟩ | ⟨_, st, hl, hlog, _⟩
    · rw [hlog] at hj; simp at hj
    · have hL : ∀ e ∈ st.log, e.box = run.box := by
        intro e hmem
        funext k
        exact hconst e (by rw [hlog]; exact hmem) k
      have hcorr : CorrMultiple run.box (List.replicate c.AtTot.toNat (fun _ => (0 : ℚ))) := by
        intro a k
        refine ⟨0, ?_⟩
        rw [List.getD_eq_getElem?_getD, List.getElem?_replicate]
        split_ifs <;> simp
      have hstart : run.first.r
          = dropLines (9 + c.Mol.toNat * c.At.toNat + 0 * (9 + c.AtTot.toNat)) file := by
        rw [f7, g1, ← dropLines_add]
        congr 1
        omega
      have key := convLoop_spec pf ff c run.first file (9 + c.Mol.toNat * c.At.toNat)
        run.box run.first.r.length _ st hl hL hcorr hstart
        (by intro j hj; simp at hj)
      rw [hlog] at hj he
      obtain ⟨k1, k2⟩ := key j hj e he
      obtain ⟨z, hz⟩ := k2 a ha k
      rw [k1, nthLine_dropLines] at hz
      have hidx : 9 + c.Mol.toNat * c.At.toNat + j * (9 + c.AtTot.toNat) + (9 + a)
          = 9 + c.Mol.toNat * c.At.toNat + j * (9 + c.AtTot.toNat) + 9 + a := by omega
      rw [hidx] at hz
      exact ⟨⟨z, hz⟩, by rw [hz, wrap_add_int_mul]⟩

/-- Witness for C9: on the two-frame trajectory `trajW` (box length 10 on every axis, the
atom going from `x = 9` to `x = 0.5`) `Conv` returns without error, the box is the same in
both frames, and every position of the second frame re-wraps to what the coordinate read
re-wraps to. -/
theorem conv_output_congruent_mod_box_witness :
    ∃ run, lammpstrj.Conv readDec fmtSmall conv11 trajW = Except.ok run ∧
      (∀ e ∈ run.log, ∀ k : Fin 3, e.box k = run.box k) ∧
      ∀ j, j < run.log.length → ∀ e, run.log[j]? = some e →
        ∀ a, a < 1 → ∀ k : Fin 3,
          wrap (run.box k) (e.xyz.getD a 0 k) =
            wrap (run.box k) (readDec ((Fields (nthLine trajW
              (9 + 1 * 1 + j * (9 + 1) + 9 + a))).getD (run.first.cols k) [])) := by
  have hs : (lammpstrj.Conv readDec fmtSmall conv11 trajW).map (fun run =>
      run.log.all (fun e => decide (e.box 0 = run.box 0) && decide (e.box 1 = run.box 1)
        && decide (e.box 2 = run.box 2))) = Except.ok true := by decide!
  obtain ⟨run, h, hall⟩ := exists_of_map_eq_ok hs
  have hconst : ∀ e ∈ run.log, ∀ k : Fin 3, e.box k = run.box k := by
    intro e he k
    have h1 := List.all_eq_true.mp hall e he
    simp only [Bool.and_eq_true, decide_eq_true_eq] at h1
    fin_cases k
    · exact h1.1.1
    · exact h1.1.2
    · exact h1.2
  refine ⟨run, h, hconst, ?_⟩
  intro j hj e he a ha k
  exact ((conv_output_congruent_mod_box readDec fmtSmall conv11 trajW run h hconst).2
    j hj e he a ha k).2

/-! ## `strings.Fields` on a written record -/

theorem fieldsAux_cons_nonspace (c : Char) (cs cur : Str) (h : isSpace c = false) :
    fieldsAux (c :: cs) cur = fieldsAux cs (cur ++ [c]) := by
  rw [fieldsAux]
  simp [h]

theorem fieldsAux_cons_space (c : Char) (cs cur : Str) (h : isSpace c = true) (hc : cur ≠ []) :
    fieldsAux (c :: cs) cur = cur :: fieldsAux cs [] := by
  rw [fieldsAux]
  simp [h, hc]

theorem fieldsAux_token (t rest cur : Str) (ht : ∀ ch ∈ t, isSpace ch = false) :
    fieldsAux (t ++ rest) cur = fieldsAux rest (cur ++ t) := by
  induction t generalizing cur with
  | nil => simp
  | cons ch t ih =>
    have h1 : isSpace ch = false := ht ch (List.mem_cons_self _ _)
    have h2 : ∀ x ∈ t, isSpace x = false := fun x hx => ht x (List.mem_cons_of_mem _ hx)
    rw [List.cons_append, fieldsAux_cons_nonspace _ _ _ h1, ih _ h2]
    simp

theorem fieldsAux_tokens (ts : List Str) (hts : ∀ t ∈ ts, IsToken t) :
    fieldsAux ((ts.map (fun t => t ++ [' '])).flatten ++ ['\n']) [] = ts := by
  induction ts with
  | nil => simp [fieldsAux, isSpace]
  | cons t ts ih =>
    have ht : IsToken t := hts t (List.mem_cons_self _ _)
    have hrest : ∀ x ∈ ts, IsToken x := fun x hx => hts x (List.mem_cons_of_mem _ hx)
    have hsp : isSpace ' ' = true := by decide
    simp only [List.map_cons, List.flatten_cons, List.append_assoc]
    rw [fieldsAux_token t _ [] ht.2, List.nil_append, List.singleton_append,
      fieldsAux_cons_space _ _ _ hsp ht.1, ih hrest]

theorem fieldsAux_isToken (s cur : Str) (hcur : ∀ ch ∈ cur, isSpace ch = false) :
    ∀ t ∈ fieldsAux s cur, IsToken t := by
  induction s generalizing cur with
  | nil =>
    intro t ht
    unfold fieldsAux at ht
    by_cases hc : cur = []
    · simp [hc] at ht
    · simp only [hc, if_false, List.mem_singleton] at ht
      subst ht
      exact ⟨hc, hcur⟩
  | cons ch s ih =>
    intro t ht
    unfold fieldsAux at ht
    by_cases hs : isSpace ch = true
    · simp only [hs, if_true] at ht
      by_cases hc : cur = []
      · simp only [hc, if_true] at ht
        exact ih [] (by simp) t ht
      · simp only [hc, if_false, List.mem_cons] at ht
        rcases ht with ht | ht
        · subst ht; exact ⟨hc, hcur⟩
        · exact ih [] (by simp) t ht
    · simp only [hs, Bool.false_eq_true, if_false] at ht
      refine ih (cur ++ [ch]) ?_ t ht
      intro x hx
      simp only [List.mem_append, List.mem_singleton] at hx
      rcases hx with hx | hx
      · exact hcur x hx
      · subst hx; simpa using hs

/-- Every field that `strings.Fields` returns is a token. -/
theorem Fields_isToken (s : Str) : ∀ t ∈ Fields s, IsToken t :=
  fieldsAux_isToken s [] (by simp)

theorem encodeFields_eq (ff : ℚ → Str) (cols : Fin 3 → Nat) (xyz : Vec3) (fields : List Str)
    (k : Nat) :
    lammpstrj.encodeFields ff cols xyz fields k
      = ((replaceCols ff cols xyz fields k).map (fun t => t ++ [' '])).flatten := by
  induction fields generalizing k with
  | nil => simp [lammpstrj.encodeFields, replaceCols]
  | cons v vs ih =>
    simp only [lammpstrj.encodeFields, replaceCols, List.map_cons, List.flatten_cons, ih]
    simp

theorem replaceCols_length (ff : ℚ → Str) (cols : Fin 3 → Nat) (xyz : Vec3)
    (fields : List Str) (k : Nat) : (replaceCols ff cols xyz fields k).length = fields.length := by
  induction fields generalizing k with
  | nil => rfl
  | cons v vs ih => simp [replaceCols, ih]

theorem replaceCols_getElem? (ff : ℚ → Str) (cols : Fin 3 → Nat) (xyz : Vec3)
    (fields : List Str) (k t : Nat) :
    (replaceCols ff cols xyz fields k)[t]? = (fields[t]?).map (fun v =>
      if k + t = cols 0 then ff (xyz 0)
      else if k + t = cols 1 then ff (xyz 1)
      else if k + t = cols 2 then ff (xyz 2)
      else v) := by
  induction fields generalizing k t with
  | nil => simp [replaceCols]
  | cons v vs ih =>
    cases t with
    | zero => simp [replaceCols]
    | succ t =>
      simp only [replaceCols, List.getElem?_cons_succ, ih]
      have h1 : k + 1 + t = k + (t + 1) := by omega
      rw [h1]

theorem replaceCols_isToken (ff : ℚ → Str) (cols : Fin 3 → Nat) (xyz : Vec3)
    (fields : List Str) (k : Nat) (hff : ∀ q, IsToken (ff q)) (hf : ∀ t ∈ fields, IsToken t) :
    ∀ t ∈ replaceCols ff cols xyz fields k, IsToken t := by
  induction fields generalizing k with
  | nil => simp [replaceCols]
  | cons v vs ih =>
    intro t ht
    simp only [replaceCols, List.mem_cons] at ht
    rcases ht with ht | ht
    · subst ht
      split_ifs
      · exact hff _
      · exact hff _
      · exact hff _
      · exact hf v (List.mem_cons_self _ _)
    · exact ih (k + 1) (fun x hx => hf x (List.mem_cons_of_mem _ hx)) t ht

/-- The fields of the line written for a record are the fields read, the three coordinate
columns replaced by the formatted positions. -/
theorem Fields_encodeRecord (ff : ℚ → Str) (cols : Fin 3 → Nat) (xyz : Vec3) (line : Str)
    (hff : ∀ q, IsToken (ff q)) :
    Fields (lammpstrj.encodeRecord ff cols (Fields line) xyz)
      = replaceCols ff cols xyz (Fields line) 0 := by
  unfold lammpstrj.encodeRecord Fields
  rw [encodeFields_eq]
  exact fieldsAux_tokens _ (replaceCols_isToken ff cols xyz _ 0 hff (Fields_isToken line))

/-! ## C10 -/

/-- The chunks written for one frame that starts at line `m` of the file, `m` a multiple of
the frame length `9 + n`. -/
theorem frameChunks_lineOK (ff : ℚ → Str) (cols : Fin 3 → Nat) (colsB file r : Str)
    (n q : Nat) (v : Nat → Vec3) (hr : r = dropLines (q * (9 + n)) file)
    (hcols : ∀ a, a < n → ∀ k : Fin 3, cols k < (Fields (nthLine r (9 + a))).length)
    (t : Nat) (ht : t < 9 + n) :
    LineOK ff cols colsB file (9 + n) (q * (9 + n) + t)
      (((List.range 8).map (nthLine r) ++ colsB :: (List.range n).map (fun a =>
        lammpstrj.encodeRecord ff cols (Fields (nthLine r (9 + a))) (v a))).getD t []) := by
  have hmod : (q * (9 + n) + t) % (9 + n) = t := by
    rw [Nat.add_comm, Nat.add_mul_mod_self_right, Nat.mod_eq_of_lt ht]
  have hline : ∀ s, nthLine r s = nthLine file (q * (9 + n) + s) := by
    intro s; rw [hr, nthLine_dropLines]
  unfold LineOK
  rw [hmod]
  refine ⟨?_, ?_, ?_⟩
  · intro h8
    rw [List.getD_append _ _ _ _ (by simpa using h8), List.getD_eq_getElem?_getD,
      List.getElem?_map, List.getElem?_range h8]
    exact hline t
  · intro h8
    subst h8
    rw [List.getD_append_right _ _ _ _ (by simp)]
    simp
  · intro h9
    obtain ⟨a, rfl⟩ : ∃ a, t = 9 + a := ⟨t - 9, by omega⟩
    have ha : a < n := by omega
    refine ⟨?_, v a, ?_⟩
    · intro k
      rw [← hline]
      exact hcols a ha k
    · rw [List.getD_append_right _ _ _ _ (by simp; omega)]
      have hidx : 9 + a - ((List.range 8).map (nthLine r)).length = a + 1 := by
        simp; omega
      rw [hidx, List.getD_cons_succ, List.getD_eq_getElem?_getD, List.getElem?_map,
        List.getElem?_range ha]
      simp only [Option.map_some', Option.getD_some]
      rw [hline]

theorem lineOK_append (ff : ℚ → Str) (cols : Fin 3 → Nat) (colsB file : Str) (N q : Nat)
    (out chunks : List Str) (hlen : out.length = q * N) (hclen : chunks.length = N)
    (hout : ∀ i, i < out.length → LineOK ff cols colsB file N i (out.getD i []))
    (hch : ∀ t, t < N → LineOK ff cols colsB file N (q * N + t) (chunks.getD t [])) :
    (out ++ chunks).length = (q + 1) * N ∧
    ∀ i, i < (out ++ chunks).length → LineOK ff cols colsB file N i ((out ++ chunks).getD i []) := by
  constructor
  · rw [List.length_append, hlen, hclen]; ring
  · intro i hi
    by_cases h1 : i < out.length
    · rw [List.getD_append _ _ _ _ h1]
      exact hout i h1
    · rw [List.getD_append_right _ _ _ _ (by omega)]
      rw [List.length_append, hclen] at hi
      have h2 := hch (i - out.length) (by omega)
      have h3 : q * N + (i - out.length) = i := by omega
      rw [h3] at h2
      exact h2

/-- The frame loop of `Conv` keeps the output aligned with the input, chunk by line. -/
theorem convLoop_out (pf : Str → ℚ) (ff : ℚ → Str) (c : msd.Conv) (f : lammpstrj.First)
    (file : Str) (fuel : Nat) (st st2 : lammpstrj.ConvState) (q : Nat)
    (h : lammpstrj.convLoop pf ff c f fuel st = Except.ok st2)
    (hcols : 0 < c.AtTot.toNat → ∀ k : Fin 3, f.cols k < f.colsTot)
    (hlen : st.out.length = q * (9 + c.AtTot.toNat))
    (hr : st.r = dropLines (q * (9 + c.AtTot.toNat)) file)
    (hout : ∀ i, i < st.out.length →
      LineOK ff f.cols f.colsB file (9 + c.AtTot.toNat) i (st.out.getD i [])) :
    ∀ i, i < st2.out.length →
      LineOK ff f.cols f.colsB file (9 + c.AtTot.toNat) i (st2.out.getD i []) := by
  induction fuel generalizing st q with
  | zero => simp [lammpstrj.convLoop] at h
  | succ fuel ih =>
    unfold lammpstrj.convLoop at h
    cases hf : lammpstrj.convFrame pf ff c f st with
    | error e => rw [hf] at h; cases h
    | ok mid =>
      rw [hf] at h
      simp only [] at h
      obtain ⟨hd, _, i1, _, _, _, i5, i6, _⟩ := convFrame_spec pf ff c f st mid hf
      have hch := frameChunks_lineOK ff f.cols f.colsB file st.r c.AtTot.toNat q
        (fun a => mid.lastXYZ.getD a 0) hr
        (by intro a ha k; rw [(i6 a ha).1]; exact hcols (by omega) k)
      obtain ⟨m1, m2⟩ := lineOK_append ff f.cols f.colsB file (9 + c.AtTot.toNat) q st.out _
        hlen (by simp; omega) hout hch
      rw [← i5] at m1 m2
      have hmr : mid.r = dropLines ((q + 1) * (9 + c.AtTot.toNat)) file := by
        rw [i1, hr, ← dropLines_add]
        congr 1
        ring
      by_cases hre : mid.r = []
      · rw [if_pos hre] at h
        cases h
        exact m2
      · rw [if_neg hre] at h
        exact ih mid (q + 1) h m1 hmr m2

/-- Every chunk of the output of a run of `Conv`, whose frames all have `9 + AtTot` lines,
is what `LineOK` says of the line of the file with the same index. -/
theorem Conv_out_lineOK (pf : Str → ℚ) (ff : ℚ → Str) (c : msd.Conv) (file : Str)
    (run : lammpstrj.ConvRun) (h : lammpstrj.Conv pf ff c file = Except.ok run)
    (hAt : c.AtTot.toNat = c.Mol.toNat * c.At.toNat) :
    ∀ i, i < run.out.length →
      LineOK ff run.first.cols run.first.colsB file (9 + c.AtTot.toNat) i
        (run.out.getD i []) := by
  obtain ⟨hd, hh, _, hf, hrest⟩ := Conv_ok pf ff c file run h
  obtain ⟨g1, g2, _⟩ := header_spec pf file hd hh
  obtain ⟨_, _, _, _, _, _, f7, f8, f9⟩ := firstCfg_spec pf ff c hd.r hd.box run.first hf
  rw [← hAt] at f7 f8 f9
  have hline : ∀ n, nthLine hd.r (1 + n) = nthLine file (9 + n) := by
    intro n
    rw [g1, nthLine_dropLines]
    congr 1
    omega
  have hcols : 0 < c.AtTot.toNat → ∀ k : Fin 3, run.first.cols k < run.first.colsTot :=
    fun hpos k => ((f9 0 hpos).2 k).1
  have hout0 : hd.out ++ run.first.out
      = [] ++ ((List.range 8).map (nthLine file) ++ run.first.colsB ::
          (List.range c.AtTot.toNat).map (fun a =>
            lammpstrj.encodeRecord ff run.first.cols (Fields (nthLine file (9 + a)))
              (run.first.lastXYZ.getD a 0))) := by
    rw [g2, f8, List.nil_append]
    congr 2
    apply List.map_congr_left
    intro a _
    rw [hline]
  have hch := frameChunks_lineOK ff run.first.cols run.first.colsB file file c.AtTot.toNat 0
    (fun a => run.first.lastXYZ.getD a 0) (by simp [dropLines])
    (by
      intro a ha k
      rw [← hline, (f9 a ha).1]
      exact ((f9 a ha).2 k).1)
  obtain ⟨m1, m2⟩ := lineOK_append ff run.first.cols run.first.colsB file
    (9 + c.AtTot.toNat) 0 [] _ (by simp) (by simp; omega) (by intro i hi; simp at hi) hch
  rw [← hout0] at m1 m2
  rcases hrest with ⟨_, _, ho⟩ | ⟨_, st, hl, _, ho⟩
  · rw [ho]
    exact m2
  · rw [ho]
    have m1b : (hd.out ++ run.first.out).length = 1 * (9 + c.AtTot.toNat) := by
      rw [m1]
    refine convLoop_out pf ff c run.first file _ _ st 1 hl hcols m1b ?_ m2
    have harith : 8 + (1 + c.AtTot.toNat) = 1 * (9 + c.AtTot.toNat) := by omega
    rw [f7, g1, ← dropLines_add, harith]

/-- C10: in a run of `Conv` that returns without error, on frames of `9 + AtTot` lines
(`AtTot = At * Mol`) with three distinct coordinate columns and a float formatter that
writes a token, the chunk written for every record line `i` of the file has as many fields
as the line read, the same field at every position other than the three coordinate columns,
and a formatted position in each of the three coordinate columns. -/
theorem conv_record_tokens_preserved (pf : Str → ℚ) (ff : ℚ → Str) (c : msd.Conv)
    (file : Str) (run : lammpstrj.ConvRun) (h : lammpstrj.Conv pf ff c file = Except.ok run)
    (hAt : c.AtTot.toNat = c.Mol.toNat * c.At.toNat) (hff : ∀ q, IsToken (ff q))
    (hdist : run.first.cols 0 ≠ run.first.cols 1 ∧ run.first.cols 0 ≠ run.first.cols 2 ∧
      run.first.cols 1 ≠ run.first.cols 2) :
    ∀ i, i < run.out.length → 9 ≤ i % (9 + c.AtTot.toNat) →
      (Fields (run.out.getD i [])).length = (Fields (nthLine file i)).length ∧
      (∀ t, t ≠ run.first.cols 0 → t ≠ run.first.cols 1 → t ≠ run.first.cols 2 →
        (Fields (run.out.getD i []))[t]? = (Fields (nthLine file i))[t]?) ∧
      ∃ v : Vec3, ∀ k : Fin 3,
        (Fields (run.out.getD i []))[run.first.cols k]? = some (ff (v k)) := by
  intro i hi h9
  obtain ⟨hc, v, hw⟩ := (Conv_out_lineOK pf ff c file run h hAt i hi).2.2 h9
  have hF := Fields_encodeRecord ff run.first.cols v (nthLine file i) hff
  rw [← hw] at hF
  refine ⟨?_, ?_, v, ?_⟩
  · rw [hF, replaceCols_length]
  · intro t h0 h1 h2
    rw [hF, replaceCols_getElem?]
    simp only [Nat.zero_add, h0, h1, h2, if_false]
    cases (Fields (nthLine file i))[t]? <;> rfl
  · intro k
    rw [hF, replaceCols_getElem?, List.getElem?_eq_getElem (hc k)]
    simp only [Nat.zero_add, Option.map_some', Option.some.injEq]
    obtain ⟨d01, d02, d12⟩ := hdist
    fin_cases k
    · simp
    · simp [Ne.symm d01]
    · simp [Ne.symm d02, Ne.symm d12]

theorem fmtSmall_isToken (q : ℚ) : IsToken (fmtSmall q) := by
  unfold fmtSmall IsToken
  split_ifs
  · exact ⟨by simp, by decide⟩
  · exact ⟨by simp, by decide⟩

/-- Witness for C10: on the two-frame trajectory `trajW` (header `id x y z`, columns
`(1, 2, 3)`), the chunk written for line 19, the record of the second frame, has as many
fields as the line read and the same `id` field. -/
theorem conv_record_tokens_preserved_witness :
    ∃ run, lammpstrj.Conv readDec fmtSmall conv11 trajW = Except.ok run ∧
      run.out.length = 20 ∧
      (Fields (run.out.getD 19 [])).length = (Fields (nthLine trajW 19)).length ∧
      (Fields (run.out.getD 19 []))[0]? = (Fields (nthLine trajW 19))[0]? := by
  have hs : (lammpstrj.Conv readDec fmtSmall conv11 trajW).map (fun run =>
      [run.first.cols 0, run.first.cols 1, run.first.cols 2, run.out.length])
      = Except.ok [1, 2, 3, 20] := by decide!
  obtain ⟨run, h, hsum⟩ := exists_of_map_eq_ok hs
  simp only [List.cons.injEq, and_true] at hsum
  obtain ⟨c0, c1, c2, hlen⟩ := hsum
  have T := conv_record_tokens_preserved readDec fmtSmall conv11 trajW run h (by decide)
    fmtSmall_isToken (by rw [c0, c1, c2]; decide) 19 (by rw [hlen]; decide) (by decide)
  exact ⟨run, h, hlen, T.1, T.2.1 0 (by rw [c0]; decide) (by rw [c1]; decide)
    (by rw [c2]; decide)⟩


/-! ## The frame loop of `Conv` never runs out of fuel -/

theorem foldlM_ne_fuel {α β : Type} (f : β → α → Except Err β)
    (hf : ∀ b a, f b a ≠ Except.error Err.fuel) (l : List α) (b : β) :
    l.foldlM f b ≠ Except.error Err.fuel := by
  induction l generalizing b with
  | nil => simp [pure, Except.pure]
  | cons a l ih =>
    rw [List.foldlM_cons]
    cases h : f b a with
    | error e =>
      have := hf b a
      rw [h] at this
      simpa [bind, Except.bind] using this
    | ok b2 => simpa [bind, Except.bind] using ih b2

theorem readSliceAux_length_lt (n : Nat) (c : Char) (r : Str) :
    (readSliceAux (n + 1) (c :: r)).2.length < (c :: r).length := by
  induction n generalizing c r with
  | zero =>
    unfold readSliceAux
    split <;> simp [readSliceAux]
  | succ n ih =>
    unfold readSliceAux
    split
    · simp
    · cases r with
      | nil => simp [readSliceAux]
      | cons d r =>
        have := ih d r
        simp only [List.length_cons] at this ⊢
        omega

theorem ReadSlice_length_lt (r : Str) (h : r ≠ []) : (ReadSlice r).2.length < r.length := by
  cases r with
  | nil => exact absurd rfl h
  | cons c r => exact readSliceAux_length_lt 4095 c r

theorem ReadSlice_length_le (r : Str) : (ReadSlice r).2.length ≤ r.length := by
  cases r with
  | nil => simp [ReadSlice, readSliceAux]
  | cons c r => exact Nat.le_of_lt (ReadSlice_length_lt _ (by simp))

theorem dropLines_length_le (n : Nat) (r : Str) : (dropLines n r).length ≤ r.length := by
  induction n generalizing r with
  | zero => simp [dropLines]
  | succ n ih =>
    rw [dropLines]
    exact Nat.le_trans (ih _) (ReadSlice_length_le r)

theorem dropLines_length_lt (n : Nat) (r : Str) (h : r ≠ []) :
    (dropLines (n + 1) r).length < r.length := by
  rw [dropLines]
  exact Nat.lt_of_le_of_lt (dropLines_length_le _ _) (ReadSlice_length_lt r h)

theorem convAtom_ne_fuel (pf : Str → ℚ) (ff : ℚ → Str) (cols : Fin 3 → Nat) (colsTot : Nat)
    (box box2 : Vec3) (st : lammpstrj.ConvState) (a : Nat) :
    lammpstrj.convAtom pf ff cols colsTot box box2 st a ≠ Except.error Err.fuel := by
  unfold lammpstrj.convAtom
  simp only []
  split
  · simp
  · split
    · split
      · rename_i e he
        intro h
        injection h with h
        subst h
        refine foldlM_ne_fuel _ ?_ _ _ he
        intro b k
        split <;> simp
      · simp
    · simp

theorem convFrame_ne_fuel (pf : Str → ℚ) (ff : ℚ → Str) (c : msd.Conv) (f : lammpstrj.First)
    (st : lammpstrj.ConvState) :
    lammpstrj.convFrame pf ff c f st ≠ Except.error Err.fuel := by
  unfold lammpstrj.convFrame
  split
  · simp
  · split
    · rename_i e he
      intro h
      injection h with h
      subst h
      exact foldlM_ne_fuel _ (convAtom_ne_fuel pf ff f.cols f.colsTot _ _) _ _ he
    · simp

/-- With as much fuel as bytes left, the frame loop of `Conv` ends by itself: the fuel is
never what stops it. -/
theorem convLoop_ne_fuel (pf : Str → ℚ) (ff : ℚ → Str) (c : msd.Conv) (f : lammpstrj.First)
    (fuel : Nat) (st : lammpstrj.ConvState) (hr : st.r ≠ []) (hfuel : st.r.length ≤ fuel) :
    lammpstrj.convLoop pf ff c f fuel st ≠ Except.error Err.fuel := by
  induction fuel generalizing st with
  | zero =>
    exact absurd (List.length_eq_zero.mp (Nat.le_zero.mp hfuel)) hr
  | succ fuel ih =>
    unfold lammpstrj.convLoop
    cases hf : lammpstrj.convFrame pf ff c f st with
    | error e =>
      have := convFrame_ne_fuel pf ff c f st
      rw [hf] at this
      simpa using this
    | ok mid =>
      simp only []
      obtain ⟨_, _, i1, _⟩ := convFrame_spec pf ff c f st mid hf
      by_cases hm : mid.r = []
      · rw [if_pos hm]; simp
      · rw [if_neg hm]
        apply ih mid hm
        have : 9 + c.AtTot.toNat = (8 + c.AtTot.toNat) + 1 := by omega
        rw [this] at i1
        have := dropLines_length_lt (8 + c.AtTot.toNat) st.r hr
        rw [← i1] at this
        omega

/-- `Conv` never stops for lack of fuel: the result of the model is the result of the loop of
the code. -/
theorem Conv_ne_fuel (pf : Str → ℚ) (ff : ℚ → Str) (c : msd.Conv) (file : Str) :
    lammpstrj.Conv pf ff c file ≠ Except.error Err.fuel := by
  unfold lammpstrj.Conv
  split
  · simp
  · split
    · simp
    · split
      · simp
      · rename_i f hf
        split
        · simp
        · rename_i hne
          split
          · rename_i e he
            intro h
            injection h with h
            subst h
            exact convLoop_ne_fuel pf ff c f f.r.length
              { r := f.r, corr := List.replicate c.AtTot.toNat (fun _ => 0),
                lastXYZ := f.lastXYZ, out := _, log := [] } hne (Nat.le_refl _) he
          · simp
/-! ## Byte offsets -/

theorem readSliceAux_append (n : Nat) (r : Str) :
    (readSliceAux n r).1 ++ (readSliceAux n r).2 = r := by
  induction n generalizing r with
  | zero => simp [readSliceAux]
  | succ n ih =>
    cases r with
    | nil => simp [readSliceAux]
    | cons c cs =>
      by_cases hc : c = '\n'
      · simp [readSliceAux, hc]
      · simp [readSliceAux, hc, ih cs]

theorem ReadSlice_append (r : Str) : (ReadSlice r).1 ++ (ReadSlice r).2 = r :=
  readSliceAux_append 4096 r

theorem linesPrefix_append_dropLines (r : Str) (n : Nat) :
    linesPrefix r n ++ dropLines n r = r := by
  induction n generalizing r with
  | zero => simp [linesPrefix, dropLines]
  | succ n ih =>
    rw [linesPrefix, dropLines, List.append_assoc, ih, ReadSlice_append]

theorem drop_linesPrefix (r : Str) (n : Nat) :
    r.drop (linesPrefix r n).length = dropLines n r := by
  have h := List.drop_left (linesPrefix r n) (dropLines n r)
  rwa [linesPrefix_append_dropLines] at h

theorem linesPrefix_add (r : Str) (a b : Nat) :
    linesPrefix r (a + b) = linesPrefix r a ++ linesPrefix (dropLines a r) b := by
  induction a generalizing r with
  | zero => simp [linesPrefix, dropLines]
  | succ a ih =>
    rw [Nat.succ_add, linesPrefix, ih, linesPrefix, dropLines, List.append_assoc]

theorem skipLines_eq (n : Nat) (r : Str) (b : Nat) :
    skipLines n r b = (dropLines n r, b + (linesPrefix r n).length) := by
  induction n generalizing r b with
  | zero => simp [skipLines, dropLines, linesPrefix]
  | succ n ih =>
    rw [skipLines, ih, dropLines, linesPrefix]
    simp [readLine, Nat.add_assoc]

/-- The loop of `MSD.Read` over the frames that are not kept in memory: frame `c` adds the
byte offset of its line 9, truncated to 32 bits. -/
theorem readOffsets_spec (AtTot : ℤ) (D : Nat) (r0 : Str) (b0 : Nat) (x0 : List Nat) :
    (List.range D).foldl (lammpstrj.readOffset AtTot) (r0, b0, x0)
      = (dropLines (D * (9 + AtTot.toNat)) r0,
         b0 + (linesPrefix r0 (D * (9 + AtTot.toNat))).length,
         x0 ++ (List.range D).map (fun c =>
           (b0 + (linesPrefix r0 (c * (9 + AtTot.toNat) + 9)).length) % 2 ^ 32)) := by
  induction D with
  | zero => simp [dropLines, linesPrefix]
  | succ D ih =>
    rw [List.range_succ, List.foldl_append, ih]
    simp only [List.foldl_cons, List.foldl_nil, lammpstrj.readOffset, skipLines_eq,
      List.map_append, List.map_cons, List.map_nil]
    have h1 : (D + 1) * (9 + AtTot.toNat) = D * (9 + AtTot.toNat) + 9 + AtTot.toNat := by ring
    refine Prod.ext ?_ (Prod.ext ?_ ?_)
    · simp only []
      rw [h1, dropLines_add, dropLines_add]
    · simp only []
      rw [h1, linesPrefix_add, linesPrefix_add, dropLines_add]
      simp only [List.length_append]
      omega
    · simp only []
      rw [linesPrefix_add]
      simp only [List.length_append, List.append_assoc, Nat.add_assoc]

/-! ## Decoding a frame: the centre-of-mass reduction -/

theorem accumStep_ok (pf : Str → ℚ) (fields : List Str) (Masses : List ℚ) (i a : Nat)
    (k : Fin 3) (tmp tmp2 : Vec3)
    (h : (match fields[i]?, Masses[a]? with
          | some f, some ma => Except.ok (Function.update tmp k (tmp k + pf f * ma))
          | _, _ => Except.error Err.panicIndex) = Except.ok tmp2) :
    i < fields.length ∧ a < Masses.length ∧
    tmp2 = Function.update tmp k (tmp k + pf (fields.getD i []) * Masses.getD a 0) := by
  cases hf : fields[i]? with
  | none => simp [hf] at h
  | some f =>
    cases hm : Masses[a]? with
    | none => simp [hf, hm] at h
    | some ma =>
      simp only [hf, hm, Except.ok.injEq] at h
      obtain ⟨f1, _, f3⟩ := lt_length_of_getElem?_eq_some _ _ _ hf
      obtain ⟨m1, _, m3⟩ := lt_length_of_getElem?_eq_some _ _ _ hm
      refine ⟨f1, m1, ?_⟩
      rw [f3 [], m3 0]
      exact h.symm

/-- The statements that decode one atom record: every coordinate column is in range, the
atom has a mass, and each axis of `tmpXYZ` grows by `pos * mass`, `mTot` by the mass. -/
theorem accumAtom_ok (pf : Str → ℚ) (cols : Fin 3 → Nat) (Masses : List ℚ)
    (fields : List Str) (a : Nat) (tmp : Vec3) (mTot : ℚ) (res : Vec3 × ℚ)
    (h : accumAtom pf cols Masses fields a tmp mTot = Except.ok res) :
    a < Masses.length ∧ (∀ k : Fin 3, cols k < fields.length) ∧
    (∀ k : Fin 3, res.1 k = tmp k + pf (fields.getD (cols k) []) * Masses.getD a 0) ∧
    res.2 = mTot + Masses.getD a 0 := by
  unfold accumAtom at h
  have h3 : List.finRange 3 = [0, 1, 2] := by decide
  cases hf : (List.finRange 3).foldlM (fun (tmp : Vec3) (k : Fin 3) =>
      match fields[cols k]?, Masses[a]? with
      | some f, some ma => Except.ok (Function.update tmp k (tmp k + pf f * ma))
      | _, _ => Except.error Err.panicIndex) tmp with
  | error e => rw [hf] at h; cases h
  | ok t =>
    rw [hf] at h
    simp only [] at h
    rw [h3] at hf
    simp only [List.foldlM_cons, List.foldlM_nil, bind_eq_ok] at hf
    obtain ⟨s1, h1, s2, h2, s3, h3', h4⟩ := hf
    obtain ⟨a1, m1, b1⟩ := accumStep_ok pf fields Masses _ a 0 _ _ h1
    obtain ⟨a2, _, b2⟩ := accumStep_ok pf fields Masses _ a 1 _ _ h2
    obtain ⟨a3, _, b3⟩ := accumStep_ok pf fields Masses _ a 2 _ _ h3'
    simp only [pure, Except.pure, Except.ok.injEq] at h4
    subst h4
    rw [List.getElem?_eq_getElem m1] at h
    simp only [Except.ok.injEq] at h
    subst h
    refine ⟨m1, ?_, ?_, ?_⟩
    · intro k; fin_cases k
      · exact a1
      · exact a2
      · exact a3
    · intro k
      rw [b3, b2, b1]
      fin_cases k <;> simp [Function.update]
    · simp [List.getD_eq_getElem?_getD, List.getElem?_eq_getElem m1]

/-- One pass of the atom loop of `MSD.GetCfg` that returns without error. -/
theorem getAtom_ok (pf : Str → ℚ) (cols : Fin 3 → Nat) (colsTot : Nat) (Masses : List ℚ)
    (st st2 : Str × Vec3 × ℚ) (a : Nat)
    (h : lammpstrj.getAtom pf cols colsTot Masses st a = Except.ok st2) :
    (Fields (ReadSlice st.1).1).length = colsTot ∧ a < Masses.length ∧
    (∀ k : Fin 3, cols k < colsTot) ∧ st2.1 = (ReadSlice st.1).2 ∧
    (∀ k : Fin 3, st2.2.1 k = st.2.1 k
      + pf ((Fields (ReadSlice st.1).1).getD (cols k) []) * Masses.getD a 0) ∧
    st2.2.2 = st.2.2 + Masses.getD a 0 := by
  unfold lammpstrj.getAtom at h
  by_cases hl : (Fields (ReadSlice st.1).1).length = colsTot
  · simp only [hl, ne_eq, not_true_eq_false, if_false] at h
    cases ha : accumAtom pf cols Masses (Fields (ReadSlice st.1).1) a st.2.1 st.2.2 with
    | error e => rw [ha] at h; cases h
    | ok t =>
      rw [ha] at h
      simp only [Except.ok.injEq] at h
      obtain ⟨c1, c2, c3, c4⟩ := accumAtom_ok pf cols Masses _ a _ _ t ha
      subst h
      exact ⟨hl, c1, fun k => hl ▸ c2 k, rfl, c3, c4⟩
  · simp [hl] at h

/-- The atom loop of `MSD.GetCfg` over the `n` atoms of one molecule. -/
theorem getAtoms_spec (pf : Str → ℚ) (cols : Fin 3 → Nat) (colsTot : Nat) (Masses : List ℚ)
    (n : Nat) (st st2 : Str × Vec3 × ℚ)
    (h : (List.range n).foldlM (lammpstrj.getAtom pf cols colsTot Masses) st = Except.ok st2) :
    st2.1 = dropLines n st.1 ∧
    (∀ k : Fin 3, st2.2.1 k = st.2.1 k + ∑ a in Finset.range n,
      pf ((Fields (nthLine st.1 a)).getD (cols k) []) * Masses.getD a 0) ∧
    st2.2.2 = st.2.2 + ∑ a in Finset.range n, Masses.getD a 0 ∧
    ∀ a, a < n → (Fields (nthLine st.1 a)).length = colsTot ∧ a < Masses.length ∧
      ∀ k : Fin 3, cols k < colsTot := by
  induction n generalizing st2 with
  | zero =>
    simp only [List.range_zero, List.foldlM_nil, pure, Except.pure, Except.ok.injEq] at h
    subst h
    simp [dropLines]
  | succ n ih =>
    obtain ⟨mid, hmid, hstep⟩ := (foldlM_range_succ_ok _ n st st2).mp h
    obtain ⟨i1, i2, i3, i4⟩ := ih mid hmid
    obtain ⟨s1, s2, s3, s4, s5, s6⟩ := getAtom_ok pf cols colsTot Masses mid st2 n hstep
    have hline : (ReadSlice mid.1).1 = nthLine st.1 n := by rw [i1]; rfl
    rw [hline] at s1 s5
    refine ⟨?_, ?_, ?_, ?_⟩
    · rw [s4, i1, dropLines_succ]
    · intro k
      rw [s5 k, i2 k, Finset.sum_range_succ, add_assoc]
    · rw [s6, i3, Finset.sum_range_succ, add_assoc]
    · intro a ha
      by_cases han : a < n
      · exact i4 a han
      · have : a = n := by omega
        subst this
        exact ⟨s1, s2, s3⟩

/-- The molecule loop of `MSD.GetCfg`: it consumes `Mol * At` lines and appends the centres
of mass of the molecules read from them. -/
theorem getMols_spec (pf : Str → ℚ) (cols : Fin 3 → Nat) (colsTot : Nat) (At : ℤ)
    (Masses : List ℚ) (M : Nat) (st st2 : Str × Frame)
    (h : (List.range M).foldlM (lammpstrj.getMol pf cols colsTot At Masses) st
      = Except.ok st2) :
    st2.1 = dropLines (M * At.toNat) st.1 ∧
    st2.2 = st.2 ++ comFrame pf cols Masses M At.toNat st.1 ∧
    ∀ n, n < M * At.toNat → (Fields (nthLine st.1 n)).length = colsTot ∧
      n % At.toNat < Masses.length ∧ ∀ k : Fin 3, cols k < colsTot := by
  induction M generalizing st2 with
  | zero =>
    simp only [List.range_zero, List.foldlM_nil, pure, Except.pure, Except.ok.injEq] at h
    subst h
    simp [dropLines, comFrame]
  | succ M ih =>
    obtain ⟨mid, hmid, hstep⟩ := (foldlM_range_succ_ok _ M st st2).mp h
    obtain ⟨i1, i2, i3⟩ := ih mid hmid
    unfold lammpstrj.getMol at hstep
    cases ha : (List.range At.toNat).foldlM (lammpstrj.getAtom pf cols colsTot Masses)
        (mid.1, (fun _ => 0), 0) with
    | error e => rw [ha] at hstep; cases hstep
    | ok t =>
      rw [ha] at hstep
      simp only [Except.ok.injEq] at hstep
      obtain ⟨j1, j2, j3, j4⟩ := getAtoms_spec pf cols colsTot Masses _ _ t ha
      simp only [] at j1 j2 j3 j4
      have hlen : (M + 1) * At.toNat = M * At.toNat + At.toNat := by ring
      have hline : ∀ a, nthLine mid.1 a = nthLine st.1 (M * At.toNat + a) := by
        intro a; rw [i1, nthLine_dropLines]
      subst hstep
      refine ⟨?_, ?_, ?_⟩
      · simp only []
        rw [j1, i1, hlen, dropLines_add]
      · simp only []
        rw [i2, List.append_assoc]
        congr 1
        unfold comFrame
        rw [List.range_succ, List.map_append]
        congr 1
        simp only [List.map_cons, List.map_nil, List.cons.injEq, and_true]
        funext k
        rw [j2 k, j3]
        simp only [zero_add, hline]
      · intro n hn
        by_cases hn2 : n < M * At.toNat
        · exact i3 n hn2
        · obtain ⟨a, rfl⟩ : ∃ a, n = M * At.toNat + a := ⟨n - M * At.toNat, by omega⟩
          have ha2 : a < At.toNat := by omega
          have hmod : (M * At.toNat + a) % At.toNat = a := by
            rw [Nat.add_comm, Nat.add_mul_mod_self_right, Nat.mod_eq_of_lt ha2]
          obtain ⟨k1, k2, k3⟩ := j4 a ha2
          rw [hline] at k1
          rw [hmod]
          exact ⟨k1, k2, k3⟩

/-! ## The two copies of the decoding loop agree -/

/-- The atom pass of `MSD.Read` is the atom pass of `MSD.GetCfg` with `bTot` carried along. -/
theorem readAtom_eq (pf : Str → ℚ) (cols : Fin 3 → Nat) (colsTot : Nat) (Masses : List ℚ)
    (st : Str × Nat × Vec3 × ℚ) (a : Nat) :
    lammpstrj.readAtom pf cols colsTot Masses st a
      = match lammpstrj.getAtom pf cols colsTot Masses (st.1, st.2.2.1, st.2.2.2) a with
        | Except.error e => Except.error e
        | Except.ok t => Except.ok (t.1, st.2.1 + (ReadSlice st.1).1.length, t.2.1, t.2.2) := by
  unfold lammpstrj.readAtom lammpstrj.getAtom readLine
  by_cases hl : (Fields (ReadSlice st.1).1).length = colsTot
  · simp only [hl, ne_eq, not_true_eq_false, if_false]
    cases accumAtom pf cols Masses (Fields (ReadSlice st.1).1) a st.2.2.1 st.2.2.2 <;> rfl
  · simp [hl]

theorem readAtoms_sim (pf : Str → ℚ) (cols : Fin 3 → Nat) (colsTot : Nat) (Masses : List ℚ)
    (l : List Nat) (st st2 : Str × Nat × Vec3 × ℚ)
    (h : l.foldlM (lammpstrj.readAtom pf cols colsTot Masses) st = Except.ok st2) :
    l.foldlM (lammpstrj.getAtom pf cols colsTot Masses) (st.1, st.2.2.1, st.2.2.2)
      = Except.ok (st2.1, st2.2.2.1, st2.2.2.2) := by
  induction l generalizing st with
  | nil =>
    simp only [List.foldlM_nil, pure, Except.pure, Except.ok.injEq] at h
    subst h
    rfl
  | cons a l ih =>
    rw [List.foldlM_cons, bind_eq_ok] at h
    obtain ⟨mid, h1, h2⟩ := h
    rw [readAtom_eq] at h1
    cases hg : lammpstrj.getAtom pf cols colsTot Masses (st.1, st.2.2.1, st.2.2.2) a with
    | error e => rw [hg] at h1; cases h1
    | ok t =>
      rw [hg] at h1
      simp only [Except.ok.injEq] at h1
      subst h1
      rw [List.foldlM_cons, hg]
      exact ih _ h2

/-- The molecule pass of `MSD.Read` is the molecule pass of `MSD.GetCfg`, `bTot` apart. -/
theorem readMols_sim (pf : Str → ℚ) (cols : Fin 3 → Nat) (colsTot : Nat) (At : ℤ)
    (Masses : List ℚ) (l : List Nat) (st st2 : Str × Nat × Frame)
    (h : l.foldlM (lammpstrj.readMol pf cols colsTot At Masses) st = Except.ok st2) :
    l.foldlM (lammpstrj.getMol pf cols colsTot At Masses) (st.1, st.2.2)
      = Except.ok (st2.1, st2.2.2) := by
  induction l generalizing st with
  | nil =>
    simp only [List.foldlM_nil, pure, Except.pure, Except.ok.injEq] at h
    subst h
    rfl
  | cons mo l ih =>
    rw [List.foldlM_cons, bind_eq_ok] at h
    obtain ⟨mid, h1, h2⟩ := h
    unfold lammpstrj.readMol at h1
    cases hr : (List.range At.toNat).foldlM (lammpstrj.readAtom pf cols colsTot Masses)
        (st.1, st.2.1, (fun _ => 0), 0) with
    | error e => rw [hr] at h1; cases h1
    | ok t =>
      rw [hr] at h1
      simp only [Except.ok.injEq] at h1
      subst h1
      have hs := readAtoms_sim pf cols colsTot Masses _ _ t hr
      simp only [] at hs
      rw [List.foldlM_cons]
      unfold lammpstrj.getMol
      rw [hs]
      exact ih _ h2

/-! ## `MSD.Read` -/

/-- One pass of the loop of `MSD.Read` over the resident frames: the header line (line 8 of
the frame) is parsed in the first pass only, and the frame decoded from line 9 on is
appended to `xyz`. -/
theorem readResident_ok (pf : Str → ℚ) (m : msd.MSD) (st st2 : lammpstrj.ReadState) (c : Nat)
    (h : lammpstrj.readResident pf m st c = Except.ok st2) :
    st2.r = dropLines (9 + m.Mol.toNat * m.At.toNat) st.r ∧ st2.notFirst = true ∧
    st2.xyz = st.xyz ++
      [comFrame pf st2.cols m.Masses m.Mol.toNat m.At.toNat (dropLines 9 st.r)] ∧
    (st.notFirst = true → st2.cols = st.cols ∧ st2.colsTot = st.colsTot) ∧
    (st.notFirst = false → 2 < (Fields (nthLine st.r 8)).length ∧
      st2.cols = (lammpstrj.detectU ((Fields (nthLine st.r 8)).drop 2) 0 (st.cols, 0)).1 ∧
      3 ≤ (lammpstrj.detectU ((Fields (nthLine st.r 8)).drop 2) 0 (st.cols, 0)).2 ∧
      st2.colsTot = ((Fields (nthLine st.r 8)).drop 2).length) ∧
    ∀ n, n < m.Mol.toNat * m.At.toNat →
      (Fields (nthLine st.r (9 + n))).length = st2.colsTot ∧
      n % m.At.toNat < m.Masses.length ∧ ∀ k : Fin 3, st2.cols k < st2.colsTot := by
  have h8 : (readLine (skipLines 8 st.r st.bTot).1 (skipLines 8 st.r st.bTot).2).1
      = nthLine st.r 8 := by
    simp [skipLines_eq, readLine, nthLine]
  have h9 : (readLine (skipLines 8 st.r st.bTot).1 (skipLines 8 st.r st.bTot).2).2.2
      = dropLines 9 st.r := by
    simp only [skipLines_eq, readLine]
    rw [← dropLines_succ]
  have hline : ∀ n, nthLine (dropLines 9 st.r) n = nthLine st.r (9 + n) := by
    intro n; rw [nthLine_dropLines]
  -- the decoding, once the layout `(cols, colsTot)` of this pass is known
  have core : ∀ (b : Nat) (cols : Fin 3 → Nat) (colsTot : Nat),
      (match (List.range m.Mol.toNat).foldlM (lammpstrj.readMol pf cols colsTot m.At m.Masses)
          (dropLines 9 st.r, b, []) with
        | Except.error e => Except.error e
        | Except.ok t =>
          Except.ok ({ r := t.1, bTot := t.2.1, notFirst := true, cols := cols,
                       colsTot := colsTot, xyz := st.xyz ++ [t.2.2] } : lammpstrj.ReadState))
        = Except.ok st2 →
      st2.cols = cols ∧ st2.colsTot = colsTot ∧
      st2.r = dropLines (9 + m.Mol.toNat * m.At.toNat) st.r ∧ st2.notFirst = true ∧
      st2.xyz = st.xyz ++ [comFrame pf cols m.Masses m.Mol.toNat m.At.toNat (dropLines 9 st.r)] ∧
      ∀ n, n < m.Mol.toNat * m.At.toNat →
        (Fields (nthLine st.r (9 + n))).length = colsTot ∧
        n % m.At.toNat < m.Masses.length ∧ ∀ k : Fin 3, cols k < colsTot := by
    intro b cols colsTot hc
    cases hm : (List.range m.Mol.toNat).foldlM
        (lammpstrj.readMol pf cols colsTot m.At m.Masses) (dropLines 9 st.r, b, []) with
    | error e => rw [hm] at hc; cases hc
    | ok t =>
      rw [hm] at hc
      simp only [Except.ok.injEq] at hc
      have hs := readMols_sim pf cols colsTot m.At m.Masses _ _ t hm
      obtain ⟨g1, g2, g3⟩ := getMols_spec pf cols colsTot m.At m.Masses _ _ _ hs
      simp only [List.nil_append] at g1 g2 g3
      subst hc
      refine ⟨rfl, rfl, ?_, rfl, ?_, ?_⟩
      · simp only []
        rw [g1, ← dropLines_add]
      · simp only []
        rw [g2]
      · intro n hn
        rw [← hline]
        exact g3 n hn
  unfold lammpstrj.readResident at h
  simp only [h8, h9] at h
  by_cases hnf : st.notFirst = false
  · simp only [hnf, if_true] at h
    by_cases hl : (Fields (nthLine st.r 8)).length ≤ 2
    · simp only [if_pos hl] at h; cases h
    · simp only [if_neg hl] at h
      by_cases hd : (lammpstrj.detectU ((Fields (nthLine st.r 8)).drop 2) 0 (st.cols, 0)).2 < 3
      · simp only [if_pos hd] at h; cases h
      · simp only [if_neg hd] at h
        obtain ⟨c1, c2, c3, c4, c5, c6⟩ := core _ _ _ h
        rw [← c1] at c5
        refine ⟨c3, c4, c5, ?_, ?_, ?_⟩
        · intro hcontra; rw [hnf] at hcontra; cases hcontra
        · intro _; exact ⟨by omega, c1, by omega, c2⟩
        · intro n hn
          rw [c1, c2]
          exact c6 n hn
  · have hnt : st.notFirst = true := by
      cases hb : st.notFirst
      · exact absurd hb hnf
      · rfl
    simp only [hnt, Bool.true_eq_false, if_false] at h
    obtain ⟨c1, c2, c3, c4, c5, c6⟩ := core _ _ _ h
    rw [← c1] at c5
    refine ⟨c3, c4, c5, ?_, ?_, ?_⟩
    · intro _; exact ⟨c1, c2⟩
    · intro hcontra; exact absurd hcontra hnf
    · intro n hn
      rw [c1, c2]
      exact c6 n hn

/-- The loop of `MSD.Read` over `M` resident frames, entered before any header was parsed:
the layout comes from the header line of the first of them and every frame is decoded with
it. -/
theorem readResidents_spec (pf : Str → ℚ) (m : msd.MSD) (M : Nat)
    (st0 st2 : lammpstrj.ReadState) (h0 : st0.notFirst = false)
    (h : (List.range M).foldlM (lammpstrj.readResident pf m) st0 = Except.ok st2) :
    st2.r = dropLines (M * (9 + m.Mol.toNat * m.At.toNat)) st0.r ∧
    st2.xyz = st0.xyz ++ (List.range M).map (fun j =>
      comFrame pf st2.cols m.Masses m.Mol.toNat m.At.toNat
        (dropLines (j * (9 + m.Mol.toNat * m.At.toNat) + 9) st0.r)) ∧
    (M = 0 → st2 = st0) ∧
    (0 < M → st2.notFirst = true ∧ 2 < (Fields (nthLine st0.r 8)).length ∧
      st2.cols = (lammpstrj.detectU ((Fields (nthLine st0.r 8)).drop 2) 0 (st0.cols, 0)).1 ∧
      3 ≤ (lammpstrj.detectU ((Fields (nthLine st0.r 8)).drop 2) 0 (st0.cols, 0)).2 ∧
      st2.colsTot = ((Fields (nthLine st0.r 8)).drop 2).length) ∧
    ∀ j, j < M → ∀ n, n < m.Mol.toNat * m.At.toNat →
      (Fields (nthLine st0.r (j * (9 + m.Mol.toNat * m.At.toNat) + 9 + n))).length
        = st2.colsTot ∧
      n % m.At.toNat < m.Masses.length ∧ ∀ k : Fin 3, st2.cols k < st2.colsTot := by
  induction M generalizing st2 with
  | zero =>
    simp only [List.range_zero, List.foldlM_nil, pure, Except.pure, Except.ok.injEq] at h
    subst h
    refine ⟨by simp [dropLines], by simp, fun _ => rfl, fun hc => absurd hc (by decide), ?_⟩
    intro j hj
    omega
  | succ M ih =>
    obtain ⟨mid, hmid, hstep⟩ := (foldlM_range_succ_ok _ M st0 st2).mp h
    obtain ⟨i1, i2, i3, i4, i5⟩ := ih mid hmid
    obtain ⟨s1, s2, s3, s4, s5, s6⟩ := readResident_ok pf m mid st2 M hstep
    have hN : (M + 1) * (9 + m.Mol.toNat * m.At.toNat)
        = M * (9 + m.Mol.toNat * m.At.toNat) + (9 + m.Mol.toNat * m.At.toNat) := by ring
    -- the layout after this pass, and what it was before
    have hlay : (0 < M → st2.cols = mid.cols ∧ st2.colsTot = mid.colsTot) := by
      intro hpos
      exact s4 (i4 hpos).1
    have hhead : 2 < (Fields (nthLine st0.r 8)).length ∧
        st2.cols = (lammpstrj.detectU ((Fields (nthLine st0.r 8)).drop 2) 0 (st0.cols, 0)).1 ∧
        3 ≤ (lammpstrj.detectU ((Fields (nthLine st0.r 8)).drop 2) 0 (st0.cols, 0)).2 ∧
        st2.colsTot = ((Fields (nthLine st0.r 8)).drop 2).length := by
      by_cases hM : M = 0
      · subst hM
        have hmid0 : mid = st0 := i3 rfl
        rw [hmid0] at s5
        exact s5 h0
      · have hpos : 0 < M := Nat.pos_of_ne_zero hM
        obtain ⟨_, a2, a3, a4, a5⟩ := i4 hpos
        obtain ⟨l1, l2⟩ := hlay hpos
        exact ⟨a2, by rw [l1, a3], a4, by rw [l2, a5]⟩
    have hcolsmid : ∀ j, j < M → st2.cols = mid.cols ∧ st2.colsTot = mid.colsTot := by
      intro j hj
      exact hlay (by omega)
    refine ⟨?_, ?_, fun hc => absurd hc (Nat.succ_ne_zero M), fun _ => ⟨s2, hhead⟩, ?_⟩
    · rw [s1, i1, hN]
      simp only [dropLines_add]
    · rw [s3, i2, List.range_succ, List.map_append, List.append_assoc]
      congr 1
      congr 1
      · apply List.map_congr_left
        intro j hj
        have hj2 : j < M := List.mem_range.mp hj
        rw [(hcolsmid j hj2).1]
      · simp only [List.map_cons, List.map_nil, List.cons.injEq, and_true]
        rw [i1, ← dropLines_add]
    · intro j hj n hn
      by_cases hj2 : j < M
      · obtain ⟨l1, l2⟩ := hcolsmid j hj2
        rw [l1, l2]
        exact i5 j hj2 n hn
      · have hje : j = M := by omega
        subst hje
        have := s6 n hn
        rw [i1, nthLine_dropLines] at this
        have hidx : j * (9 + m.Mol.toNat * m.At.toNat) + (9 + n)
            = j * (9 + m.Mol.toNat * m.At.toNat) + 9 + n := by omega
        rw [hidx] at this
        exact this

/-- What `MSD.Read` leaves on a fresh `lammpstrj.MSD`: with `S` the lines before the window,
`D` the frames not kept in memory and `M` the resident frames, `xyzB[c]` is the byte offset
of line `S + c * (9 + AtTot) + 9` of the file truncated to 32 bits, and `xyz[j]` is the frame
decoded from line `S + D * (9 + AtTot) + j * (9 + Mol * At) + 9` on, with the layout of the
header line of the first resident frame. -/
theorem Read_spec (pf : Str → ℚ) (m : msd.MSD) (file : Str) (l : lammpstrj.MSD)
    (h : lammpstrj.MSD.Read pf m lammpstrj.New file = Except.ok l) :
    l.xyzB = (List.range (m.Tot - m.Mem).toNat).map (fun c =>
      (linesPrefix file ((m.Start * (m.AtTot + 9)).toNat + c * (9 + m.AtTot.toNat) + 9)).length
        % 2 ^ 32) ∧
    l.xyz = (List.range m.Mem.toNat).map (fun j =>
      comFrame pf l.cols m.Masses m.Mol.toNat m.At.toNat
        (dropLines ((m.Start * (m.AtTot + 9)).toNat
          + (m.Tot - m.Mem).toNat * (9 + m.AtTot.toNat)
          + j * (9 + m.Mol.toNat * m.At.toNat) + 9) file)) ∧
    (m.Mem.toNat = 0 → l.cols = (fun _ => 0) ∧ l.colsTot = 0) ∧
    (0 < m.Mem.toNat →
      l.cols = (lammpstrj.detectU ((Fields (nthLine file ((m.Start * (m.AtTot + 9)).toNat
          + (m.Tot - m.Mem).toNat * (9 + m.AtTot.toNat) + 8))).drop 2) 0 (fun _ => 0, 0)).1 ∧
      l.colsTot = ((Fields (nthLine file ((m.Start * (m.AtTot + 9)).toNat
          + (m.Tot - m.Mem).toNat * (9 + m.AtTot.toNat) + 8))).drop 2).length) := by
  unfold lammpstrj.MSD.Read lammpstrj.readWindow at h
  simp only [skipLines_eq, readOffsets_spec] at h
  cases hr : (List.range m.Mem.toNat).foldlM (lammpstrj.readResident pf m)
      { r := dropLines ((m.Tot - m.Mem).toNat * (9 + m.AtTot.toNat))
               (dropLines (m.Start * (m.AtTot + 9)).toNat file),
        bTot := 0 + (linesPrefix file (m.Start * (m.AtTot + 9)).toNat).length
          + (linesPrefix (dropLines (m.Start * (m.AtTot + 9)).toNat file)
              ((m.Tot - m.Mem).toNat * (9 + m.AtTot.toNat))).length,
        notFirst := false, cols := lammpstrj.New.cols, colsTot := lammpstrj.New.colsTot,
        xyz := lammpstrj.New.xyz } with
  | error e => rw [hr] at h; cases h
  | ok st =>
    rw [hr] at h
    simp only [Except.ok.injEq] at h
    obtain ⟨g1, g2, g3, g4, _⟩ := readResidents_spec pf m _ _ st rfl hr
    simp only [lammpstrj.New, List.nil_append] at g2 g3 g4
    simp only [← dropLines_add, nthLine_dropLines] at g2 g4
    subst h
    refine ⟨?_, ?_, ?_, ?_⟩
    · simp only [lammpstrj.New, List.nil_append]
      apply List.map_congr_left
      intro c _
      have e : (linesPrefix file ((m.Start * (m.AtTot + 9)).toNat
            + c * (9 + m.AtTot.toNat) + 9)).length
          = (linesPrefix file (m.Start * (m.AtTot + 9)).toNat).length
            + (linesPrefix (dropLines (m.Start * (m.AtTot + 9)).toNat file)
                (c * (9 + m.AtTot.toNat) + 9)).length := by
        rw [Nat.add_assoc, linesPrefix_add, List.length_append]
      rw [e, Nat.zero_add]
    · simp only []
      rw [g2]
      apply List.map_congr_left
      intro j _
      simp only [Nat.add_assoc]
    · intro hM
      have := g3 hM
      rw [this]
      exact ⟨rfl, rfl⟩
    · intro hM
      obtain ⟨_, _, a3, _, a5⟩ := g4 hM
      exact ⟨a3, a5⟩

/-- On a window accepted by the configuration check (`Start`, `At`, `Mol` not negative,
`Mem ≤ Tot`), after a `Read` that succeeds, every `GetCfg c` that succeeds returns the frame
decoded from the records of file frame `Start + c`, provided that, when frame `c` is not
resident, the byte offset of its records fits in 32 bits. -/
theorem GetCfg_eq_comFrame (pf : Str → ℚ) (m0 : msd.MSD) (file : Str) (l : lammpstrj.MSD)
    (fr : Frame) (S0 A Mo D c : Nat) (hS : m0.Start = S0) (hA : m0.At = A) (hMo : m0.Mol = Mo)
    (hD : m0.End - m0.Start - m0.Mem = D)
    (hRead : lammpstrj.MSD.Read pf m0.setup lammpstrj.New file = Except.ok l)
    (hGet : lammpstrj.MSD.GetCfg pf m0.setup l file (c : ℤ) = Except.ok fr)
    (hoff : c < D → (linesPrefix file ((S0 + c) * (A * Mo + 9) + 9)).length < 2 ^ 32) :
    fr = comFrame pf l.cols m0.Masses Mo A (dropLines ((S0 + c) * (A * Mo + 9) + 9) file) := by
  obtain ⟨x1, x2, _, _⟩ := Read_spec pf m0.setup file l hRead
  have e1 : (m0.setup.Start * (m0.setup.AtTot + 9)).toNat = S0 * (A * Mo + 9) := by
    simp only [msd.MSD.setup, hS, hA, hMo]
    have : ((S0 : ℤ) * ((A : ℤ) * (Mo : ℤ) + 9)) = ((S0 * (A * Mo + 9) : Nat) : ℤ) := by
      push_cast; ring
    rw [this, Int.toNat_ofNat]
  have e2 : (m0.setup.Tot - m0.setup.Mem).toNat = D := by
    simp only [msd.MSD.setup, hD, Int.toNat_ofNat]
  have e3 : m0.setup.AtTot.toNat = A * Mo := by
    simp only [msd.MSD.setup, hA, hMo]
    have : ((A : ℤ) * (Mo : ℤ)) = ((A * Mo : Nat) : ℤ) := by push_cast; ring
    rw [this, Int.toNat_ofNat]
  have e4 : m0.setup.Mol.toNat = Mo := by simp [msd.MSD.setup, hMo]
  have e5 : m0.setup.At.toNat = A := by simp [msd.MSD.setup, hA]
  have e6 : m0.setup.MemPos = (D : ℤ) := by simp [msd.MSD.setup, hD]
  have e7 : m0.setup.Masses = m0.Masses := rfl
  rw [e1, e2, e3] at x1
  rw [e1, e2, e3, e4, e5, e7] at x2
  unfold lammpstrj.MSD.GetCfg at hGet
  have e5b : m0.setup.At = (A : ℤ) := by simp [msd.MSD.setup, hA]
  rw [e6, e4, e5b, e7] at hGet
  by_cases hc : (c : ℤ) ≥ (D : ℤ)
  · -- a resident frame
    rw [if_pos hc] at hGet
    have hnn : ¬ ((c : ℤ) - (D : ℤ) < 0) := by omega
    rw [if_neg hnn] at hGet
    obtain ⟨j, rfl⟩ : ∃ j, c = D + j := ⟨c - D, by omega⟩
    have hj : ((((D + j : Nat) : ℤ)) - (D : ℤ)).toNat = j := by omega
    rw [hj, x2] at hGet
    cases hx : ((List.range m0.setup.Mem.toNat).map (fun j =>
        comFrame pf l.cols m0.Masses Mo A
          (dropLines (S0 * (A * Mo + 9) + D * (9 + A * Mo) + j * (9 + Mo * A) + 9) file)))[j]? with
    | none => rw [hx] at hGet; cases hGet
    | some f =>
      rw [hx] at hGet
      simp only [Except.ok.injEq] at hGet
      subst hGet
      rw [List.getElem?_map] at hx
      cases hr : (List.range m0.setup.Mem.toNat)[j]? with
      | none => rw [hr] at hx; cases hx
      | some j2 =>
        rw [hr] at hx
        simp only [Option.map_some', Option.some.injEq] at hx
        have hj2 : j2 = j := by
          have hlt : j < (List.range m0.setup.Mem.toNat).length := by
            by_contra hcon
            rw [List.getElem?_eq_none (Nat.le_of_not_lt hcon)] at hr
            cases hr
          rw [List.getElem?_eq_getElem hlt, List.getElem_range] at hr
          exact (Option.some.inj hr).symm
        subst hj2
        rw [← hx]
        congr 2
        ring
  · -- a frame read again from the file
    rw [if_neg hc] at hGet
    have hcn : ¬ ((c : ℤ) < 0) := by omega
    rw [if_neg hcn, Int.toNat_ofNat, x1] at hGet
    have hcD : c < D := by omega
    have hget : ((List.range D).map (fun c =>
        (linesPrefix file (S0 * (A * Mo + 9) + c * (9 + A * Mo) + 9)).length % 2 ^ 32))[c]?
        = some ((linesPrefix file ((S0 + c) * (A * Mo + 9) + 9)).length) := by
      rw [List.getElem?_map, List.getElem?_range hcD]
      simp only [Option.map_some', Option.some.injEq]
      have hidx : S0 * (A * Mo + 9) + c * (9 + A * Mo) + 9 = (S0 + c) * (A * Mo + 9) + 9 := by
        ring
      rw [hidx, Nat.mod_eq_of_lt (hoff hcD)]
    rw [hget] at hGet
    simp only [] at hGet
    rw [drop_linesPrefix] at hGet
    cases hm : (List.range Mo).foldlM (lammpstrj.getMol pf l.cols l.colsTot (A : ℤ) m0.Masses)
        (dropLines ((S0 + c) * (A * Mo + 9) + 9) file, []) with
    | error e =>
      rw [hm] at hGet; cases hGet
    | ok t =>
      rw [hm] at hGet
      simp only [Except.ok.injEq] at hGet
      obtain ⟨_, g2, _⟩ := getMols_spec pf l.cols l.colsTot (A : ℤ) m0.Masses Mo _ t hm
      simp only [List.nil_append, Int.toNat_ofNat] at g2
      rw [← hGet, g2]

/-- The centre-of-mass formula for `GetCfg`, resident or read again: on a window with
`Start`, `At`, `Mol` not negative and `Mem ≤ Tot`, after a `Read` that succeeds, a `GetCfg c`
that succeeds returns `Mol` points, and for molecule `mo` and axis `k` the value is the sum
over the atoms `a < At` of `pos[mo * At + a][k] * Masses[a]` divided by the sum of the masses,
`pos[n][k]` being column `cols[k]` of record `n` of file frame `Start + c`, provided that
the byte offset of the records of a frame that is not resident fits in 32 bits. -/
theorem getCfg_centre_of_mass (pf : Str → ℚ) (m0 : msd.MSD) (file : Str) (l : lammpstrj.MSD)
    (fr : Frame) (S0 A Mo D c : Nat) (hS : m0.Start = S0) (hA : m0.At = A) (hMo : m0.Mol = Mo)
    (hD : m0.End - m0.Start - m0.Mem = D)
    (hRead : lammpstrj.MSD.Read pf m0.setup lammpstrj.New file = Except.ok l)
    (hGet : lammpstrj.MSD.GetCfg pf m0.setup l file (c : ℤ) = Except.ok fr)
    (hoff : c < D → (linesPrefix file ((S0 + c) * (A * Mo + 9) + 9)).length < 2 ^ 32) :
    fr.length = Mo ∧ ∀ mo, mo < Mo → ∀ k : Fin 3,
      fr.getD mo 0 k =
        (∑ a in Finset.range A,
            pf ((Fields (nthLine file ((S0 + c) * (A * Mo + 9) + 9 + (mo * A + a)))).getD
              (l.cols k) []) * m0.Masses.getD a 0)
          / ∑ a in Finset.range A, m0.Masses.getD a 0 := by
  rw [GetCfg_eq_comFrame pf m0 file l fr S0 A Mo D c hS hA hMo hD hRead hGet hoff]
  unfold comFrame
  refine ⟨by simp, ?_⟩
  intro mo hmo k
  rw [List.getD_eq_getElem?_getD, List.getElem?_map, List.getElem?_range hmo]
  simp only [Option.map_some', Option.getD_some, nthLine_dropLines]

/-- An instance of the centre-of-mass formula: on `trajU` with one resident frame, frame 0
is read again from the file, at byte offset 102, and is the point `(1.5, 2, 3)`. -/
theorem getCfg_centre_of_mass_witness :
    ∃ l fr, lammpstrj.MSD.Read readDec (window2 1).setup lammpstrj.New trajU = Except.ok l ∧
      lammpstrj.MSD.GetCfg readDec (window2 1).setup l trajU 0 = Except.ok fr ∧
      fr.length = 1 ∧ fr.getD 0 0 0 = 3 / 2 := by
  have hs : (lammpstrj.MSD.Read readDec (window2 1).setup lammpstrj.New trajU).map (fun l =>
      (lammpstrj.MSD.GetCfg readDec (window2 1).setup l trajU 0).map (fun _ =>
        [l.cols 0, l.cols 1, l.cols 2])) = Except.ok (Except.ok [1, 2, 3]) := by decide!
  obtain ⟨l, hl, hg⟩ := exists_of_map_eq_ok hs
  obtain ⟨fr, hfr, hcols⟩ := exists_of_map_eq_ok hg
  simp only [List.cons.injEq, and_true] at hcols
  have T := getCfg_centre_of_mass readDec (window2 1) trajU l fr 0 1 1 1 0 rfl rfl rfl rfl hl hfr
    (by intro _; decide!)
  refine ⟨l, fr, hl, hfr, T.1, ?_⟩
  rw [T.2 0 (by decide) 0, hcols.1]
  decide!

/-! ## A trajectory longer than `2 ^ 32` bytes -/

theorem readSliceAux_line (n : Nat) (line X : Str) (hnl : '\n' ∉ line) (hlen : line.length < n) :
    readSliceAux n (line ++ '\n' :: X) = (line ++ ['\n'], X) := by
  induction line generalizing n with
  | nil =>
    cases n with
    | zero => simp at hlen
    | succ n => simp [readSliceAux]
  | cons c cs ih =>
    cases n with
    | zero => simp at hlen
    | succ n =>
      have hc : c ≠ '\n' := by
        intro hcon; apply hnl; rw [hcon]; exact List.mem_cons_self _ _
      have hcs : '\n' ∉ cs := fun hm => hnl (List.mem_cons_of_mem _ hm)
      have hl : cs.length < n := by simpa using hlen
      show readSliceAux (n + 1) (c :: (cs ++ '\n' :: X)) = _
      rw [readSliceAux, if_neg hc, ih n hcs hl]
      rfl

/-- `ReadSlice` on a reader that begins with a whole line shorter than the buffer. -/
theorem ReadSlice_line (line X : Str) (hnl : '\n' ∉ line) (hlen : line.length < 4096) :
    ReadSlice (line ++ '\n' :: X) = (line ++ ['\n'], X) :=
  readSliceAux_line 4096 line X hnl hlen

theorem skipLines_add (a b : Nat) (r : Str) (c : Nat) :
    skipLines (a + b) r c = skipLines b (skipLines a r c).1 (skipLines a r c).2 := by
  induction a generalizing r c with
  | zero => simp [skipLines]
  | succ a ih => rw [Nat.succ_add, skipLines, ih, skipLines]

/-- Skipping as many lines as a list of whole lines holds consumes exactly their bytes. -/
theorem skipLines_lines (lines : List Str) (X : Str) (b : Nat)
    (h : ∀ line ∈ lines, '\n' ∉ line ∧ line.length < 4096) :
    skipLines lines.length ((lines.map (fun l => l ++ ['\n'])).flatten ++ X) b
      = (X, b + ((lines.map (fun l => l ++ ['\n'])).flatten).length) := by
  induction lines generalizing b with
  | nil => simp [skipLines]
  | cons line lines ih =>
    have h1 := h line (List.mem_cons_self _ _)
    have h2 : ∀ l ∈ lines, '\n' ∉ l ∧ l.length < 4096 :=
      fun l hl => h l (List.mem_cons_of_mem _ hl)
    have hrs : ReadSlice ((line ++ ['\n']) ++
        ((lines.map (fun l => l ++ ['\n'])).flatten ++ X))
        = (line ++ ['\n'], (lines.map (fun l => l ++ ['\n'])).flatten ++ X) := by
      rw [List.append_assoc, List.singleton_append]
      exact ReadSlice_line line _ h1.1 h1.2
    simp only [List.length_cons, List.map_cons, List.flatten_cons, List.append_assoc,
      skipLines, readLine]
    simp only [List.append_assoc] at hrs
    rw [hrs]
    simp only []
    rw [ih _ h2]
    simp only [List.length_append, List.length_singleton, List.length_cons, List.length_nil]
    congr 1
    omega

/-- Skipping `n` copies of a frame of `k` lines. -/
theorem skipLines_replicate (F : Str) (k : Nat)
    (hF : ∀ (Y : Str) (b : Nat), skipLines k (F ++ Y) b = (Y, b + F.length)) (n : Nat)
    (X : Str) (b : Nat) :
    skipLines (k * n) ((List.replicate n F).flatten ++ X) b = (X, b + F.length * n) := by
  induction n generalizing b with
  | zero => simp [skipLines]
  | succ n ih =>
    have e : k * (n + 1) = k + k * n := by ring
    rw [e, skipLines_add, List.replicate_succ, List.flatten_cons, List.append_assoc, hF]
    simp only []
    rw [ih]
    congr 1
    ring

theorem frameU_lines (ts rec : Str) (hts : '\n' ∉ ts ∧ ts.length < 4096)
    (hrec : '\n' ∉ rec ∧ rec.length < 4096) :
    ∀ line ∈ frameLinesU ts rec, '\n' ∉ line ∧ line.length < 4096 := by
  intro line hl
  simp only [frameLinesU, List.mem_cons, List.mem_singleton, List.not_mem_nil, or_false] at hl
  rcases hl with h | h | h | h | h | h | h | h | h | h
  · subst h; decide
  · subst h; exact hts
  · subst h; decide
  · subst h; decide
  · subst h; decide
  · subst h; decide
  · subst h; decide
  · subst h; decide
  · subst h; decide
  · subst h; exact hrec

theorem skipLines_frameSkipped (Y : Str) (b : Nat) :
    skipLines 10 (frameSkipped ++ Y) b = (Y, b + frameSkipped.length) :=
  skipLines_lines (frameLinesU "10".toList "10 20 3".toList) Y b
    (frameU_lines _ _ (by decide) (by decide))

theorem frameSkipped_length : frameSkipped.length = 112 := by decide

/-- `MSD.Read` on `bigTraj` goes over the `2 ^ 28` frames before the window, `7 * 2 ^ 32`
bytes, and reads the window from the two frames left. -/
theorem Read_bigTraj :
    lammpstrj.MSD.Read readDec bigWindow.setup lammpstrj.New bigTraj
      = lammpstrj.readWindow readDec bigWindow.setup lammpstrj.New
          (frameU "11".toList "70 80 9".toList ++ frameU "12".toList "1 2 3".toList)
          (7 * 2 ^ 32) := by
  unfold lammpstrj.MSD.Read
  have hS : (bigWindow.setup.Start * (bigWindow.setup.AtTot + 9)).toNat = 10 * 2 ^ 28 := by
    decide
  have hskip := skipLines_replicate frameSkipped 10 skipLines_frameSkipped (2 ^ 28)
    (frameU "11".toList "70 80 9".toList ++ frameU "12".toList "1 2 3".toList) 0
  rw [frameSkipped_length] at hskip
  simp only []
  rw [hS]
  unfold bigTraj
  rw [hskip]
  show lammpstrj.readWindow _ _ _ _ (0 + 112 * 2 ^ 28) = _
  rw [show (0 + 112 * 2 ^ 28 : Nat) = 7 * 2 ^ 32 by norm_num]

/-- For one molecule of one atom, the frame that the decoding loop of `GetCfg` returns
depends on the first line of the reader only. -/
theorem getMol_one_congr (pf : Str → ℚ) (cols : Fin 3 → Nat) (colsTot : Nat)
    (Masses : List ℚ) (r r2 : Str) (fr0 : Frame) (h : (ReadSlice r).1 = (ReadSlice r2).1) :
    ((List.range 1).foldlM (lammpstrj.getMol pf cols colsTot 1 Masses) (r, fr0)).map Prod.snd
      = ((List.range 1).foldlM (lammpstrj.getMol pf cols colsTot 1 Masses) (r2, fr0)).map
          Prod.snd := by
  have hr1 : List.range 1 = [0] := rfl
  have h1 : (1 : ℤ).toNat = 1 := rfl
  simp only [hr1, List.foldlM_cons, List.foldlM_nil, lammpstrj.getMol, h1, lammpstrj.getAtom, h]
  by_cases hl : (Fields (ReadSlice r2).1).length = colsTot
  · simp only [hl, ne_eq, not_true_eq_false, if_false]
    cases accumAtom pf cols Masses (Fields (ReadSlice r2).1) 0 (fun _ => 0) 0 <;> rfl
  · simp only [hl, ne_eq, not_false_eq_true, if_true]

theorem drop_replicate_flatten (H R X : Str) (n : Nat) :
    ((List.replicate (n + 1) (H ++ R)).flatten ++ X).drop H.length
      = R ++ ((List.replicate n (H ++ R)).flatten ++ X) := by
  rw [List.replicate_succ, List.flatten_cons, List.append_assoc, List.append_assoc,
    List.drop_left]

theorem bigTraj_drop :
    ∃ Y, bigTraj.drop 104 = "10 20 3".toList ++ '\n' :: Y := by
  have hF : frameSkipped = frameSkipped.take 104 ++ ("10 20 3".toList ++ ['\n']) := by decide
  have hlen : (frameSkipped.take 104).length = 104 := by decide
  refine ⟨(List.replicate 268435455 frameSkipped).flatten
    ++ (frameU "11".toList "70 80 9".toList ++ frameU "12".toList "1 2 3".toList), ?_⟩
  have h := drop_replicate_flatten (frameSkipped.take 104) ("10 20 3".toList ++ ['\n'])
    (frameU "11".toList "70 80 9".toList ++ frameU "12".toList "1 2 3".toList) 268435455
  rw [← hF, hlen] at h
  unfold bigTraj
  rw [show (2 : Nat) ^ 28 = 268435455 + 1 by norm_num, h]
  simp only [List.append_assoc, List.singleton_append]

/-- The lines after `k * n + j` lines of `n` copies of a chunk of `k` lines: the length of the
prefix. -/
theorem prefix_replicate (F X : Str) (k n j a b : Nat)
    (hF : ∀ (Y : Str) (c : Nat), skipLines k (F ++ Y) c = (Y, c + F.length))
    (ha : F.length = a) (hb : (linesPrefix X j).length = b) :
    (linesPrefix ((List.replicate n F).flatten ++ X) (k * n + j)).length = a * n + b := by
  have h := skipLines_replicate F k hF n X 0
  rw [skipLines_eq] at h
  simp only [Prod.mk.injEq] at h
  rw [linesPrefix_add, List.length_append, h.1, hb, ← ha]
  omega

theorem nthLine_replicate (F X : Str) (k n j : Nat)
    (hF : ∀ (Y : Str) (c : Nat), skipLines k (F ++ Y) c = (Y, c + F.length)) :
    nthLine ((List.replicate n F).flatten ++ X) (k * n + j) = nthLine X j := by
  have h := skipLines_replicate F k hF n X 0
  rw [skipLines_eq] at h
  simp only [Prod.mk.injEq] at h
  rw [← nthLine_dropLines, h.1]

/-- The records of window frame 0 of `bigTraj` begin `7 * 2 ^ 32 + 104` bytes into the file. -/
theorem bigTraj_prefix_length :
    (linesPrefix bigTraj (10 * 2 ^ 28 + 9)).length = 7 * 2 ^ 32 + 104 :=
  prefix_replicate frameSkipped
    (frameU "11".toList "70 80 9".toList ++ frameU "12".toList "1 2 3".toList) 10 (2 ^ 28) 9
    112 104 skipLines_frameSkipped (by decide) (by decide)

/-- The record of window frame 0 of `bigTraj`. -/
theorem bigTraj_record :
    Fields (nthLine bigTraj (10 * 2 ^ 28 + 9)) = ["70".toList, "80".toList, "9".toList] :=
  (congrArg Fields (nthLine_replicate frameSkipped
    (frameU "11".toList "70 80 9".toList ++ frameU "12".toList "1 2 3".toList) 10 (2 ^ 28) 9
    skipLines_frameSkipped)).trans (by decide)

/-! ## C6 -/

/-- C6 (failing input): on `bigTraj`, whose window begins `7 * 2 ^ 32` bytes into the file,
`Read` succeeds with the layout `(0, 1, 2)`; the records of window frame 0 (frame `2 ^ 28` of
the file, after `10 * 2 ^ 28 + 9` lines) begin at byte offset `7 * 2 ^ 32 + 104` and hold the
atom at `(70, 80, 9)`, but the offset is stored in 32
bits as 104, and `GetCfg 0` succeeds with the point `(10, 20, 3)` of the first frame of the
file. -/
theorem getCfg_reads_wrong_frame_past_4GiB :
    ∃ l fr, lammpstrj.MSD.Read readDec bigWindow.setup lammpstrj.New bigTraj = Except.ok l ∧
      lammpstrj.MSD.GetCfg readDec bigWindow.setup l bigTraj 0 = Except.ok fr ∧
      triples fr = [(10, 20, 3)] ∧
      [l.cols 0, l.cols 1, l.cols 2] = [0, 1, 2] ∧ l.xyzB = [104] ∧
      (linesPrefix bigTraj (10 * 2 ^ 28 + 9)).length = 7 * 2 ^ 32 + 104 ∧
      Fields (nthLine bigTraj (10 * 2 ^ 28 + 9))
        = ["70".toList, "80".toList, "9".toList] := by
  -- the window, read from the two frames left after the frames before it
  have hs : (lammpstrj.readWindow readDec bigWindow.setup lammpstrj.New
      (frameU "11".toList "70 80 9".toList ++ frameU "12".toList "1 2 3".toList)
      (7 * 2 ^ 32)).map (fun l => [l.cols 0, l.cols 1, l.cols 2, l.colsTot] ++ l.xyzB)
      = Except.ok [0, 1, 2, 3, 104] := by decide!
  obtain ⟨l, hl, hsum⟩ := exists_of_map_eq_ok hs
  simp only [List.cons_append, List.nil_append, List.cons.injEq] at hsum
  obtain ⟨c0, c1, c2, ct, hB⟩ := hsum
  have hcols : l.cols = colsXYZ := by
    funext k
    fin_cases k
    · exact c0
    · exact c1
    · exact c2
  -- what `GetCfg 0` decodes
  obtain ⟨Y, hY⟩ := bigTraj_drop
  have hline : (ReadSlice (bigTraj.drop 104)).1 = (ReadSlice ("10 20 3\n".toList)).1 := by
    rw [hY, ReadSlice_line _ _ (by decide) (by decide)]
    show "10 20 3".toList ++ ['\n'] = (ReadSlice "10 20 3\n".toList).1
    decide
  have hcongr := getMol_one_congr readDec colsXYZ 3 [1] (bigTraj.drop 104)
    ("10 20 3\n".toList) [] hline
  have heval : ((List.range 1).foldlM (lammpstrj.getMol readDec colsXYZ 3 1 [1])
      ("10 20 3\n".toList, [])).map (fun t => triples t.2) = Except.ok [(10, 20, 3)] := by
    decide!
  cases hf : (List.range 1).foldlM (lammpstrj.getMol readDec colsXYZ 3 1 [1])
      (bigTraj.drop 104, []) with
  | error e =>
    rw [hf] at hcongr
    cases hq : (List.range 1).foldlM (lammpstrj.getMol readDec colsXYZ 3 1 [1])
        ("10 20 3\n".toList, []) with
    | error e2 => rw [hq] at heval; cases heval
    | ok t2 => rw [hq] at hcongr; cases hcongr
  | ok t =>
    rw [hf] at hcongr
    cases hq : (List.range 1).foldlM (lammpstrj.getMol readDec colsXYZ 3 1 [1])
        ("10 20 3\n".toList, []) with
    | error e2 => rw [hq] at heval; cases heval
    | ok t2 =>
      rw [hq] at hcongr heval
      simp only [Except.map, Except.ok.injEq] at hcongr heval
      refine ⟨l, t.2, ?_, ?_, ?_, ?_, hB, ?_, ?_⟩
      · rw [Read_bigTraj, hl]
      · unfold lammpstrj.MSD.GetCfg
        have hMP : bigWindow.setup.MemPos = 1 := by decide
        have hMo : bigWindow.setup.Mol.toNat = 1 := by decide
        have hAt : bigWindow.setup.At = 1 := by decide
        have hMa : bigWindow.setup.Masses = [1] := by decide
        rw [hMP, hMo, hAt, hMa, hB, hcols, ct]
        simp only [ge_iff_le, Int.reduceLE, if_false, lt_self_iff_false, Int.toNat_zero,
          List.getElem?_cons_zero]
        rw [hf]
      · rw [hcongr]; exact heval
      · rw [c0, c1, c2]
      · exact bigTraj_prefix_length
      · exact bigTraj_record

/-! ## C12 -/

/-- C12: for a configuration whose integers are 64-bit values, `Cfg.Check` returns `nil`
exactly when `Start ≥ 0`, `End > Start`, `End - Start ≠ 1`, `0 ≤ Mem ≤ End - Start`, `Mol > 0`,
`At > 0`, `len(Masses) = At` and `Dt ≠ 0` (the difference `End - Start` cannot overflow once the
first two tests have passed), and returns an error otherwise (`none` stands for `nil`); the
configuration is the same after the call. -/
theorem check_nil_iff_valid (c : cfg.Cfg) (hS : cfg.IsInt64 c.Start) (hE : cfg.IsInt64 c.End)
    (hM : cfg.IsInt64 c.Mem) :
    (c.Check.2 = none ↔
      (0 ≤ c.Start ∧ c.Start < c.End ∧ c.End - c.Start ≠ 1 ∧ 0 ≤ c.Mem ∧
        c.Mem ≤ c.End - c.Start ∧ 0 < c.Mol ∧ 0 < c.At ∧ (c.Masses.length : ℤ) = c.At ∧
        c.Dt ≠ 0)) ∧
    c.Check.1 = c := by
  unfold cfg.IsInt64 at hS hE hM
  refine ⟨?_, ?_⟩
  · unfold cfg.Cfg.Check cfg.wrap64
    constructor
    · intro h
      split_ifs at h with h1 h2 h3 h4 h5 h6 h7
      refine ⟨by omega, by omega, by omega, by omega, by omega, by omega, by omega, ?_, h7⟩
      push_neg at h6
      exact h6
    · rintro ⟨a1, a2, a3, a4, a5, a6, a7, a8, a9⟩
      rw [if_neg (by omega), if_neg (by omega), if_neg (by omega), if_neg (by omega),
        if_neg (by omega), if_neg (by simpa using a8), if_neg a9]
  · unfold cfg.Cfg.Check
    split_ifs <;> rfl

/-- Witness for C12: the window `[0, 3)` with one resident frame, two molecules of one atom of
mass 1 and `Dt = 1/2` passes the check and is left as it was. -/
theorem check_nil_iff_valid_witness :
    cfg.cfgGood.Check.2 = none ∧ cfg.cfgGood.Check.1 = cfg.cfgGood := by
  have h := check_nil_iff_valid cfg.cfgGood (by unfold cfg.IsInt64; decide)
    (by unfold cfg.IsInt64; decide) (by unfold cfg.IsInt64; decide)
  refine ⟨h.1.mpr ?_, h.2⟩
  refine ⟨by decide, by decide, by decide, by decide, by decide, by decide, by decide,
    by decide, ?_⟩
  show (1 / 2 : ℚ) ≠ 0
  norm_num

/-! ## An invariant of a fold -/

/-- A property that every successful step keeps holds after a monadic fold that succeeds. -/
theorem foldlM_preserves {α β : Type} (P : β → Prop) (f : β → α → Except Err β)
    (hf : ∀ b a b2, P b → f b a = Except.ok b2 → P b2) (l : List α) (b b2 : β) (hb : P b)
    (h : l.foldlM f b = Except.ok b2) : P b2 := by
  induction l generalizing b with
  | nil =>
    simp only [List.foldlM_nil, pure, Except.pure, Except.ok.injEq] at h
    exact h ▸ hb
  | cons a l ih =>
    rw [List.foldlM_cons] at h
    cases hfa : f b a with
    | error e => rw [hfa] at h; simp [bind, Except.bind] at h
    | ok b1 =>
      rw [hfa] at h
      exact ih b1 (hf b a b1 hb hfa) h

/-! ## C20 -/

/-- The loop of `VAC.Write`, run for its first `n` lags. -/
theorem vac_write_loop (Dt ResDiv : ℚ) (res : List ℚ) (n : Nat) (hn : n ≤ res.length) :
    (List.range n).foldlM (fun (out : List (ℚ × ℚ × ℚ)) (i : Nat) =>
      match res[i]? with
      | none => Except.error Err.panicIndex
      | some r => Except.ok (out ++ [((((i : ℤ) + 1 : ℤ) : ℚ) * Dt, r, ResDiv)])) []
    = Except.ok ((List.range n).map (fun (i : Nat) =>
        ((((i : ℤ) + 1 : ℤ) : ℚ) * Dt, res.getD i 0, ResDiv))) := by
  induction n with
  | zero => rfl
  | succ n ih =>
    have hlt : n < res.length := by omega
    rw [List.range_succ, List.foldlM_append, ih (by omega)]
    simp only [List.foldlM_cons, List.foldlM_nil, bind, Except.bind,
      List.getElem?_eq_getElem hlt, pure, Except.pure, List.map_append, List.map_cons,
      List.map_nil, List.getD_eq_getElem?_getD, Option.getD_some]

/-- Go `VAC.Write` on a value whose `Res` has its `Tot - 1` entries. -/
theorem vac_write_eq (m : vac.VAC) (h : (m.Tot - 1).toNat ≤ m.Res.length) :
    vac.VAC.Write true m = Except.ok (m.Int, (List.range (m.Tot - 1).toNat).map
      (fun (i : Nat) => ((((i : ℤ) + 1 : ℤ) : ℚ) * m.Dt, m.Res.getD i 0, m.ResDiv))) := by
  unfold vac.VAC.Write
  simp only [Bool.true_eq_false, if_false]
  rw [vac_write_loop m.Dt m.ResDiv m.Res _ h]

/-- C20 as stated fails: with `Dt = 2` and the frames `x = 2, 1, 3` of one molecule,
`VAC.Perform` returns `Int = 17/3`, the plain sum of `Res = [5/3, 4]`, and not
`Dt * 17/3`. -/
theorem vac_int_ignores_dt_counterexample :
    ∃ m1, vac.VAC.Perform (listMethod vac.VAC [[onX 2], [onX 1], [onX 3]]) vacScenarioDt2
        = Except.ok m1 ∧
      m1.Dt = 2 ∧ m1.Res = [5 / 3, 4] ∧ m1.Int = 17 / 3 ∧
      m1.Int ≠ m1.Dt * ∑ d in Finset.range 2, m1.Res.getD d 0 := by
  have hs : (vac.VAC.Perform (listMethod vac.VAC [[onX 2], [onX 1], [onX 3]])
      vacScenarioDt2).map (fun m1 => (m1.Dt, m1.Res, m1.Int))
      = Except.ok (2, [5 / 3, 4], 17 / 3) := by decide!
  obtain ⟨m1, h1, hv⟩ := exists_of_map_eq_ok hs
  simp only [Prod.mk.injEq] at hv
  obtain ⟨a, b, c⟩ := hv
  refine ⟨m1, h1, a, b, c, ?_⟩
  rw [a, b, c]
  simp [Finset.sum_range_succ]
  norm_num

/-- C20, amended: `Int` is the plain sum of the normalised `Res[d]`, with no factor `Dt`.
For a frame source that serves the same `Tot ≥ 2` frames of `Mol` points to two fresh values
that differ in `Dt` only, `VAC.Perform` returns the same `Res` and the same `Int`, the sum
over the lags `d < Tot - 1` of `Res[d]`; `Dt` only scales the lag `(d + 1) * Dt` that
`VAC.Write` prints in front of `Res[d]`, after the line of the integral. -/
theorem vac_int_plain_sum {σ : Type} (meth : Method vac.VAC σ) (m : vac.VAC) (dt : ℚ)
    (s s2 : σ) (fr : Nat → Frame) (Tot Mol : Nat) (hTot : m.End - m.Start = Tot)
    (h2 : 2 ≤ Tot) (hMol : m.Mol = Mol) (hfresh : m.Int = 0)
    (hRead : meth.Read m.setup = Except.ok s)
    (hRead2 : meth.Read ({ m with Dt := dt } : vac.VAC).setup = Except.ok s2)
    (hCfg : ∀ i : Nat, i < Tot →
      meth.GetCfg s (i : ℤ) = Except.ok (fr i) ∧ (fr i).length = Mol)
    (hCfg2 : ∀ i : Nat, i < Tot →
      meth.GetCfg s2 (i : ℤ) = Except.ok (fr i) ∧ (fr i).length = Mol) :
    ∃ m1 m2 out, vac.VAC.Perform meth m = Except.ok m1 ∧
      vac.VAC.Perform meth { m with Dt := dt } = Except.ok m2 ∧
      m2.Res = m1.Res ∧ m2.Int = m1.Int ∧
      m1.Int = ∑ d in Finset.range (Tot - 1), m1.Res.getD d 0 ∧
      vac.VAC.Write true m2 = Except.ok (m1.Int, out) ∧ out.length = Tot - 1 ∧
      ∀ d : Nat, d < Tot - 1 →
        out[d]? = some (((d : ℚ) + 1) * dt, m1.Res.getD d 0, m2.ResDiv) := by
  have hP1 := vac_perform_eq meth m s fr Tot Mol hTot h2 hMol hRead hCfg
  have hP2 := vac_perform_eq meth { m with Dt := dt } s2 fr Tot Mol hTot h2 hMol hRead2 hCfg2
  have hs4 : ((Tot : ℤ) - 1).toNat = Tot - 1 := by omega
  refine ⟨_, _, _, hP1, hP2, rfl, rfl, ?_, vac_write_eq _ ?_, ?_, ?_⟩
  · simp only [hfresh, zero_add]
    apply Finset.sum_congr rfl
    intro d hd
    have hd2 : d < Tot - 1 := Finset.mem_range.mp hd
    have hd3 : d < (lagSums (fun i j => pairSum vac.dot Mol (fr i) (fr j)) Tot
        (Tot - 1)).length := by
      rw [length_lagSums]; exact hd2
    simp [List.getD_eq_getElem?_getD, List.getElem?_eq_getElem hd3, hd2]
  · simp [vac.VAC.setup, hTot, length_lagSums]
  · simp [vac.VAC.setup, hTot]
  · intro d hd
    have hd2 : d < ((Tot : ℤ) - 1).toNat := by omega
    simp only [vac.VAC.setup, hTot]
    rw [List.getElem?_map, List.getElem?_range hd2]
    simp only [Option.map_some', Option.some.injEq, Prod.mk.injEq, and_true]
    push_cast
    rfl

/-- Witness for the amended C20: the frames `x = 2, 1, 3` with `Dt = 1` and with `Dt = 2` give
the same `Int`. -/
theorem vac_int_plain_sum_witness :
    ∃ m1 m2, vac.VAC.Perform (listMethod vac.VAC [[onX 2], [onX 1], [onX 3]]) vacScenario3
        = Except.ok m1 ∧
      vac.VAC.Perform (listMethod vac.VAC [[onX 2], [onX 1], [onX 3]])
        { vacScenario3 with Dt := 2 } = Except.ok m2 ∧ m2.Int = m1.Int := by
  obtain ⟨m1, m2, out, a, b, _, d, _⟩ :=
    vac_int_plain_sum (listMethod vac.VAC [[onX 2], [onX 1], [onX 3]]) vacScenario3 2 () ()
      (fun i => [[onX 2], [onX 1], [onX 3]].getD i []) 3 1 (by decide) (by decide) rfl rfl
      rfl rfl
      (by
        intro i hi
        interval_cases i <;> exact ⟨rfl, rfl⟩)
      (by
        intro i hi
        interval_cases i <;> exact ⟨rfl, rfl⟩)
  exact ⟨m1, m2, a, b, d⟩

/-! ## C19 -/

/-- A fold that carries a ghost component computes, on the other component, what the fold
without it computes. -/
theorem foldlM_map_fst {α β γ : Type} (f : β → α → Except Err β)
    (f2 : β × γ → α → Except Err (β × γ))
    (hf : ∀ b c a, (f2 (b, c) a).map Prod.fst = f b a) (l : List α) (b : β) (c : γ) :
    (l.foldlM f2 (b, c)).map Prod.fst = l.foldlM f b := by
  induction l generalizing b c with
  | nil => rfl
  | cons a l ih =>
    rw [List.foldlM_cons, List.foldlM_cons]
    have h := hf b c a
    cases h2 : f2 (b, c) a with
    | error e =>
      rw [h2] at h
      rw [← h]
      rfl
    | ok bc =>
      rw [h2] at h
      rw [← h]
      exact ih bc.1 bc.2

/-- Erasing the log of `MSD.PerformLog` gives `MSD.Perform`. -/
theorem performLog_erase {σ : Type} (meth : Method msd.MSD σ) (m : msd.MSD) :
    (msd.MSD.PerformLog meth m).map Prod.fst = msd.MSD.Perform meth m := by
  unfold msd.MSD.PerformLog msd.MSD.Perform
  by_cases hneg : m.End - m.Start - 1 < 0
  · rw [if_pos hneg, if_pos hneg]; rfl
  · rw [if_neg hneg, if_neg hneg]
    simp only []
    cases hr : meth.Read m.setup with
    | error e => rfl
    | ok s =>
      simp only []
      have h := foldlM_map_fst
        (fun (res : List ℚ) (i : Nat) =>
          match meth.GetCfg s (i : Int) with
          | Except.error e => Except.error e
          | Except.ok icfg =>
            (List.range' (i + 1) (m.setup.Tot.toNat - (i + 1))).foldlM
              (fun (res : List ℚ) (j : Nat) =>
                match meth.GetCfg s (j : Int) with
                | Except.error e => Except.error e
                | Except.ok tcfg => pairLoop msd.sq m.setup.Mol icfg tcfg (j - i - 1) res) res)
        (fun (st : List ℚ × List Nat) (i : Nat) =>
          match meth.GetCfg s (i : Int) with
          | Except.error e => Except.error e
          | Except.ok icfg =>
            (List.range' (i + 1) (m.setup.Tot.toNat - (i + 1))).foldlM
              (fun (st : List ℚ × List Nat) (j : Nat) =>
                match meth.GetCfg s (j : Int) with
                | Except.error e => Except.error e
                | Except.ok tcfg =>
                  match pairLoop msd.sq m.setup.Mol icfg tcfg (j - i - 1) st.1 with
                  | Except.error e => Except.error e
                  | Except.ok res => Except.ok (res, st.2 ++ [j]))
              (st.1, st.2 ++ [i]))
        ?_ (List.range (m.setup.Tot - 1).toNat) m.setup.Res []
      · rw [← h]
        generalize (List.foldlM _ _ _ : Except Err (List ℚ × List ℕ)) = X
        cases X <;> rfl
      · intro b c i
        simp only []
        cases hg : meth.GetCfg s (i : Int) with
        | error e => rfl
        | ok icfg =>
          simp only []
          apply foldlM_map_fst
          intro b2 c2 j
          simp only []
          cases hg2 : meth.GetCfg s (j : Int) with
          | error e => rfl
          | ok tcfg =>
            simp only []
            cases pairLoop msd.sq m.setup.Mol icfg tcfg (j - i - 1) b2 <;> rfl

/-- A fold whose successful steps each append `g a` to the log appends `l.flatMap g`. -/
theorem foldlM_log_flatMap {α β : Type} (f2 : β × List Nat → α → Except Err (β × List Nat))
    (g : α → List Nat) (hf : ∀ st a st2, f2 st a = Except.ok st2 → st2.2 = st.2 ++ g a)
    (l : List α) (st st2 : β × List Nat) (h : l.foldlM f2 st = Except.ok st2) :
    st2.2 = st.2 ++ l.flatMap g := by
  induction l generalizing st with
  | nil =>
    simp only [List.foldlM_nil, pure, Except.pure, Except.ok.injEq] at h
    rw [← h]; simp
  | cons a l ih =>
    rw [List.foldlM_cons] at h
    cases hfa : f2 st a with
    | error e => rw [hfa] at h; simp [bind, Except.bind] at h
    | ok st1 =>
      rw [hfa] at h
      rw [ih st1 h, hf st a st1 hfa, List.flatMap_cons, List.append_assoc]

/-- The log of a run of `MSD.PerformLog` that returns without error is `fetches Tot`. -/
theorem performLog_log {σ : Type} (meth : Method msd.MSD σ) (m m1 : msd.MSD) (log : List Nat)
    (Tot : Nat) (hTot : m.End - m.Start = Tot)
    (h : msd.MSD.PerformLog meth m = Except.ok (m1, log)) : log = fetches Tot := by
  unfold msd.MSD.PerformLog at h
  by_cases hneg : m.End - m.Start - 1 < 0
  · rw [if_pos hneg] at h; cases h
  · rw [if_neg hneg] at h
    simp only [] at h
    cases hr : meth.Read m.setup with
    | error e => rw [hr] at h; cases h
    | ok s =>
      rw [hr] at h
      simp only [] at h
      split at h
      · cases h
      · rename_i st hst
        simp only [Except.ok.injEq, Prod.mk.injEq] at h
        have hT1 : (m.setup.Tot - 1).toNat = Tot - 1 := by
          simp only [msd.MSD.setup, hTot]; omega
        have hT2 : m.setup.Tot.toNat = Tot := by
          simp only [msd.MSD.setup, hTot]; omega
        rw [hT1, hT2] at hst
        have hl := foldlM_log_flatMap _
          (fun i => i :: List.range' (i + 1) (Tot - (i + 1))) ?_ _ _ _ hst
        · rw [← h.2, hl]
          simp [fetches]
        · intro st0 i st2 hstep
          simp only [] at hstep
          split at hstep
          · cases hstep
          · rename_i icfg hi
            have hin := foldlM_log_flatMap _ (fun j => [j]) ?_ _ _ _ hstep
            · rw [hin]
              simp
            · intro st3 j st4 hj
              simp only [] at hj
              split at hj
              · cases hj
              · split at hj
                · cases hj
                · simp only [Except.ok.injEq] at hj
                  rw [← hj]

/-- How often frame `c` is fetched in a sweep over `Tot` frames: once for every reference
frame before it, and once as a reference frame when it is not the last frame. -/
theorem count_fetches (Tot c : Nat) (hc : c < Tot) :
    (fetches Tot).count c = c + if c + 1 < Tot then 1 else 0 := by
  have key : ∀ n, n ≤ Tot - 1 →
      ((List.range n).flatMap (fun i => i :: List.range' (i + 1) (Tot - (i + 1)))).count c
        = min n c + if c < n then 1 else 0 := by
    intro n
    induction n with
    | zero => intro _; simp
    | succ n ih =>
      intro hn
      rw [List.range_succ, List.flatMap_append, List.count_append, ih (by omega),
        List.flatMap_singleton, List.count_cons]
      have hr : (List.range' (n + 1) (Tot - (n + 1))).count c = if n < c then 1 else 0 := by
        by_cases hnc : n < c
        · rw [if_pos hnc]
          apply List.count_eq_one_of_mem (List.nodup_range' _ _)
          rw [List.mem_range'_1]
          omega
        · rw [if_neg hnc]
          apply List.count_eq_zero_of_not_mem
          rw [List.mem_range'_1]
          omega
      rw [hr]
      by_cases h1 : n < c
      · have h2 : ¬ c < n := by omega
        have h3 : ¬ c < n + 1 := by omega
        have h4 : ¬ (n == c) = true := by simp; omega
        simp only [h1, h2, h3, h4, if_true, if_false, Bool.false_eq_true]
        omega
      · by_cases h5 : n = c
        · subst h5
          simp
        · have h2 : c < n := by omega
          have h3 : c < n + 1 := by omega
          have h4 : ¬ (n == c) = true := by simp; omega
          simp only [h1, h2, h3, h4, if_true, if_false, Bool.false_eq_true]
          omega
  unfold fetches
  rw [key (Tot - 1) le_rfl]
  by_cases h : c + 1 < Tot
  · have h2 : c < Tot - 1 := by omega
    simp only [h, h2, if_true]
    omega
  · have h2 : ¬ c < Tot - 1 := by omega
    simp only [h, h2, if_false]
    omega

/-- C19 as stated fails: on the three-frame trajectory `traj3` with one resident frame
(`MemPos = 2`, frames 0 and 1 are read again from the file), `Perform` calls `GetCfg` for the
frames `0, 1, 2, 1, 2` in this order: frame 1, which is not resident, is fetched twice, as the
partner of frame 0 and as a reference frame. -/
theorem perform_fetches_frame_twice_counterexample :
    ∃ m1 log, msd.MSD.PerformLog (lammpstrj.method readDec traj3) window3
        = Except.ok (m1, log) ∧
      msd.MSD.Perform (lammpstrj.method readDec traj3) window3 = Except.ok m1 ∧
      m1.MemPos = 2 ∧ log = [0, 1, 2, 1, 2] ∧ log.count 1 = 2 := by
  have hs : (msd.MSD.PerformLog (lammpstrj.method readDec traj3) window3).map
      (fun p => (p.1.MemPos, p.2)) = Except.ok (2, [0, 1, 2, 1, 2]) := by decide!
  obtain ⟨p, hp, hv⟩ := exists_of_map_eq_ok hs
  simp only [Prod.mk.injEq] at hv
  refine ⟨p.1, p.2, hp, ?_, hv.1, hv.2, ?_⟩
  · rw [← performLog_erase, hp]
    rfl
  · rw [hv.2]
    decide

/-- C19, amended: in a run of `MSD.Perform` over `Tot` frames that returns without error,
`GetCfg` is called for the frames `fetches Tot`: frame `c` is fetched once as a partner for
every reference frame before it, and once more as a reference frame when it is not the last
frame, that is `c + 1` times (`c` times for the last frame), resident or not. Only frame 0
(and frame 1 when `Tot = 2`) is fetched no more than once. -/
theorem perform_fetch_count {σ : Type} (meth : Method msd.MSD σ) (m m1 : msd.MSD)
    (log : List Nat) (Tot : Nat) (hTot : m.End - m.Start = Tot)
    (h : msd.MSD.PerformLog meth m = Except.ok (m1, log)) :
    msd.MSD.Perform meth m = Except.ok m1 ∧ log = fetches Tot ∧
    ∀ c, c < Tot → log.count c = c + (if c + 1 < Tot then 1 else 0) ∧
      (log.count c ≤ 1 ↔ c = 0 ∨ (c = 1 ∧ Tot = 2)) := by
  have hlog := performLog_log meth m m1 log Tot hTot h
  refine ⟨?_, hlog, ?_⟩
  · rw [← performLog_erase, h]
    rfl
  · intro c hc
    rw [hlog, count_fetches Tot c hc]
    refine ⟨rfl, ?_⟩
    by_cases h1 : c + 1 < Tot
    · simp only [h1, if_true]
      omega
    · simp only [h1, if_false]
      omega

/-- Witness for the amended C19: on `traj3` with one resident frame the run returns without
error, and frame 1 is fetched twice. -/
theorem perform_fetch_count_witness :
    ∃ m1 log, msd.MSD.PerformLog (lammpstrj.method readDec traj3) window3
        = Except.ok (m1, log) ∧ log = fetches 3 ∧ log.count 1 = 2 := by
  obtain ⟨p, hp⟩ := exists_ok_of_isOk
    (show isOk (msd.MSD.PerformLog (lammpstrj.method readDec traj3) window3) = true by decide!)
  have T := perform_fetch_count (lammpstrj.method readDec traj3) window3 p.1 p.2 3
    (by decide) hp
  exact ⟨p.1, p.2, hp, T.2.1, (T.2.2 1 (by decide)).1⟩

/-! ## C18 -/

/-- C18: `firstCfg`, entered at the `ITEM: ATOMS` line of the first frame, returns `At * Mol`
positions in file order; for atom `a` of molecule `mo` (record `n = mo * At + a`, line `1 + n`)
and axis `k`, with `x` the coordinate read and `ref` the position returned for record
`n - 1`: the position is `x` when `a = 0` (the reference starts afresh with every molecule),
else `x + L[k]` when `ref - x > Dist[k]`, else `x - L[k]` when `ref - x < -Dist[k]`, else `x`;
and the record written carries this position. -/
theorem firstCfg_intramolecular_unwrap (pf : Str → ℚ) (ff : ℚ → Str) (c : msd.Conv)
    (r : Str) (box : Vec3) (f : lammpstrj.First)
    (h : lammpstrj.firstCfg pf ff c r box = Except.ok f) :
    f.lastXYZ.length = c.Mol.toNat * c.At.toNat ∧
    ∀ mo, mo < c.Mol.toNat → ∀ a, a < c.At.toNat → ∀ k : Fin 3,
      (Fields (nthLine r (1 + (mo * c.At.toNat + a)))).length = f.colsTot ∧
      f.cols k < f.colsTot ∧
      f.lastXYZ.getD (mo * c.At.toNat + a) 0 k =
        (let x := pf ((Fields (nthLine r (1 + (mo * c.At.toNat + a)))).getD (f.cols k) [])
         let ref := f.lastXYZ.getD (mo * c.At.toNat + a - 1) 0 k
         if a = 0 then x
         else if ref - x > c.Dist k then x + box k
         else if ref - x < - c.Dist k then x - box k
         else x) ∧
      f.out.getD (1 + (mo * c.At.toNat + a)) [] =
        lammpstrj.encodeRecord ff f.cols (Fields (nthLine r (1 + (mo * c.At.toNat + a))))
          (f.lastXYZ.getD (mo * c.At.toNat + a) 0) := by
  obtain ⟨_, _, _, _, _, f6, _, f8, f9⟩ := firstCfg_spec pf ff c r box f h
  refine ⟨f6, ?_⟩
  intro mo hmo a ha k
  have hn : mo * c.At.toNat + a < c.Mol.toNat * c.At.toNat := by
    have h1 : (mo + 1) * c.At.toNat ≤ c.Mol.toNat * c.At.toNat :=
      Nat.mul_le_mul_right _ hmo
    have h2 : (mo + 1) * c.At.toNat = mo * c.At.toNat + c.At.toNat := by ring
    omega
  have hmod : (mo * c.At.toNat + a) % c.At.toNat = a := by
    rw [Nat.mul_comm, Nat.mul_add_mod, Nat.mod_eq_of_lt ha]
  obtain ⟨g1, g2⟩ := f9 _ hn
  refine ⟨g1, (g2 k).1, ?_, ?_⟩
  · rw [(g2 k).2, hmod]
    rfl
  · rw [f8, List.getD_eq_getElem?_getD, Nat.add_comm 1, List.getElem?_cons_succ,
      List.getElem?_map, List.getElem?_range hn]
    simp only [Option.map_some', Option.getD_some, Nat.add_comm]

/-- Witness for C18: a molecule of two atoms at wrapped `x = 9` and `x = 0.5` in a box of
length 10 with `Dist = 2`: the second atom is returned at `x = 0.5 + 10`. -/
theorem firstCfg_intramolecular_unwrap_witness :
    ∃ f, lammpstrj.firstCfg readDec fmtSmall conv12 firstTwo (fun _ => 10) = Except.ok f ∧
      f.lastXYZ.length = 2 ∧ f.cols 0 < f.colsTot ∧
      f.lastXYZ.getD 0 0 0 = 9 ∧ f.lastXYZ.getD 1 0 0 = 21 / 2 := by
  have hs : (lammpstrj.firstCfg readDec fmtSmall conv12 firstTwo (fun _ => 10)).map
      (fun f => (f.lastXYZ.getD 0 0 0, f.lastXYZ.getD 1 0 0))
      = Except.ok (9, 21 / 2) := by decide!
  obtain ⟨f, hf, hv⟩ := exists_of_map_eq_ok hs
  simp only [Prod.mk.injEq] at hv
  have T := firstCfg_intramolecular_unwrap readDec fmtSmall conv12 firstTwo (fun _ => 10) f hf
  exact ⟨f, hf, T.1, (T.2 0 (by decide) 1 (by decide) 0).2.1, hv.1, hv.2⟩

/-! ## C17 -/

/-- C17 (failing input): on `bigTraj` with the window of its last two frames and one
resident frame, `Read` succeeds and the frame index holds one offset, `xyzB = [104]`; the
records of the frame it stands for, window frame 0, begin after the
`(Start + 0) * (AtTot + 9) + 9 = 10 * 2 ^ 28 + 9` lines before them, at byte offset
`7 * 2 ^ 32 + 104`. -/
theorem read_offset_truncated_past_4GiB :
    ∃ l, lammpstrj.MSD.Read readDec bigWindow.setup lammpstrj.New bigTraj = Except.ok l ∧
      l.xyzB = [104] ∧
      (linesPrefix bigTraj (10 * 2 ^ 28 + 9)).length = 7 * 2 ^ 32 + 104 ∧
      (7 * 2 ^ 32 + 104) % 2 ^ 32 = 104 := by
  have hs : (lammpstrj.readWindow readDec bigWindow.setup lammpstrj.New
      (frameU "11".toList "70 80 9".toList ++ frameU "12".toList "1 2 3".toList)
      (7 * 2 ^ 32)).map (fun l => l.xyzB) = Except.ok [104] := by decide!
  obtain ⟨l, hl, hB⟩ := exists_of_map_eq_ok hs
  refine ⟨l, ?_, hB, bigTraj_prefix_length, by norm_num⟩
  rw [Read_bigTraj, hl]

/-! ## C11 -/

/-- The header that `detectW` writes: every label renamed and followed by a space. -/
theorem detectW_buf (vs : List Str) (k : Nat) (st : lammpstrj.Detect) :
    (lammpstrj.detectW vs k st).buf
      = st.buf ++ ((vs.map renameLabel).map (fun t => t ++ [' '])).flatten := by
  induction vs generalizing k st with
  | nil => simp [lammpstrj.detectW]
  | cons v vs ih =>
    unfold lammpstrj.detectW
    by_cases hx : v = ['x']
    · rw [if_pos hx, ih]
      simp [renameLabel, hx]
    · rw [if_neg hx]
      by_cases hy : v = ['y']
      · rw [if_pos hy, ih]
        simp [renameLabel, hy]
      · rw [if_neg hy]
        by_cases hz : v = ['z']
        · rw [if_pos hz, ih]
          simp [renameLabel, hz]
        · rw [if_neg hz, ih]
          simp [renameLabel, hx, hy, hz]

theorem detectW_cons (v : Str) (vs : List Str) (k : Nat) (st : lammpstrj.Detect) :
    lammpstrj.detectW (v :: vs) k st =
      if v = ['x'] then
        lammpstrj.detectW vs (k + 1)
          { cols := Function.update st.cols 0 k, found := st.found + 1,
            buf := st.buf ++ ['x', 'u'] ++ [' '] }
      else if v = ['y'] then
        lammpstrj.detectW vs (k + 1)
          { cols := Function.update st.cols 1 k, found := st.found + 1,
            buf := st.buf ++ ['y', 'u'] ++ [' '] }
      else if v = ['z'] then
        lammpstrj.detectW vs (k + 1)
          { cols := Function.update st.cols 2 k, found := st.found + 1,
            buf := st.buf ++ ['z', 'u'] ++ [' '] }
      else lammpstrj.detectW vs (k + 1) { st with buf := st.buf ++ v ++ [' '] } := by
  rw [lammpstrj.detectW]

/-- The state of `detectW` after one label. -/
theorem detectW_cons_cols (v : Str) (vs : List Str) (k0 : Nat) (st : lammpstrj.Detect) :
    ∃ st1 : lammpstrj.Detect,
      lammpstrj.detectW (v :: vs) k0 st = lammpstrj.detectW vs (k0 + 1) st1 ∧
      ∀ k : Fin 3, st1.cols k = if v = wLabel k then k0 else st.cols k := by
  rw [detectW_cons]
  by_cases hx : v = ['x']
  · rw [if_pos hx]
    refine ⟨_, rfl, ?_⟩
    intro k
    subst hx
    fin_cases k <;> simp [wLabel, Function.update]
  · rw [if_neg hx]
    by_cases hy : v = ['y']
    · rw [if_pos hy]
      refine ⟨_, rfl, ?_⟩
      intro k
      subst hy
      fin_cases k <;> simp [wLabel, Function.update]
    · rw [if_neg hy]
      by_cases hz : v = ['z']
      · rw [if_pos hz]
        refine ⟨_, rfl, ?_⟩
        intro k
        subst hz
        fin_cases k <;> simp [wLabel, Function.update]
      · rw [if_neg hz]
        refine ⟨_, rfl, ?_⟩
        intro k
        fin_cases k <;> simp [wLabel, hx, hy, hz]

/-- The columns that `detectW` records: a label that does not occur leaves its column as it
was; a label that occurs gets the position of its last occurrence. -/
theorem detectW_cols (vs : List Str) (k0 : Nat) (st : lammpstrj.Detect) (k : Fin 3) :
    (wLabel k ∉ vs → (lammpstrj.detectW vs k0 st).cols k = st.cols k) ∧
    (wLabel k ∈ vs → k0 ≤ (lammpstrj.detectW vs k0 st).cols k ∧
      vs[(lammpstrj.detectW vs k0 st).cols k - k0]? = some (wLabel k) ∧
      ∀ j, (lammpstrj.detectW vs k0 st).cols k - k0 < j → vs[j]? ≠ some (wLabel k)) := by
  induction vs generalizing k0 st with
  | nil =>
    refine ⟨fun _ => rfl, fun h => ?_⟩
    simp at h
  | cons v vs ih =>
    obtain ⟨st1, h1, h2⟩ := detectW_cons_cols v vs k0 st
    rw [h1]
    obtain ⟨ia, ib⟩ := ih (k0 + 1) st1
    constructor
    · intro hnot
      simp only [List.mem_cons, not_or] at hnot
      rw [ia hnot.2, h2 k, if_neg (Ne.symm hnot.1)]
    · intro hmem
      by_cases hin : wLabel k ∈ vs
      · obtain ⟨b1, b2, b3⟩ := ib hin
        refine ⟨by omega, ?_, ?_⟩
        · have e : (lammpstrj.detectW vs (k0 + 1) st1).cols k - k0
              = ((lammpstrj.detectW vs (k0 + 1) st1).cols k - (k0 + 1)) + 1 := by omega
          rw [e, List.getElem?_cons_succ]
          exact b2
        · intro j hj
          cases j with
          | zero => omega
          | succ j =>
            rw [List.getElem?_cons_succ]
            exact b3 j (by omega)
      · have hv : v = wLabel k := by
          simp only [List.mem_cons] at hmem
          rcases hmem with h | h
          · exact h.symm
          · exact absurd h hin
        rw [ia hin, h2 k, if_pos hv]
        refine ⟨le_rfl, ?_, ?_⟩
        · simp [hv]
        · intro j hj
          cases j with
          | zero => omega
          | succ j =>
            rw [List.getElem?_cons_succ]
            intro hc
            exact hin (List.mem_iff_getElem?.mpr ⟨j, hc⟩)

theorem renameLabel_isToken (v : Str) (h : IsToken v) : IsToken (renameLabel v) := by
  unfold renameLabel
  split_ifs
  · exact ⟨by simp, by decide⟩
  · exact ⟨by simp, by decide⟩
  · exact ⟨by simp, by decide⟩
  · exact h

/-- The fields of the header that `firstCfg` writes: the first two fields of the line read,
then its labels renamed. -/
theorem Fields_detectHeader (fields : List Str) (h2 : 2 < fields.length)
    (hf : ∀ t ∈ fields, IsToken t) :
    Fields ((lammpstrj.detectHeader fields).buf ++ ['\n'])
      = fields.take 2 ++ (fields.drop 2).map renameLabel := by
  match fields, h2, hf with
  | f0 :: f1 :: rest, _, hf =>
    unfold lammpstrj.detectHeader Fields
    rw [detectW_buf]
    have e : (f0 :: f1 :: rest).getD 0 [] ++ [' '] ++ (f0 :: f1 :: rest).getD 1 [] ++ [' ']
        ++ (((List.drop 2 (f0 :: f1 :: rest)).map renameLabel).map
          (fun t => t ++ [' '])).flatten ++ ['\n']
        = (((f0 :: f1 :: rest.map renameLabel)).map (fun t => t ++ [' '])).flatten ++ ['\n'] := by
      simp
    rw [e, fieldsAux_tokens]
    · simp
    · intro t ht
      simp only [List.mem_cons, List.mem_map] at ht
      rcases ht with ht | ht | ⟨v, hv, ht⟩
      · subst ht; exact hf _ (by simp)
      · subst ht; exact hf _ (by simp)
      · subst ht; exact renameLabel_isToken v (hf v (by simp [hv]))

/-- The frame loop of `Conv` only appends to the output. -/
theorem convLoop_out_prefix (pf : Str → ℚ) (ff : ℚ → Str) (c : msd.Conv)
    (f : lammpstrj.First) (fuel : Nat) (st st2 : lammpstrj.ConvState)
    (h : lammpstrj.convLoop pf ff c f fuel st = Except.ok st2) :
    ∃ ext, st2.out = st.out ++ ext := by
  induction fuel generalizing st with
  | zero => simp [lammpstrj.convLoop] at h
  | succ fuel ih =>
    unfold lammpstrj.convLoop at h
    cases hf : lammpstrj.convFrame pf ff c f st with
    | error e => rw [hf] at h; cases h
    | ok mid =>
      rw [hf] at h
      simp only [] at h
      obtain ⟨hd, _, _, _, _, _, i5, _⟩ := convFrame_spec pf ff c f st mid hf
      by_cases hr : mid.r = []
      · rw [if_pos hr] at h
        cases h
        exact ⟨_, i5⟩
      · rw [if_neg hr] at h
        obtain ⟨ext, he⟩ := ih mid h
        exact ⟨_, by rw [he, i5, List.append_assoc]⟩

/-- C11: in a run of `Conv` that returns without error (frames of `9 + AtTot` lines,
`AtTot = At * Mol`), with `fields` the tokens of the `ITEM: ATOMS` line of the first frame
(line 8 of the file): the tokens of the header written are the first two tokens followed by
the labels, `x`, `y`, `z` renamed `xu`, `yu`, `zu` and every other label kept, in the same
order; `colsTot` is the number of labels; for every axis whose label occurs, `cols` is the
0-based position of the label among the labels (of its last occurrence); and the chunk
written in place of the `ITEM: ATOMS` line of every frame is this same header. -/
theorem conv_header_rewritten (pf : Str → ℚ) (ff : ℚ → Str) (c : msd.Conv) (file : Str)
    (run : lammpstrj.ConvRun) (h : lammpstrj.Conv pf ff c file = Except.ok run)
    (hAt : c.AtTot.toNat = c.Mol.toNat * c.At.toNat) :
    2 < (Fields (nthLine file 8)).length ∧
    Fields run.first.colsB
      = (Fields (nthLine file 8)).take 2 ++ ((Fields (nthLine file 8)).drop 2).map renameLabel ∧
    run.first.colsTot = ((Fields (nthLine file 8)).drop 2).length ∧
    (∀ k : Fin 3, wLabel k ∈ (Fields (nthLine file 8)).drop 2 →
      ((Fields (nthLine file 8)).drop 2)[run.first.cols k]? = some (wLabel k) ∧
      ∀ j, run.first.cols k < j → ((Fields (nthLine file 8)).drop 2)[j]? ≠ some (wLabel k)) ∧
    (∀ i, i < run.out.length → i % (9 + c.AtTot.toNat) = 8 →
      run.out.getD i [] = run.first.colsB) ∧
    8 < run.out.length := by
  obtain ⟨hd, hh, _, hf, hrest⟩ := Conv_ok pf ff c file run h
  obtain ⟨g1, g2, _⟩ := header_spec pf file hd hh
  obtain ⟨f1, f2, f3, _, f5, _, _, f8, _⟩ := firstCfg_spec pf ff c hd.r hd.box run.first hf
  have hline : nthLine hd.r 0 = nthLine file 8 := by
    rw [g1, nthLine_dropLines]
  rw [hline] at f1 f2 f3 f5
  refine ⟨f1, ?_, f5, ?_, ?_, ?_⟩
  · rw [f3]
    exact Fields_detectHeader _ f1 (Fields_isToken _)
  · intro k hk
    have hc := (detectW_cols ((Fields (nthLine file 8)).drop 2) 0
      { cols := fun _ => 0, found := 0,
        buf := (Fields (nthLine file 8)).getD 0 [] ++ [' ']
          ++ (Fields (nthLine file 8)).getD 1 [] ++ [' '] } k).2 hk
    simp only [Nat.sub_zero] at hc
    rw [f2]
    unfold lammpstrj.detectHeader
    exact ⟨hc.2.1, hc.2.2⟩
  · intro i hi h8
    have hL := Conv_out_lineOK pf ff c file run h hAt i hi
    unfold LineOK at hL
    exact hL.2.1 h8
  · rcases hrest with ⟨_, _, ho⟩ | ⟨_, st, hl, _, ho⟩
    · rw [ho, g2, f8]
      simp
    · obtain ⟨ext, he⟩ := convLoop_out_prefix pf ff c run.first _ _ st hl
      rw [ho, he, g2, f8]
      simp only [List.length_append, List.length_map, List.length_range, List.length_cons]
      omega

/-- Witness for C11: the header `ITEM: ATOMS id type x y z` gives the columns `(2, 3, 4)`, the
count 5 and the header tokens `ITEM: ATOMS id type xu yu zu`, written for both frames of
`trajT` (chunks 8 and 18). -/
theorem conv_header_rewritten_witness :
    ∃ run, lammpstrj.Conv readDec fmtSmall conv11 trajT = Except.ok run ∧
      Fields run.first.colsB = ["ITEM:".toList, "ATOMS".toList, "id".toList, "type".toList,
        "xu".toList, "yu".toList, "zu".toList] ∧
      run.first.colsTot = 5 ∧
      [run.first.cols 0, run.first.cols 1, run.first.cols 2] = [2, 3, 4] ∧
      run.out.getD 8 [] = run.first.colsB ∧ run.out.getD 18 [] = run.first.colsB := by
  have hs : (lammpstrj.Conv readDec fmtSmall conv11 trajT).map (fun run =>
      [run.first.cols 0, run.first.cols 1, run.first.cols 2, run.out.length])
      = Except.ok [2, 3, 4, 20] := by decide!
  obtain ⟨run, h, hv⟩ := exists_of_map_eq_ok hs
  simp only [List.cons.injEq, and_true] at hv
  obtain ⟨c0, c1, c2, hlen⟩ := hv
  obtain ⟨_, t2, t3, _, t5, _⟩ := conv_header_rewritten readDec fmtSmall conv11 trajT run h
    (by decide)
  have e1 : (Fields (nthLine trajT 8)).take 2 ++ ((Fields (nthLine trajT 8)).drop 2).map
      renameLabel = ["ITEM:".toList, "ATOMS".toList, "id".toList, "type".toList,
        "xu".toList, "yu".toList, "zu".toList] := by decide!
  have e2 : ((Fields (nthLine trajT 8)).drop 2).length = 5 := by decide!
  refine ⟨run, h, by rw [t2, e1], by rw [t3, e2], by rw [c0, c1, c2], ?_, ?_⟩
  · exact t5 8 (by rw [hlen]; decide) (by decide)
  · exact t5 18 (by rw [hlen]; decide) (by decide)

/-! ## The frames that a run of `Conv` goes through -/

theorem ReadSlice_nil : ReadSlice [] = ([], []) := rfl

theorem dropLines_nil (n : Nat) : dropLines n [] = [] := by
  induction n with
  | zero => rfl
  | succ n ih => rw [dropLines, ReadSlice_nil]; exact ih

/-- Past the end of the reader there is nothing left. -/
theorem dropLines_eq_nil_of_le (file : Str) (m n : Nat) (h : dropLines m file = [])
    (hmn : m ≤ n) : dropLines n file = [] := by
  obtain ⟨d, rfl⟩ := Nat.exists_eq_add_of_le hmn
  rw [dropLines_add, h, dropLines_nil]

/-- The frame loop of `Conv`, entered at line `F + |log| * (9 + AtTot)` of the file, ends at
the end of the file, and every frame it went through was read from its line on, with an
accepted header and records of `colsTot` tokens. -/
theorem convLoop_frames (pf : Str → ℚ) (ff : ℚ → Str) (c : msd.Conv) (f : lammpstrj.First)
    (file : Str) (F : Nat) (fuel : Nat) (st st2 : lammpstrj.ConvState)
    (h : lammpstrj.convLoop pf ff c f fuel st = Except.ok st2)
    (hr : st.r = dropLines (F + st.log.length * (9 + c.AtTot.toNat)) file)
    (hlog : ∀ j, j < st.log.length → ∀ e, st.log[j]? = some e →
      FrameRead pf f.colsTot c.AtTot.toNat file (F + j * (9 + c.AtTot.toNat)) e) :
    dropLines (F + st2.log.length * (9 + c.AtTot.toNat)) file = [] ∧
    ∀ j, j < st2.log.length → ∀ e, st2.log[j]? = some e →
      FrameRead pf f.colsTot c.AtTot.toNat file (F + j * (9 + c.AtTot.toNat)) e := by
  induction fuel generalizing st with
  | zero => simp [lammpstrj.convLoop] at h
  | succ fuel ih =>
    unfold lammpstrj.convLoop at h
    cases hf : lammpstrj.convFrame pf ff c f st with
    | error e => rw [hf] at h; cases h
    | ok mid =>
      rw [hf] at h
      simp only [] at h
      obtain ⟨hd, hh, i1, i2, _, _, _, i6, _⟩ := convFrame_spec pf ff c f st mid hf
      have hlen : mid.log.length = st.log.length + 1 := by rw [i2]; simp
      have hmr : mid.r = dropLines (F + mid.log.length * (9 + c.AtTot.toNat)) file := by
        rw [i1, hr, ← dropLines_add, hlen]
        congr 1
        ring
      have hmlog : ∀ j, j < mid.log.length → ∀ e, mid.log[j]? = some e →
          FrameRead pf f.colsTot c.AtTot.toNat file (F + j * (9 + c.AtTot.toNat)) e := by
        intro j hj e he
        rw [i2] at he
        by_cases hjl : j < st.log.length
        · rw [List.getElem?_append_left hjl] at he
          exact hlog j hjl e he
        · have hje : j = st.log.length := by omega
          subst hje
          rw [List.getElem?_append_right (le_refl _)] at he
          simp only [Nat.sub_self, List.getElem?_cons_zero, Option.some.injEq] at he
          subst he
          exact ⟨hr, ⟨hd, hh⟩, fun a ha => (i6 a ha).1⟩
      by_cases hre : mid.r = []
      · rw [if_pos hre] at h
        cases h
        exact ⟨by rw [← hmr]; exact hre, hmlog⟩
      · rw [if_neg hre] at h
        exact ih mid h hmr hmlog

/-- The frames of a run of `Conv` that returns without error, on frames of `N = 9 + AtTot`
lines: the header of the first frame and `firstCfg` were accepted, and every further frame
`j ≥ 1` that begins before the end of the file was gone through. -/
theorem Conv_frames (pf : Str → ℚ) (ff : ℚ → Str) (c : msd.Conv) (file : Str)
    (run : lammpstrj.ConvRun) (h : lammpstrj.Conv pf ff c file = Except.ok run)
    (hAt : c.AtTot.toNat = c.Mol.toNat * c.At.toNat) :
    (∃ hd, lammpstrj.header pf file = Except.ok hd ∧
      lammpstrj.firstCfg pf ff c (dropLines 8 file) hd.box = Except.ok run.first) ∧
    ∀ j, 1 ≤ j → dropLines (j * (9 + c.AtTot.toNat)) file ≠ [] →
      ∃ e, FrameRead pf run.first.colsTot c.AtTot.toNat file (j * (9 + c.AtTot.toNat)) e := by
  obtain ⟨hd, hh, _, hf, hrest⟩ := Conv_ok pf ff c file run h
  obtain ⟨g1, _, _⟩ := header_spec pf file hd hh
  obtain ⟨_, _, _, _, _, _, f7, _, _⟩ := firstCfg_spec pf ff c hd.r hd.box run.first hf
  rw [← hAt, g1, ← dropLines_add] at f7
  have hN : 8 + (1 + c.AtTot.toNat) = 9 + c.AtTot.toNat := by omega
  rw [hN] at f7
  refine ⟨⟨hd, hh, by rw [← g1]; exact hf⟩, ?_⟩
  intro j hj hne
  rcases hrest with ⟨hnil, _, _⟩ | ⟨_, st, hl, hlog, _⟩
  · exfalso
    apply hne
    apply dropLines_eq_nil_of_le file (9 + c.AtTot.toNat) _ (by rw [← f7]; exact hnil)
    calc 9 + c.AtTot.toNat = 1 * (9 + c.AtTot.toNat) := by ring
      _ ≤ j * (9 + c.AtTot.toNat) := Nat.mul_le_mul_right _ hj
  · obtain ⟨hend, hfr⟩ := convLoop_frames pf ff c run.first file (9 + c.AtTot.toNat) _ _ st hl
      (by simp only [List.length_nil, Nat.zero_mul, Nat.add_zero]; exact f7)
      (by intro j hj; simp at hj)
    have hjl : j - 1 < st.log.length := by
      by_contra hcon
      apply hne
      apply dropLines_eq_nil_of_le file _ _ hend
      have h1 : st.log.length + 1 ≤ j := by omega
      calc 9 + c.AtTot.toNat + st.log.length * (9 + c.AtTot.toNat)
          = (st.log.length + 1) * (9 + c.AtTot.toNat) := by ring
        _ ≤ j * (9 + c.AtTot.toNat) := Nat.mul_le_mul_right _ h1
    obtain ⟨e, he⟩ : ∃ e, st.log[j - 1]? = some e := by
      rw [List.getElem?_eq_getElem hjl]; exact ⟨_, rfl⟩
    have hF := hfr (j - 1) hjl e he
    have hidx : 9 + c.AtTot.toNat + (j - 1) * (9 + c.AtTot.toNat) = j * (9 + c.AtTot.toNat) := by
      obtain ⟨j', rfl⟩ := Nat.exists_eq_add_of_le hj
      simp only [Nat.add_sub_cancel_left]
      ring
    rw [hidx] at hF
    exact ⟨e, hF⟩


/-! ## `Conv` does not panic on frames of `At * Mol` atoms -/

/-- The errors of a monadic fold are errors of its steps, taken in states that a property
kept by the successful steps holds of. -/
theorem foldlM_error_inv {α β : Type} (Q : Err → Prop) (P : β → Prop)
    (f : β → α → Except Err β) (l : List α)
    (hf : ∀ b a, a ∈ l → P b →
      (∀ e, f b a = Except.error e → Q e) ∧ (∀ b2, f b a = Except.ok b2 → P b2))
    (b : β) (hb : P b) :
    (∀ e, l.foldlM f b = Except.error e → Q e) ∧ (∀ b2, l.foldlM f b = Except.ok b2 → P b2) := by
  induction l generalizing b with
  | nil =>
    constructor
    · intro e h; cases h
    · intro b2 h
      simp only [List.foldlM_nil, pure, Except.pure, Except.ok.injEq] at h
      exact h ▸ hb
  | cons a l ih =>
    obtain ⟨h1, h2⟩ := hf b a (List.mem_cons_self _ _) hb
    rw [List.foldlM_cons]
    cases hfa : f b a with
    | error e =>
      constructor
      · intro e2 h
        simp only [bind, Except.bind, Except.error.injEq] at h
        exact h ▸ h1 e hfa
      · intro b2 h
        simp [bind, Except.bind] at h
    | ok b1 =>
      exact ih (fun b a ha => hf b a (List.mem_cons_of_mem _ ha)) b1 (h2 b1 hfa)

/-- A fold over the three axes that fails has a step that fails. -/
theorem axisFold_error {β : Type} (step : β → Fin 3 → Except Err β) (b : β) (e : Err)
    (h : (List.finRange 3).foldlM step b = Except.error e) :
    ∃ acc k, step acc k = Except.error e := by
  have h3 : List.finRange 3 = [0, 1, 2] := by decide
  rw [h3] at h
  simp only [List.foldlM_cons, List.foldlM_nil] at h
  cases h0 : step b 0 with
  | error e0 =>
    rw [h0] at h
    simp only [bind, Except.bind, Except.error.injEq] at h
    exact ⟨b, 0, h ▸ h0⟩
  | ok b0 =>
    rw [h0] at h
    simp only [bind, Except.bind] at h
    cases h1 : step b0 1 with
    | error e1 =>
      rw [h1] at h
      simp only [Except.error.injEq] at h
      exact ⟨b0, 1, h ▸ h1⟩
    | ok b1 =>
      rw [h1] at h
      simp only [] at h
      cases h2 : step b1 2 with
      | error e2 =>
        rw [h2] at h
        simp only [Except.error.injEq] at h
        exact ⟨b1, 2, h ▸ h2⟩
      | ok b2 =>
        rw [h2] at h
        simp [pure, Except.pure] at h

theorem header_error (pf : Str → ℚ) (r : Str) (e : Err)
    (h : lammpstrj.header pf r = Except.error e) : e = Err.boxSize := by
  unfold lammpstrj.header at h
  refine (foldlM_error_inv (fun e => e = Err.boxSize) (fun _ => True) _ _ ?_ _ trivial).1 e h
  intro b k _ _
  refine ⟨?_, fun _ _ => trivial⟩
  intro e2 he
  unfold lammpstrj.headerBox at he
  simp only [] at he
  split at he
  · simp only [Except.error.injEq] at he
    exact he.symm
  · cases he

theorem firstAtom_error (pf : Str → ℚ) (ff : ℚ → Str) (cols : Fin 3 → Nat) (colsTot : Nat)
    (Dist box : Vec3) (st : lammpstrj.FirstState) (a : Nat) (e : Err)
    (hc : ∀ k : Fin 3, cols k < colsTot)
    (h : lammpstrj.firstAtom pf ff cols colsTot Dist box st a = Except.error e) :
    e = Err.columnsMismatch := by
  unfold lammpstrj.firstAtom at h
  simp only [] at h
  split at h
  · simp only [Except.error.injEq] at h
    exact h.symm
  · rename_i hlen
    simp only [ne_eq, not_not] at hlen
    split at h
    · rename_i e2 he2
      obtain ⟨acc, k, hs⟩ := axisFold_error _ _ _ he2
      have hk : cols k < (Fields (ReadSlice st.r).1).length := by rw [hlen]; exact hc k
      simp only [List.getElem?_eq_getElem hk] at hs
      cases hs
    · cases h

/-- The columns detected in a header with at least one label are below the number of
labels, whether their labels occur or not. -/
theorem detectHeader_cols_lt (fields : List Str) (h : 2 < fields.length) (k : Fin 3) :
    (lammpstrj.detectHeader fields).cols k < (fields.drop 2).length := by
  have hpos : 0 < (fields.drop 2).length := by
    rw [List.length_drop]; omega
  unfold lammpstrj.detectHeader
  obtain ⟨ca, cb⟩ := detectW_cols (fields.drop 2) 0
    { cols := fun _ => 0, found := 0,
      buf := fields.getD 0 [] ++ [' '] ++ fields.getD 1 [] ++ [' '] } k
  by_cases hin : wLabel k ∈ fields.drop 2
  · obtain ⟨_, b2, _⟩ := cb hin
    simp only [Nat.sub_zero] at b2
    exact (lt_length_of_getElem?_eq_some _ _ _ b2).1
  · rw [ca hin]
    exact hpos

theorem firstCfg_error (pf : Str → ℚ) (ff : ℚ → Str) (c : msd.Conv) (r : Str) (box : Vec3)
    (e : Err) (h : lammpstrj.firstCfg pf ff c r box = Except.error e) :
    e.isPanic = false := by
  unfold lammpstrj.firstCfg at h
  simp only [] at h
  split at h
  · cases h; rfl
  · rename_i hlen
    split at h
    · cases h; rfl
    · split at h
      · rename_i e2 he2
        simp only [Except.error.injEq] at h
        subst h
        have hcols := detectHeader_cols_lt (Fields (ReadSlice r).1) (by omega)
        have := (foldlM_error_inv (fun e => e = Err.columnsMismatch) (fun _ => True) _ _ ?_ _
          trivial).1 e2 he2
        · rw [this]; rfl
        · intro b mo _ _
          refine ⟨?_, fun _ _ => trivial⟩
          intro e3 he3
          unfold lammpstrj.firstMol at he3
          refine (foldlM_error_inv (fun e => e = Err.columnsMismatch) (fun _ => True) _ _ ?_ _
            trivial).1 e3 he3
          intro b2 a _ _
          exact ⟨fun e4 he4 => firstAtom_error pf ff _ _ _ _ b2 a e4 hcols he4,
            fun _ _ => trivial⟩
      · cases h

theorem convAtom_error (pf : Str → ℚ) (ff : ℚ → Str) (cols : Fin 3 → Nat) (colsTot : Nat)
    (box box2 : Vec3) (st : lammpstrj.ConvState) (a : Nat) (e : Err)
    (hc : ∀ k : Fin 3, cols k < colsTot) (ha : a < st.corr.length)
    (hl : a < st.lastXYZ.length)
    (h : lammpstrj.convAtom pf ff cols colsTot box box2 st a = Except.error e) :
    e = Err.columnsMismatch := by
  unfold lammpstrj.convAtom at h
  simp only [List.getElem?_eq_getElem ha, List.getElem?_eq_getElem hl] at h
  split at h
  · simp only [Except.error.injEq] at h
    exact h.symm
  · rename_i hlen
    simp only [ne_eq, not_not] at hlen
    split at h
    · rename_i e2 he2
      obtain ⟨acc, k, hs⟩ := axisFold_error _ _ _ he2
      have hk : cols k < (Fields (ReadSlice st.r).1).length := by rw [hlen]; exact hc k
      simp only [List.getElem?_eq_getElem hk] at hs
      cases hs
    · cases h

theorem convFrame_error (pf : Str → ℚ) (ff : ℚ → Str) (c : msd.Conv) (f : lammpstrj.First)
    (st : lammpstrj.ConvState) (e : Err) (hc : ∀ k : Fin 3, f.cols k < f.colsTot)
    (ha : c.AtTot.toNat ≤ st.corr.length) (hl : c.AtTot.toNat ≤ st.lastXYZ.length)
    (h : lammpstrj.convFrame pf ff c f st = Except.error e) : e.isPanic = false := by
  unfold lammpstrj.convFrame at h
  split at h
  · rename_i e2 he2
    simp only [Except.error.injEq] at h
    subst h
    rw [header_error pf st.r e2 he2]
    rfl
  · rename_i hd hh
    split at h
    · rename_i e2 he2
      simp only [Except.error.injEq] at h
      subst h
      have := (foldlM_error_inv (fun e => e = Err.columnsMismatch)
        (fun s : lammpstrj.ConvState =>
          c.AtTot.toNat ≤ s.corr.length ∧ c.AtTot.toNat ≤ s.lastXYZ.length) _ _ ?_ _
        (by exact ⟨ha, hl⟩)).1 e2 he2
      · rw [this]; rfl
      · intro b a hmem hb
        have ha2 : a < c.AtTot.toNat := List.mem_range.mp hmem
        constructor
        · intro e3 he3
          exact convAtom_error pf ff _ _ _ _ b a e3 hc (by omega) (by omega) he3
        · intro b2 hb2
          obtain ⟨_, _, _, cl, _, hst⟩ := convAtom_ok pf ff _ _ _ _ b b2 a hb2
          rw [hst]
          simp only [List.length_set]
          exact hb
    · cases h

theorem convLoop_error (pf : Str → ℚ) (ff : ℚ → Str) (c : msd.Conv) (f : lammpstrj.First)
    (fuel : Nat) (st : lammpstrj.ConvState) (e : Err) (hc : ∀ k : Fin 3, f.cols k < f.colsTot)
    (ha : c.AtTot.toNat ≤ st.corr.length) (hl : c.AtTot.toNat ≤ st.lastXYZ.length)
    (h : lammpstrj.convLoop pf ff c f fuel st = Except.error e) (hne : e ≠ Err.fuel) :
    e.isPanic = false := by
  induction fuel generalizing st with
  | zero =>
    simp only [lammpstrj.convLoop, Except.error.injEq] at h
    exact absurd h.symm hne
  | succ fuel ih =>
    unfold lammpstrj.convLoop at h
    cases hf : lammpstrj.convFrame pf ff c f st with
    | error e2 =>
      rw [hf] at h
      simp only [Except.error.injEq] at h
      subst h
      exact convFrame_error pf ff c f st e2 hc ha hl hf
    | ok mid =>
      rw [hf] at h
      simp only [] at h
      obtain ⟨_, _, _, _, i3, i4, _⟩ := convFrame_spec pf ff c f st mid hf
      by_cases hr : mid.r = []
      · rw [if_pos hr] at h; cases h
      · rw [if_neg hr] at h
        exact ih mid (by rw [i3]; exact ha) (by rw [i4]; exact hl) h

/-- On frames of `AtTot = At * Mol ≥ 0` atoms, an error of `Conv` is an error that the Go
function returns: it is neither a run-time panic nor the end of the fuel of the model. -/
theorem Conv_error_returned (pf : Str → ℚ) (ff : ℚ → Str) (c : msd.Conv) (file : Str)
    (e : Err) (h0 : 0 ≤ c.AtTot) (hAt : c.AtTot.toNat = c.Mol.toNat * c.At.toNat)
    (h : lammpstrj.Conv pf ff c file = Except.error e) :
    e.isPanic = false ∧ e ≠ Err.fuel := by
  have hfuel : e ≠ Err.fuel := by
    intro he
    rw [he] at h
    exact Conv_ne_fuel pf ff c file h
  refine ⟨?_, hfuel⟩
  unfold lammpstrj.Conv at h
  rw [if_neg (by omega)] at h
  split at h
  · rename_i e2 he2
    simp only [Except.error.injEq] at h
    subst h
    rw [header_error pf file e2 he2]
    rfl
  · rename_i hd hh
    split at h
    · rename_i e2 he2
      simp only [Except.error.injEq] at h
      subst h
      exact firstCfg_error pf ff c _ _ e2 he2
    · rename_i f hf
      obtain ⟨f1, f2, _, _, f5, f6, _⟩ := firstCfg_spec pf ff c hd.r hd.box f hf
      have hcols : ∀ k : Fin 3, f.cols k < f.colsTot := by
        intro k
        rw [f2, f5]
        exact detectHeader_cols_lt _ f1 k
      split at h
      · cases h
      · split at h
        · rename_i e2 he2
          simp only [Except.error.injEq] at h
          subst h
          exact convLoop_error pf ff c f _ _ e2 hcols (by simp) (by rw [f6, hAt]) he2 hfuel
        · cases h

/-! ## C15 -/

/-- C15 as stated fails: on `trajBadBox`, whose second box line is `0 ten`, `Conv` returns
without error: the error of `strconv.ParseFloat` is dropped, and the box length of the axis is
taken as `0 - 0`. -/
theorem conv_accepts_non_numeric_box_counterexample :
    (Fields (nthLine trajBadBox 6)) = ["0".toList, "ten".toList] ∧
    ∃ run, lammpstrj.Conv readDec fmtSmall conv11 trajBadBox = Except.ok run ∧
      run.box 1 = 0 ∧ run.out.length = 10 := by
  have hs : (lammpstrj.Conv readDec fmtSmall conv11 trajBadBox).map (fun run =>
      (run.box 1, run.out.length)) = Except.ok (0, 10) := by decide!
  obtain ⟨run, h, hv⟩ := exists_of_map_eq_ok hs
  simp only [Prod.mk.injEq] at hv
  exact ⟨by decide!, run, h, hv.1, hv.2⟩

/-- C15, amended: on frames of `9 + AtTot` lines (`AtTot = At * Mol`), if one of the three
box lines (lines 5, 6, 7) of the first frame, or of a later frame `j` that begins before the
end of the file, does not have exactly two tokens, `Conv` returns an error (an `error` value,
not a panic). Whether the two tokens are numbers is not examined. -/
theorem conv_box_line_token_count (pf : Str → ℚ) (ff : ℚ → Str) (c : msd.Conv) (file : Str)
    (j : Nat) (k : Fin 3) (hAt : c.AtTot.toNat = c.Mol.toNat * c.At.toNat)
    (h0 : 0 ≤ c.AtTot) (hj : j = 0 ∨ dropLines (j * (9 + c.AtTot.toNat)) file ≠ [])
    (hbad : (Fields (nthLine file (j * (9 + c.AtTot.toNat) + 5 + k))).length ≠ 2) :
    ∃ e, lammpstrj.Conv pf ff c file = Except.error e ∧ e.isPanic = false ∧ e ≠ Err.fuel := by
  cases hC : lammpstrj.Conv pf ff c file with
  | error e => exact ⟨e, rfl, Conv_error_returned pf ff c file e h0 hAt hC⟩
  | ok run =>
    exfalso
    apply hbad
    obtain ⟨⟨hd, hh, _⟩, hfr⟩ := Conv_frames pf ff c file run hC hAt
    by_cases hj0 : j = 0
    · subst hj0
      obtain ⟨_, _, g3⟩ := header_spec pf file hd hh
      simpa using (g3 k).1
    · have hne : dropLines (j * (9 + c.AtTot.toNat)) file ≠ [] := by
        rcases hj with h0 | h0
        · exact absurd h0 hj0
        · exact h0
      obtain ⟨e, he1, ⟨hd2, hh2⟩, _⟩ := hfr j (by omega) hne
      obtain ⟨_, _, g3⟩ := header_spec pf e.start hd2 hh2
      have := (g3 k).1
      rw [he1, nthLine_dropLines, ← Nat.add_assoc] at this
      exact this

/-- Witness for the amended C15: on `trajBox3`, whose second box line is `0 10 0`, `Conv`
returns an error. -/
theorem conv_box_line_token_count_witness :
    (Fields (nthLine trajBox3 6)).length = 3 ∧
    ∃ e, lammpstrj.Conv readDec fmtSmall conv11 trajBox3 = Except.error e ∧
      e.isPanic = false ∧ e ≠ Err.fuel :=
  ⟨by decide!, conv_box_line_token_count readDec fmtSmall conv11 trajBox3 0 1 (by decide)
    (by decide) (Or.inl rfl) (by decide!)⟩

/-! ## C14 -/

/-- Go `header` as a function of the first eight lines of the reader. -/
theorem header_eq (pf : Str → ℚ) (r : Str) :
    lammpstrj.header pf r =
      if (Fields (nthLine r 5)).length ≠ 2 then Except.error Err.boxSize
      else if (Fields (nthLine r 6)).length ≠ 2 then Except.error Err.boxSize
      else if (Fields (nthLine r 7)).length ≠ 2 then Except.error Err.boxSize
      else Except.ok
        { box := Function.update (Function.update (Function.update (fun _ => 0) 0
              (pf ((Fields (nthLine r 5)).getD 1 []) - pf ((Fields (nthLine r 5)).getD 0 []))) 1
              (pf ((Fields (nthLine r 6)).getD 1 []) - pf ((Fields (nthLine r 6)).getD 0 []))) 2
              (pf ((Fields (nthLine r 7)).getD 1 []) - pf ((Fields (nthLine r 7)).getD 0 []))
          box2 := Function.update (Function.update (Function.update (fun _ => 0) 0
              ((pf ((Fields (nthLine r 5)).getD 1 []) - pf ((Fields (nthLine r 5)).getD 0 [])) / 2)) 1
              ((pf ((Fields (nthLine r 6)).getD 1 []) - pf ((Fields (nthLine r 6)).getD 0 [])) / 2)) 2
              ((pf ((Fields (nthLine r 7)).getD 1 []) - pf ((Fields (nthLine r 7)).getD 0 [])) / 2)
          out := (List.range 8).map (nthLine r)
          r := dropLines 8 r } := by
  have h3 : List.finRange 3 = [0, 1, 2] := by decide
  have n5 : (ReadSlice (dropLines 5 r)).1 = nthLine r 5 := rfl
  have n6 : (ReadSlice (ReadSlice (dropLines 5 r)).2).1 = nthLine r 6 := rfl
  have n7 : (ReadSlice (ReadSlice (ReadSlice (dropLines 5 r)).2).2).1 = nthLine r 7 := rfl
  have d8 : (ReadSlice (ReadSlice (ReadSlice (dropLines 5 r)).2).2).2 = dropLines 8 r := rfl
  have ho : (List.range 5).map (nthLine r) ++ [nthLine r 5] ++ [nthLine r 6] ++ [nthLine r 7]
      = (List.range 8).map (nthLine r) := by
    simp [List.range_succ]
  unfold lammpstrj.header
  rw [h3]
  simp only [List.foldlM_cons, List.foldlM_nil, lammpstrj.headerBox, copyLines_snd,
    copyLines_fst, n5]
  by_cases h5 : (Fields (nthLine r 5)).length = 2
  · simp only [h5, ne_eq, not_true_eq_false, if_false, bind, Except.bind, n6]
    by_cases h6 : (Fields (nthLine r 6)).length = 2
    · simp only [h6, ne_eq, not_true_eq_false, if_false, n7]
      by_cases h7 : (Fields (nthLine r 7)).length = 2
      · simp only [h7, ne_eq, not_true_eq_false, if_false, pure, Except.pure, d8, ho]
      · simp only [h7, ne_eq, not_false_eq_true, if_true]
    · simp only [h6, ne_eq, not_false_eq_true, if_true]
  · simp only [h5, ne_eq, not_false_eq_true, if_true, bind, Except.bind]

/-- A fold that carries more state computes, on the part kept by `π`, what the fold on the
part computes. -/
theorem foldlM_map_proj {α β γ : Type} (π : γ → β) (f : β → α → Except Err β)
    (f2 : γ → α → Except Err γ) (hf : ∀ s a, (f2 s a).map π = f (π s) a) (l : List α)
    (s : γ) : (l.foldlM f2 s).map π = l.foldlM f (π s) := by
  induction l generalizing s with
  | nil => rfl
  | cons a l ih =>
    rw [List.foldlM_cons, List.foldlM_cons]
    have h := hf s a
    cases h2 : f2 s a with
    | error e =>
      rw [h2] at h
      rw [← h]
      rfl
    | ok s1 =>
      rw [h2] at h
      rw [← h]
      exact ih s1

/-- The atom loop of `MSD.Read` is the atom loop of `MSD.GetCfg`, `bTot` apart, errors
included. -/
theorem readAtoms_proj (pf : Str → ℚ) (cols : Fin 3 → Nat) (colsTot : Nat) (Masses : List ℚ)
    (l : List Nat) (st : Str × Nat × Vec3 × ℚ) :
    (l.foldlM (lammpstrj.readAtom pf cols colsTot Masses) st).map
        (fun t => (t.1, t.2.2.1, t.2.2.2))
      = l.foldlM (lammpstrj.getAtom pf cols colsTot Masses) (st.1, st.2.2.1, st.2.2.2) := by
  apply foldlM_map_proj (fun t : Str × Nat × Vec3 × ℚ => (t.1, t.2.2.1, t.2.2.2))
  intro s a
  rw [readAtom_eq]
  cases lammpstrj.getAtom pf cols colsTot Masses (s.1, s.2.2.1, s.2.2.2) a <;> rfl

/-- The molecule loop of `MSD.Read` is the molecule loop of `MSD.GetCfg`, `bTot` apart,
errors included. -/
theorem readMols_proj (pf : Str → ℚ) (cols : Fin 3 → Nat) (colsTot : Nat) (At : ℤ)
    (Masses : List ℚ) (l : List Nat) (st : Str × Nat × Frame) :
    (l.foldlM (lammpstrj.readMol pf cols colsTot At Masses) st).map (fun t => (t.1, t.2.2))
      = l.foldlM (lammpstrj.getMol pf cols colsTot At Masses) (st.1, st.2.2) := by
  apply foldlM_map_proj (fun t : Str × Nat × Frame => (t.1, t.2.2))
  intro s mo
  unfold lammpstrj.readMol lammpstrj.getMol
  have h := readAtoms_proj pf cols colsTot Masses (List.range At.toNat)
    (s.1, s.2.1, (fun _ => 0), 0)
  simp only [] at h
  rw [← h]
  cases (List.range At.toNat).foldlM (lammpstrj.readAtom pf cols colsTot Masses)
    (s.1, s.2.1, (fun _ => 0), 0) <;> rfl

/-- A pass of the resident loop of `MSD.Read` after the first: the nine header lines of the
frame are skipped unread, and the frame is decoded from line 9 on by the decoding loop of
`GetCfg`, with the layout parsed in the first pass. -/
theorem readResident_later (pf : Str → ℚ) (m : msd.MSD) (st : lammpstrj.ReadState) (c : Nat)
    (hnf : st.notFirst = true) :
    (lammpstrj.readResident pf m st c).map (fun s => (s.r, s.notFirst, s.cols, s.colsTot, s.xyz))
      = ((List.range m.Mol.toNat).foldlM
          (lammpstrj.getMol pf st.cols st.colsTot m.At m.Masses) (dropLines 9 st.r, [])).map
          (fun t => (t.1, true, st.cols, st.colsTot, st.xyz ++ [t.2])) := by
  have h9 : (readLine (skipLines 8 st.r st.bTot).1 (skipLines 8 st.r st.bTot).2).2.2
      = dropLines 9 st.r := by
    simp only [skipLines_eq, readLine]
    rw [← dropLines_succ]
  unfold lammpstrj.readResident
  simp only [hnf, Bool.true_eq_false, if_false, h9]
  have h := readMols_proj pf st.cols st.colsTot m.At m.Masses (List.range m.Mol.toNat)
    (dropLines 9 st.r,
      (readLine (skipLines 8 st.r st.bTot).1 (skipLines 8 st.r st.bTot).2).2.1, [])
  simp only [] at h
  rw [← h]
  cases (List.range m.Mol.toNat).foldlM (lammpstrj.readMol pf st.cols st.colsTot m.At m.Masses)
    (dropLines 9 st.r,
      (readLine (skipLines 8 st.r st.bTot).1 (skipLines 8 st.r st.bTot).2).2.1, []) <;> rfl

/-- A pass of the frame loop of `Conv` as a function of the first eight lines of the frame
and of the reader from line 9 on: line 8, the `ITEM: ATOMS` line, plays no part. -/
theorem convFrame_congr (pf : Str → ℚ) (ff : ℚ → Str) (c : msd.Conv) (f : lammpstrj.First)
    (st : lammpstrj.ConvState) (r2 : Str)
    (hlines : ∀ n, n < 8 → nthLine r2 n = nthLine st.r n)
    (htail : dropLines 9 r2 = dropLines 9 st.r) :
    (lammpstrj.convFrame pf ff c f { st with r := r2 }).map
        (fun s => (s.r, s.corr, s.lastXYZ, s.out))
      = (lammpstrj.convFrame pf ff c f st).map (fun s => (s.r, s.corr, s.lastXYZ, s.out)) := by
  have ho : (List.range 8).map (nthLine r2) = (List.range 8).map (nthLine st.r) := by
    apply List.map_congr_left
    intro n hn
    exact hlines n (List.mem_range.mp hn)
  have t2 : (ReadSlice (dropLines 8 r2)).2 = dropLines 9 st.r := by
    rw [← dropLines_succ]; exact htail
  have t1 : (ReadSlice (dropLines 8 st.r)).2 = dropLines 9 st.r := by
    rw [← dropLines_succ]
  unfold lammpstrj.convFrame
  rw [header_eq, header_eq]
  simp only [hlines 5 (by decide), hlines 6 (by decide), hlines 7 (by decide), ho]
  by_cases h5 : (Fields (nthLine st.r 5)).length = 2
  · by_cases h6 : (Fields (nthLine st.r 6)).length = 2
    · by_cases h7 : (Fields (nthLine st.r 7)).length = 2
      · simp only [h5, h6, h7, ne_eq, not_true_eq_false, if_false, t1, t2]
        generalize (List.foldlM _ _ _ : Except Err lammpstrj.ConvState) = X
        cases X <;> rfl
      · simp only [h5, h6, h7, ne_eq, not_true_eq_false, not_false_eq_true, if_false, if_true]
    · simp only [h5, h6, ne_eq, not_true_eq_false, not_false_eq_true, if_false, if_true]
  · simp only [h5, ne_eq, not_false_eq_true, if_true]

/-- C14 as stated fails: in `trajSwapW` the second frame has the header
`ITEM: ATOMS id y x z`, the first `ITEM: ATOMS id x y z`, and `Conv` returns without error,
writing the header of the first frame for both frames; in `trajSwapU` the second frame has the
header `ITEM: ATOMS id yu xu zu`, the first `ITEM: ATOMS id xu yu zu`, and `Read` with both
frames resident returns without error and `GetCfg 1` returns the record `1 4 5 -6.25` of the
second frame decoded with the layout of the first, `(4, 5, -6.25)`. -/
theorem later_header_change_accepted_counterexample :
    (nthLine trajSwapW 8 ≠ nthLine trajSwapW 18 ∧
      ∃ run, lammpstrj.Conv readDec fmtSmall conv11 trajSwapW = Except.ok run ∧
        run.out.getD 18 [] = run.out.getD 8 [] ∧ run.out.length = 20) ∧
    (nthLine trajSwapU 8 ≠ nthLine trajSwapU 18 ∧
      ((lammpstrj.method readDec trajSwapU).Read (window2 2).setup).map
          (fun s => ((lammpstrj.method readDec trajSwapU).GetCfg s 1).map triples)
        = Except.ok (Except.ok [(4, 5, -25 / 4)])) := by
  have hs : (lammpstrj.Conv readDec fmtSmall conv11 trajSwapW).map (fun run =>
      (decide (run.out.getD 18 [] = run.out.getD 8 []), run.out.length))
      = Except.ok (true, 20) := by decide!
  obtain ⟨run, h, hv⟩ := exists_of_map_eq_ok hs
  simp only [Prod.mk.injEq, decide_eq_true_eq] at hv
  exact ⟨⟨by decide!, run, h, hv.1, hv.2⟩, by decide!, by decide!⟩

/-- C14, amended: the `ITEM: ATOMS` line of a frame after the first is read and dropped
without being examined. A pass of the frame loop of `Conv` gives the same reader, corrections,
positions and output (or the same error) on two readers that hold the same first eight lines
and the same bytes from line 9 on, whatever their line 8; and a pass of the resident loop of
`MSD.Read` after the first gives the same reader, layout and frames (or the same error) on
two readers that hold the same bytes from line 9 on, whatever their first nine lines. -/
theorem later_header_not_examined (pf : Str → ℚ) (ff : ℚ → Str) (c : msd.Conv)
    (f : lammpstrj.First) (st : lammpstrj.ConvState) (r2 : Str) (m : msd.MSD)
    (sr : lammpstrj.ReadState) (r3 : Str) (b3 n : Nat)
    (hlines : ∀ i, i < 8 → nthLine r2 i = nthLine st.r i)
    (htail : dropLines 9 r2 = dropLines 9 st.r)
    (hnf : sr.notFirst = true) (htail3 : dropLines 9 r3 = dropLines 9 sr.r) :
    (lammpstrj.convFrame pf ff c f { st with r := r2 }).map
        (fun s => (s.r, s.corr, s.lastXYZ, s.out))
      = (lammpstrj.convFrame pf ff c f st).map (fun s => (s.r, s.corr, s.lastXYZ, s.out)) ∧
    (lammpstrj.readResident pf m { sr with r := r3, bTot := b3 } n).map
        (fun s => (s.r, s.notFirst, s.cols, s.colsTot, s.xyz))
      = (lammpstrj.readResident pf m sr n).map
        (fun s => (s.r, s.notFirst, s.cols, s.colsTot, s.xyz)) := by
  refine ⟨convFrame_congr pf ff c f st r2 hlines htail, ?_⟩
  rw [readResident_later pf m sr n hnf,
    readResident_later pf m { sr with r := r3, bTot := b3 } n hnf]
  simp only [htail3]

/-- Witness for the amended C14: the frames `frameW` and `frameWSwap` differ in their
`ITEM: ATOMS` line only, and so do `frameU2` and `frameU2Swap`; the passes over them give the
same results. -/
theorem later_header_not_examined_witness :
    nthLine frameWSwap 8 ≠ nthLine frameW 8 ∧ nthLine frameU2Swap 8 ≠ nthLine frameU2 8 ∧
    (lammpstrj.convFrame readDec fmtSmall conv11 firstW { stateW with r := frameWSwap }).map
        (fun s => (s.r, s.corr, s.lastXYZ, s.out))
      = (lammpstrj.convFrame readDec fmtSmall conv11 firstW stateW).map
        (fun s => (s.r, s.corr, s.lastXYZ, s.out)) ∧
    (lammpstrj.readResident readDec (window2 2).setup
        { readStateU2 with r := frameU2Swap, bTot := 112 } 1).map
        (fun s => (s.r, s.notFirst, s.cols, s.colsTot, s.xyz))
      = (lammpstrj.readResident readDec (window2 2).setup readStateU2 1).map
        (fun s => (s.r, s.notFirst, s.cols, s.colsTot, s.xyz)) := by
  have T := later_header_not_examined readDec fmtSmall conv11 firstW stateW frameWSwap
    (window2 2).setup readStateU2 frameU2Swap 112 1
    (by intro i hi; interval_cases i <;> decide!) (by decide!) rfl (by decide!)
  exact ⟨by decide!, by decide!, T.1, T.2⟩

/-! ## C16 -/

/-- In a run of `Conv`, on frames of `9 + AtTot` lines (`AtTot = At * Mol ≥ 0`): if a record
of the first frame, or of a later frame `j` that begins before the end of the file, does not
have as many tokens as the header of the first frame has labels, `Conv` returns an error (an
`error` value, not a panic). A record that the file ends before has no token. -/
theorem conv_record_token_count (pf : Str → ℚ) (ff : ℚ → Str) (c : msd.Conv) (file : Str)
    (j a : Nat) (hAt : c.AtTot.toNat = c.Mol.toNat * c.At.toNat) (h0 : 0 ≤ c.AtTot)
    (ha : a < c.AtTot.toNat) (hj : j = 0 ∨ dropLines (j * (9 + c.AtTot.toNat)) file ≠ [])
    (hbad : (Fields (nthLine file (j * (9 + c.AtTot.toNat) + 9 + a))).length
      ≠ ((Fields (nthLine file 8)).drop 2).length) :
    ∃ e, lammpstrj.Conv pf ff c file = Except.error e ∧ e.isPanic = false ∧ e ≠ Err.fuel := by
  cases hC : lammpstrj.Conv pf ff c file with
  | error e => exact ⟨e, rfl, Conv_error_returned pf ff c file e h0 hAt hC⟩
  | ok run =>
    exfalso
    apply hbad
    obtain ⟨⟨hd, hh, hf⟩, hfr⟩ := Conv_frames pf ff c file run hC hAt
    obtain ⟨_, _, _, _, f5, _, _, _, f9⟩ :=
      firstCfg_spec pf ff c (dropLines 8 file) hd.box run.first hf
    have hl8 : nthLine (dropLines 8 file) 0 = nthLine file 8 := by rw [nthLine_dropLines]
    rw [hl8] at f5
    rw [← f5]
    by_cases hj0 : j = 0
    · subst hj0
      have := (f9 a (by rw [← hAt]; exact ha)).1
      rw [nthLine_dropLines] at this
      have e : 0 * (9 + c.AtTot.toNat) + 9 + a = 8 + (1 + a) := by omega
      rw [e]
      exact this
    · have hne : dropLines (j * (9 + c.AtTot.toNat)) file ≠ [] := by
        rcases hj with h1 | h1
        · exact absurd h1 hj0
        · exact h1
      obtain ⟨e, he1, _, he3⟩ := hfr j (by omega) hne
      have := he3 a ha
      rw [he1, nthLine_dropLines, ← Nat.add_assoc] at this
      exact this

/-- An instance: on `trajShortRecord`, whose second record has three tokens where the header
has four labels, `Conv` returns an error. -/
theorem conv_record_token_count_example :
    ∃ e, lammpstrj.Conv readDec fmtSmall conv11 trajShortRecord = Except.error e ∧
      e.isPanic = false ∧ e ≠ Err.fuel :=
  conv_record_token_count readDec fmtSmall conv11 trajShortRecord 1 0 (by decide) (by decide)
    (by decide) (Or.inr (by decide!)) (by decide!)

/-- C16 (failing input): on `trajCut`, which ends before the record of its first frame, with
no resident frame (`Mem = 0`), `Read` returns without error; the header has four labels and
the record decoded by `GetCfg 0` has no token, yet `GetCfg 0` returns no error: the count
is compared with `colsTot = 0`, no header having been parsed, and the access `fields[cols[0]]`
panics. `MSD.Perform` ends with this panic. -/
theorem getCfg_missing_record_panics :
    ((Fields (nthLine trajCut 8)).drop 2).length = 4 ∧
    (Fields (nthLine trajCut 9)).length = 0 ∧
    ((lammpstrj.method readDec trajCut).Read (window2 0).setup).map
        (fun s => (s.2.colsTot, ((lammpstrj.method readDec trajCut).GetCfg s 0).map triples))
      = Except.ok (0, Except.error Err.panicIndex) ∧
    (msd.MSD.Perform (lammpstrj.method readDec trajCut) (window2 0)).map (fun _ => ())
      = Except.error Err.panicIndex ∧
    Err.isPanic Err.panicIndex = true := by
  refine ⟨by decide!, by decide!, by decide!, by decide!, rfl⟩

/-- The records that `MSD.Read` decodes: when `Read` returns without error, every record of
every resident frame has `colsTot` tokens, which is the number of labels of the header of
the first resident frame. -/
theorem Read_record_token_count (pf : Str → ℚ) (m : msd.MSD) (file : Str) (l : lammpstrj.MSD)
    (h : lammpstrj.MSD.Read pf m lammpstrj.New file = Except.ok l) :
    ∀ j, j < m.Mem.toNat → ∀ n, n < m.Mol.toNat * m.At.toNat →
      (Fields (nthLine file ((m.Start * (m.AtTot + 9)).toNat
          + (m.Tot - m.Mem).toNat * (9 + m.AtTot.toNat)
          + (j * (9 + m.Mol.toNat * m.At.toNat) + 9 + n)))).length = l.colsTot ∧
      l.colsTot = ((Fields (nthLine file ((m.Start * (m.AtTot + 9)).toNat
          + (m.Tot - m.Mem).toNat * (9 + m.AtTot.toNat) + 8))).drop 2).length := by
  obtain ⟨_, _, _, x4⟩ := Read_spec pf m file l h
  unfold lammpstrj.MSD.Read lammpstrj.readWindow at h
  simp only [skipLines_eq, readOffsets_spec] at h
  cases hr : (List.range m.Mem.toNat).foldlM (lammpstrj.readResident pf m)
      { r := dropLines ((m.Tot - m.Mem).toNat * (9 + m.AtTot.toNat))
               (dropLines (m.Start * (m.AtTot + 9)).toNat file),
        bTot := 0 + (linesPrefix file (m.Start * (m.AtTot + 9)).toNat).length
          + (linesPrefix (dropLines (m.Start * (m.AtTot + 9)).toNat file)
              ((m.Tot - m.Mem).toNat * (9 + m.AtTot.toNat))).length,
        notFirst := false, cols := lammpstrj.New.cols, colsTot := lammpstrj.New.colsTot,
        xyz := lammpstrj.New.xyz } with
  | error e => rw [hr] at h; cases h
  | ok st =>
    rw [hr] at h
    simp only [Except.ok.injEq] at h
    obtain ⟨_, _, _, _, g5⟩ := readResidents_spec pf m _ _ st rfl hr
    simp only [← dropLines_add, nthLine_dropLines] at g5
    subst h
    intro j hj n hn
    exact ⟨(g5 j hj n hn).1, (x4 (by omega)).2⟩

/-- The records that `MSD.GetCfg` decodes when it reads a frame again: when it returns
without error, each of the `Mol * At` lines read from the stored offset on has `colsTot`
tokens. -/
theorem GetCfg_record_token_count (pf : Str → ℚ) (m : msd.MSD) (l : lammpstrj.MSD)
    (file : Str) (c : ℤ) (fr : Frame) (off : Nat) (hc : c < m.MemPos)
    (hoff : l.xyzB[c.toNat]? = some off)
    (h : lammpstrj.MSD.GetCfg pf m l file c = Except.ok fr) :
    ∀ n, n < m.Mol.toNat * m.At.toNat →
      (Fields (nthLine (file.drop off) n)).length = l.colsTot := by
  unfold lammpstrj.MSD.GetCfg at h
  rw [if_neg (by omega)] at h
  split at h
  · cases h
  · rw [hoff] at h
    simp only [] at h
    split at h
    · cases h
    · rename_i t ht
      obtain ⟨_, _, g3⟩ := getMols_spec pf l.cols l.colsTot m.At m.Masses _ _ t ht
      intro n hn
      exact (g3 n hn).1

/-! ## C21 -/

/-- The minimum-image bound of one step: when the candidate `p = raw + corr` is within
`3 * L / 2` of the last position, the position returned is within `L / 2` of it. -/
theorem axisStep_bound (L raw corr last : ℚ)
    (h : |last - (raw + corr)| ≤ 3 * L / 2) :
    |(axisStep L (L / 2) raw corr last).2 - last| ≤ L / 2 := by
  rw [abs_le] at h ⊢
  unfold axisStep
  split_ifs with h1 h2
  · constructor <;> simp only [] <;> linarith [h.1, h.2]
  · constructor <;> simp only [] <;> linarith [h.1, h.2]
  · constructor <;> simp only [] <;> linarith [h.1, h.2]

theorem axisStep_snd (L L2 raw corr last : ℚ) :
    (axisStep L L2 raw corr last).2 = raw + (axisStep L L2 raw corr last).1 := by
  unfold axisStep
  split_ifs <;> simp only [] <;> ring

/-- Every pass of the frame loop of `Conv` adds one frame to the log: a run of the loop that
returns went through as many frames as `loopStates` lists states. -/
theorem convLoop_loopStates (pf : Str → ℚ) (ff : ℚ → Str) (c : msd.Conv)
    (f : lammpstrj.First) (fuel : Nat) (st st2 : lammpstrj.ConvState)
    (h : lammpstrj.convLoop pf ff c f fuel st = Except.ok st2) :
    st2.log.length = st.log.length + (lammpstrj.loopStates pf ff c f fuel st).length := by
  induction fuel generalizing st with
  | zero => simp [lammpstrj.convLoop] at h
  | succ fuel ih =>
    unfold lammpstrj.convLoop at h
    unfold lammpstrj.loopStates
    cases hf : lammpstrj.convFrame pf ff c f st with
    | error e => rw [hf] at h; cases h
    | ok mid =>
      rw [hf] at h
      simp only [] at h ⊢
      obtain ⟨_, _, _, i2, _⟩ := convFrame_spec pf ff c f st mid hf
      have hlen : mid.log.length = st.log.length + 1 := by rw [i2]; simp
      by_cases hr : mid.r = []
      · rw [if_pos hr] at h ⊢
        cases h
        simp [hlen]
      · rw [if_neg hr] at h ⊢
        rw [ih mid h, hlen]
        simp only [List.length_cons]
        omega

/-- In every state in which the frame loop enters a frame, the last position of atom `a` on
axis `k` is the coordinate read for it in the frame before plus its correction, so the
candidate of the step is as far from the last position as the coordinates of the two frames
are from each other. -/
theorem loopStates_synced (pf : Str → ℚ) (ff : ℚ → Str) (c : msd.Conv) (f : lammpstrj.First)
    (file : Str) (a : Nat) (k : Fin 3) (ha : a < c.AtTot.toNat)
    (hclose : ∀ j, dropLines ((j + 1) * (9 + c.AtTot.toNat)) file ≠ [] →
      |rawAt pf (f.cols k) (dropLines ((j + 1) * (9 + c.AtTot.toNat)) file) a
        - rawAt pf (f.cols k) (dropLines (j * (9 + c.AtTot.toNat)) file) a|
        < boxAt pf (dropLines ((j + 1) * (9 + c.AtTot.toNat)) file) k)
    (fuel : Nat) (st : lammpstrj.ConvState)
    (hr : st.r = dropLines ((st.log.length + 1) * (9 + c.AtTot.toNat)) file)
    (hne : st.r ≠ [])
    (hsync : st.lastXYZ.getD a 0 k
      = rawAt pf (f.cols k) (dropLines (st.log.length * (9 + c.AtTot.toNat)) file) a
        + st.corr.getD a 0 k) :
    ∀ s ∈ lammpstrj.loopStates pf ff c f fuel st,
      0 ≤ boxAt pf s.r k ∧
      |s.lastXYZ.getD a 0 k - (rawAt pf (f.cols k) s.r a + s.corr.getD a 0 k)|
        ≤ 3 * boxAt pf s.r k / 2 := by
  induction fuel generalizing st with
  | zero => intro s hs; simp [lammpstrj.loopStates] at hs
  | succ fuel ih =>
    intro s hs
    unfold lammpstrj.loopStates at hs
    rw [List.mem_cons] at hs
    rcases hs with hs | hs
    · subst hs
      have hc := hclose s.log.length (by rw [← hr]; exact hne)
      rw [← hr] at hc
      have e : s.lastXYZ.getD a 0 k - (rawAt pf (f.cols k) s.r a + s.corr.getD a 0 k)
          = - (rawAt pf (f.cols k) s.r a
            - rawAt pf (f.cols k) (dropLines (s.log.length * (9 + c.AtTot.toNat)) file) a) := by
        rw [hsync]; ring
      rw [e, abs_neg]
      have hpos : 0 ≤ boxAt pf s.r k := le_trans (abs_nonneg _) (le_of_lt hc)
      exact ⟨hpos, by linarith⟩
    · cases hf : lammpstrj.convFrame pf ff c f st with
      | error e => rw [hf] at hs; simp at hs
      | ok mid =>
        rw [hf] at hs
        simp only [] at hs
        by_cases hm : mid.r = []
        · rw [if_pos hm] at hs; simp at hs
        · rw [if_neg hm] at hs
          obtain ⟨_, _, i1, i2, _, _, _, i6, _⟩ := convFrame_spec pf ff c f st mid hf
          have hlen : mid.log.length = st.log.length + 1 := by rw [i2]; simp
          refine ih mid ?_ hm ?_ s hs
          · rw [i1, hr, ← dropLines_add, hlen]
            congr 1
            ring
          · obtain ⟨_, _, _, j4⟩ := i6 a ha
            have hz := (j4 k).2
            have h1 := congrArg Prod.fst hz
            have h2 := congrArg Prod.snd hz
            simp only [] at h1 h2
            rw [hlen, ← hr, h2, axisStep_snd, ← h1]
            rfl

/-- C21: for atom `a` and axis `k`, with `L` the box length read in the header of the frame,
`p = raw + corr[a][k]` and `last = lastXYZ[a][k]`: (1) in every pass of the frame loop of
`Conv` that returns without error, if `0 ≤ L` and `|last - p| ≤ 3 * L / 2`, the position
returned is within `L / 2` of `last`; (2) in a run on frames of `9 + AtTot` lines
(`AtTot = At * Mol`) in which `firstCfg` returned the coordinate read for the atom (no
intramolecular shift) and the coordinates read for it in consecutive frames differ by less
than the box length of the later frame (the box length `L` when the box is constant), in
every state in which the loop enters a frame `0 ≤ L` and `|last - p| ≤ 3 * L / 2` hold. -/
theorem unwrap_minimum_image_bound (pf : Str → ℚ) (ff : ℚ → Str) (c : msd.Conv)
    (f : lammpstrj.First) (a : Nat) (k : Fin 3) (ha : a < c.AtTot.toNat) :
    (∀ st st2, lammpstrj.convFrame pf ff c f st = Except.ok st2 →
      0 ≤ boxAt pf st.r k →
      |st.lastXYZ.getD a 0 k - (rawAt pf (f.cols k) st.r a + st.corr.getD a 0 k)|
        ≤ 3 * boxAt pf st.r k / 2 →
      |st2.lastXYZ.getD a 0 k - st.lastXYZ.getD a 0 k| ≤ boxAt pf st.r k / 2) ∧
    (∀ file hd, lammpstrj.header pf file = Except.ok hd →
      lammpstrj.firstCfg pf ff c hd.r hd.box = Except.ok f →
      c.AtTot.toNat = c.Mol.toNat * c.At.toNat →
      f.lastXYZ.getD a 0 k = rawAt pf (f.cols k) file a →
      (∀ j, dropLines ((j + 1) * (9 + c.AtTot.toNat)) file ≠ [] →
        |rawAt pf (f.cols k) (dropLines ((j + 1) * (9 + c.AtTot.toNat)) file) a
          - rawAt pf (f.cols k) (dropLines (j * (9 + c.AtTot.toNat)) file) a|
          < boxAt pf (dropLines ((j + 1) * (9 + c.AtTot.toNat)) file) k) →
      ∀ s ∈ lammpstrj.loopStates pf ff c f f.r.length (lammpstrj.convInit c hd f),
        0 ≤ boxAt pf s.r k ∧
        |s.lastXYZ.getD a 0 k - (rawAt pf (f.cols k) s.r a + s.corr.getD a 0 k)|
          ≤ 3 * boxAt pf s.r k / 2) := by
  constructor
  · intro st st2 h _ hb
    obtain ⟨hd, hh, _, _, _, _, _, i6, _⟩ := convFrame_spec pf ff c f st st2 h
    obtain ⟨_, _, g3⟩ := header_spec pf st.r hd hh
    obtain ⟨_, b2, b3⟩ := g3 k
    obtain ⟨_, _, _, j4⟩ := i6 a ha
    have hz := congrArg Prod.snd (j4 k).2
    simp only [] at hz
    rw [hz, b3, b2]
    exact axisStep_bound _ _ _ _ hb
  · intro file hd hh hf hAt hraw hclose
    by_cases hnil : f.r = []
    · intro s hs
      rw [hnil] at hs
      simp [lammpstrj.loopStates] at hs
    · obtain ⟨g1, _, _⟩ := header_spec pf file hd hh
      obtain ⟨_, _, _, _, _, _, f7, _, _⟩ := firstCfg_spec pf ff c hd.r hd.box f hf
      rw [← hAt, g1, ← dropLines_add] at f7
      refine loopStates_synced pf ff c f file a k ha hclose _ _ ?_ hnil ?_
      · show f.r = dropLines ((0 + 1) * (9 + c.AtTot.toNat)) file
        rw [f7]
        congr 1
        omega
      · show f.lastXYZ.getD a 0 k
          = rawAt pf (f.cols k) (dropLines (0 * (9 + c.AtTot.toNat)) file) a
            + (List.replicate c.AtTot.toNat ((fun _ => 0) : Vec3)).getD a 0 k
        rw [hraw, Nat.zero_mul]
        simp [dropLines, List.getD_eq_getElem?_getD, List.getElem?_replicate, ha]

/-- Witness for C21: on `trajW` (box length 10, the atom going from `x = 9` to `x = 0.5`) the
loop enters its one frame with `|last - p| = 8.5 ≤ 15`. -/
theorem unwrap_minimum_image_bound_witness :
    ∃ hd f, lammpstrj.header readDec trajW = Except.ok hd ∧
      lammpstrj.firstCfg readDec fmtSmall conv11 hd.r hd.box = Except.ok f ∧
      (lammpstrj.loopStates readDec fmtSmall conv11 f f.r.length
        (lammpstrj.convInit conv11 hd f)).length = 1 ∧
      ∀ s ∈ lammpstrj.loopStates readDec fmtSmall conv11 f f.r.length
          (lammpstrj.convInit conv11 hd f),
        0 ≤ boxAt readDec s.r 0 ∧
        |s.lastXYZ.getD 0 0 0 - (rawAt readDec (f.cols 0) s.r 0 + s.corr.getD 0 0 0)|
          ≤ 3 * boxAt readDec s.r 0 / 2 := by
  have hs : (lammpstrj.header readDec trajW).map (fun hd =>
      (lammpstrj.firstCfg readDec fmtSmall conv11 hd.r hd.box).map (fun f =>
        (f.cols 0, f.lastXYZ.getD 0 0 0,
          (lammpstrj.loopStates readDec fmtSmall conv11 f f.r.length
            (lammpstrj.convInit conv11 hd f)).length)))
      = Except.ok (Except.ok (1, 9, 1)) := by decide!
  obtain ⟨hd, hh, hv⟩ := exists_of_map_eq_ok hs
  obtain ⟨f, hf, hv2⟩ := exists_of_map_eq_ok hv
  simp only [Prod.mk.injEq] at hv2
  obtain ⟨c0, x0, hlen⟩ := hv2
  have r0 : rawAt readDec 1 trajW 0 = 9 := by decide!
  have r1 : rawAt readDec 1 (dropLines 10 trajW) 0 = 1 / 2 := by decide!
  have b1 : boxAt readDec (dropLines 10 trajW) 0 = 10 := by decide!
  have hend : dropLines 20 trajW = [] := by decide!
  refine ⟨hd, f, hh, hf, hlen, ?_⟩
  refine (unwrap_minimum_image_bound readDec fmtSmall conv11 f 0 0 (by decide)).2 trajW hd hh hf
    (by decide) (by rw [x0, c0, r0]) ?_
  intro j hj
  have e : (9 + conv11.AtTot.toNat) = 10 := by decide
  rw [e] at hj ⊢
  rw [c0]
  cases j with
  | zero =>
    simp only [Nat.zero_add, Nat.one_mul, Nat.zero_mul]
    rw [show dropLines 0 trajW = trajW from rfl, r1, b1, r0]
    norm_num [abs_lt]
  | succ j =>
    exfalso
    apply hj
    exact dropLines_eq_nil_of_le trajW 20 _ hend (by omega)

/-! ## C22 -/

/-- C22 (failing input): the configuration `cfgMem0` (window `[0, 2)`, `Mem = 0`) passes
`Cfg.Check`; on the empty trajectory file `Read` returns without error, with `colsTot = 0`
no header having been parsed; `GetCfg 0` reads a record of no token, the test of the token count
against `colsTot = 0` passes, and the access `fields[cols[0]]` is out of range: `MSD.Perform`
ends with a panic. -/
theorem perform_panics_without_resident_frame :
    cfg.cfgMem0.Check.2 = none ∧
    ((lammpstrj.method readDec []).Read cfg.cfgMem0.msdOf.setup).map
        (fun s => (s.2.colsTot, ((lammpstrj.method readDec []).GetCfg s 0).map triples))
      = Except.ok (0, Except.error Err.panicIndex) ∧
    (msd.MSD.Perform (lammpstrj.method readDec []) cfg.cfgMem0.msdOf).map (fun _ => ())
      = Except.error Err.panicIndex ∧
    Err.isPanic Err.panicIndex = true := by
  refine ⟨by decide, by decide!, by decide!, rfl⟩

/-- With the coordinate columns inside the record and the atom inside `Masses`, the
accumulation of one atom returns. -/
theorem accumAtom_total (pf : Str → ℚ) (cols : Fin 3 → Nat) (Masses : List ℚ)
    (fields : List Str) (a : Nat) (tmp : Vec3) (mTot : ℚ)
    (hc : ∀ k : Fin 3, cols k < fields.length) (ha : a < Masses.length) :
    ∃ res, accumAtom pf cols Masses fields a tmp mTot = Except.ok res := by
  have hf : ∀ k : Fin 3, fields[cols k]? = some (fields.getD (cols k) []) := by
    intro k
    rw [List.getD_eq_getElem?_getD, List.getElem?_eq_getElem (hc k)]
    rfl
  have hm : Masses[a]? = some (Masses.getD a 0) := by
    rw [List.getD_eq_getElem?_getD, List.getElem?_eq_getElem ha]
    rfl
  unfold accumAtom
  simp only [hf, hm]
  have hstep := foldlM_ok_inv (fun (_ : Vec3) => True)
    (fun (tmp : Vec3) (k : Fin 3) =>
      (Except.ok (Function.update tmp k (tmp k + pf (fields.getD (cols k) []) * Masses.getD a 0))
        : Except Err Vec3))
    (fun (tmp : Vec3) (k : Fin 3) =>
      Function.update tmp k (tmp k + pf (fields.getD (cols k) []) * Masses.getD a 0))
    (List.finRange 3) tmp trivial (fun _ _ _ _ => ⟨rfl, trivial⟩)
  rw [hstep.1]
  exact ⟨_, rfl⟩

/-- One pass of the atom loop of `GetCfg`, with the coordinate columns below `colsTot` and the
atom inside `Masses`: the only error is the returned "number of columns don't match". -/
theorem getAtom_error (pf : Str → ℚ) (cols : Fin 3 → Nat) (colsTot : Nat) (Masses : List ℚ)
    (st : Str × Vec3 × ℚ) (a : Nat) (e : Err) (hc : ∀ k : Fin 3, cols k < colsTot)
    (ha : a < Masses.length)
    (h : lammpstrj.getAtom pf cols colsTot Masses st a = Except.error e) :
    e = Err.columnsMismatch := by
  unfold lammpstrj.getAtom at h
  simp only [] at h
  split_ifs at h with hl
  · cases h; rfl
  · push_neg at hl
    obtain ⟨res, hres⟩ := accumAtom_total pf cols Masses (Fields (ReadSlice st.1).1) a st.2.1
      st.2.2 (fun k => hl ▸ hc k) ha
    rw [hres] at h
    cases h

/-- One pass of the molecule loop of `GetCfg`, under the same conditions. -/
theorem getMol_error (pf : Str → ℚ) (cols : Fin 3 → Nat) (colsTot : Nat) (At : ℤ)
    (Masses : List ℚ) (st : Str × Frame) (mol : Nat) (e : Err)
    (hc : ∀ k : Fin 3, cols k < colsTot) (ha : At.toNat ≤ Masses.length)
    (h : lammpstrj.getMol pf cols colsTot At Masses st mol = Except.error e) :
    e = Err.columnsMismatch := by
  unfold lammpstrj.getMol at h
  have hfold := (foldlM_error_inv (fun e => e = Err.columnsMismatch)
    (fun (_ : Str × Vec3 × ℚ) => True) (lammpstrj.getAtom pf cols colsTot Masses)
    (List.range At.toNat)
    (fun b a hmem _ => ⟨fun e he => getAtom_error pf cols colsTot Masses b a e hc
      (lt_of_lt_of_le (List.mem_range.mp hmem) ha) he, fun _ _ => trivial⟩)
    (st.1, (fun _ => 0), 0) trivial).1
  split at h
  · rename_i e2 he2
    cases h
    exact hfold _ he2
  · cases h

/-- The molecule loop of `GetCfg`, under the same conditions. -/
theorem getMols_error (pf : Str → ℚ) (cols : Fin 3 → Nat) (colsTot : Nat) (At : ℤ)
    (Masses : List ℚ) (l : List Nat) (st : Str × Frame) (e : Err)
    (hc : ∀ k : Fin 3, cols k < colsTot) (ha : At.toNat ≤ Masses.length)
    (h : l.foldlM (lammpstrj.getMol pf cols colsTot At Masses) st = Except.error e) :
    e = Err.columnsMismatch :=
  (foldlM_error_inv (fun e => e = Err.columnsMismatch) (fun (_ : Str × Frame) => True)
    (lammpstrj.getMol pf cols colsTot At Masses) l
    (fun b a _ _ => ⟨fun e he => getMol_error pf cols colsTot At Masses b a e hc ha he,
      fun _ _ => trivial⟩) st trivial).1 e h

/-- The molecule loop of `Read`, under the same conditions. -/
theorem readMols_error (pf : Str → ℚ) (cols : Fin 3 → Nat) (colsTot : Nat) (At : ℤ)
    (Masses : List ℚ) (l : List Nat) (st : Str × Nat × Frame) (e : Err)
    (hc : ∀ k : Fin 3, cols k < colsTot) (ha : At.toNat ≤ Masses.length)
    (h : l.foldlM (lammpstrj.readMol pf cols colsTot At Masses) st = Except.error e) :
    e = Err.columnsMismatch := by
  have hp := readMols_proj pf cols colsTot At Masses l st
  rw [h] at hp
  exact getMols_error pf cols colsTot At Masses l _ e hc ha hp.symm

/-- The columns that the detection of `MSD.Read` leaves are positions of the header, or the
values it started from. -/
theorem detectU_cols_lt (vs : List Str) : ∀ (k0 : Nat) (st : (Fin 3 → Nat) × Nat),
    (∀ k, st.1 k < k0 + vs.length) → ∀ k, (lammpstrj.detectU vs k0 st).1 k < k0 + vs.length := by
  induction vs with
  | nil => intro k0 st h k; simpa [lammpstrj.detectU] using h k
  | cons v vs ih =>
    intro k0 st h k
    have hlen : k0 + (v :: vs).length = (k0 + 1) + vs.length := by
      simp only [List.length_cons]; omega
    rw [hlen] at h ⊢
    have hupd : ∀ i : Fin 3, ∀ j, Function.update st.1 i k0 j < k0 + 1 + vs.length := by
      intro i j
      by_cases hj : j = i
      · subst hj; rw [Function.update_same]; omega
      · rw [Function.update_noteq hj]; exact h j
    unfold lammpstrj.detectU
    split_ifs
    · exact ih _ _ (hupd 0) k
    · exact ih _ _ (hupd 1) k
    · exact ih _ _ (hupd 2) k
    · exact ih _ _ h k

/-- Started from the columns of `New`, on a header with a label, the detection leaves columns
that are positions of the header. -/
theorem detectU_new_cols_lt (vs : List Str) (cols : Fin 3 → Nat) (h0 : ∀ k, cols k = 0)
    (hpos : 0 < vs.length) (k : Fin 3) : (lammpstrj.detectU vs 0 (cols, 0)).1 k < vs.length := by
  have := detectU_cols_lt vs 0 (cols, 0) (fun k => by
    show cols k < 0 + vs.length
    rw [h0 k]; omega) k
  simpa using this

/-- One pass of the resident loop of `MSD.Read` keeps the layout sound, and the only errors
are the three returned ones. -/
theorem readResident_error (pf : Str → ℚ) (m : msd.MSD) (st : lammpstrj.ReadState) (c : Nat)
    (ha : m.At.toNat ≤ m.Masses.length) (hst : layoutOK st) :
    (∀ e, lammpstrj.readResident pf m st c = Except.error e →
      e = Err.notEnoughColumns ∨ e = Err.missingColumns ∨ e = Err.columnsMismatch) ∧
    (∀ st2, lammpstrj.readResident pf m st c = Except.ok st2 → layoutOK st2) := by
  constructor
  · intro e h
    unfold lammpstrj.readResident at h
    by_cases hnf : st.notFirst = false
    · simp only [hnf, if_true] at h
      split_ifs at h with hl hd
      · cases h; exact Or.inl rfl
      · cases h; exact Or.inr (Or.inl rfl)
      · simp only [] at h
        split at h
        · rename_i e2 he2
          cases h
          refine Or.inr (Or.inr (readMols_error pf _ _ m.At m.Masses _ _ _ ?_ ha he2))
          intro k
          have hpos : 0 < ((Fields (readLine (skipLines 8 st.r st.bTot).1
              (skipLines 8 st.r st.bTot).2).1).drop 2).length := by
            rw [List.length_drop]; omega
          exact detectU_new_cols_lt _ st.cols (hst.1 hnf) hpos k
        · cases h
    · have hnt : st.notFirst = true := by
        cases hb : st.notFirst
        · exact absurd hb hnf
        · rfl
      simp only [hnt, Bool.true_eq_false, if_false] at h
      split at h
      · rename_i e2 he2
        cases h
        exact Or.inr (Or.inr (readMols_error pf _ _ m.At m.Masses _ _ _ (hst.2 hnt) ha he2))
      · cases h
  · intro st2 h
    obtain ⟨_, b2, _, b4, b5, _⟩ := readResident_ok pf m st st2 c h
    refine ⟨fun hc => (by rw [b2] at hc; cases hc), fun _ k => ?_⟩
    by_cases hnf : st.notFirst = false
    · obtain ⟨c1, c2, _, c4⟩ := b5 hnf
      rw [c2, c4]
      have hpos : 0 < ((Fields (nthLine st.r 8)).drop 2).length := by
        rw [List.length_drop]; omega
      exact detectU_new_cols_lt _ st.cols (hst.1 hnf) hpos k
    · have hnt : st.notFirst = true := by
        cases hb : st.notFirst
        · exact absurd hb hnf
        · rfl
      obtain ⟨c1, c2⟩ := b4 hnt
      rw [c1, c2]
      exact hst.2 hnt k

/-- The loop of `MSD.Read` over the resident frames: the only errors are the three returned
ones, and the layout stays sound. -/
theorem readResidents_error (pf : Str → ℚ) (m : msd.MSD) (l : List Nat)
    (st : lammpstrj.ReadState) (ha : m.At.toNat ≤ m.Masses.length) (hst : layoutOK st) :
    (∀ e, l.foldlM (lammpstrj.readResident pf m) st = Except.error e →
      e = Err.notEnoughColumns ∨ e = Err.missingColumns ∨ e = Err.columnsMismatch) ∧
    (∀ st2, l.foldlM (lammpstrj.readResident pf m) st = Except.ok st2 → layoutOK st2) :=
  foldlM_error_inv
    (fun e => e = Err.notEnoughColumns ∨ e = Err.missingColumns ∨ e = Err.columnsMismatch)
    layoutOK (lammpstrj.readResident pf m) l
    (fun b a _ hb => readResident_error pf m b a ha hb) st hst

/-- With every atom of a molecule inside `Masses`, `MSD.Read` returns only the three errors
"not enough columns", "columns are missing" and "number of columns don't match"; when it
returns without error, there are `Mem` resident frames of `Mol` points and `Tot - Mem`
offsets, and, if a frame is resident, the coordinate columns lie below `colsTot`. -/
theorem Read_error (pf : Str → ℚ) (m : msd.MSD) (file : Str)
    (ha : m.At.toNat ≤ m.Masses.length) :
    (∀ e, lammpstrj.MSD.Read pf m lammpstrj.New file = Except.error e →
      e = Err.notEnoughColumns ∨ e = Err.missingColumns ∨ e = Err.columnsMismatch) ∧
    (∀ l, lammpstrj.MSD.Read pf m lammpstrj.New file = Except.ok l →
      l.xyz.length = m.Mem.toNat ∧ (∀ f ∈ l.xyz, f.length = m.Mol.toNat) ∧
      l.xyzB.length = (m.Tot - m.Mem).toNat ∧
      (0 < m.Mem.toNat → ∀ k, l.cols k < l.colsTot)) := by
  have h0 : ∀ r b, layoutOK
      { r := r, bTot := b, notFirst := false, cols := lammpstrj.New.cols,
        colsTot := lammpstrj.New.colsTot, xyz := lammpstrj.New.xyz } :=
    fun r b => ⟨fun _ _ => rfl, fun hc => by cases hc⟩
  constructor
  · intro e h
    unfold lammpstrj.MSD.Read lammpstrj.readWindow at h
    simp only [] at h
    split at h
    · rename_i e2 he2
      cases h
      exact (readResidents_error pf m _ _ ha (h0 _ _)).1 _ he2
    · cases h
  · intro l h
    obtain ⟨x1, x2, _, _⟩ := Read_spec pf m file l h
    refine ⟨by rw [x2]; simp, ?_, by rw [x1]; simp, ?_⟩
    · intro f hf
      rw [x2] at hf
      obtain ⟨j, _, rfl⟩ := List.mem_map.mp hf
      simp [comFrame]
    · intro hM k
      unfold lammpstrj.MSD.Read lammpstrj.readWindow at h
      simp only [] at h
      split at h
      · cases h
      · rename_i st hst
        cases h
        have hl := (readResidents_error pf m _ _ ha (h0 _ _)).2 _ hst
        obtain ⟨_, _, _, g4, _⟩ := readResidents_spec pf m _ _ st rfl hst
        exact hl.2 (g4 hM).1 k

/-- After a `Read` that left `Mem` resident frames of `Mol` points, `Tot - Mem` offsets and
coordinate columns below `colsTot`: `GetCfg c` for `c` in `[0, Tot)` returns no error other
than "number of columns don't match", and a frame of `Mol` points when it returns none. -/
theorem GetCfg_error (pf : Str → ℚ) (m : msd.MSD) (l : lammpstrj.MSD) (file : Str) (c : Nat)
    (ha : m.At.toNat ≤ m.Masses.length) (hMP : m.MemPos = m.Tot - m.Mem) (hc : (c : ℤ) < m.Tot)
    (hx : l.xyz.length = m.Mem.toNat) (hf : ∀ f ∈ l.xyz, f.length = m.Mol.toNat)
    (hB : l.xyzB.length = (m.Tot - m.Mem).toNat) (hcol : ∀ k, l.cols k < l.colsTot) :
    (∀ e, lammpstrj.MSD.GetCfg pf m l file (c : ℤ) = Except.error e → e = Err.columnsMismatch) ∧
    (∀ fr, lammpstrj.MSD.GetCfg pf m l file (c : ℤ) = Except.ok fr →
      fr.length = m.Mol.toNat) := by
  unfold lammpstrj.MSD.GetCfg
  by_cases hge : (c : ℤ) ≥ m.MemPos
  · have hi : ((c : ℤ) - m.MemPos).toNat < l.xyz.length := by omega
    rw [if_pos hge, if_neg (by omega), List.getElem?_eq_getElem hi]
    refine ⟨fun e h => (by cases h), fun fr h => ?_⟩
    cases h
    exact hf _ (List.getElem_mem hi)
  · have hi : (c : ℤ).toNat < l.xyzB.length := by omega
    rw [if_neg hge, if_neg (by omega), List.getElem?_eq_getElem hi]
    simp only []
    constructor
    · intro e h
      split at h
      · rename_i e2 he2
        cases h
        exact getMols_error pf l.cols l.colsTot m.At m.Masses _ _ _ hcol ha he2
      · cases h
    · intro fr h
      split at h
      · cases h
      · rename_i t ht
        cases h
        obtain ⟨_, g2, _⟩ := getMols_spec pf l.cols l.colsTot m.At m.Masses _ _ _ ht
        rw [g2]
        simp [comFrame]

/-- The loops of `MSD.Perform` raise no error of their own: with a window of at least one
frame, when `GetCfg` returns frames of `Mol` points, every error of `MSD.Perform` is an error
of `Read` or of `GetCfg` on a frame of the window. -/
theorem perform_error_inv {σ : Type} (meth : Method msd.MSD σ) (m0 : msd.MSD) (Q : Err → Prop)
    (hTot : 1 ≤ m0.End - m0.Start) (hMol : 0 ≤ m0.Mol)
    (hRead : ∀ e, meth.Read m0.setup = Except.error e → Q e)
    (hGet : ∀ s, meth.Read m0.setup = Except.ok s → ∀ i : Nat, (i : ℤ) < m0.End - m0.Start →
      (∀ e, meth.GetCfg s (i : ℤ) = Except.error e → Q e) ∧
      (∀ fr, meth.GetCfg s (i : ℤ) = Except.ok fr → fr.length = m0.Mol.toNat))
    (e : Err) (h : msd.MSD.Perform meth m0 = Except.error e) : Q e := by
  have hT : m0.setup.Tot = m0.End - m0.Start := rfl
  have hM : m0.setup.Mol = ((m0.Mol.toNat : ℕ) : ℤ) := (Int.toNat_of_nonneg hMol).symm
  have hR : m0.setup.Res.length = (m0.setup.Tot - 1).toNat := by
    show (List.replicate _ (0 : ℚ)).length = _
    rw [List.length_replicate]; rfl
  unfold msd.MSD.Perform at h
  rw [if_neg (by omega)] at h
  simp only [] at h
  split at h
  · rename_i e2 he2
    cases h
    exact hRead _ he2
  · rename_i s hs
    split at h
    · rename_i e2 he2
      cases h
      refine (foldlM_error_inv Q (fun res => res.length = (m0.setup.Tot - 1).toNat) _ _ ?_
        m0.setup.Res hR).1 _ he2
      intro res i hi hres
      have hi2 := List.mem_range.mp hi
      obtain ⟨gi1, gi2⟩ := hGet s hs i (by omega)
      simp only []
      cases hgi : meth.GetCfg s (i : ℤ) with
      | error e3 => exact ⟨fun e4 h4 => (by cases h4; exact gi1 _ hgi), fun _ h4 => (by cases h4)⟩
      | ok icfg =>
        simp only []
        refine foldlM_error_inv Q (fun res => res.length = (m0.setup.Tot - 1).toNat) _ _ ?_
          res hres
        intro res2 j hj hres2
        have hj2 := List.mem_range'_1.mp hj
        obtain ⟨gj1, gj2⟩ := hGet s hs j (by omega)
        simp only []
        cases hgj : meth.GetCfg s (j : ℤ) with
        | error e3 => exact ⟨fun e4 h4 => (by cases h4; exact gj1 _ hgj), fun _ h4 => (by cases h4)⟩
        | ok tcfg =>
          simp only []
          rw [hM, pairLoop_ok msd.sq m0.Mol.toNat icfg tcfg (j - i - 1) res2 (gi2 _ hgi)
            (gj2 _ hgj) (by omega)]
          refine ⟨fun e4 h4 => (by cases h4), fun b2 h4 => ?_⟩
          cases h4
          rw [length_bump]
          exact hres2
    · cases h

/-- What `Cfg.Check` has tested when it returns `nil`, for 64-bit `Start` and `End`. -/
theorem check_none_valid (c : cfg.Cfg) (hS : cfg.IsInt64 c.Start) (hE : cfg.IsInt64 c.End)
    (h : c.Check.2 = none) :
    0 ≤ c.Start ∧ c.Start < c.End ∧ 0 ≤ c.Mem ∧ c.Mem ≤ c.End - c.Start ∧ 0 < c.Mol ∧
      0 < c.At ∧ (c.Masses.length : ℤ) = c.At := by
  unfold cfg.IsInt64 at hS hE
  unfold cfg.Cfg.Check cfg.wrap64 at h
  split_ifs at h with h1 h2 h3 h4 h5 h6 h7
  refine ⟨by omega, by omega, by omega, by omega, by omega, by omega, ?_⟩
  push_neg at h6
  exact h6

/-- With at least one resident frame, a run of `MSD.Perform` on the lammpstrj frame store, for
a configuration accepted by `Cfg.Check`, raises no panic on any file: it ends with a result
or with one of the three returned errors "not enough columns", "columns are missing" and
"number of columns don't match". -/
theorem perform_returns_with_resident_frame (pf : Str → ℚ) (file : Str) (c : cfg.Cfg)
    (hS : cfg.IsInt64 c.Start) (hE : cfg.IsInt64 c.End) (hc : c.Check.2 = none)
    (hMem : 1 ≤ c.Mem) (e : Err)
    (h : msd.MSD.Perform (lammpstrj.method pf file) c.msdOf = Except.error e) :
    e = Err.notEnoughColumns ∨ e = Err.missingColumns ∨ e = Err.columnsMismatch := by
  obtain ⟨v1, v2, v3, v4, v5, v6, v7⟩ := check_none_valid c hS hE hc
  have ha : c.msdOf.setup.At.toNat ≤ c.msdOf.setup.Masses.length := by
    show c.At.toNat ≤ c.Masses.length
    omega
  have hR := Read_error pf c.msdOf.setup file ha
  refine perform_error_inv (lammpstrj.method pf file) c.msdOf
    (fun e => e = Err.notEnoughColumns ∨ e = Err.missingColumns ∨ e = Err.columnsMismatch)
    ?_ ?_ ?_ ?_ e h
  · show 1 ≤ c.End - c.Start
    omega
  · show 0 ≤ c.Mol
    omega
  · intro e2 h2
    unfold lammpstrj.method at h2
    simp only [] at h2
    split at h2
    · rename_i e3 he3
      cases h2
      exact hR.1 _ he3
    · cases h2
  · intro s hs i hi
    unfold lammpstrj.method at hs ⊢
    simp only [] at hs ⊢
    split at hs
    · cases hs
    · rename_i l hl
      cases hs
      obtain ⟨r1, r2, r3, r4⟩ := hR.2 l hl
      have hMemPos : 0 < c.msdOf.setup.Mem.toNat := by
        show 0 < c.Mem.toNat
        omega
      obtain ⟨g1, g2⟩ := GetCfg_error pf c.msdOf.setup l file i ha rfl hi r1 r2 r3 (r4 hMemPos)
      exact ⟨fun e2 h2 => Or.inr (Or.inr (g1 e2 h2)), g2⟩

/-- The window `[0, 2)` with one resident frame passes `Cfg.Check`, and on the empty file
`MSD.Perform` returns the error "not enough columns", one of the three returned errors. -/
theorem perform_returns_with_resident_frame_example :
    cfg.cfgMem1.Check.2 = none ∧
    ∃ e, msd.MSD.Perform (lammpstrj.method readDec []) cfg.cfgMem1.msdOf = Except.error e ∧
      e = Err.notEnoughColumns ∧
      (e = Err.notEnoughColumns ∨ e = Err.missingColumns ∨ e = Err.columnsMismatch) := by
  have hs : (msd.MSD.Perform (lammpstrj.method readDec []) cfg.cfgMem1.msdOf).map (fun _ => ())
      = Except.error Err.notEnoughColumns := by decide!
  have hx : msd.MSD.Perform (lammpstrj.method readDec []) cfg.cfgMem1.msdOf
      = Except.error Err.notEnoughColumns := by
    generalize msd.MSD.Perform (lammpstrj.method readDec []) cfg.cfgMem1.msdOf = X at hs
    cases X with
    | error e2 => cases hs; rfl
    | ok v => cases hs
  exact ⟨by decide, _, hx, rfl,
    perform_returns_with_resident_frame readDec [] cfg.cfgMem1 (by unfold cfg.IsInt64; decide)
      (by unfold cfg.IsInt64; decide) (by decide) (by decide) _ hx⟩

/-! ## C13 -/

/-- A finite value is a rational. -/
theorem isFinite_eq_fin (x : ieee.F64) (h : x.isFinite = true) : ∃ q : ℚ, x = ieee.F64.fin q := by
  cases x with
  | fin q => exact ⟨q, rfl⟩
  | pinf => cases h
  | ninf => cases h
  | nan => cases h

/-- On finite frames the accumulation of squares keeps the length of `Res` and its entries
finite and not negative. -/
theorem pairLoop_finite_nonneg (Mol : ℤ) (icfg tcfg : ieee.Frame) (idx : Nat)
    (res res2 : List ieee.F64) (n : Nat)
    (hi : ∀ v ∈ icfg, ∀ k, (v k).isFinite = true) (ht : ∀ v ∈ tcfg, ∀ k, (v k).isFinite = true)
    (hres : res.length = n ∧ ∀ x ∈ res, ∃ r : ℚ, x = ieee.F64.fin r ∧ 0 ≤ r)
    (h : ieee.pairLoop ieee.msd.sq Mol icfg tcfg idx res = Except.ok res2) :
    res2.length = n ∧ ∀ x ∈ res2, ∃ r : ℚ, x = ieee.F64.fin r ∧ 0 ≤ r := by
  unfold ieee.pairLoop at h
  refine foldlM_preserves
    (fun r => r.length = n ∧ ∀ x ∈ r, ∃ q : ℚ, x = ieee.F64.fin q ∧ 0 ≤ q) _ ?_ _ _ _ hres h
  intro b mol b2 hb hstep
  refine foldlM_preserves
    (fun r => r.length = n ∧ ∀ x ∈ r, ∃ q : ℚ, x = ieee.F64.fin q ∧ 0 ≤ q) _ ?_ _ _ _ hb hstep
  intro r k r2 hr hk
  split at hk
  · rename_i a c v ha hc hv
    simp only [Except.ok.injEq] at hk
    subst hk
    refine ⟨by rw [List.length_set]; exact hr.1, ?_⟩
    intro x hx
    rcases List.mem_or_eq_of_mem_set hx with h1 | h1
    · exact hr.2 x h1
    · obtain ⟨z, hz, hz0⟩ := hr.2 v (List.mem_iff_getElem?.mpr ⟨idx, hv⟩)
      obtain ⟨p, hp⟩ := isFinite_eq_fin _ (hi a (List.mem_iff_getElem?.mpr ⟨mol, ha⟩) k)
      obtain ⟨q, hq⟩ := isFinite_eq_fin _ (ht c (List.mem_iff_getElem?.mpr ⟨mol, hc⟩) k)
      refine ⟨z + (p - q) * (p - q), ?_, ?_⟩
      · rw [h1, hz, hp, hq]
        rfl
      · have : 0 ≤ (p - q) * (p - q) := mul_self_nonneg _
        linarith
  · cases hk

/-- What a successful `MSD.Perform` leaves when every frame it fetches is finite: the fields
set at its start, and a `Res` of `Tot - 1` finite sums that are not negative. -/
theorem perform_finite_nonneg {σ : Type} (meth : ieee.Method ieee.msd.MSD σ)
    (m m1 : ieee.msd.MSD)
    (hfin : ∀ s, meth.Read m.setup = Except.ok s → ∀ i : Nat, (i : ℤ) < m.End - m.Start →
      ∀ fr, meth.GetCfg s (i : ℤ) = Except.ok fr → ∀ v ∈ fr, ∀ k, (v k).isFinite = true)
    (h : ieee.msd.MSD.Perform meth m = Except.ok m1) :
    0 ≤ m.End - m.Start - 1 ∧ m1.Tot = m.End - m.Start ∧ m1.Mol = m.Mol ∧ m1.Dt = m.Dt ∧
    m1.Res.length = (m.End - m.Start - 1).toNat ∧
    ∀ x ∈ m1.Res, ∃ r : ℚ, x = ieee.F64.fin r ∧ 0 ≤ r := by
  have hT : m.setup.Tot = m.End - m.Start := rfl
  unfold ieee.msd.MSD.Perform at h
  by_cases hneg : m.End - m.Start - 1 < 0
  · rw [if_pos hneg] at h; cases h
  · rw [if_neg hneg] at h
    simp only [] at h
    cases hr : meth.Read m.setup with
    | error e => rw [hr] at h; cases h
    | ok s =>
      rw [hr] at h
      simp only [] at h
      split at h
      · cases h
      · rename_i res hres
        simp only [Except.ok.injEq] at h
        subst h
        have hP := (foldlM_error_inv (fun _ => True)
          (fun r : List ieee.F64 => r.length = (m.End - m.Start - 1).toNat ∧
            ∀ x ∈ r, ∃ q : ℚ, x = ieee.F64.fin q ∧ 0 ≤ q) _ _ ?_ _ ?_).2 _ hres
        · exact ⟨by omega, rfl, rfl, rfl, hP.1, hP.2⟩
        · intro b i hi hb
          have hi2 := List.mem_range.mp hi
          refine ⟨fun _ _ => trivial, fun b2 hstep => ?_⟩
          simp only [] at hstep
          split at hstep
          · cases hstep
          · rename_i icfg hic
            refine (foldlM_error_inv (fun _ => True)
              (fun r : List ieee.F64 => r.length = (m.End - m.Start - 1).toNat ∧
                ∀ x ∈ r, ∃ q : ℚ, x = ieee.F64.fin q ∧ 0 ≤ q) _ _ ?_ _ hb).2 _ hstep
            intro r j hj hr2
            have hj2 := List.mem_range'_1.mp hj
            refine ⟨fun _ _ => trivial, fun r2 hjs => ?_⟩
            simp only [] at hjs
            split at hjs
            · cases hjs
            · rename_i tcfg htc
              exact pairLoop_finite_nonneg _ _ _ _ _ _ _
                (hfin s hr i (by omega) icfg hic) (hfin s hr j (by omega) tcfg htc) hr2 hjs
        · refine ⟨by simp [ieee.msd.MSD.setup], ?_⟩
          intro x hx
          simp only [ieee.msd.MSD.setup, List.mem_replicate] at hx
          exact ⟨0, hx.2, le_refl 0⟩

/-- The loop of `MSD.Write`, run for its first `n` lags. -/
theorem write_loop64 (Tot Mol : Int) (Dt : ieee.F64) (res : List ieee.F64) (n : Nat)
    (hn : n ≤ res.length) :
    (List.range n).foldlM (fun (st : List ieee.F64 × List (ieee.F64 × ieee.F64)) (i : Nat) =>
      match st.1[i]? with
      | none => Except.error Err.panicIndex
      | some r =>
        let v := r.div (ieee.F64.ofInt ((Tot - 1 - (i : Int)) * Mol * 3))
        Except.ok (st.1.set i v, st.2 ++ [((ieee.F64.ofInt ((i : Int) + 1)).mul Dt, v)]))
      (res, [])
    = Except.ok
        (res.mapIdx (fun d r =>
          if d < n then r.div (ieee.F64.ofInt ((Tot - 1 - (d : Int)) * Mol * 3)) else r),
         (List.range n).map (fun (i : Nat) =>
            ((ieee.F64.ofInt ((i : Int) + 1)).mul Dt,
              (res.getD i (ieee.F64.fin 0)).div
                (ieee.F64.ofInt ((Tot - 1 - (i : Int)) * Mol * 3))))) := by
  induction n with
  | zero =>
    have h0 : res.mapIdx (fun (d : Nat) (r : ieee.F64) =>
        if d < 0 then r.div (ieee.F64.ofInt ((Tot - 1 - (d : Int)) * Mol * 3)) else r) = res := by
      apply List.ext_getElem?
      intro d
      simp
    simp only [List.range_zero, List.foldlM_nil, List.map_nil, h0]
    rfl
  | succ n ih =>
    have hlt : n < res.length := by omega
    rw [List.range_succ, List.foldlM_append, ih (by omega)]
    simp only [List.foldlM_cons, List.foldlM_nil, bind, Except.bind]
    have hget : (res.mapIdx (fun (d : Nat) (r : ieee.F64) =>
        if d < n then r.div (ieee.F64.ofInt ((Tot - 1 - (d : Int)) * Mol * 3)) else r))[n]?
        = some res[n] := by
      simp [List.getElem?_eq_getElem hlt]
    rw [hget]
    simp only [pure, Except.pure, List.map_append, List.map_cons, List.map_nil]
    congr 2
    · apply List.ext_getElem?
      intro d
      by_cases hd : d < res.length
      · by_cases hdn : n = d
        · subst hdn
          simp [List.getElem?_set, List.getElem?_eq_getElem hd, hd]
        · have h1 : (d < n + 1) = (d < n) := by
            apply propext; constructor <;> intro h2 <;> omega
          simp [List.getElem?_set, hdn, List.getElem?_eq_getElem hd, h1]
      · have h1 : ¬ n = d := by omega
        simp [List.getElem?_set, h1, List.getElem?_eq_none (Nat.le_of_not_lt hd)]
    · simp [List.getD_eq_getElem?_getD, List.getElem?_eq_getElem hlt]

/-- With a `Res` of at least `Tot - 1` entries `MSD.Write` returns: every entry below `Tot - 1`
is divided by its count, and one line is printed per lag. -/
theorem write_eq64 (m : ieee.msd.MSD) (h : (m.Tot - 1).toNat ≤ m.Res.length) :
    ieee.msd.MSD.Write true m = Except.ok
      ({ m with Res := m.Res.mapIdx (fun d r =>
            if d < (m.Tot - 1).toNat then
              r.div (ieee.F64.ofInt ((m.Tot - 1 - (d : Int)) * m.Mol * 3)) else r) },
        (List.range (m.Tot - 1).toNat).map (fun (i : Nat) =>
            ((ieee.F64.ofInt ((i : Int) + 1)).mul m.Dt,
              (m.Res.getD i (ieee.F64.fin 0)).div
                (ieee.F64.ofInt ((m.Tot - 1 - (i : Int)) * m.Mol * 3))))) := by
  unfold ieee.msd.MSD.Write
  simp only [Bool.true_eq_false, if_false]
  rw [write_loop64 m.Tot m.Mol m.Dt m.Res _ h]

/-- A finite value divided by a non-zero converted integer is the finite quotient. -/
theorem div_fin_ofInt (z : ℚ) (n : ℤ) (hn : n ≠ 0) :
    (ieee.F64.fin z).div (ieee.F64.ofInt n) = ieee.F64.fin (z / (n : ℚ)) := by
  have hq : ((n : ℤ) : ℚ) ≠ 0 := by exact_mod_cast hn
  unfold ieee.F64.ofInt ieee.F64.div
  simp only [if_neg hq]

/-- When `MSD.Perform` and then `MSD.Write` succeed on a window of `Tot ≥ 2` frames with
`Mol > 0`, for a frame source whose frames of the window are finite: `Res` has `Tot - 1` entries
and `Write` prints `Tot - 1` lines; line `d` is the pair `((d + 1) * Dt, Res[d])`, its divisor
`(Tot - 1 - d) * Mol * 3` is positive, and `Res[d]` is finite and not negative. -/
theorem msd_finite_frames_nonneg {σ : Type} (meth : ieee.Method ieee.msd.MSD σ)
    (m m1 m2 : ieee.msd.MSD) (out : List (ieee.F64 × ieee.F64)) (h2 : 2 ≤ m.End - m.Start)
    (hMol : 0 < m.Mol)
    (hfin : ∀ s, meth.Read m.setup = Except.ok s → ∀ i : Nat, (i : ℤ) < m.End - m.Start →
      ∀ fr, meth.GetCfg s (i : ℤ) = Except.ok fr → ∀ v ∈ fr, ∀ k, (v k).isFinite = true)
    (hP : ieee.msd.MSD.Perform meth m = Except.ok m1)
    (hW : ieee.msd.MSD.Write true m1 = Except.ok (m2, out)) :
    m2.Res.length = (m.End - m.Start - 1).toNat ∧
    out.length = (m.End - m.Start - 1).toNat ∧
    ∀ d : Nat, d < (m.End - m.Start - 1).toNat →
      0 < (m.End - m.Start - 1 - (d : ℤ)) * m.Mol * 3 ∧
      ∃ r : ℚ, m2.Res[d]? = some (ieee.F64.fin r) ∧ 0 ≤ r ∧
        out[d]? = some ((ieee.F64.ofInt ((d : ℤ) + 1)).mul m.Dt, ieee.F64.fin r) := by
  obtain ⟨p0, p1, p2, p3, p4, p5⟩ := perform_finite_nonneg meth m m1 hfin hP
  have hle : (m1.Tot - 1).toNat ≤ m1.Res.length := by rw [p1, p4]
  rw [write_eq64 m1 hle] at hW
  simp only [Except.ok.injEq, Prod.mk.injEq] at hW
  obtain ⟨w1, w2⟩ := hW
  subst w1 w2
  rw [p1]
  refine ⟨by simp [p4], by simp, ?_⟩
  intro d hd
  have hdl : d < m1.Res.length := by rw [p4]; exact hd
  have hpos : 0 < (m.End - m.Start - 1 - (d : ℤ)) * m.Mol * 3 := by
    have : 0 < m.End - m.Start - 1 - (d : ℤ) := by omega
    positivity
  obtain ⟨z, hz, hz0⟩ := p5 _ (List.getElem_mem hdl)
  refine ⟨hpos, z / (((m.End - m.Start - 1 - (d : ℤ)) * m.Mol * 3 : ℤ) : ℚ), ?_, ?_, ?_⟩
  · simp only [List.getElem?_mapIdx, List.getElem?_eq_getElem hdl, Option.map_some',
      if_pos hd, p2]
    rw [hz, div_fin_ofInt z _ (ne_of_gt hpos)]
  · apply div_nonneg hz0
    exact_mod_cast le_of_lt hpos
  · rw [List.getElem?_map, List.getElem?_range hd]
    simp only [Option.map_some', List.getD_eq_getElem?_getD, List.getElem?_eq_getElem hdl,
      Option.getD_some, p2, p3]
    rw [hz, div_fin_ofInt z _ (ne_of_gt hpos)]

/-- The reader after a line is a suffix of the reader before it. -/
theorem ReadSlice_suffix (r : Str) : List.IsSuffix (ReadSlice r).2 r :=
  ⟨(ReadSlice r).1, ReadSlice_append r⟩

/-- The reader after `n` lines is a suffix of the reader before them. -/
theorem dropLines_suffix (n : Nat) (r : Str) : List.IsSuffix (dropLines n r) r :=
  ⟨linesPrefix r n, linesPrefix_append_dropLines r n⟩

/-- The accumulation of one atom with finite masses, on a record whose tokens parse to finite
values: the sums stay finite, and the mass of the atom is added to `mTot`. -/
theorem accumAtom_finite (pf : Str → ieee.F64) (cols : Fin 3 → Nat) (masses : List ℚ)
    (fields : List Str) (a : Nat) (tmp : ieee.Vec3) (mTot : ieee.F64)
    (res : ieee.Vec3 × ieee.F64) (hf : ∀ s ∈ fields, (pf s).isFinite = true)
    (ht : ∀ k, (tmp k).isFinite = true)
    (h : ieee.accumAtom pf cols (masses.map ieee.F64.fin) fields a tmp mTot = Except.ok res) :
    (∀ k, (res.1 k).isFinite = true) ∧ res.2 = mTot.add (ieee.F64.fin (masses.getD a 0)) := by
  have hma : ∀ ma, (masses.map ieee.F64.fin)[a]? = some ma →
      ma = ieee.F64.fin (masses.getD a 0) := by
    intro ma hma
    rw [List.getElem?_map] at hma
    cases hq : masses[a]? with
    | none => rw [hq] at hma; cases hma
    | some q =>
      rw [hq] at hma
      simp only [Option.map_some', Option.some.injEq] at hma
      rw [← hma, List.getD_eq_getElem?_getD, hq]
      rfl
  unfold ieee.accumAtom at h
  split at h
  · cases h
  · rename_i tmp2 htmp2
    split at h
    · rename_i ma hm
      simp only [Except.ok.injEq] at h
      subst h
      refine ⟨?_, by rw [hma ma hm]⟩
      refine foldlM_preserves (fun (t : ieee.Vec3) => ∀ k, (t k).isFinite = true) _ ?_ _ _ _
        ht htmp2
      intro t k t2 hsub hk
      split at hk
      · rename_i f mb hfk hmb
        simp only [Except.ok.injEq] at hk
        subst hk
        intro j
        by_cases hj : j = k
        · subst hj
          rw [Function.update_same]
          obtain ⟨x, hx⟩ := isFinite_eq_fin _ (hsub j)
          obtain ⟨y, hy⟩ := isFinite_eq_fin _ (hf f (List.mem_iff_getElem?.mpr ⟨_, hfk⟩))
          rw [hx, hy, hma mb hmb]
          rfl
        · rw [Function.update_noteq hj]
          exact hsub j
      · cases hk
    · cases h

/-- One pass of the atom loop of `GetCfg` on a file whose tokens parse to finite values, with
finite masses: the reader stays in the file, the sums stay finite, and the mass of the atom is
added to `mTot`. -/
theorem getAtom_finite (pf : Str → ieee.F64) (file : Str) (cols : Fin 3 → Nat) (colsTot : Nat)
    (masses : List ℚ) (st st2 : Str × ieee.Vec3 × ieee.F64) (a : Nat)
    (hpf : parsesFinite pf file) (hs : List.IsSuffix st.1 file)
    (ht : ∀ k, (st.2.1 k).isFinite = true)
    (h : ieee.lammpstrj.getAtom pf cols colsTot (masses.map ieee.F64.fin) st a = Except.ok st2) :
    List.IsSuffix st2.1 file ∧ (∀ k, (st2.2.1 k).isFinite = true) ∧
      st2.2.2 = st.2.2.add (ieee.F64.fin (masses.getD a 0)) := by
  unfold ieee.lammpstrj.getAtom at h
  simp only [] at h
  split_ifs at h with hl
  split at h
  · cases h
  · rename_i t hacc
    simp only [Except.ok.injEq] at h
    subst h
    obtain ⟨g1, g2⟩ := accumAtom_finite pf cols masses _ a _ _ t (hpf st.1 hs) ht hacc
    exact ⟨List.IsSuffix.trans (ReadSlice_suffix st.1) hs, g1, g2⟩

/-- The atom loop of `GetCfg` over the first `n` atoms of a molecule: the reader stays in the
file, the sums stay finite and `mTot` grows by the sum of the `n` masses. -/
theorem getAtoms_finite (pf : Str → ieee.F64) (file : Str) (cols : Fin 3 → Nat) (colsTot : Nat)
    (masses : List ℚ) (st : Str × ieee.Vec3 × ieee.F64) (S0 : ℚ) (hpf : parsesFinite pf file)
    (hs : List.IsSuffix st.1 file) (ht : ∀ k, (st.2.1 k).isFinite = true)
    (hm : st.2.2 = ieee.F64.fin S0) :
    ∀ (n : Nat) (st2 : Str × ieee.Vec3 × ieee.F64),
      (List.range n).foldlM (ieee.lammpstrj.getAtom pf cols colsTot (masses.map ieee.F64.fin)) st
        = Except.ok st2 →
      List.IsSuffix st2.1 file ∧ (∀ k, (st2.2.1 k).isFinite = true) ∧
        st2.2.2 = ieee.F64.fin (S0 + ∑ a in Finset.range n, masses.getD a 0) := by
  intro n
  induction n with
  | zero =>
    intro st2 h
    simp only [List.range_zero, List.foldlM_nil, pure, Except.pure, Except.ok.injEq] at h
    subst h
    exact ⟨hs, ht, by simp [hm]⟩
  | succ n ih =>
    intro st2 h
    obtain ⟨mid, h1, h2⟩ := (foldlM_range_succ_ok _ n st st2).mp h
    obtain ⟨i1, i2, i3⟩ := ih mid h1
    obtain ⟨g1, g2, g3⟩ := getAtom_finite pf file cols colsTot masses mid st2 n hpf i1 i2 h2
    refine ⟨g1, g2, ?_⟩
    rw [g3, i3, Finset.sum_range_succ, ← add_assoc]
    rfl

/-- One pass of the molecule loop of `GetCfg`, with finite masses of non-zero sum on a file
whose tokens parse to finite values: the reader stays in the file and the frame stays
finite. -/
theorem getMol_finite (pf : Str → ieee.F64) (file : Str) (cols : Fin 3 → Nat) (colsTot : Nat)
    (At : ℤ) (masses : List ℚ) (st st2 : Str × ieee.Frame) (mol : Nat)
    (hpf : parsesFinite pf file) (hsum : ∑ a in Finset.range At.toNat, masses.getD a 0 ≠ 0)
    (hs : List.IsSuffix st.1 file ∧ ∀ v ∈ st.2, ∀ k, (v k).isFinite = true)
    (h : ieee.lammpstrj.getMol pf cols colsTot At (masses.map ieee.F64.fin) st mol
      = Except.ok st2) :
    List.IsSuffix st2.1 file ∧ ∀ v ∈ st2.2, ∀ k, (v k).isFinite = true := by
  unfold ieee.lammpstrj.getMol at h
  split at h
  · cases h
  · rename_i t ht
    simp only [Except.ok.injEq] at h
    subst h
    obtain ⟨g1, g2, g3⟩ := getAtoms_finite pf file cols colsTot masses
      (st.1, (fun _ => ieee.F64.fin 0), ieee.F64.fin 0) 0 hpf hs.1 (fun _ => rfl) rfl _ t ht
    refine ⟨g1, ?_⟩
    intro v hv k
    rcases List.mem_append.mp hv with h1 | h1
    · exact hs.2 v h1 k
    · simp only [List.mem_singleton] at h1
      subst h1
      obtain ⟨x, hx⟩ := isFinite_eq_fin _ (g2 k)
      simp only [hx, g3, zero_add]
      unfold ieee.F64.div
      simp only [if_neg hsum]
      rfl

/-- The molecule loop of `GetCfg`, under the same conditions. -/
theorem getMols_finite (pf : Str → ieee.F64) (file : Str) (cols : Fin 3 → Nat) (colsTot : Nat)
    (At : ℤ) (masses : List ℚ) (l : List Nat) (st st2 : Str × ieee.Frame)
    (hpf : parsesFinite pf file) (hsum : ∑ a in Finset.range At.toNat, masses.getD a 0 ≠ 0)
    (hs : List.IsSuffix st.1 file ∧ ∀ v ∈ st.2, ∀ k, (v k).isFinite = true)
    (h : l.foldlM (ieee.lammpstrj.getMol pf cols colsTot At (masses.map ieee.F64.fin)) st
      = Except.ok st2) :
    List.IsSuffix st2.1 file ∧ ∀ v ∈ st2.2, ∀ k, (v k).isFinite = true :=
  foldlM_preserves
    (fun (s : Str × ieee.Frame) => List.IsSuffix s.1 file ∧ ∀ v ∈ s.2, ∀ k, (v k).isFinite = true)
    _ (fun b a b2 hb hstep => getMol_finite pf file cols colsTot At masses b b2 a hpf hsum hb hstep)
    l st st2 hs h

/-- The atom pass of `MSD.Read` is the atom pass of `MSD.GetCfg` with `bTot` carried along. -/
theorem readAtom_getAtom (pf : Str → ieee.F64) (cols : Fin 3 → Nat) (colsTot : Nat)
    (Masses : List ieee.F64) (st : Str × Nat × ieee.Vec3 × ieee.F64) (a : Nat) :
    (ieee.lammpstrj.readAtom pf cols colsTot Masses st a).map (fun t => (t.1, t.2.2.1, t.2.2.2))
      = ieee.lammpstrj.getAtom pf cols colsTot Masses (st.1, st.2.2.1, st.2.2.2) a := by
  unfold ieee.lammpstrj.readAtom ieee.lammpstrj.getAtom readLine
  by_cases hl : (Fields (ReadSlice st.1).1).length = colsTot
  · simp only [hl, ne_eq, not_true_eq_false, if_false]
    cases ieee.accumAtom pf cols Masses (Fields (ReadSlice st.1).1) a st.2.2.1 st.2.2.2 <;> rfl
  · simp only [hl, ne_eq, not_false_eq_true, if_true]
    rfl

/-- The molecule loop of `MSD.Read` is the molecule loop of `MSD.GetCfg`, `bTot` apart. -/
theorem readMols_getMols (pf : Str → ieee.F64) (cols : Fin 3 → Nat) (colsTot : Nat) (At : ℤ)
    (Masses : List ieee.F64) (l : List Nat) (st : Str × Nat × ieee.Frame) :
    (l.foldlM (ieee.lammpstrj.readMol pf cols colsTot At Masses) st).map (fun t => (t.1, t.2.2))
      = l.foldlM (ieee.lammpstrj.getMol pf cols colsTot At Masses) (st.1, st.2.2) := by
  apply foldlM_map_proj (fun t : Str × Nat × ieee.Frame => (t.1, t.2.2))
  intro s mo
  unfold ieee.lammpstrj.readMol ieee.lammpstrj.getMol
  have h := foldlM_map_proj (fun t : Str × Nat × ieee.Vec3 × ieee.F64 => (t.1, t.2.2.1, t.2.2.2))
    (ieee.lammpstrj.getAtom pf cols colsTot Masses) (ieee.lammpstrj.readAtom pf cols colsTot Masses)
    (readAtom_getAtom pf cols colsTot Masses) (List.range At.toNat)
    (s.1, s.2.1, (fun _ => ieee.F64.fin 0), ieee.F64.fin 0)
  simp only [] at h
  rw [← h]
  cases (List.range At.toNat).foldlM (ieee.lammpstrj.readAtom pf cols colsTot Masses)
    (s.1, s.2.1, (fun _ => ieee.F64.fin 0), ieee.F64.fin 0) <;> rfl

/-- One pass of the resident loop of `MSD.Read`, with finite masses of non-zero sum on a file
whose tokens parse to finite values: the reader stays in the file and the resident frames stay
finite. -/
theorem readResident_finite (pf : Str → ieee.F64) (file : Str) (m : ieee.msd.MSD)
    (masses : List ℚ) (st st2 : ieee.lammpstrj.ReadState) (c : Nat)
    (hM : m.Masses = masses.map ieee.F64.fin) (hpf : parsesFinite pf file)
    (hsum : ∑ a in Finset.range m.At.toNat, masses.getD a 0 ≠ 0)
    (hs : List.IsSuffix st.r file ∧ ∀ f ∈ st.xyz, ∀ v ∈ f, ∀ k, (v k).isFinite = true)
    (h : ieee.lammpstrj.readResident pf m st c = Except.ok st2) :
    List.IsSuffix st2.r file ∧ ∀ f ∈ st2.xyz, ∀ v ∈ f, ∀ k, (v k).isFinite = true := by
  have h9 : List.IsSuffix (readLine (skipLines 8 st.r st.bTot).1
      (skipLines 8 st.r st.bTot).2).2.2 file := by
    simp only [skipLines_eq, readLine]
    exact List.IsSuffix.trans (ReadSlice_suffix _)
      (List.IsSuffix.trans (dropLines_suffix 8 st.r) hs.1)
  have core : ∀ (r9 : Str) (b : Nat) (cols : Fin 3 → Nat) (colsTot : Nat),
      List.IsSuffix r9 file →
      (match (List.range m.Mol.toNat).foldlM (ieee.lammpstrj.readMol pf cols colsTot m.At m.Masses)
          (r9, b, []) with
        | Except.error e => Except.error e
        | Except.ok t =>
          Except.ok ({ r := t.1, bTot := t.2.1, notFirst := true, cols := cols,
                       colsTot := colsTot, xyz := st.xyz ++ [t.2.2] } : ieee.lammpstrj.ReadState))
        = Except.ok st2 →
      List.IsSuffix st2.r file ∧ ∀ f ∈ st2.xyz, ∀ v ∈ f, ∀ k, (v k).isFinite = true := by
    intro r9 b cols colsTot hr9 hc
    have hp := readMols_getMols pf cols colsTot m.At m.Masses (List.range m.Mol.toNat)
      (r9, b, [])
    split at hc
    · cases hc
    · rename_i t ht
      simp only [Except.ok.injEq] at hc
      subst hc
      rw [ht, hM] at hp
      have hp2 : (List.range m.Mol.toNat).foldlM
          (ieee.lammpstrj.getMol pf cols colsTot m.At (masses.map ieee.F64.fin)) (r9, [])
          = Except.ok (t.1, t.2.2) := hp.symm
      obtain ⟨g1, g2⟩ := getMols_finite pf file cols colsTot m.At masses
        (List.range m.Mol.toNat) (r9, []) (t.1, t.2.2) hpf hsum
        ⟨hr9, fun v hv => by cases hv⟩ hp2
      refine ⟨g1, ?_⟩
      intro f hf
      rcases List.mem_append.mp hf with h1 | h1
      · exact hs.2 f h1
      · simp only [List.mem_singleton] at h1
        subst h1
        exact g2
  unfold ieee.lammpstrj.readResident at h
  by_cases hnf : st.notFirst = false
  · simp only [hnf, if_true] at h
    by_cases hl : (Fields (readLine (skipLines 8 st.r st.bTot).1
        (skipLines 8 st.r st.bTot).2).1).length ≤ 2
    · simp only [if_pos hl] at h; cases h
    · simp only [if_neg hl] at h
      by_cases hd : (lammpstrj.detectU ((Fields (readLine (skipLines 8 st.r st.bTot).1
          (skipLines 8 st.r st.bTot).2).1).drop 2) 0 (st.cols, 0)).2 < 3
      · simp only [if_pos hd] at h; cases h
      · simp only [if_neg hd] at h
        exact core _ _ _ _ h9 h
  · have hnt : st.notFirst = true := by
      cases hb : st.notFirst
      · exact absurd hb hnf
      · rfl
    simp only [hnt, Bool.true_eq_false, if_false] at h
    exact core _ _ _ _ h9 h

/-- With finite masses of non-zero sum, on a file whose tokens parse to finite values, the
resident frames that `MSD.Read` leaves are finite. -/
theorem Read_finite (pf : Str → ieee.F64) (file : Str) (m : ieee.msd.MSD) (masses : List ℚ)
    (l : ieee.lammpstrj.MSD) (hM : m.Masses = masses.map ieee.F64.fin)
    (hpf : parsesFinite pf file)
    (hsum : ∑ a in Finset.range m.At.toNat, masses.getD a 0 ≠ 0)
    (h : ieee.lammpstrj.MSD.Read pf m ieee.lammpstrj.New file = Except.ok l) :
    ∀ f ∈ l.xyz, ∀ v ∈ f, ∀ k, (v k).isFinite = true := by
  unfold ieee.lammpstrj.MSD.Read ieee.lammpstrj.readWindow at h
  simp only [skipLines_eq, readOffsets_spec] at h
  split at h
  · cases h
  · rename_i st hst
    simp only [Except.ok.injEq] at h
    subst h
    refine (foldlM_preserves
      (fun (s : ieee.lammpstrj.ReadState) =>
        List.IsSuffix s.r file ∧ ∀ f ∈ s.xyz, ∀ v ∈ f, ∀ k, (v k).isFinite = true) _
      (fun b a b2 hb hstep => readResident_finite pf file m masses b b2 a hM hpf hsum hb hstep)
      _ _ _ ?_ hst).2
    exact ⟨List.IsSuffix.trans (dropLines_suffix _ _) (dropLines_suffix _ _),
      fun f hf => by cases hf⟩

/-- With finite masses of non-zero sum, on a file whose tokens parse to finite values, after
a `Read` that succeeded every frame that `GetCfg` returns is finite. -/
theorem GetCfg_finite (pf : Str → ieee.F64) (file : Str) (m : ieee.msd.MSD) (masses : List ℚ)
    (l : ieee.lammpstrj.MSD) (c : ℤ) (fr : ieee.Frame) (hM : m.Masses = masses.map ieee.F64.fin)
    (hpf : parsesFinite pf file)
    (hsum : ∑ a in Finset.range m.At.toNat, masses.getD a 0 ≠ 0)
    (hx : ∀ f ∈ l.xyz, ∀ v ∈ f, ∀ k, (v k).isFinite = true)
    (h : ieee.lammpstrj.MSD.GetCfg pf m l file c = Except.ok fr) :
    ∀ v ∈ fr, ∀ k, (v k).isFinite = true := by
  unfold ieee.lammpstrj.MSD.GetCfg at h
  by_cases hge : c ≥ m.MemPos
  · rw [if_pos hge] at h
    by_cases hlt : c - m.MemPos < 0
    · rw [if_pos hlt] at h; cases h
    · rw [if_neg hlt] at h
      split at h
      · rename_i f hf
        simp only [Except.ok.injEq] at h
        subst h
        exact hx f (List.mem_iff_getElem?.mpr ⟨_, hf⟩)
      · cases h
  · rw [if_neg hge] at h
    by_cases hlt : c < 0
    · rw [if_pos hlt] at h; cases h
    · rw [if_neg hlt] at h
      split at h
      · cases h
      · rename_i off hoff
        split at h
        · cases h
        · rename_i t ht
          simp only [Except.ok.injEq] at h
          subst h
          rw [hM] at ht
          exact (getMols_finite pf file l.cols l.colsTot m.At masses _ (List.drop off file, [])
            t hpf hsum ⟨List.drop_suffix _ _, fun v hv => by cases hv⟩ ht).2

/-- C13 (counterexample): a configuration accepted by `Cfg.Check` and a well-formed trajectory
on which `MSD.Perform` and `MSD.Write` succeed and the entry printed for lag 1 is NaN, which is
not `>= 0`. With `Masses = [0]` on `trajU` both `GetCfg 0` (re-read from the file) and
`GetCfg 1` (resident) return the centre of mass `0 / 0`, that is (NaN, NaN, NaN); with
`Masses = [1]` on `trajNaN` the coordinate `NaN` of the second record is parsed to NaN. -/
theorem msd_result_nan_counterexample :
    cfg.cfgZeroMass.Check.2 = none ∧
    ((ieee.lammpstrj.method ieee.parse trajU).Read (ieee.msdOf cfg.cfgZeroMass).setup).map
        (fun s => (((ieee.lammpstrj.method ieee.parse trajU).GetCfg s 0).map ieee.triples,
          ((ieee.lammpstrj.method ieee.parse trajU).GetCfg s 1).map ieee.triples))
      = Except.ok (Except.ok [(ieee.F64.nan, ieee.F64.nan, ieee.F64.nan)],
          Except.ok [(ieee.F64.nan, ieee.F64.nan, ieee.F64.nan)]) ∧
    ieee.runMSD (ieee.lammpstrj.method ieee.parse trajU) (ieee.msdOf cfg.cfgZeroMass)
      = Except.ok [(ieee.F64.fin 1, ieee.F64.nan)] ∧
    cfg.cfgMem1.Check.2 = none ∧
    ieee.runMSD (ieee.lammpstrj.method ieee.parse trajNaN) (ieee.msdOf cfg.cfgMem1)
      = Except.ok [(ieee.F64.fin 1, ieee.F64.nan)] ∧
    ieee.F64.geZero ieee.F64.nan = false := by
  refine ⟨by decide, by decide!, by decide!, by decide, by decide!, rfl⟩

/-- C13: for a configuration accepted by `Cfg.Check` (`Start` and `End` 64-bit values) whose
masses are finite and have a non-zero sum over the atoms of a molecule, and a trajectory file
none of whose tokens is parsed to NaN or to an infinity: when `MSD.Perform` on the lammpstrj
frame store and then `MSD.Write` succeed, `Res` has `Tot - 1` entries and `Write` prints
`Tot - 1` lines; line `d` is the pair `((d + 1) * Dt, Res[d])` (the first line is for lag
`1 * Dt`, lag 0 is not computed), its divisor `(Tot - 1 - d) * Mol * 3` is positive, and
`Res[d]` is a finite value that is not negative. -/
theorem msd_result_lags_nonneg_finite (pf : Str → ieee.F64) (file : Str) (c : cfg.Cfg)
    (m1 m2 : ieee.msd.MSD) (out : List (ieee.F64 × ieee.F64))
    (hS : cfg.IsInt64 c.Start) (hE : cfg.IsInt64 c.End) (hc : c.Check.2 = none)
    (hpf : parsesFinite pf file)
    (hsum : ∑ a in Finset.range c.At.toNat, c.Masses.getD a 0 ≠ 0)
    (hP : ieee.msd.MSD.Perform (ieee.lammpstrj.method pf file) (ieee.msdOf c) = Except.ok m1)
    (hW : ieee.msd.MSD.Write true m1 = Except.ok (m2, out)) :
    m2.Res.length = (c.End - c.Start - 1).toNat ∧
    out.length = (c.End - c.Start - 1).toNat ∧
    ∀ d : Nat, d < (c.End - c.Start - 1).toNat →
      0 < (c.End - c.Start - 1 - (d : ℤ)) * c.Mol * 3 ∧
      ∃ r : ℚ, m2.Res[d]? = some (ieee.F64.fin r) ∧ 0 ≤ r ∧
        (ieee.F64.fin r).geZero = true ∧
        out[d]? = some ((ieee.F64.ofInt ((d : ℤ) + 1)).mul (ieee.F64.fin c.Dt),
          ieee.F64.fin r) := by
  obtain ⟨v1, v2, v3, v4, v5, v6, v7⟩ := check_none_valid c hS hE hc
  have hne1 : c.End - c.Start ≠ 1 := by
    unfold cfg.IsInt64 at hS hE
    unfold cfg.Cfg.Check cfg.wrap64 at hc
    split_ifs at hc with h1 h2 h3
    omega
  have hfin : ∀ s, (ieee.lammpstrj.method pf file).Read (ieee.msdOf c).setup = Except.ok s →
      ∀ i : Nat, (i : ℤ) < (ieee.msdOf c).End - (ieee.msdOf c).Start →
      ∀ fr, (ieee.lammpstrj.method pf file).GetCfg s (i : ℤ) = Except.ok fr →
      ∀ v ∈ fr, ∀ k, (v k).isFinite = true := by
    intro s hs i _ fr hfr
    unfold ieee.lammpstrj.method at hs hfr
    simp only [] at hs hfr
    split at hs
    · cases hs
    · rename_i l hl
      simp only [Except.ok.injEq] at hs
      subst hs
      exact GetCfg_finite pf file (ieee.msdOf c).setup c.Masses l i fr rfl hpf hsum
        (Read_finite pf file (ieee.msdOf c).setup c.Masses l rfl hpf hsum hl) hfr
  obtain ⟨t1, t2, t3⟩ := msd_finite_frames_nonneg (ieee.lammpstrj.method pf file) (ieee.msdOf c)
    m1 m2 out (show 2 ≤ c.End - c.Start by omega) v5 hfin hP hW
  refine ⟨t1, t2, fun d hd => ?_⟩
  obtain ⟨a1, r, a2, a3, a4⟩ := t3 d hd
  exact ⟨a1, r, a2, a3, by simp [ieee.F64.geZero, a3], a4⟩

/-- Witness for C13: the window `[0, 2)` with one resident frame and one molecule of one atom
of mass 1, on the two frames of `trajU` read as plain decimals: one lag, whose result is finite
and not negative. -/
theorem msd_result_lags_nonneg_finite_witness :
    ∃ m1 m2 out,
      ieee.msd.MSD.Perform (ieee.lammpstrj.method parseDec trajU) (ieee.msdOf cfg.cfgMem1)
        = Except.ok m1 ∧
      ieee.msd.MSD.Write true m1 = Except.ok (m2, out) ∧ m2.Res.length = 1 ∧ out.length = 1 ∧
      ∃ r : ℚ, m2.Res[0]? = some (ieee.F64.fin r) ∧ 0 ≤ r ∧
        out[0]? = some (ieee.F64.fin 1, ieee.F64.fin r) := by
  have hr : isOk (ieee.runMSD (ieee.lammpstrj.method parseDec trajU) (ieee.msdOf cfg.cfgMem1))
      = true := by decide!
  unfold ieee.runMSD at hr
  split at hr
  · cases hr
  · rename_i m1 hP
    split at hr
    · cases hr
    · rename_i w hW
      have T := msd_result_lags_nonneg_finite parseDec trajU cfg.cfgMem1 m1 w.1 w.2
        (by unfold cfg.IsInt64; decide) (by unfold cfg.IsInt64; decide) (by decide)
        (fun _ _ _ _ => rfl) (by simp [cfg.cfgMem1, cfg.cfgMem0]) hP hW
      refine ⟨m1, w.1, w.2, hP, hW, T.1, T.2.1, ?_⟩
      obtain ⟨_, r, a, b, _, d⟩ := T.2.2 0 (by decide)
      have e : (ieee.F64.ofInt (((0 : ℕ) : ℤ) + 1)).mul (ieee.F64.fin cfg.cfgMem1.Dt)
          = ieee.F64.fin 1 := by decide!
      rw [e] at d
      exact ⟨r, a, b, d⟩

end SelfDiff
